import Mathlib

/-!
LevelDB write path: log writer, coding helpers and MemTable.

A shallow embedding of `db/log_writer.cc`, `db/log_format.h`, `util/coding.cc`,
`include/leveldb/slice.h` and `db/memtable.cc`.

Conventions of the embedding.

* A byte is a natural number below 256 and a byte string is a `List Nat`.
* A `const char*` into a buffer is the list of bytes from the pointer to the end
  of the buffer, so `Slice(ptr, n)` is `ptr.take n` and `ptr += n` is `ptr.drop n`.
* Machine integers are naturals reduced modulo `2^32` or `2^64` where the C++
  type truncates.
* A failed `assert` makes the embedded function return `none`.
-/

namespace leveldb

/-- Byte strings. -/
abbrev Bytes := List Nat

/-- Conversion to `uint32_t`. -/
def uint32_t (v : Nat) : Nat := v % 4294967296

/-- Conversion to `uint64_t` (and to `size_t`). -/
def uint64_t (v : Nat) : Nat := v % 18446744073709551616

/-- Conversion to `unsigned char`. -/
def uchar (v : Nat) : Nat := v % 256

/-! ## Status (`include/leveldb/status.h`, `util/status.cc`) -/

/-- The status codes of `Status::Code`. -/
inductive Code
  | kOk
  | kNotFound
  | kCorruption
  | kNotSupported
  | kInvalidArgument
  | kIOError
deriving DecidableEq, Repr

/-- A `Status` is either OK (`state_ == NULL`) or carries a non-OK code and a message. -/
inductive Status
  | OK
  | Error (code : Code) (msg : Bytes)
deriving DecidableEq, Repr

/-- The accessor `Status::ok()`. -/
def Status.ok : Status → Bool
  | Status.OK => true
  | Status.Error _ _ => false

/-- The factory `Status::NotFound(msg)`. -/
def Status.NotFound (msg : Bytes) : Status := Status.Error Code.kNotFound msg

/-! ## The append sink -/

/-- One operation issued to the sink, with the status the sink returned. -/
inductive SinkOp
  | Append (data : Bytes) (result : Status)
  | Flush (result : Status)
deriving DecidableEq, Repr

/-- Modelled from the spec: the append sink `WritableFile` of `leveldb/env.h`, which is
not part of the sources (`append(bytes) -> Result`, `flush() -> Result`). The sink
records every operation issued to it, oldest first, and answers from a script: the
head of `script` is the status of the next operation and an exhausted script means
success. Quantifying over scripts covers every sequence of sink outcomes. -/
structure WritableFile where
  log : List SinkOp
  script : List Status
deriving DecidableEq, Repr

/-- The status the sink gives to its next operation. -/
def WritableFile.answer (f : WritableFile) : Status := f.script.headD Status.OK

/-- The call `dest_->Append(data)`. -/
def WritableFile.Append (f : WritableFile) (data : Bytes) : WritableFile × Status :=
  ({ log := f.log ++ [SinkOp.Append data f.answer], script := f.script.tail }, f.answer)

/-- The call `dest_->Flush()`. -/
def WritableFile.Flush (f : WritableFile) : WritableFile × Status :=
  ({ log := f.log ++ [SinkOp.Flush f.answer], script := f.script.tail }, f.answer)

/-- Every operation the sink is still to receive succeeds. -/
def WritableFile.allSucceed (f : WritableFile) : Prop := ∀ s ∈ f.script, s = Status.OK

instance (f : WritableFile) : Decidable f.allSucceed := by
  unfold WritableFile.allSucceed; infer_instance

/-! ## Fixed-width coding (`util/coding.cc`) -/

/-- The `n` low-order bytes of `v`, least significant first: the object representation
that `memcpy` copies out of an integer on a little-endian host. -/
def littleEndianBytes : Nat → Nat → Bytes
  | 0, _ => []
  | n + 1, v => v % 256 :: littleEndianBytes n (v / 256)

/-- The function `EncodeFixed32(buf, value)`: the four bytes written to `buf`.
`kLittleEndian` is `port::kLittleEndian`. -/
def EncodeFixed32 (kLittleEndian : Bool) (value : Nat) : Bytes :=
  let value := uint32_t value
  if kLittleEndian then
    littleEndianBytes 4 value
  else
    [uchar (value &&& 0xff), uchar ((value >>> 8) &&& 0xff),
     uchar ((value >>> 16) &&& 0xff), uchar ((value >>> 24) &&& 0xff)]

/-- The function `EncodeFixed64(buf, value)`: the eight bytes written to `buf`. -/
def EncodeFixed64 (kLittleEndian : Bool) (value : Nat) : Bytes :=
  let value := uint64_t value
  if kLittleEndian then
    littleEndianBytes 8 value
  else
    [uchar (value &&& 0xff), uchar ((value >>> 8) &&& 0xff),
     uchar ((value >>> 16) &&& 0xff), uchar ((value >>> 24) &&& 0xff),
     uchar ((value >>> 32) &&& 0xff), uchar ((value >>> 40) &&& 0xff),
     uchar ((value >>> 48) &&& 0xff), uchar ((value >>> 56) &&& 0xff)]

/-! ## Log format (`db/log_format.h`) -/

namespace log

/-- The enumeration `RecordType`. -/
inductive RecordType
  | kZeroType
  | kFullType
  | kFirstType
  | kMiddleType
  | kLastType
deriving DecidableEq, Repr

/-- The numeric value of a record type. -/
def RecordType.toNat : RecordType → Nat
  | RecordType.kZeroType => 0
  | RecordType.kFullType => 1
  | RecordType.kFirstType => 2
  | RecordType.kMiddleType => 3
  | RecordType.kLastType => 4

def kMaxRecordType : Nat := RecordType.kLastType.toNat

def kBlockSize : Nat := 32768

def kHeaderSize : Nat := 4 + 2 + 1

/-- The functions of `util/crc32c.h`, which is not part of the sources; they are kept
abstract. `Value data` is the CRC of `data`, `Extend init data` continues a CRC and
`Mask` is the storage adjustment. -/
structure Crc32c where
  Value : Bytes → Nat
  Extend : Nat → Bytes → Nat
  Mask : Nat → Nat

/-! ## Log writer (`db/log_writer.cc`) -/

/-- The function `InitTypeCrc`: the table of the CRC of each record type byte. -/
def InitTypeCrc (crc : Crc32c) : List Nat :=
  (List.range (kMaxRecordType + 1)).map fun i => uint32_t (crc.Value [uchar i])

/-- The state of a `log::Writer`. The cursor `block_offset_` is a natural number: it is
initialised to `0` or to a remainder and is only ever increased or reset to `0`. -/
structure Writer where
  dest_ : WritableFile
  block_offset_ : Nat
  type_crc_ : List Nat

/-- The constructor `Writer(dest)`. -/
def Writer.mk1 (crc : Crc32c) (dest : WritableFile) : Writer :=
  { dest_ := dest, block_offset_ := 0, type_crc_ := InitTypeCrc crc }

/-- The constructor `Writer(dest, dest_length)`. -/
def Writer.mk2 (crc : Crc32c) (dest : WritableFile) (dest_length : Nat) : Writer :=
  { dest_ := dest, block_offset_ := uint64_t dest_length % kBlockSize,
    type_crc_ := InitTypeCrc crc }

/-- The seven header bytes that `EmitPhysicalRecord(t, ptr, n)` formats in `buf`, for a
writer whose CRC table is `type_crc_`. -/
def header (crc : Crc32c) (kLittleEndian : Bool) (type_crc_ : List Nat) (t : RecordType)
    (ptr : Bytes) (n : Nat) : Bytes :=
  let buf4 := uchar (n &&& 0xff)
  let buf5 := uchar (n >>> 8)
  let buf6 := uchar t.toNat
  let c := uint32_t (crc.Extend (type_crc_.getD t.toNat 0) (ptr.take n))
  let c := uint32_t (crc.Mask c)
  EncodeFixed32 kLittleEndian c ++ [buf4, buf5, buf6]

/-- The method `Writer::EmitPhysicalRecord(t, ptr, n)`; `none` when an assertion fails. -/
def Writer.EmitPhysicalRecord (crc : Crc32c) (kLittleEndian : Bool) (w : Writer)
    (t : RecordType) (ptr : Bytes) (n : Nat) : Option (Writer × Status) :=
  if ¬ (n ≤ 0xffff) then none
  else if ¬ (w.block_offset_ + kHeaderSize + n ≤ kBlockSize) then none
  else
    let buf := header crc kLittleEndian w.type_crc_ t ptr n
    let r1 := w.dest_.Append buf
    let r :=
      if r1.2.ok then
        let r2 := r1.1.Append (ptr.take n)
        if r2.2.ok then r2.1.Flush else r2
      else r1
    some ({ w with dest_ := r.1, block_offset_ := w.block_offset_ + (kHeaderSize + n) }, r.2)

/-- Lines 46 to 57 of `AddRecord`: when fewer than `kHeaderSize` bytes are left in the
block, fill the trailer and switch to a new block. `none` when `leftover >= 0` fails. -/
def Writer.switchBlock (w : Writer) : Option Writer :=
  let leftover : Int := (kBlockSize : Int) - (w.block_offset_ : Int)
  if ¬ (leftover ≥ 0) then none
  else if leftover < (kHeaderSize : Int) then
    let dest :=
      if leftover > 0 then
        (w.dest_.Append ((List.replicate 6 0).take leftover.toNat)).1
      else w.dest_
    some { w with dest_ := dest, block_offset_ := 0 }
  else some w

/-- Lines 66 to 76 of `AddRecord`: the type of a fragment. -/
def recordTypeOf (begin end_ : Bool) : RecordType :=
  if begin && end_ then RecordType.kFullType
  else if begin then RecordType.kFirstType
  else if end_ then RecordType.kLastType
  else RecordType.kMiddleType

/-- Lines 46 to 76 of `AddRecord`, the part of the loop body before the call of
`EmitPhysicalRecord`: the writer after the block switch, and the `type` and
`fragment_length` passed to `EmitPhysicalRecord`. `none` when an assertion fails. -/
def Writer.AddRecord.fragment (w : Writer) (left : Nat) (begin : Bool) :
    Option (Writer × RecordType × Nat) :=
  match w.switchBlock with
  | none => none
  | some w1 =>
    if ¬ ((kBlockSize : Int) - (w1.block_offset_ : Int) - (kHeaderSize : Int) ≥ 0) then none
    else
      let avail := kBlockSize - w1.block_offset_ - kHeaderSize
      let fragment_length := if left < avail then left else avail
      let end_ := decide (left = fragment_length)
      some (w1, recordTypeOf begin end_, fragment_length)

/-- One pass through the body of the do-while loop of `AddRecord` (lines 46 to 81): the
writer and the values of `s`, `ptr` and `left` at the end of the pass. -/
def Writer.AddRecord.body (crc : Crc32c) (kLittleEndian : Bool) (w : Writer)
    (ptr : Bytes) (left : Nat) (begin : Bool) : Option (Writer × Status × Bytes × Nat) :=
  match Writer.AddRecord.fragment w left begin with
  | none => none
  | some (w1, type, fragment_length) =>
    match w1.EmitPhysicalRecord crc kLittleEndian type ptr fragment_length with
    | none => none
    | some (w2, s) => some (w2, s, ptr.drop fragment_length, left - fragment_length)

set_option linter.unusedVariables false in
/-- The do-while loop of `AddRecord`. -/
def Writer.AddRecord.loop (crc : Crc32c) (kLittleEndian : Bool) (w : Writer)
    (ptr : Bytes) (left : Nat) (begin : Bool) : Option (Writer × Status) :=
  match h : Writer.AddRecord.body crc kLittleEndian w ptr left begin with
  | none => none
  | some (w2, s, ptr2, left2) =>
    if s.ok ∧ left2 > 0 then Writer.AddRecord.loop crc kLittleEndian w2 ptr2 left2 false
    else some (w2, s)
termination_by 2 * left + (if w.block_offset_ = kBlockSize - kHeaderSize then 1 else 0)
decreasing_by
  rename_i hcond
  obtain ⟨-, hpos⟩ := hcond
  unfold Writer.AddRecord.body at h
  cases hfr : Writer.AddRecord.fragment w left begin with
  | none => simp [hfr] at h
  | some q =>
    obtain ⟨w1, type, n⟩ := q
    simp only [hfr] at h
    cases hem : w1.EmitPhysicalRecord crc kLittleEndian type ptr n with
    | none => simp [hem] at h
    | some p =>
      obtain ⟨w2q, sq⟩ := p
      simp only [hem, Option.some.injEq, Prod.mk.injEq] at h
      obtain ⟨hw, -, -, hl⟩ := h
      subst hw hl
      have hw2 : w2q.block_offset_ = w1.block_offset_ + (kHeaderSize + n) := by
        unfold Writer.EmitPhysicalRecord at hem
        split_ifs at hem
        simp only [Option.some.injEq, Prod.mk.injEq] at hem
        rw [← hem.1]
      unfold Writer.AddRecord.fragment at hfr
      cases hsw : w.switchBlock with
      | none => simp [hsw] at hfr
      | some w1q =>
        simp only [hsw] at hfr
        by_cases ha : (kBlockSize : Int) - (w1q.block_offset_ : Int) - (kHeaderSize : Int) ≥ 0
        · simp only [ha, not_true_eq_false, if_false, Option.some.injEq, Prod.mk.injEq] at hfr
          obtain ⟨hw1, -, hn⟩ := hfr
          subst hw1
          have hw1 : w1q.block_offset_ = w.block_offset_ ∨ w1q.block_offset_ = 0 := by
            unfold Writer.switchBlock at hsw
            simp only at hsw
            split_ifs at hsw <;> simp only [Option.some.injEq] at hsw <;> subst hsw <;> simp
          simp only [kBlockSize, kHeaderSize] at *
          split_ifs at hn ⊢ <;> omega
        · simp [ha] at hfr

/-- The method `Writer::AddRecord(slice)`. -/
def Writer.AddRecord (crc : Crc32c) (kLittleEndian : Bool) (w : Writer) (slice : Bytes) :
    Option (Writer × Status) :=
  Writer.AddRecord.loop crc kLittleEndian w slice slice.length true

/-- The method `AddRecord` called on each slice of a list in turn, whatever status the
calls return. -/
def Writer.AddRecords (crc : Crc32c) (kLittleEndian : Bool) (w : Writer) :
    List Bytes → Option Writer
  | [] => some w
  | slice :: rest =>
    match Writer.AddRecord crc kLittleEndian w slice with
    | none => none
    | some (w1, _) => Writer.AddRecords crc kLittleEndian w1 rest

/-! ### Reading the sink log -/

/-- A physical record as it appears in the sink log: the number of bytes appended to the
sink before its header, the header and the payload. -/
structure PhysicalRecord where
  pos : Nat
  header : Bytes
  payload : Bytes
deriving DecidableEq, Repr

/-- The type byte of a record header. -/
def PhysicalRecord.type (r : PhysicalRecord) : Nat := r.header.getD 6 0

/-- The little-endian 16-bit length field of a record header. -/
def PhysicalRecord.length (r : PhysicalRecord) : Nat :=
  r.header.getD 4 0 + 256 * r.header.getD 5 0

/-- The physical records of a sink log, in emission order: every header append that is
directly followed by a payload append and a flush. `pos` counts the bytes appended
before the operations read. -/
def recordsOf (pos : Nat) : List SinkOp → List PhysicalRecord
  | SinkOp.Append h _ :: SinkOp.Append p _ :: SinkOp.Flush _ :: rest =>
    { pos := pos, header := h, payload := p } :: recordsOf (pos + h.length + p.length) rest
  | SinkOp.Append h _ :: rest => recordsOf (pos + h.length) rest
  | SinkOp.Flush _ :: rest => recordsOf pos rest
  | [] => []

/-- The operations a writer has issued to its sink beyond the first `n` of its log. -/
def Writer.opsSince (w : Writer) (n : Nat) : List SinkOp := w.dest_.log.drop n

/-- The total number of bytes appended by a list of sink operations. -/
def bytesAppended : List SinkOp → Nat
  | [] => 0
  | SinkOp.Append d _ :: rest => d.length + bytesAppended rest
  | SinkOp.Flush _ :: rest => bytesAppended rest

/-! ### Successful runs of the fragmentation loop -/

/-- The offset at which the next header is written when the cursor is at `off`. -/
def startOffset (off : Nat) : Nat := if kBlockSize - off < kHeaderSize then 0 else off

/-- The trailer append issued when the cursor is at `off` and the sink succeeds. -/
def trailerOps (off : Nat) : List SinkOp :=
  if kBlockSize - off < kHeaderSize ∧ 0 < kBlockSize - off then
    [SinkOp.Append ((List.replicate 6 0).take (kBlockSize - off)) Status.OK]
  else []

/-- The three operations of one successfully emitted physical record. -/
def recordOps (hdr : Bytes) (payload : Bytes) : List SinkOp :=
  [SinkOp.Append hdr Status.OK, SinkOp.Append payload Status.OK, SinkOp.Flush Status.OK]

/-- The relation `FragmentRun hdr off begin ptr ops off2` describes the operations `ops`
that the loop of `AddRecord` issues on a sink that succeeds, started with cursor `off`,
flag `begin` and the bytes `ptr` left to write, and the cursor `off2` it ends with.
`hdr t payload` is the header of a record of type `t` carrying `payload`. -/
inductive FragmentRun (hdr : RecordType → Bytes → Bytes) :
    Nat → Bool → Bytes → List SinkOp → Nat → Prop
  | last (off : Nat) (begin : Bool) (ptr : Bytes) (hoff : off ≤ kBlockSize)
      (hfit : ptr.length ≤ kBlockSize - startOffset off - kHeaderSize) :
      FragmentRun hdr off begin ptr
        (trailerOps off ++ recordOps (hdr (recordTypeOf begin true) ptr) ptr)
        (startOffset off + kHeaderSize + ptr.length)
  | more (off : Nat) (begin : Bool) (ptr : Bytes) (ops : List SinkOp) (off2 : Nat)
      (hoff : off ≤ kBlockSize)
      (hbig : kBlockSize - startOffset off - kHeaderSize < ptr.length)
      (hrest : FragmentRun hdr kBlockSize false
        (ptr.drop (kBlockSize - startOffset off - kHeaderSize)) ops off2) :
      FragmentRun hdr off begin ptr
        (trailerOps off ++
          recordOps (hdr (recordTypeOf begin false)
            (ptr.take (kBlockSize - startOffset off - kHeaderSize)))
            (ptr.take (kBlockSize - startOffset off - kHeaderSize)) ++ ops)
        off2

/-- The relation `EmitCalls crc le w ptr left begin w1 t p n` holds when the loop of
`AddRecord`, started from writer `w` with locals `ptr`, `left` and `begin`, calls
`EmitPhysicalRecord(t, p, n)` on the writer state `w1`. -/
inductive Writer.AddRecord.EmitCalls (crc : Crc32c) (kLittleEndian : Bool) :
    Writer → Bytes → Nat → Bool → Writer → RecordType → Bytes → Nat → Prop
  | here (w : Writer) (ptr : Bytes) (left : Nat) (begin : Bool) (w1 : Writer)
      (t : RecordType) (n : Nat)
      (hfr : Writer.AddRecord.fragment w left begin = some (w1, t, n)) :
      Writer.AddRecord.EmitCalls crc kLittleEndian w ptr left begin w1 t ptr n
  | later (w : Writer) (ptr : Bytes) (left : Nat) (begin : Bool) (w2 : Writer) (s : Status)
      (ptr2 : Bytes) (left2 : Nat) (w1 : Writer) (t : RecordType) (p : Bytes) (n : Nat)
      (hbody : Writer.AddRecord.body crc kLittleEndian w ptr left begin
        = some (w2, s, ptr2, left2))
      (hcont : s.ok ∧ left2 > 0)
      (hcall : Writer.AddRecord.EmitCalls crc kLittleEndian w2 ptr2 left2 false w1 t p n) :
      Writer.AddRecord.EmitCalls crc kLittleEndian w ptr left begin w1 t p n

/-- The statement that the records `rs` split `remaining` bytes as `AddRecord` does when
the cursor was at `base` before the call: each record carries
`min(remaining, kBlockSize - offset - kHeaderSize)` bytes, where `offset` is the block
offset of its header, and each record but the last ends on a block boundary. -/
def FragmentLengths (base : Nat) : Nat → List PhysicalRecord → Prop
  | _, [] => True
  | remaining, r :: rs =>
    r.payload.length
        = min remaining (kBlockSize - (base + r.pos) % kBlockSize - kHeaderSize) ∧
      (rs ≠ [] → (base + r.pos + kHeaderSize + r.payload.length) % kBlockSize = 0) ∧
      FragmentLengths base (remaining - r.payload.length) rs

/-- An instance of the abstract CRC functions used in examples: a byte sum in place of
the CRC and the masking of the format (`((crc >> 15) | (crc << 17)) + 0xa282ead8`). -/
def exampleCrc : Crc32c where
  Value := fun data => data.sum % 4294967296
  Extend := fun init data => (init + data.sum) % 4294967296
  Mask := fun c => (((c >>> 15) ||| (c <<< 17)) + 0xa282ead8) % 4294967296

/-- A sink with an empty log that answers from `script`. -/
def newSink (script : List Status) : WritableFile := { log := [], script := script }

end log

/-! ## Variable-length coding (`util/coding.cc`) -/

/-- The function `EncodeVarint32(dst, v)`: the bytes written at `dst`; the pointer it
returns is `dst` advanced by their number. -/
def EncodeVarint32 (v : Nat) : Bytes :=
  let v := uint32_t v
  let B := 128
  if v < (1 <<< 7) then
    [uchar v]
  else if v < (1 <<< 14) then
    [uchar (v ||| B), uchar (v >>> 7)]
  else if v < (1 <<< 21) then
    [uchar (v ||| B), uchar ((v >>> 7) ||| B), uchar (v >>> 14)]
  else if v < (1 <<< 28) then
    [uchar (v ||| B), uchar ((v >>> 7) ||| B), uchar ((v >>> 14) ||| B), uchar (v >>> 21)]
  else
    [uchar (v ||| B), uchar ((v >>> 7) ||| B), uchar ((v >>> 14) ||| B),
     uchar ((v >>> 21) ||| B), uchar (v >>> 28)]

/-- The function `PutVarint32(dst, v)`. -/
def PutVarint32 (dst : Bytes) (v : Nat) : Bytes := dst ++ EncodeVarint32 v

/-- The loop of `VarintLength`. -/
def VarintLength.loop (v len : Nat) : Nat :=
  if h : v ≥ 128 then VarintLength.loop (v >>> 7) (len + 1) else len
termination_by v
decreasing_by
  rw [Nat.shiftRight_eq_div_pow]
  exact Nat.div_lt_self (by omega) (by decide)

/-- The function `VarintLength(v)`. -/
def VarintLength (v : Nat) : Nat := VarintLength.loop (uint64_t v) 1

/-- The loop of `GetVarint32PtrFallback(p, limit, value)`, on the bytes of `[p, limit)`:
the bytes from the returned pointer to `limit` and the value stored in `*value`, or
`none` for a `NULL` result. -/
def GetVarint32PtrFallback.loop : Nat → Nat → Bytes → Option (Bytes × Nat)
  | _, _, [] => none
  | shift, result, byte :: p =>
    if shift ≤ 28 then
      if byte &&& 128 ≠ 0 then
        GetVarint32PtrFallback.loop (shift + 7)
          (result ||| uint32_t ((byte &&& 127) <<< shift)) p
      else
        some (p, result ||| uint32_t (byte <<< shift))
    else none

/-- The function `GetVarint32PtrFallback(p, limit, value)` on the bytes of `[p, limit)`. -/
def GetVarint32PtrFallback (p : Bytes) : Option (Bytes × Nat) :=
  GetVarint32PtrFallback.loop 0 0 p

/-- Modelled from the spec: the inline function `GetVarint32Ptr` of `util/coding.h`, which
is not part of the sources. It decodes one variable-length 32-bit integer (7 payload
bits per byte, the top bit being the continuation flag) as its fallback does. -/
def GetVarint32Ptr (p : Bytes) : Option (Bytes × Nat) := GetVarint32PtrFallback p

/-- The value of the first `n` bytes of `ptr` read as a little-endian integer. -/
def littleEndianValue : Nat → Bytes → Nat
  | 0, _ => 0
  | n + 1, ptr => ptr.headD 0 + 256 * littleEndianValue n ptr.tail

/-- Modelled from the spec: the inline function `DecodeFixed64` of `util/coding.h`, which
is not part of the sources: the little-endian fixed 64-bit integer at `ptr`. -/
def DecodeFixed64 (ptr : Bytes) : Nat := littleEndianValue 8 ptr

/-! ## Slice (`include/leveldb/slice.h`) -/

/-- The function `memcmp(a, b, n)` of the C library, which `Slice::compare` and the operator
`==` call: zero when the first `n` bytes agree, otherwise the difference of the first two
bytes that differ, read as unsigned values. The C standard fixes the sign of that result
and not its size, so the properties of `Slice::compare` are stated on the sign. -/
def memcmp : Bytes → Bytes → Nat → Int
  | a :: as, b :: bs, n + 1 => if a ≠ b then (a : Int) - (b : Int) else memcmp as bs n
  | _, _, _ => 0

/-- The method `Slice::compare`. -/
def Slice.compare (a b : Bytes) : Int :=
  let min_len := if a.length < b.length then a.length else b.length
  let r := memcmp a b min_len
  if r = 0 then
    if a.length < b.length then -1
    else if a.length > b.length then 1
    else r
  else r

/-! ## Internal keys (`db/dbformat.h`) -/

/-- Modelled from the spec: the enumeration `ValueType` of `db/dbformat.h`, which is not
part of the sources. The kinds `Deletion` and `Value` are the tags 0 and 1. -/
def kTypeDeletion : Nat := 0

/-- Modelled from the spec: the tag of the kind `Value`, see `kTypeDeletion`. -/
def kTypeValue : Nat := 1

/-- Modelled from the spec: the kind written in a lookup key. The order of internal keys
does not depend on it. -/
def kValueTypeForSeek : Nat := kTypeValue

/-- The tag `(s << 8) | type` that `Add` stores, computed on 64 bits. -/
def packTag (s type : Nat) : Nat := uint64_t (uint64_t (uint64_t s <<< 8) ||| type)

/-- Modelled from the spec: the class `LookupKey` of `db/dbformat.h`, which is not part of
the sources: a user key and the sequence number of the snapshot read. -/
structure LookupKey where
  user_key : Bytes
  sequence : Nat
deriving DecidableEq, Repr

/-- Modelled from the spec: `LookupKey::memtable_key()`, the internal-key encoding of
`(user_key, sequence)` with its length prefix:
`varint(len(user_key) + 8) ++ user_key ++ fixed64((sequence << 8) | kind)`. -/
def LookupKey.memtable_key (kLittleEndian : Bool) (k : LookupKey) : Bytes :=
  EncodeVarint32 (uint64_t (k.user_key.length + 8)) ++ k.user_key ++
    EncodeFixed64 kLittleEndian (packTag k.sequence kValueTypeForSeek)

/-- Modelled from the spec: the user comparator, here the bytewise comparator, which
compares with `Slice::compare`. -/
def userCompare (a b : Bytes) : Int := Slice.compare a b

/-- Modelled from the spec: `InternalKeyComparator::Compare` of `db/dbformat.cc`, which is
not part of the sources, on two internal keys (user key followed by the 8-byte tag):
ascending user key and, for equal user keys, descending sequence number. -/
def InternalKeyComparator.Compare (akey bkey : Bytes) : Int :=
  let r := userCompare (akey.take (akey.length - 8)) (bkey.take (bkey.length - 8))
  if r = 0 then
    let anum := DecodeFixed64 (akey.drop (akey.length - 8)) >>> 8
    let bnum := DecodeFixed64 (bkey.drop (bkey.length - 8)) >>> 8
    if anum > bnum then -1
    else if anum < bnum then 1
    else r
  else r

/-! ## MemTable (`db/memtable.cc`) -/

/-- The static function `GetLengthPrefixedSlice(data)` of `memtable.cc`. The call
`GetVarint32Ptr(p, p + 5, &len)` reads at most the first five bytes of `data`. A `NULL`
result, which the source excludes by assumption, gives the empty slice here. -/
def MemTable.GetLengthPrefixedSlice (data : Bytes) : Bytes :=
  match GetVarint32Ptr (data.take 5) with
  | some (rest, len) => (data.drop ((data.take 5).length - rest.length)).take len
  | none => []

/-- The method `MemTable::KeyComparator::operator()`. -/
def MemTable.KeyComparator (aptr bptr : Bytes) : Int :=
  let a := MemTable.GetLengthPrefixedSlice aptr
  let b := MemTable.GetLengthPrefixedSlice bptr
  InternalKeyComparator.Compare a b

/-- Modelled from the spec: `SkipList::Insert` of `db/skiplist.h`, which is not part of
the sources. The ordered index is the list of its entries in ascending order of the
comparator; a new entry goes before the first entry that is not smaller. -/
def SkipList.Insert (cmp : Bytes → Bytes → Int) : List Bytes → Bytes → List Bytes
  | [], key => [key]
  | x :: xs, key =>
    if cmp x key < 0 then x :: SkipList.Insert cmp xs key else key :: x :: xs

/-- Modelled from the spec: `SkipList::Iterator::Seek(target)` followed by `Valid()` and
`key()`: the first entry that is greater than or equal to `target`, or `none` when the
iterator is not valid. -/
def SkipList.Seek (cmp : Bytes → Bytes → Int) (list : List Bytes) (target : Bytes) :
    Option Bytes :=
  list.find? fun entry => decide (cmp entry target ≥ 0)

/-- The state of a `MemTable`: the entries of `table_` in the order of the index. The
arena only provides the buffers of the entries; a buffer is represented by its bytes. -/
structure MemTable where
  table_ : List Bytes
deriving DecidableEq, Repr

/-- The constructor `MemTable(cmp)`. -/
def MemTable.empty : MemTable := { table_ := [] }

/-- The local `encoded_len` of `MemTable::Add`, the size passed to `arena_.Allocate`. -/
def MemTable.encoded_len (key value : Bytes) : Nat :=
  let key_size := key.length
  let val_size := value.length
  let internal_key_size := uint64_t (key_size + 8)
  uint64_t (VarintLength internal_key_size + internal_key_size +
    VarintLength val_size + val_size)

/-- Lines 90 to 104 of `MemTable::Add`: the contents of the buffer `buf` when it is
handed to the index. The buffer is represented by the bytes written between `buf` and
the running pointer `p`; `none` when the assertion
`(p + val_size) - buf == encoded_len` fails. -/
def MemTable.encodeEntry (kLittleEndian : Bool) (s type : Nat) (key value : Bytes) :
    Option Bytes :=
  let key_size := key.length
  let val_size := value.length
  let internal_key_size := uint64_t (key_size + 8)
  let encoded_len := MemTable.encoded_len key value
  let p := EncodeVarint32 internal_key_size
  let p := p ++ key
  let p := p ++ EncodeFixed64 kLittleEndian (packTag s type)
  let p := p ++ EncodeVarint32 val_size
  let p := p ++ value
  if p.length = encoded_len then some p else none

/-- The method `MemTable::Add(s, type, key, value)`. -/
def MemTable.Add (kLittleEndian : Bool) (m : MemTable) (s type : Nat) (key value : Bytes) :
    Option MemTable :=
  match MemTable.encodeEntry kLittleEndian s type key value with
  | none => none
  | some buf => some { m with table_ := SkipList.Insert MemTable.KeyComparator m.table_ buf }

/-- The method `MemTable::Get(key, value, s)`: the result and the contents of the two
out-parameters, which enter with the contents the caller gave them. Reads at
`key_ptr + key_length - 8` are modelled for `key_length >= 8` and a `NULL` result of
`GetVarint32Ptr`, on which the source would read through a null pointer, gives `false`;
neither case arises on an entry that `Add` wrote. -/
def MemTable.Get (kLittleEndian : Bool) (m : MemTable) (key : LookupKey) (value : Bytes)
    (s : Status) : Bool × Bytes × Status :=
  let memkey := key.memtable_key kLittleEndian
  match SkipList.Seek MemTable.KeyComparator m.table_ memkey with
  | none => (false, value, s)
  | some entry =>
    match GetVarint32Ptr (entry.take 5) with
    | none => (false, value, s)
    | some (rest, key_length) =>
      let key_ptr := entry.drop ((entry.take 5).length - rest.length)
      if userCompare (key_ptr.take (uint32_t (key_length + 4294967296 - 8))) key.user_key = 0
      then
        let tag := DecodeFixed64 (key_ptr.drop (key_length - 8))
        if tag &&& 0xff = kTypeValue then
          let v := MemTable.GetLengthPrefixedSlice (key_ptr.drop key_length)
          (true, v, s)
        else if tag &&& 0xff = kTypeDeletion then
          (true, value, Status.NotFound [])
        else (false, value, s)
      else (false, value, s)

/-- One `Add` of a history: sequence number, kind, user key and value. -/
structure AddOp where
  s : Nat
  type : Nat
  key : Bytes
  value : Bytes
deriving DecidableEq, Repr

/-- The MemTable reached from `m` by the `Add` calls of a history, oldest first. -/
def MemTable.AddAll (kLittleEndian : Bool) (m : MemTable) : List AddOp → Option MemTable
  | [] => some m
  | op :: rest =>
    match MemTable.Add kLittleEndian m op.s op.type op.key op.value with
    | none => none
    | some m1 => MemTable.AddAll kLittleEndian m1 rest

/-! ## More of `util/coding.cc` -/

/-- The function `PutFixed32(dst, value)`. -/
def PutFixed32 (kLittleEndian : Bool) (dst : Bytes) (value : Nat) : Bytes :=
  let buf := EncodeFixed32 kLittleEndian value
  dst ++ buf

/-- The function `PutFixed64(dst, value)`. -/
def PutFixed64 (kLittleEndian : Bool) (dst : Bytes) (value : Nat) : Bytes :=
  let buf := EncodeFixed64 kLittleEndian value
  dst ++ buf

set_option linter.unusedVariables false in
/-- The loop and the final store of `EncodeVarint64`. -/
def EncodeVarint64.loop (v : Nat) : Bytes :=
  if h : v ≥ 128 then
    uchar ((v &&& (128 - 1)) ||| 128) :: EncodeVarint64.loop (v >>> 7)
  else [uchar v]
termination_by v
decreasing_by
  rw [Nat.shiftRight_eq_div_pow]
  exact Nat.div_lt_self (by omega) (by decide)

/-- The function `EncodeVarint64(dst, v)`: the bytes written at `dst`; the pointer it
returns is `dst` advanced by their number. -/
def EncodeVarint64 (v : Nat) : Bytes := EncodeVarint64.loop (uint64_t v)

/-- The function `PutVarint64(dst, v)`. -/
def PutVarint64 (dst : Bytes) (v : Nat) : Bytes := dst ++ EncodeVarint64 v

/-- The loop of `GetVarint64Ptr(p, limit, value)`, on the bytes of `[p, limit)`: the bytes
from the returned pointer to `limit` and the value stored in `*value`, or `none` for a
`NULL` result. -/
def GetVarint64Ptr.loop : Nat → Nat → Bytes → Option (Bytes × Nat)
  | _, _, [] => none
  | shift, result, byte :: p =>
    if shift ≤ 63 then
      if byte &&& 128 ≠ 0 then
        GetVarint64Ptr.loop (shift + 7) (result ||| uint64_t ((byte &&& 127) <<< shift)) p
      else
        some (p, result ||| uint64_t (byte <<< shift))
    else none

/-- The function `GetVarint64Ptr(p, limit, value)` on the bytes of `[p, limit)`. -/
def GetVarint64Ptr (p : Bytes) : Option (Bytes × Nat) := GetVarint64Ptr.loop 0 0 p

/-- The function `GetVarint64(input, value)`: the result, the slice `*input` and `*value`
after the call; `value` is the content of `*value` before it. -/
def GetVarint64 (input : Bytes) (value : Nat) : Bool × Bytes × Nat :=
  match GetVarint64Ptr input with
  | none => (false, input, value)
  | some (q, v) => (true, q, v)

/-- The function `GetVarint32(input, value)`: the result, the slice `*input` and `*value`
after the call; `value` is the content of `*value` before it. -/
def GetVarint32 (input : Bytes) (value : Nat) : Bool × Bytes × Nat :=
  match GetVarint32Ptr input with
  | none => (false, input, value)
  | some (q, v) => (true, q, v)

/-- The function `PutLengthPrefixedSlice(dst, value)`. -/
def PutLengthPrefixedSlice (dst : Bytes) (value : Bytes) : Bytes :=
  PutVarint32 dst value.length ++ value

/-- The function `GetLengthPrefixedSlice(p, limit, result)` of `coding.cc` on the bytes of
`[p, limit)`: the bytes from the returned pointer to `limit` and the slice stored in
`*result`, or `none` for a `NULL` result. -/
def GetLengthPrefixedSlice.ptr (p : Bytes) : Option (Bytes × Bytes) :=
  match GetVarint32Ptr p with
  | none => none
  | some (p, len) =>
    if len > p.length then none
    else some (p.drop len, p.take len)

/-- The function `GetLengthPrefixedSlice(input, result)` of `coding.cc`: the result and
the slices `*input` and `*result` after the call. The local `len` is not read when
`GetVarint32` fails, so its indeterminate initial content is immaterial. -/
def GetLengthPrefixedSlice (input result : Bytes) : Bool × Bytes × Bytes :=
  let r := GetVarint32 input 0
  let input := r.2.1
  let len := r.2.2
  if r.1 && decide (input.length ≥ len) then
    (true, input.drop len, input.take len)
  else (false, input, result)

/-! ## More of `include/leveldb/slice.h` -/

/-- The operator `==` on slices. -/
def Slice.eq (x y : Bytes) : Bool :=
  decide (x.length = y.length) && decide (memcmp x y x.length = 0)

/-- The order the documentation of `Slice::compare` refers to, written out: `a` is less
than `b` in the lexicographic order on byte strings when `a` is a proper prefix of `b`, or
when, after a common prefix, the next byte of `a` is less than the next byte of `b`. This
definition is not part of the program. -/
def lexLess (a b : Bytes) : Prop :=
  (∃ y ys, b = a ++ y :: ys)
    ∨ ∃ p x xs y ys, a = p ++ x :: xs ∧ b = p ++ y :: ys ∧ x < y

/-! ## The iterator of the MemTable (`db/memtable.cc`) -/

/-- The pointer `data()` of the slice that `GetLengthPrefixedSlice(data)` returns, as the
bytes from it to the end of the buffer. -/
def MemTable.GetLengthPrefixedSlice.data (data : Bytes) : Bytes :=
  match GetVarint32Ptr (data.take 5) with
  | some (rest, _) => data.drop ((data.take 5).length - rest.length)
  | none => []

/-- The length `size()` of the slice that `GetLengthPrefixedSlice(data)` returns. -/
def MemTable.GetLengthPrefixedSlice.size (data : Bytes) : Nat :=
  match GetVarint32Ptr (data.take 5) with
  | some (_, len) => len
  | none => 0

/-- Modelled from the spec: `SkipList::Iterator` of `db/skiplist.h`, which is not part of
the sources: a cursor over the entries of the index in ascending order. `node_` is the
position of the current entry, `none` when the cursor does not denote an entry. -/
structure SkipList.Iterator where
  list_ : List Bytes
  node_ : Option Nat
deriving DecidableEq, Repr

/-- Modelled from the spec: `valid()` reports whether the cursor denotes a real entry. -/
def SkipList.Iterator.Valid (it : SkipList.Iterator) : Bool :=
  match it.node_ with
  | some i => decide (i < it.list_.length)
  | none => false

/-- Modelled from the spec: the entry the cursor denotes. -/
def SkipList.Iterator.key (it : SkipList.Iterator) : Bytes :=
  match it.node_ with
  | some i => it.list_.getD i []
  | none => []

/-- Modelled from the spec: `seek(target)` positions at the first entry that is greater
than or equal to `target`. -/
def SkipList.Iterator.Seek (cmp : Bytes → Bytes → Int) (it : SkipList.Iterator)
    (target : Bytes) : SkipList.Iterator :=
  { it with node_ := it.list_.findIdx? fun entry => decide (cmp entry target ≥ 0) }

/-- Modelled from the spec: the cursor on the first entry. -/
def SkipList.Iterator.SeekToFirst (it : SkipList.Iterator) : SkipList.Iterator :=
  { it with node_ := if it.list_.length = 0 then none else some 0 }

/-- Modelled from the spec: the cursor on the last entry. -/
def SkipList.Iterator.SeekToLast (it : SkipList.Iterator) : SkipList.Iterator :=
  { it with node_ := if it.list_.length = 0 then none else some (it.list_.length - 1) }

/-- Modelled from the spec: `next` moves one entry forward. -/
def SkipList.Iterator.Next (it : SkipList.Iterator) : SkipList.Iterator :=
  { it with node_ := match it.node_ with
      | some i => if i + 1 < it.list_.length then some (i + 1) else none
      | none => none }

/-- Modelled from the spec: `prev` moves one entry backward. -/
def SkipList.Iterator.Prev (it : SkipList.Iterator) : SkipList.Iterator :=
  { it with node_ := match it.node_ with
      | some i => if 0 < i then some (i - 1) else none
      | none => none }

/-- The function `EncodeKey(scratch, target)` of `memtable.cc`: the contents of `*scratch`
after the call, to which the returned pointer points. -/
def MemTable.EncodeKey (target : Bytes) : Bytes := PutVarint32 [] target.length ++ target

/-- The state of a `MemTableIterator`. -/
structure MemTableIterator where
  iter_ : SkipList.Iterator
  tmp_ : Bytes
deriving DecidableEq, Repr

/-- The method `MemTable::NewIterator()`. -/
def MemTable.NewIterator (m : MemTable) : MemTableIterator :=
  { iter_ := { list_ := m.table_, node_ := none }, tmp_ := [] }

def MemTableIterator.Valid (it : MemTableIterator) : Bool := it.iter_.Valid

def MemTableIterator.Seek (it : MemTableIterator) (k : Bytes) : MemTableIterator :=
  { iter_ := it.iter_.Seek MemTable.KeyComparator (MemTable.EncodeKey k),
    tmp_ := MemTable.EncodeKey k }

def MemTableIterator.SeekToFirst (it : MemTableIterator) : MemTableIterator :=
  { it with iter_ := it.iter_.SeekToFirst }

def MemTableIterator.SeekToLast (it : MemTableIterator) : MemTableIterator :=
  { it with iter_ := it.iter_.SeekToLast }

def MemTableIterator.Next (it : MemTableIterator) : MemTableIterator :=
  { it with iter_ := it.iter_.Next }

def MemTableIterator.Prev (it : MemTableIterator) : MemTableIterator :=
  { it with iter_ := it.iter_.Prev }

/-- The method `MemTableIterator::key()`. -/
def MemTableIterator.key (it : MemTableIterator) : Bytes :=
  MemTable.GetLengthPrefixedSlice it.iter_.key

/-- The method `MemTableIterator::value()`. -/
def MemTableIterator.value (it : MemTableIterator) : Bytes :=
  let key_slice_data := MemTable.GetLengthPrefixedSlice.data it.iter_.key
  let key_slice_size := MemTable.GetLengthPrefixedSlice.size it.iter_.key
  MemTable.GetLengthPrefixedSlice (key_slice_data.drop key_slice_size)

/-! ## Arena (`util/arena.cc`) -/

/-- Modelled from the spec: the host allocator behind `new char[n]`, which hands out
blocks and fails only by exhaustion (fatal, not modelled). The host records the blocks
it has handed out, oldest first, as pairs of start address and size; `place i` is the
address it gives to block number `i`. Quantifying over `place` covers every host. -/
structure Host where
  blocks : List (Nat × Nat)
  place : Nat → Nat

/-- The expression `new char[n]`: the address of the new block and the host after. -/
def Host.new_array (h : Host) (n : Nat) : Nat × Host :=
  (h.place h.blocks.length, { h with blocks := h.blocks ++ [(h.place h.blocks.length, n)] })

/-- The state of an `Arena`. Pointers are addresses, `NULL` is 0; pointer arithmetic is
not reduced modulo `2^64`, sizes are. -/
structure Arena where
  alloc_ptr_ : Nat
  alloc_bytes_remaining_ : Nat
  blocks_ : List Nat
  memory_usage_ : Nat
deriving DecidableEq, Repr

/-- The constant `kBlockSize` of `arena.cc`. -/
def Arena.kBlockSize : Nat := 4096

/-- The sizes `sizeof(void*)` and `sizeof(char*)` of the 64-bit platform of the
embedding. -/
def sizeof_pointer : Nat := 8

/-- The constructor `Arena()`. -/
def Arena.new : Arena :=
  { alloc_ptr_ := 0, alloc_bytes_remaining_ := 0, blocks_ := [], memory_usage_ := 0 }

/-- The accessor `Arena::MemoryUsage()`. -/
def Arena.MemoryUsage (a : Arena) : Nat := a.memory_usage_

/-- The method `Arena::AllocateNewBlock(block_bytes)`: the pointer returned, the arena and
the host after the call. -/
def Arena.AllocateNewBlock (a : Arena) (h : Host) (block_bytes : Nat) : Nat × Arena × Host :=
  let r := h.new_array block_bytes
  let result := r.1
  (result,
    { a with
      blocks_ := a.blocks_ ++ [result],
      memory_usage_ := uint64_t (a.MemoryUsage + block_bytes + sizeof_pointer) },
    r.2)

/-- The method `Arena::AllocateFallback(bytes)`. -/
def Arena.AllocateFallback (a : Arena) (h : Host) (bytes : Nat) : Nat × Arena × Host :=
  if bytes > Arena.kBlockSize / 4 then
    Arena.AllocateNewBlock a h bytes
  else
    let r := Arena.AllocateNewBlock a h Arena.kBlockSize
    let a1 := { r.2.1 with alloc_ptr_ := r.1, alloc_bytes_remaining_ := Arena.kBlockSize }
    let result := a1.alloc_ptr_
    (result,
      { a1 with
        alloc_ptr_ := a1.alloc_ptr_ + bytes,
        alloc_bytes_remaining_ := a1.alloc_bytes_remaining_ - bytes },
      r.2.2)

/-- The method `Arena::AllocateAligned(bytes)`; `none` when an assertion fails. -/
def Arena.AllocateAligned (a : Arena) (h : Host) (bytes : Nat) :
    Option (Nat × Arena × Host) :=
  let align := if sizeof_pointer > 8 then sizeof_pointer else 8
  if ¬ (align &&& (align - 1) = 0) then none
  else
    let current_mod := a.alloc_ptr_ &&& (align - 1)
    let slop := if current_mod = 0 then 0 else align - current_mod
    let needed := uint64_t (bytes + slop)
    let r :=
      if needed ≤ a.alloc_bytes_remaining_ then
        (a.alloc_ptr_ + slop,
          { a with
            alloc_ptr_ := a.alloc_ptr_ + needed,
            alloc_bytes_remaining_ := a.alloc_bytes_remaining_ - needed },
          h)
      else Arena.AllocateFallback a h bytes
    if ¬ (r.1 &&& (align - 1) = 0) then none else some r

/-- Modelled from the spec: the inline method `Arena::Allocate(bytes)` of `util/arena.h`,
which is not part of the sources: if `remaining >= n`, carve from the current block,
otherwise fall back. -/
def Arena.Allocate (a : Arena) (h : Host) (bytes : Nat) : Nat × Arena × Host :=
  if bytes ≤ a.alloc_bytes_remaining_ then
    (a.alloc_ptr_,
      { a with
        alloc_ptr_ := a.alloc_ptr_ + bytes,
        alloc_bytes_remaining_ := a.alloc_bytes_remaining_ - bytes },
      h)
  else Arena.AllocateFallback a h bytes

/-- A call on an arena. -/
inductive ArenaCall
  | Allocate (bytes : Nat)
  | AllocateAligned (bytes : Nat)
deriving DecidableEq, Repr

/-- The size a call requests. -/
def ArenaCall.bytes : ArenaCall → Nat
  | ArenaCall.Allocate n => n
  | ArenaCall.AllocateAligned n => n

/-- Whether a call is `AllocateAligned`. -/
def ArenaCall.aligned : ArenaCall → Bool
  | ArenaCall.Allocate _ => false
  | ArenaCall.AllocateAligned _ => true

/-- An arena in use: the arena, the host and the calls made so far, oldest first, each
with the pointer it returned. -/
structure ArenaRun where
  arena : Arena
  host : Host
  results : List (ArenaCall × Nat)

/-- A fresh arena on the host `h`. -/
def ArenaRun.fresh (h : Host) : ArenaRun := { arena := Arena.new, host := h, results := [] }

/-- One call on an arena in use. -/
def ArenaRun.step (st : ArenaRun) (c : ArenaCall) : Option ArenaRun :=
  match c with
  | ArenaCall.Allocate n =>
    let r := st.arena.Allocate st.host n
    some { arena := r.2.1, host := r.2.2, results := st.results ++ [(c, r.1)] }
  | ArenaCall.AllocateAligned n =>
    match st.arena.AllocateAligned st.host n with
    | none => none
    | some r => some { arena := r.2.1, host := r.2.2, results := st.results ++ [(c, r.1)] }

/-- A sequence of calls on an arena in use. -/
def ArenaRun.run (st : ArenaRun) : List ArenaCall → Option ArenaRun
  | [] => some st
  | c :: rest =>
    match st.step c with
    | none => none
    | some st1 => ArenaRun.run st1 rest

/-- The region `[p, p + n)` lies inside the block `[b, b + size)`. -/
def regionInside (p n : Nat) (block : Nat × Nat) : Prop :=
  block.1 ≤ p ∧ p + n ≤ block.1 + block.2

/-- The regions `[p, p + n)` and `[q, m + q)` have no byte in common. -/
def regionsDisjoint (x y : Nat × Nat) : Prop := x.1 + x.2 ≤ y.1 ∨ y.1 + y.2 ≤ x.1

/-- The region a call returned. -/
def regionOf (r : ArenaCall × Nat) : Nat × Nat := (r.2, r.1.bytes)

/-- A host whose blocks are pairwise disjoint. -/
def Host.disjointBlocks (h : Host) : Prop := h.blocks.Pairwise regionsDisjoint

/-- A host that gives every block an address that is a multiple of 8. -/
def Host.aligned (h : Host) : Prop := ∀ i, h.place i % 8 = 0

/-- A host that places block number `i` of a run at `base + stride * i`. -/
def exampleHost (base stride : Nat) : Host :=
  { blocks := [], place := fun i => base + stride * i }

/-- The total size of the blocks a host has handed out. -/
def Host.bytes (h : Host) : Nat := (h.blocks.map Prod.snd).sum

/-- The memory the blocks of a host account for: the size of each block and one pointer
for it. -/
def Host.usage (h : Host) : Nat := (h.blocks.map fun b => b.2 + sizeof_pointer).sum

/-- The sum of the sizes requested by the calls made so far. -/
def ArenaRun.requested (st : ArenaRun) : Nat := (st.results.map fun r => r.1.bytes).sum

/-- The three ways a call proceeds from `st` to `st1`: it carves the request, after
`slop` bytes of padding, from the current block; it obtains a dedicated block; or it
obtains a new standard block and carves the request from its front. -/
inductive ArenaRun.Step (st : ArenaRun) (c : ArenaCall) (st1 : ArenaRun) : Prop
  | carve (slop : Nat) (hfit : slop + c.bytes ≤ st.arena.alloc_bytes_remaining_)
      (hres : st1.results = st.results ++ [(c, st.arena.alloc_ptr_ + slop)])
      (harena : st1.arena =
        { st.arena with
          alloc_ptr_ := st.arena.alloc_ptr_ + (slop + c.bytes),
          alloc_bytes_remaining_ := st.arena.alloc_bytes_remaining_ - (slop + c.bytes) })
      (hhost : st1.host = st.host)
  | dedicated (hn : c.bytes > 1024)
      (hres : st1.results = st.results ++ [(c, st.host.place st.host.blocks.length)])
      (harena : st1.arena =
        { st.arena with
          blocks_ := st.arena.blocks_ ++ [st.host.place st.host.blocks.length],
          memory_usage_ := uint64_t (st.arena.memory_usage_ + c.bytes + 8) })
      (hhost : st1.host =
        { st.host with
          blocks := st.host.blocks ++ [(st.host.place st.host.blocks.length, c.bytes)] })
  | shared (hn : c.bytes ≤ 1024)
      (hres : st1.results = st.results ++ [(c, st.host.place st.host.blocks.length)])
      (harena : st1.arena =
        { alloc_ptr_ := st.host.place st.host.blocks.length + c.bytes,
          alloc_bytes_remaining_ := 4096 - c.bytes,
          blocks_ := st.arena.blocks_ ++ [st.host.place st.host.blocks.length],
          memory_usage_ := uint64_t (st.arena.memory_usage_ + 4096 + 8) })
      (hhost : st1.host =
        { st.host with
          blocks := st.host.blocks ++ [(st.host.place st.host.blocks.length, 4096)] })

/-- The regions of an arena in use are well placed: every region returned lies inside a
block of the host, the regions returned are pairwise disjoint, and the unused rest of
the current block, when there is one, lies inside a block and is disjoint from every
region returned. -/
def ArenaRun.WellPlaced (st : ArenaRun) : Prop :=
  (∀ r ∈ st.results, ∃ b ∈ st.host.blocks, regionInside r.2 r.1.bytes b)
    ∧ (st.results.map regionOf).Pairwise regionsDisjoint
    ∧ (0 < st.arena.alloc_bytes_remaining_ →
        ∃ b ∈ st.host.blocks,
          regionInside st.arena.alloc_ptr_ st.arena.alloc_bytes_remaining_ b)
    ∧ (∀ r ∈ st.results, 0 < st.arena.alloc_bytes_remaining_ →
        regionsDisjoint (regionOf r) (st.arena.alloc_ptr_, st.arena.alloc_bytes_remaining_))

/-- The counter of an arena in use accounts for the blocks: it is the memory of the
blocks of the host on 64 bits, the arena owns exactly these blocks, and the sizes
requested so far and the unused rest of the current block fit in them. -/
def ArenaRun.Accounted (st : ArenaRun) : Prop :=
  st.arena.memory_usage_ = uint64_t st.host.usage
    ∧ st.arena.blocks_ = st.host.blocks.map Prod.fst
    ∧ st.requested + st.arena.alloc_bytes_remaining_ ≤ st.host.bytes

/-! ## The order of the entries of a MemTable

The definitions of this section are not part of the program: they state the order that
`MemTable::KeyComparator` induces on the entries written by `Add`. -/

/-- The lexicographic comparison of two byte strings, a proper prefix being smaller: the
difference of the first two bytes that differ, and `-1` or `1` when one string is a
proper prefix of the other. -/
def lexCompare : Bytes → Bytes → Int
  | [], [] => 0
  | [], _ :: _ => -1
  | _ :: _, [] => 1
  | a :: as, b :: bs => if a ≠ b then (a : Int) - (b : Int) else lexCompare as bs

/-- The comparison of two pairs of a user key and a sequence number: ascending user key
and, for equal user keys, descending sequence number. -/
def keyCmp (a b : Bytes × Nat) : Int :=
  let r := lexCompare a.1 b.1
  if r = 0 then
    if a.2 > b.2 then -1
    else if a.2 < b.2 then 1
    else 0
  else r

/-- The user key and the sequence number of an `Add`. -/
def AddOp.rank (op : AddOp) : Bytes × Nat := (op.key, op.s)

/-- An internal key with its length prefix, followed by `rest`:
`varint32(len(key) + 8) ++ key ++ fixed64((s << 8) | type) ++ rest`. -/
def lengthPrefixedKey (kLittleEndian : Bool) (key : Bytes) (s type : Nat) (rest : Bytes) :
    Bytes :=
  EncodeVarint32 (key.length + 8) ++ (key ++
    (EncodeFixed64 kLittleEndian (packTag s type) ++ rest))

/-- The entry that `Add` writes for an `Add` within the limits of the format. -/
def AddOp.entry (kLittleEndian : Bool) (op : AddOp) : Bytes :=
  lengthPrefixedKey kLittleEndian op.key op.s op.type
    (EncodeVarint32 op.value.length ++ op.value)

/-- An `Add` within the limits of the format: the lengths fit in 32 bits, the sequence
number in 56 bits, and the kind is `Value` or `Deletion`. -/
def AddOp.WellFormed (op : AddOp) : Prop :=
  op.key.length + 8 < 4294967296 ∧ op.value.length < 4294967296
    ∧ op.s < 72057594037927936 ∧ (op.type = kTypeValue ∨ op.type = kTypeDeletion)

/-- The insertion of `SkipList::Insert`, on the `Add`s instead of their entries. -/
def insertOp : List AddOp → AddOp → List AddOp
  | [], op => [op]
  | x :: xs, op =>
    if keyCmp x.rank op.rank < 0 then x :: insertOp xs op else op :: x :: xs

/-! ## LRU cache (`util/cache.cc`)

Handles live in a heap: a pointer to an `LRUHandle` is a natural number, `malloc` returns
the pointers `0, 1, 2, ...` in turn, and a freed handle leaves `none` in the heap. The
links `next_hash`, `next` and `prev` are represented by the position of a handle in the
chain or list that they form. Reading through a dangling pointer and a failed `assert`
make the embedded function return `none`. -/

/-- The fields of an `LRUHandle` other than its links; `key` is `key_data[0..key_length)`,
`value` and `deleter` stand for the pointers stored. -/
structure LRUHandle where
  value : Nat
  deleter : Nat
  charge : Nat
  key : Bytes
  in_cache : Bool
  refs : Nat
  hash : Nat
deriving DecidableEq, Repr

/-- The state of a `HandleTable`: `list_` is the array of buckets, each bucket being the
chain of handles from `list_[i]` along `next_hash`. -/
structure HandleTable where
  length_ : Nat
  elems_ : Nat
  list_ : List (List Nat)
deriving DecidableEq, Repr

/-- The loop of `HandleTable::FindPointer` on one chain: the number of `next_hash` links
followed before it stops, at a handle with the hash and key looked up or at the trailing
`NULL`. `read p` gives the fields `hash` and `key()` of the handle at `p`. -/
def HandleTable.FindPointer.loop (read : Nat → Option (Nat × Bytes)) (key : Bytes)
    (hash : Nat) : List Nat → Option Nat
  | [] => some 0
  | p :: rest =>
    match read p with
    | none => none
    | some (h, k) =>
      if h ≠ hash ∨ Slice.eq key k = false then
        (HandleTable.FindPointer.loop read key hash rest).map fun j => j + 1
      else some 0

/-- The method `HandleTable::FindPointer(key, hash)`: the slot found, as the index of its
bucket and its position in the chain of the bucket. -/
def HandleTable.FindPointer (read : Nat → Option (Nat × Bytes)) (t : HandleTable)
    (key : Bytes) (hash : Nat) : Option (Nat × Nat) :=
  let i := hash &&& uint32_t (t.length_ + 4294967296 - 1)
  if i < t.list_.length then
    (HandleTable.FindPointer.loop read key hash (t.list_.getD i [])).map fun j => (i, j)
  else none

/-- The pointer stored in a slot, `none` for `NULL`. -/
def HandleTable.slot (t : HandleTable) (ptr : Nat × Nat) : Option Nat :=
  (t.list_.getD ptr.1 [])[ptr.2]?

/-- The method `HandleTable::Lookup(key, hash)`. -/
def HandleTable.Lookup (read : Nat → Option (Nat × Bytes)) (t : HandleTable)
    (key : Bytes) (hash : Nat) : Option (Option Nat) :=
  (t.FindPointer read key hash).map t.slot

/-- The first loop of `HandleTable::Resize`, which doubles `new_length` in 32 bits while
it is less than `elems_`. From 4 the loop either stops within 30 rounds or reaches 0 and
never stops: `none` stands for the second case. -/
def HandleTable.Resize.grow (elems_ : Nat) : Nat → Nat → Option Nat
  | 0, _ => none
  | fuel + 1, new_length =>
    if new_length < elems_ then
      HandleTable.Resize.grow elems_ fuel (uint32_t (new_length * 2))
    else some new_length

/-- The second loop of `HandleTable::Resize`: each handle visited is put at the front of
its bucket in `new_list`. -/
def HandleTable.Resize.rehash (read : Nat → Option (Nat × Bytes)) (new_length : Nat) :
    List Nat → List (List Nat) → Option (List (List Nat))
  | [], new_list => some new_list
  | h :: rest, new_list =>
    match read h with
    | none => none
    | some (hash, _) =>
      let i := hash &&& uint32_t (new_length + 4294967296 - 1)
      HandleTable.Resize.rehash read new_length rest
        (new_list.set i (h :: new_list.getD i []))

/-- The method `HandleTable::Resize()`. -/
def HandleTable.Resize (read : Nat → Option (Nat × Bytes)) (t : HandleTable) :
    Option HandleTable :=
  match HandleTable.Resize.grow t.elems_ 32 4 with
  | none => none
  | some new_length =>
    let visited := (t.list_.take t.length_).flatten
    match HandleTable.Resize.rehash read new_length visited (List.replicate new_length []) with
    | none => none
    | some new_list =>
      let count := uint32_t visited.length
      if ¬ (t.elems_ = count) then none
      else some { length_ := new_length, elems_ := t.elems_, list_ := new_list }

/-- The constructor `HandleTable()`, which sets the fields to zero and calls `Resize`. -/
def HandleTable.new : HandleTable :=
  (HandleTable.Resize (fun _ => none) { length_ := 0, elems_ := 0, list_ := [] }).getD
    { length_ := 0, elems_ := 0, list_ := [] }

/-- The method `HandleTable::Insert(h)`: the table after the call and the pointer
returned. -/
def HandleTable.Insert (read : Nat → Option (Nat × Bytes)) (t : HandleTable) (h : Nat) :
    Option (HandleTable × Option Nat) :=
  match read h with
  | none => none
  | some (hash, key) =>
    match t.FindPointer read key hash with
    | none => none
    | some ptr =>
      let chain := t.list_.getD ptr.1 []
      let old := t.slot ptr
      match old with
      | some _ => some ({ t with list_ := t.list_.set ptr.1 (chain.set ptr.2 h) }, old)
      | none =>
        let t1 := { t with list_ := t.list_.set ptr.1 (chain ++ [h]),
                           elems_ := uint32_t (t.elems_ + 1) }
        if t1.elems_ > t1.length_ then (t1.Resize read).map fun t2 => (t2, old)
        else some (t1, old)

/-- The method `HandleTable::Remove(key, hash)`: the table after the call and the pointer
returned. -/
def HandleTable.Remove (read : Nat → Option (Nat × Bytes)) (t : HandleTable) (key : Bytes)
    (hash : Nat) : Option (HandleTable × Option Nat) :=
  match t.FindPointer read key hash with
  | none => none
  | some ptr =>
    let chain := t.list_.getD ptr.1 []
    let result := t.slot ptr
    match result with
    | some _ =>
      some ({ t with list_ := t.list_.set ptr.1 (chain.eraseIdx ptr.2),
                     elems_ := uint32_t (t.elems_ + 4294967296 - 1) }, result)
    | none => some (t, result)

/-- The state of an `LRUCache`. The circular lists with the dummy heads `lru_` and
`in_use_` are represented by the lists of their entries, from `head.next` (the oldest
entry) to `head.prev` (the newest). `heap` holds the handles the cache has allocated,
`allocated` is their number, and `deleted` records the calls of deleters, oldest first, as
the deleter, the key and the value passed. The mutex is not modelled: the methods are
embedded as they run under it. -/
structure LRUCache where
  capacity_ : Nat
  usage_ : Nat
  lru_ : List Nat
  in_use_ : List Nat
  table_ : HandleTable
  heap : Nat → Option LRUHandle
  allocated : Nat
  deleted : List (Nat × Bytes × Nat)

/-- The two list heads of an `LRUCache`. -/
inductive LRUList
  | lru_
  | in_use_
deriving DecidableEq, Repr

/-- The constructor `LRUCache()` followed by `SetCapacity(capacity)`, as
`ShardedLRUCache` builds its shards. -/
def LRUCache.new (capacity : Nat) : LRUCache :=
  { capacity_ := capacity, usage_ := 0, lru_ := [], in_use_ := [], table_ := HandleTable.new,
    heap := fun _ => none, allocated := 0, deleted := [] }

/-- The fields `hash` and `key()` of the handle at `p`, as the table reads them. -/
def LRUCache.read (c : LRUCache) (p : Nat) : Option (Nat × Bytes) :=
  (c.heap p).map fun h => (h.hash, h.key)

/-- The method `LRUCache::LRU_Remove(e)`: `e` is unlinked from the list it is on; `none`
when it is on neither list. -/
def LRUCache.LRU_Remove (c : LRUCache) (e : Nat) : Option LRUCache :=
  if e ∈ c.lru_ then some { c with lru_ := c.lru_.erase e }
  else if e ∈ c.in_use_ then some { c with in_use_ := c.in_use_.erase e }
  else none

/-- The method `LRUCache::LRU_Append(list, e)`: `e` becomes the newest entry of `list`. -/
def LRUCache.LRU_Append (c : LRUCache) (list : LRUList) (e : Nat) : LRUCache :=
  match list with
  | LRUList.lru_ => { c with lru_ := c.lru_ ++ [e] }
  | LRUList.in_use_ => { c with in_use_ := c.in_use_ ++ [e] }

/-- The method `LRUCache::Ref(e)`. -/
def LRUCache.Ref (c : LRUCache) (e : Nat) : Option LRUCache :=
  match c.heap e with
  | none => none
  | some h =>
    let moved :=
      if h.refs = 1 ∧ h.in_cache = true then
        (c.LRU_Remove e).map fun c1 => c1.LRU_Append LRUList.in_use_ e
      else some c
    moved.map fun c2 =>
      { c2 with heap := Function.update c2.heap e (some { h with refs := uint32_t (h.refs + 1) }) }

/-- The method `LRUCache::Unref(e)`. -/
def LRUCache.Unref (c : LRUCache) (e : Nat) : Option LRUCache :=
  match c.heap e with
  | none => none
  | some h =>
    if ¬ (h.refs > 0) then none
    else
      let h1 := { h with refs := h.refs - 1 }
      if h1.refs = 0 then
        if ¬ (h1.in_cache = false) then none
        else
          some { c with
            heap := Function.update c.heap e none,
            deleted := c.deleted ++ [(h1.deleter, h1.key, h1.value)] }
      else
        let c1 := { c with heap := Function.update c.heap e (some h1) }
        if h1.in_cache = true ∧ h1.refs = 1 then
          (c1.LRU_Remove e).map fun c2 => c2.LRU_Append LRUList.lru_ e
        else some c1

/-- The method `LRUCache::FinishErase(e)`, `e` being `none` for `NULL`: the cache after
the call and the boolean returned. -/
def LRUCache.FinishErase (c : LRUCache) (e : Option Nat) : Option (LRUCache × Bool) :=
  match e with
  | none => some (c, false)
  | some p =>
    match c.heap p with
    | none => none
    | some h =>
      if ¬ (h.in_cache = true) then none
      else
        match c.LRU_Remove p with
        | none => none
        | some c1 =>
          let c2 := { c1 with
            heap := Function.update c1.heap p (some { h with in_cache := false }),
            usage_ := uint64_t (c1.usage_ + (18446744073709551616 - uint64_t h.charge)) }
          (c2.Unref p).map fun c3 => (c3, true)

/-- One round of the loops of `Insert` and `Prune`, which erase the oldest entry of the
`lru_` list; `none` when an assertion fails. -/
def LRUCache.eraseOldest (c : LRUCache) : Option LRUCache :=
  match c.lru_ with
  | [] => none
  | old :: _ =>
    match c.heap old with
    | none => none
    | some h =>
      if ¬ (h.refs = 1) then none
      else
        match c.table_.Remove c.read h.key h.hash with
        | none => none
        | some (t, r) =>
          match { c with table_ := t }.FinishErase r with
          | none => none
          | some (c1, erased) => if ¬ (erased = true) then none else some c1

/-- The loop of `LRUCache::Insert` (lines 343 to 350). Each round takes an entry out of
the table or fails an assertion, so the number of entries of the table bounds the number
of rounds; `fuel` is given one more than that. -/
def LRUCache.Insert.evict : Nat → LRUCache → Option LRUCache
  | 0, _ => none
  | fuel + 1, c =>
    if c.usage_ > c.capacity_ ∧ c.lru_ ≠ [] then
      match c.eraseOldest with
      | none => none
      | some c1 => LRUCache.Insert.evict fuel c1
    else some c

/-- The statement `FinishErase(table_.Insert(e))` of `LRUCache::Insert` (line 336). -/
def LRUCache.Insert.link (c : LRUCache) (e : Nat) : Option LRUCache :=
  match c.table_.Insert c.read e with
  | none => none
  | some (t, old) => ({ c with table_ := t }.FinishErase old).map Prod.fst

/-- The method `LRUCache::Insert(key, hash, value, charge, deleter)`: the cache after the
call and the handle returned. -/
def LRUCache.Insert (c : LRUCache) (key : Bytes) (hash value charge deleter : Nat) :
    Option (LRUCache × Nat) :=
  let e := c.allocated
  let h : LRUHandle :=
    { value := value, deleter := deleter, charge := charge, key := key, hash := hash,
      in_cache := false, refs := 1 }
  let c1 := { c with heap := Function.update c.heap e (some h), allocated := c.allocated + 1 }
  let cached :=
    if c1.capacity_ > 0 then
      let h2 := { h with refs := uint32_t (h.refs + 1), in_cache := true }
      let c2 := { c1 with heap := Function.update c1.heap e (some h2) }
      let c3 := c2.LRU_Append LRUList.in_use_ e
      let c4 := { c3 with usage_ := uint64_t (c3.usage_ + charge) }
      LRUCache.Insert.link c4 e
    else some c1
  match cached with
  | none => none
  | some c5 =>
    (LRUCache.Insert.evict (c5.table_.list_.flatten.length + 1) c5).map fun c6 => (c6, e)

/-- The method `LRUCache::Lookup(key, hash)`: the cache after the call and the handle
returned, `none` for `NULL`. -/
def LRUCache.Lookup (c : LRUCache) (key : Bytes) (hash : Nat) :
    Option (LRUCache × Option Nat) :=
  match c.table_.Lookup c.read key hash with
  | none => none
  | some none => some (c, none)
  | some (some e) => (c.Ref e).map fun c1 => (c1, some e)

/-- The method `LRUCache::Release(handle)`. -/
def LRUCache.Release (c : LRUCache) (handle : Nat) : Option LRUCache := c.Unref handle

/-- The method `LRUCache::Erase(key, hash)`. -/
def LRUCache.Erase (c : LRUCache) (key : Bytes) (hash : Nat) : Option LRUCache :=
  match c.table_.Remove c.read key hash with
  | none => none
  | some (t, r) => ({ c with table_ := t }.FinishErase r).map Prod.fst

/-- The loop of `LRUCache::Prune`, with `fuel` as in `Insert.evict`. -/
def LRUCache.Prune.loop : Nat → LRUCache → Option LRUCache
  | 0, _ => none
  | fuel + 1, c =>
    if c.lru_ ≠ [] then
      match c.eraseOldest with
      | none => none
      | some c1 => LRUCache.Prune.loop fuel c1
    else some c

/-- The method `LRUCache::Prune()`. -/
def LRUCache.Prune (c : LRUCache) : Option LRUCache :=
  LRUCache.Prune.loop (c.table_.list_.flatten.length + 1) c

/-- An operation of a client on an `LRUCache`. -/
inductive CacheOp
  | Insert (key : Bytes) (hash value charge deleter : Nat)
  | Lookup (key : Bytes) (hash : Nat)
  | Release (handle : Nat)
  | Erase (key : Bytes) (hash : Nat)
  | Prune
deriving DecidableEq, Repr

/-- A cache in use: the cache and the handles its clients hold, that is the handles that
`Insert` and `Lookup` returned and that were not released since, with multiplicity. -/
structure CacheRun where
  cache : LRUCache
  held : List Nat

/-- A fresh cache of the given capacity. -/
def CacheRun.fresh (capacity : Nat) : CacheRun := { cache := LRUCache.new capacity, held := [] }

/-- One operation on a cache in use. -/
def CacheRun.step (st : CacheRun) (op : CacheOp) : Option CacheRun :=
  match op with
  | CacheOp.Insert key hash value charge deleter =>
    (st.cache.Insert key hash value charge deleter).map fun r =>
      { cache := r.1, held := st.held ++ [r.2] }
  | CacheOp.Lookup key hash =>
    (st.cache.Lookup key hash).map fun r =>
      { cache := r.1,
        held := match r.2 with
          | none => st.held
          | some e => st.held ++ [e] }
  | CacheOp.Release handle =>
    (st.cache.Release handle).map fun c => { cache := c, held := st.held.erase handle }
  | CacheOp.Erase key hash =>
    (st.cache.Erase key hash).map fun c => { cache := c, held := st.held }
  | CacheOp.Prune =>
    st.cache.Prune.map fun c => { cache := c, held := st.held }

/-- A sequence of operations on a cache in use. -/
def CacheRun.run (st : CacheRun) : List CacheOp → Option CacheRun
  | [] => some st
  | op :: rest =>
    match st.step op with
    | none => none
    | some st1 => CacheRun.run st1 rest

/-- The clients hold the handle that the operation releases, if it is a `Release`. -/
def CacheRun.holds (st : CacheRun) : CacheOp → Bool
  | CacheOp.Release handle => decide (handle ∈ st.held)
  | _ => true

/-- The clients release only handles they hold: every `Release` of the sequence is given a
handle that is held when it is called. -/
def CacheRun.disciplined (st : CacheRun) : List CacheOp → Bool
  | [] => true
  | op :: rest =>
    st.holds op && match st.step op with
      | none => true
      | some st1 => CacheRun.disciplined st1 rest

/-- The cache of capacity 1 after `Insert("k", 0, 0, 1, 0)` and `j` calls of
`Lookup("k", 0)` with no `Release`: the one handle is on the `in_use_` list, and its
count of references is `2 + j` in 32 bits. -/
def CacheRun.afterLookups (j : Nat) : CacheRun :=
  { cache :=
      { capacity_ := 1, usage_ := 1, lru_ := [], in_use_ := [0],
        table_ := { length_ := 4, elems_ := 1, list_ := [[0], [], [], []] },
        heap := Function.update (fun _ => none) 0
          (some { value := 0, deleter := 0, charge := 1, key := [107], in_cache := true,
                  refs := uint32_t (2 + j), hash := 0 }),
        allocated := 1, deleted := [] },
    held := List.replicate (j + 1) 0 }

/-! ### Invariants of the cache

The definitions of this section are not part of the program: they state the
representation invariants of `HandleTable` and `LRUCache`. -/

/-- The handles chained in the buckets of a table. -/
def HandleTable.entries (t : HandleTable) : List Nat := t.list_.flatten

/-- A well-formed table: the array has `length_` buckets, `elems_` counts the handles
chained and is at most `length_`, every handle chained is live and sits in the bucket of
its hash, no handle is chained twice and no two handles chained have the same hash and
key. -/
structure HandleTable.WellFormed (read : Nat → Option (Nat × Bytes)) (t : HandleTable) :
    Prop where
  length_eq : t.list_.length = t.length_
  length_pos : 1 ≤ t.length_
  length_lt : t.length_ < 4294967296
  elems_eq : t.elems_ = t.entries.length
  elems_le : t.elems_ ≤ t.length_
  placed : ∀ i, ∀ p ∈ t.list_.getD i [],
    ∃ h k, read p = some (h, k) ∧ h &&& (t.length_ - 1) = i
  nodup : t.entries.Nodup
  inj : ∀ p ∈ t.entries, ∀ q ∈ t.entries, read p = read q → p = q

/-- The invariant that ties the table of a cache to its handles: the table is well formed
and chains exactly the live handles that are in the cache. -/
structure LRUCache.TableInv (c : LRUCache) : Prop where
  wf : c.table_.WellFormed c.read
  mem_iff : ∀ p, p ∈ c.table_.entries ↔ ∃ h, c.heap p = some h ∧ h.in_cache = true

/-- The invariant of a `HandleTable`: it is well formed, and `length_` is a power of two
that is at least 4. -/
def HandleTable.Invariant (read : Nat → Option (Nat × Bytes)) (t : HandleTable) : Prop :=
  t.WellFormed read ∧ (∃ b, t.length_ = 2 ^ b) ∧ 4 ≤ t.length_

/-- The charge of the handle at `p` when it is live with `in_cache == true`, and 0
otherwise. -/
def LRUCache.chargeAt (c : LRUCache) (p : Nat) : Nat :=
  match c.heap p with
  | some h => if h.in_cache = true then h.charge else 0
  | none => 0

/-- The sum of the charges of the entries with `in_cache == true`, over the handles that
the cache has allocated. -/
def LRUCache.cachedCharge (c : LRUCache) : Nat :=
  ((List.range c.allocated).map c.chargeAt).sum

/-- The cache within `LRUCache::Insert` before line 336, when `capacity_ > 0`: the new
handle is allocated with the references of the caller and of the cache, it is the newest
entry of the `in_use_` list, and its charge is added to `usage_`. -/
def LRUCache.Insert.entered (c : LRUCache) (key : Bytes) (hash value charge deleter : Nat) :
    LRUCache :=
  { c with
    heap := Function.update c.heap c.allocated
      (some { value := value, deleter := deleter, charge := charge, key := key, hash := hash,
              in_cache := true, refs := 2 }),
    allocated := c.allocated + 1,
    in_use_ := c.in_use_ ++ [c.allocated],
    usage_ := uint64_t (c.usage_ + charge) }

/-- The cache within `LRUCache::Insert` before the loop of line 343, when
`capacity_ == 0`: the new handle is allocated with the reference of the caller, and is not
cached. -/
def LRUCache.Insert.uncached (c : LRUCache) (key : Bytes) (hash value charge deleter : Nat) :
    LRUCache :=
  { c with
    heap := Function.update c.heap c.allocated
      (some { value := value, deleter := deleter, charge := charge, key := key, hash := hash,
              in_cache := false, refs := 1 }),
    allocated := c.allocated + 1 }

/-- The invariant of the lists of a cache that holds after every call that returns, whatever
the clients do: pointers not yet allocated are not live, no list holds a handle twice, the
entries of the `lru_` list are live and in the cache with one reference, the entries of
the `in_use_` list are live and in the cache, and a live handle in the cache is on exactly
one of the two lists. -/
structure LRUCache.Linked (c : LRUCache) : Prop where
  fresh : ∀ p, c.allocated ≤ p → c.heap p = none
  lru_nodup : c.lru_.Nodup
  in_use_nodup : c.in_use_.Nodup
  lru_mem : ∀ p ∈ c.lru_, ∃ h, c.heap p = some h ∧ h.in_cache = true ∧ h.refs = 1
  in_use_mem : ∀ p ∈ c.in_use_, ∃ h, c.heap p = some h ∧ h.in_cache = true
  listed : ∀ p h, c.heap p = some h → h.in_cache = true →
    (p ∈ c.lru_ ∧ p ∉ c.in_use_) ∨ (p ∉ c.lru_ ∧ p ∈ c.in_use_)

/-- The invariant of a cache that holds after every call that returns, whatever the
clients do: the invariant of the lists, the invariant of the table, whose length is a
power of two that is at least 4, and `usage_` is the sum of the charges of the entries in
the cache, in 64 bits. -/
structure LRUCache.Sound (c : LRUCache) : Prop where
  linked : c.Linked
  table : c.TableInv
  sized : (∃ b, c.table_.length_ = 2 ^ b) ∧ 4 ≤ c.table_.length_
  usage : c.usage_ = uint64_t c.cachedCharge

/-- The invariant that ties the references the clients hold to the counts of the cache.
It holds after every call that returns, whatever the clients do: a handle that the clients
hold was allocated, the count `refs` of a live handle is, in 32 bits, the number of
references that the clients hold to it, plus one if it is in the cache, and the clients
hold every entry of the `in_use_` list. -/
structure CacheRun.Counted (st : CacheRun) : Prop where
  held_lt : ∀ p ∈ st.held, p < st.cache.allocated
  refs_mod : ∀ p h, st.cache.heap p = some h →
    h.refs = uint32_t ((if h.in_cache = true then 1 else 0) + st.held.count p)
  in_use_held : ∀ p ∈ st.cache.in_use_, p ∈ st.held

/-! ### Clients of the cache

The definitions of this section are not part of the program: they state the conditions on
the clients under which the calls return, and two sequences of calls that fill a table. -/

/-- The table of the cache takes a handle with this hash and key: it chains fewer than
`2^31` handles, or it chains a handle with this hash and key, which the new one replaces. -/
def LRUCache.hasRoom (c : LRUCache) (key : Bytes) (hash : Nat) : Bool :=
  decide (c.table_.elems_ < 2147483648) ||
    c.table_.entries.any fun p => decide (c.read p = some (hash, key))

/-- The table of the cache takes the entry that the operation adds, if it is an `Insert`
into a cache of capacity above 0. -/
def CacheRun.roomFor (st : CacheRun) : CacheOp → Bool
  | CacheOp.Insert key hash _ _ _ =>
    decide (st.cache.capacity_ = 0) || st.cache.hasRoom key hash
  | _ => true

/-- The table takes every entry that the operations of the sequence add. -/
def CacheRun.roomy (st : CacheRun) : List CacheOp → Bool
  | [] => true
  | op :: rest =>
    st.roomFor op && match st.step op with
      | none => true
      | some st1 => CacheRun.roomy st1 rest

/-- The clients hold fewer than `2^32 - 1` references to any one handle, so that its count
of references, which has one more for the cache, is below `2^32`. -/
def CacheRun.fits (st : CacheRun) : Bool :=
  st.held.all fun p => decide (st.held.count p < 4294967295)

/-- No count of references wraps along the sequence of operations: before the first
operation and after each one, the clients hold fewer than `2^32 - 1` references to any one
handle. -/
def CacheRun.refsFit (st : CacheRun) : List CacheOp → Bool
  | [] => st.fits
  | op :: rest =>
    st.fits && match st.step op with
      | none => true
      | some st1 => CacheRun.refsFit st1 rest

/-- The table after `Insert` of the handles `0, 1, ..., n - 1` in turn into a new table;
`none` when one of the calls does not return. -/
def HandleTable.filled (read : Nat → Option (Nat × Bytes)) : Nat → Option HandleTable
  | 0 => some HandleTable.new
  | n + 1 => (HandleTable.filled read n).bind fun t => (t.Insert read n).map Prod.fst

/-- The operations of a client that inserts `n` entries of charge 0 with the empty key and
the hashes `0, 1, ..., n - 1`, and releases none of the handles. -/
def CacheRun.fill (n : Nat) : List CacheOp :=
  (List.range n).map fun i => CacheOp.Insert [] i 0 0 0

namespace log

/-! ## Lemmas on the sink -/

theorem WritableFile.answer_of_allSucceed {f : WritableFile} (h : f.allSucceed) :
    f.answer = Status.OK := by
  unfold WritableFile.answer
  cases hs : f.script with
  | nil => rfl
  | cons a l => exact h a (by simp [hs])

theorem WritableFile.allSucceed_tail {f : WritableFile} (h : f.allSucceed) (l : List SinkOp) :
    WritableFile.allSucceed { log := l, script := f.script.tail } := by
  intro s hs
  exact h s (List.mem_of_mem_tail hs)

theorem WritableFile.Append_log (f : WritableFile) (d : Bytes) :
    (f.Append d).1.log = f.log ++ [SinkOp.Append d f.answer] := rfl

theorem WritableFile.Append_of_allSucceed {f : WritableFile} (h : f.allSucceed) (d : Bytes) :
    (f.Append d).2 = Status.OK ∧ (f.Append d).1.allSucceed ∧
      (f.Append d).1.log = f.log ++ [SinkOp.Append d Status.OK] := by
  refine ⟨WritableFile.answer_of_allSucceed h, WritableFile.allSucceed_tail h _, ?_⟩
  rw [WritableFile.Append_log, WritableFile.answer_of_allSucceed h]

theorem WritableFile.Flush_of_allSucceed {f : WritableFile} (h : f.allSucceed) :
    f.Flush.2 = Status.OK ∧ f.Flush.1.allSucceed ∧
      f.Flush.1.log = f.log ++ [SinkOp.Flush Status.OK] := by
  refine ⟨WritableFile.answer_of_allSucceed h, WritableFile.allSucceed_tail h _, ?_⟩
  show f.log ++ [SinkOp.Flush f.answer] = _
  rw [WritableFile.answer_of_allSucceed h]

/-! ## Lemmas on one pass of the loop -/

theorem Writer.EmitPhysicalRecord_isSome_iff (crc : Crc32c) (kLittleEndian : Bool) (w : Writer)
    (t : RecordType) (ptr : Bytes) (n : Nat) :
    (w.EmitPhysicalRecord crc kLittleEndian t ptr n).isSome ↔
      n ≤ 0xffff ∧ w.block_offset_ + kHeaderSize + n ≤ kBlockSize := by
  unfold Writer.EmitPhysicalRecord
  split_ifs <;> simp_all

theorem Writer.EmitPhysicalRecord_ok (crc : Crc32c) (kLittleEndian : Bool) (w : Writer)
    (t : RecordType) (ptr : Bytes) (n : Nat) (hs : w.dest_.allSucceed)
    (hn : w.block_offset_ + kHeaderSize + n ≤ kBlockSize) :
    ∃ w2, w.EmitPhysicalRecord crc kLittleEndian t ptr n = some (w2, Status.OK) ∧
      w2.block_offset_ = w.block_offset_ + kHeaderSize + n ∧
      w2.type_crc_ = w.type_crc_ ∧ w2.dest_.allSucceed ∧
      w2.dest_.log = w.dest_.log ++
        recordOps (header crc kLittleEndian w.type_crc_ t ptr n) (ptr.take n) := by
  have h1 : n ≤ 0xffff := by simp only [kBlockSize, kHeaderSize] at hn; omega
  obtain ⟨a1, a2, a3⟩ := WritableFile.Append_of_allSucceed hs
    (header crc kLittleEndian w.type_crc_ t ptr n)
  obtain ⟨b1, b2, b3⟩ := WritableFile.Append_of_allSucceed a2 (ptr.take n)
  obtain ⟨c1, c2, c3⟩ := WritableFile.Flush_of_allSucceed b2
  unfold Writer.EmitPhysicalRecord
  simp only [h1, hn, not_true_eq_false, if_false, a1, b1, Status.ok, if_true]
  refine ⟨{ w with
      dest_ := ((w.dest_.Append (header crc kLittleEndian w.type_crc_ t ptr n)).1.Append
        (ptr.take n)).1.Flush.1,
      block_offset_ := w.block_offset_ + (kHeaderSize + n) }, ?_, ?_, rfl, c2, ?_⟩
  · rw [c1]
  · simp only [Nat.add_assoc]
  · simp only [c3, b3, a3, recordOps, List.append_assoc, List.singleton_append,
      List.cons_append, List.nil_append]

theorem Writer.switchBlock_ok (w : Writer) (hs : w.dest_.allSucceed)
    (hoff : w.block_offset_ ≤ kBlockSize) :
    ∃ w1, w.switchBlock = some w1 ∧ w1.block_offset_ = startOffset w.block_offset_ ∧
      w1.type_crc_ = w.type_crc_ ∧ w1.dest_.allSucceed ∧
      w1.dest_.log = w.dest_.log ++ trailerOps w.block_offset_ := by
  unfold Writer.switchBlock startOffset trailerOps
  simp only [kBlockSize, kHeaderSize] at *
  have h0 : ((32768 : Nat) : Int) - (w.block_offset_ : Int) ≥ 0 := by omega
  simp only [h0, not_true_eq_false, if_false]
  by_cases h7 : 32768 - w.block_offset_ < 4 + 2 + 1
  · have h7i : ((32768 : Nat) : Int) - (w.block_offset_ : Int) < ((4 + 2 + 1 : Nat) : Int) := by
      omega
    simp only [h7i, h7, if_true, true_and]
    by_cases hp : 0 < 32768 - w.block_offset_
    · have hpi : ((32768 : Nat) : Int) - (w.block_offset_ : Int) > 0 := by omega
      have ht : (((32768 : Nat) : Int) - (w.block_offset_ : Int)).toNat
          = 32768 - w.block_offset_ := by omega
      obtain ⟨-, a2, a3⟩ := WritableFile.Append_of_allSucceed hs
        ((List.replicate 6 0).take (32768 - w.block_offset_))
      simp only [hpi, hp, if_true, ht]
      exact ⟨_, rfl, rfl, rfl, a2, a3⟩
    · have hpi : ¬ (((32768 : Nat) : Int) - (w.block_offset_ : Int) > 0) := by omega
      simp only [hpi, hp, if_false]
      exact ⟨_, rfl, rfl, rfl, hs, by simp⟩
  · have h7i : ¬ (((32768 : Nat) : Int) - (w.block_offset_ : Int) < ((4 + 2 + 1 : Nat) : Int)) := by
      omega
    simp only [h7i, h7, if_false, false_and]
    exact ⟨_, rfl, rfl, rfl, hs, by simp⟩

theorem header_take (crc : Crc32c) (kLittleEndian : Bool) (tc : List Nat) (t : RecordType)
    (ptr : Bytes) (n : Nat) :
    header crc kLittleEndian tc t (ptr.take n) n = header crc kLittleEndian tc t ptr n := by
  unfold header
  simp only [List.take_take, Nat.min_self]

theorem startOffset_le (off : Nat) (hoff : off ≤ kBlockSize) :
    startOffset off + kHeaderSize ≤ kBlockSize := by
  unfold startOffset
  simp only [kBlockSize, kHeaderSize] at *
  split_ifs <;> omega

theorem Writer.AddRecord.body_ok (crc : Crc32c) (kLittleEndian : Bool) (w : Writer)
    (ptr : Bytes) (left : Nat) (begin : Bool) (hs : w.dest_.allSucceed)
    (hoff : w.block_offset_ ≤ kBlockSize) :
    ∃ w2, Writer.AddRecord.body crc kLittleEndian w ptr left begin =
        some (w2, Status.OK,
          ptr.drop (min left (kBlockSize - startOffset w.block_offset_ - kHeaderSize)),
          left - min left (kBlockSize - startOffset w.block_offset_ - kHeaderSize)) ∧
      w2.block_offset_ = startOffset w.block_offset_ + kHeaderSize +
        min left (kBlockSize - startOffset w.block_offset_ - kHeaderSize) ∧
      w2.type_crc_ = w.type_crc_ ∧ w2.dest_.allSucceed ∧
      w2.dest_.log = w.dest_.log ++ (trailerOps w.block_offset_ ++
        recordOps (header crc kLittleEndian w.type_crc_
          (recordTypeOf begin
            (decide (left = min left (kBlockSize - startOffset w.block_offset_ - kHeaderSize))))
          ptr (min left (kBlockSize - startOffset w.block_offset_ - kHeaderSize)))
          (ptr.take (min left (kBlockSize - startOffset w.block_offset_ - kHeaderSize)))) := by
  obtain ⟨w1, e1, o1, t1, s1, l1⟩ := Writer.switchBlock_ok w hs hoff
  have hle := startOffset_le w.block_offset_ hoff
  have hmin : (if left < kBlockSize - w1.block_offset_ - kHeaderSize then left
      else kBlockSize - w1.block_offset_ - kHeaderSize)
      = min left (kBlockSize - startOffset w.block_offset_ - kHeaderSize) := by
    rw [o1]; split_ifs <;> omega
  have hfit : w1.block_offset_ + kHeaderSize +
      min left (kBlockSize - startOffset w.block_offset_ - kHeaderSize) ≤ kBlockSize := by
    rw [o1]; omega
  obtain ⟨w2, e2, o2, t2, s2, l2⟩ := Writer.EmitPhysicalRecord_ok crc kLittleEndian w1
    (recordTypeOf begin
      (decide (left = min left (kBlockSize - startOffset w.block_offset_ - kHeaderSize))))
    ptr _ s1 hfit
  have ha : (kBlockSize : Int) - (w1.block_offset_ : Int) - (kHeaderSize : Int) ≥ 0 := by
    rw [o1]; omega
  refine ⟨w2, ?_, ?_, ?_, s2, ?_⟩
  · unfold Writer.AddRecord.body Writer.AddRecord.fragment
    simp only [e1, ha, not_true_eq_false, if_false, hmin, e2]
  · rw [o2, o1]
  · rw [t2, t1]
  · rw [l2, l1, t1, List.append_assoc]

theorem Writer.AddRecord.loop_eq (crc : Crc32c) (kLittleEndian : Bool) (w : Writer)
    (ptr : Bytes) (left : Nat) (begin : Bool) :
    Writer.AddRecord.loop crc kLittleEndian w ptr left begin =
      match Writer.AddRecord.body crc kLittleEndian w ptr left begin with
      | none => none
      | some (w2, s, ptr2, left2) =>
        if s.ok ∧ left2 > 0 then Writer.AddRecord.loop crc kLittleEndian w2 ptr2 left2 false
        else some (w2, s) := by
  rw [Writer.AddRecord.loop]
  split <;> rename_i h <;> simp only [h]

/-- On a sink that succeeds, the loop of `AddRecord` returns OK and the operations it
issues form a `FragmentRun`. -/
theorem Writer.AddRecord.loop_run (crc : Crc32c) (kLittleEndian : Bool) (m : Nat) :
    ∀ (w : Writer) (ptr : Bytes) (begin : Bool),
      2 * ptr.length + (if w.block_offset_ = kBlockSize - kHeaderSize then 1 else 0) = m →
      w.dest_.allSucceed → w.block_offset_ ≤ kBlockSize →
      ∃ w2 ops, Writer.AddRecord.loop crc kLittleEndian w ptr ptr.length begin
          = some (w2, Status.OK) ∧
        w2.dest_.log = w.dest_.log ++ ops ∧ w2.dest_.allSucceed ∧
        w2.type_crc_ = w.type_crc_ ∧
        FragmentRun (fun t p => header crc kLittleEndian w.type_crc_ t p p.length)
          w.block_offset_ begin ptr ops w2.block_offset_ := by
  induction m using Nat.strong_induction_on with
  | _ m ih =>
    intro w ptr begin hm hs hoff
    obtain ⟨w2, e2, o2, t2, s2, l2⟩ :=
      Writer.AddRecord.body_ok crc kLittleEndian w ptr ptr.length begin hs hoff
    have hle := startOffset_le w.block_offset_ hoff
    rw [Writer.AddRecord.loop_eq, e2]
    simp only [Status.ok, true_and]
    by_cases hfit : ptr.length ≤ kBlockSize - startOffset w.block_offset_ - kHeaderSize
    · have hmin : min ptr.length (kBlockSize - startOffset w.block_offset_ - kHeaderSize)
          = ptr.length := by omega
      rw [hmin] at o2 l2 ⊢
      simp only [Nat.sub_self, gt_iff_lt, Nat.lt_irrefl, if_false]
      refine ⟨w2, _, rfl, l2, s2, t2, ?_⟩
      simp only [decide_True, List.take_length]
      rw [o2]
      have := @FragmentRun.last (fun t p => header crc kLittleEndian w.type_crc_ t p p.length)
        w.block_offset_ begin ptr hoff hfit
      simpa using this
    · have hmin : min ptr.length (kBlockSize - startOffset w.block_offset_ - kHeaderSize)
          = kBlockSize - startOffset w.block_offset_ - kHeaderSize := by omega
      rw [hmin] at o2 l2 ⊢
      have hpos : ptr.length - (kBlockSize - startOffset w.block_offset_ - kHeaderSize) > 0 := by
        omega
      simp only [hpos, if_true]
      have ho2 : w2.block_offset_ = kBlockSize := by omega
      have hlen : (ptr.drop (kBlockSize - startOffset w.block_offset_ - kHeaderSize)).length
          = ptr.length - (kBlockSize - startOffset w.block_offset_ - kHeaderSize) := by
        simp
      have hdec : 2 * (ptr.drop (kBlockSize - startOffset w.block_offset_ - kHeaderSize)).length
          + (if w2.block_offset_ = kBlockSize - kHeaderSize then 1 else 0) < m := by
        rw [hlen, ho2, ← hm]
        unfold startOffset at hpos ⊢
        simp only [kBlockSize, kHeaderSize] at *
        split_ifs at * <;> omega
      obtain ⟨w3, ops, e3, l3, s3, t3, r3⟩ := ih _ hdec w2 _ false rfl s2 (by omega)
      rw [hlen] at e3
      have hne : ptr.length ≠ kBlockSize - startOffset w.block_offset_ - kHeaderSize := by
        omega
      have hl : (List.take (kBlockSize - startOffset w.block_offset_ - kHeaderSize) ptr).length
          = kBlockSize - startOffset w.block_offset_ - kHeaderSize := by
        rw [List.length_take]; omega
      refine ⟨w3, (trailerOps w.block_offset_ ++
        recordOps (header crc kLittleEndian w.type_crc_ (recordTypeOf begin false)
          (ptr.take (kBlockSize - startOffset w.block_offset_ - kHeaderSize))
          (ptr.take (kBlockSize - startOffset w.block_offset_ - kHeaderSize)).length)
          (ptr.take (kBlockSize - startOffset w.block_offset_ - kHeaderSize))) ++ ops,
        e3, ?_, s3, by rw [t3, t2], ?_⟩
      · rw [l3, l2, List.append_assoc]
        simp only [hne, decide_False, hl, header_take]
      · rw [t2, ho2] at r3
        have := @FragmentRun.more
          (fun t p => header crc kLittleEndian w.type_crc_ t p p.length)
          w.block_offset_ begin ptr ops w3.block_offset_ hoff (by omega) r3
        simpa using this

/-! ## Lemmas that hold whatever the sink answers -/

theorem Writer.switchBlock_spec (w : Writer) (hoff : w.block_offset_ ≤ kBlockSize) :
    ∃ w1, w.switchBlock = some w1 ∧ w1.block_offset_ = startOffset w.block_offset_ ∧
      w1.type_crc_ = w.type_crc_ ∧
      w1.dest_.log = w.dest_.log ++
        (if kBlockSize - w.block_offset_ < kHeaderSize ∧ 0 < kBlockSize - w.block_offset_ then
          [SinkOp.Append (List.replicate (kBlockSize - w.block_offset_) 0) w.dest_.answer]
        else []) := by
  unfold Writer.switchBlock startOffset
  simp only [kBlockSize, kHeaderSize] at *
  have h0 : ((32768 : Nat) : Int) - (w.block_offset_ : Int) ≥ 0 := by omega
  simp only [h0, not_true_eq_false, if_false]
  by_cases h7 : 32768 - w.block_offset_ < 4 + 2 + 1
  · have h7i : ((32768 : Nat) : Int) - (w.block_offset_ : Int) < ((4 + 2 + 1 : Nat) : Int) := by
      omega
    simp only [h7i, h7, if_true, true_and]
    by_cases hp : 0 < 32768 - w.block_offset_
    · have hpi : ((32768 : Nat) : Int) - (w.block_offset_ : Int) > 0 := by omega
      have ht : (((32768 : Nat) : Int) - (w.block_offset_ : Int)).toNat
          = 32768 - w.block_offset_ := by omega
      have hz : (List.replicate 6 0).take (32768 - w.block_offset_)
          = List.replicate (32768 - w.block_offset_) (0 : Nat) := by
        rw [List.take_replicate]
        congr 1
        omega
      simp only [hpi, hp, if_true, ht, hz]
      exact ⟨_, rfl, rfl, rfl, rfl⟩
    · have hpi : ¬ (((32768 : Nat) : Int) - (w.block_offset_ : Int) > 0) := by omega
      simp only [hpi, hp, if_false]
      exact ⟨_, rfl, rfl, rfl, by simp⟩
  · have h7i : ¬ (((32768 : Nat) : Int) - (w.block_offset_ : Int) < ((4 + 2 + 1 : Nat) : Int)) := by
      omega
    simp only [h7i, h7, if_false, false_and]
    exact ⟨_, rfl, rfl, rfl, by simp⟩

theorem Writer.switchBlock_none (w : Writer) (hoff : kBlockSize < w.block_offset_) :
    w.switchBlock = none := by
  unfold Writer.switchBlock
  have h0 : ¬ ((kBlockSize : Int) - (w.block_offset_ : Int) ≥ 0) := by omega
  simp only [h0, not_false_eq_true, if_true]

theorem Writer.AddRecord.fragment_spec (w : Writer) (left : Nat) (begin : Bool)
    (hoff : w.block_offset_ ≤ kBlockSize) :
    ∃ w1, w.switchBlock = some w1 ∧
      Writer.AddRecord.fragment w left begin = some (w1,
        recordTypeOf begin
          (decide (left = min left (kBlockSize - startOffset w.block_offset_ - kHeaderSize))),
        min left (kBlockSize - startOffset w.block_offset_ - kHeaderSize)) := by
  obtain ⟨w1, e1, o1, -, -⟩ := Writer.switchBlock_spec w hoff
  have hle := startOffset_le w.block_offset_ hoff
  have hmin : (if left < kBlockSize - w1.block_offset_ - kHeaderSize then left
      else kBlockSize - w1.block_offset_ - kHeaderSize)
      = min left (kBlockSize - startOffset w.block_offset_ - kHeaderSize) := by
    rw [o1]; split_ifs <;> omega
  have ha : (kBlockSize : Int) - (w1.block_offset_ : Int) - (kHeaderSize : Int) ≥ 0 := by
    rw [o1]; omega
  refine ⟨w1, e1, ?_⟩
  unfold Writer.AddRecord.fragment
  simp only [e1, ha, not_true_eq_false, if_false, hmin]

/-- Whatever the sink answers, a fragment that `fragment` yields passes the assertions of
`EmitPhysicalRecord`. -/
theorem Writer.AddRecord.fragment_bounds (w : Writer) (left : Nat) (begin : Bool) (w1 : Writer)
    (t : RecordType) (n : Nat) (h : Writer.AddRecord.fragment w left begin = some (w1, t, n)) :
    n ≤ left ∧ w1.block_offset_ + kHeaderSize + n ≤ kBlockSize ∧
      (w1.block_offset_ = w.block_offset_ ∨ w1.block_offset_ = 0) ∧
      w.block_offset_ ≤ kBlockSize ∧
      n = min left (kBlockSize - w1.block_offset_ - kHeaderSize) ∧
      t = recordTypeOf begin (decide (left = n)) := by
  by_cases hoff : w.block_offset_ ≤ kBlockSize
  · obtain ⟨w1q, e1, o1, -, -⟩ := Writer.switchBlock_spec w hoff
    obtain ⟨w1r, e1r, e2⟩ := Writer.AddRecord.fragment_spec w left begin hoff
    rw [e1] at e1r
    simp only [Option.some.injEq] at e1r
    subst e1r
    rw [e2] at h
    simp only [Option.some.injEq, Prod.mk.injEq] at h
    obtain ⟨hw, ht, hn⟩ := h
    subst hw
    have hle := startOffset_le w.block_offset_ hoff
    rw [← o1] at hle hn ht
    have ho : w1q.block_offset_ = w.block_offset_ ∨ w1q.block_offset_ = 0 := by
      rw [o1]; unfold startOffset; split_ifs <;> simp
    refine ⟨by omega, by omega, ho, hoff, hn.symm, ?_⟩
    rw [← ht, hn]
  · unfold Writer.AddRecord.fragment at h
    rw [Writer.switchBlock_none w (by omega)] at h
    simp at h

theorem Writer.EmitPhysicalRecord_spec (crc : Crc32c) (kLittleEndian : Bool) (w : Writer)
    (t : RecordType) (ptr : Bytes) (n : Nat)
    (hn : w.block_offset_ + kHeaderSize + n ≤ kBlockSize) :
    ∃ w2 s rest, w.EmitPhysicalRecord crc kLittleEndian t ptr n = some (w2, s) ∧
      w2.block_offset_ = w.block_offset_ + kHeaderSize + n ∧
      w2.type_crc_ = w.type_crc_ ∧
      w2.dest_.log = w.dest_.log ++
        SinkOp.Append (header crc kLittleEndian w.type_crc_ t ptr n) w.dest_.answer :: rest := by
  have h1 : n ≤ 0xffff := by simp only [kBlockSize, kHeaderSize] at hn; omega
  unfold Writer.EmitPhysicalRecord
  simp only [h1, hn, not_true_eq_false, if_false]
  refine ⟨_, _, ?_, rfl, by simp only [Nat.add_assoc], rfl, ?_⟩
  · exact (if (w.dest_.Append (header crc kLittleEndian w.type_crc_ t ptr n)).2.ok then
        (SinkOp.Append (ptr.take n)
          (w.dest_.Append (header crc kLittleEndian w.type_crc_ t ptr n)).1.answer) ::
        (if ((w.dest_.Append (header crc kLittleEndian w.type_crc_ t ptr n)).1.Append
              (ptr.take n)).2.ok then
          [SinkOp.Flush ((w.dest_.Append (header crc kLittleEndian w.type_crc_ t ptr n)).1.Append
              (ptr.take n)).1.answer]
        else [])
      else [])
  · simp only
    split_ifs <;> simp [WritableFile.Append, WritableFile.Flush]

theorem Writer.AddRecord.body_spec (crc : Crc32c) (kLittleEndian : Bool) (w : Writer)
    (ptr : Bytes) (left : Nat) (begin : Bool) (hoff : w.block_offset_ ≤ kBlockSize) :
    ∃ w1 w2 s rest, w.switchBlock = some w1 ∧
      Writer.AddRecord.body crc kLittleEndian w ptr left begin =
        some (w2, s,
          ptr.drop (min left (kBlockSize - startOffset w.block_offset_ - kHeaderSize)),
          left - min left (kBlockSize - startOffset w.block_offset_ - kHeaderSize)) ∧
      w2.block_offset_ = startOffset w.block_offset_ + kHeaderSize +
        min left (kBlockSize - startOffset w.block_offset_ - kHeaderSize) ∧
      w2.type_crc_ = w.type_crc_ ∧
      w2.dest_.log = w1.dest_.log ++
        SinkOp.Append (header crc kLittleEndian w.type_crc_
          (recordTypeOf begin
            (decide (left = min left (kBlockSize - startOffset w.block_offset_ - kHeaderSize))))
          ptr (min left (kBlockSize - startOffset w.block_offset_ - kHeaderSize)))
          w1.dest_.answer :: rest := by
  obtain ⟨w1, e1, o1, t1, -⟩ := Writer.switchBlock_spec w hoff
  obtain ⟨w1r, e1r, efr⟩ := Writer.AddRecord.fragment_spec w left begin hoff
  rw [e1] at e1r
  simp only [Option.some.injEq] at e1r
  subst e1r
  have hle := startOffset_le w.block_offset_ hoff
  have hfit : w1.block_offset_ + kHeaderSize +
      min left (kBlockSize - startOffset w.block_offset_ - kHeaderSize) ≤ kBlockSize := by
    rw [o1]; omega
  obtain ⟨w2, s, rest, e2, o2, t2, l2⟩ := Writer.EmitPhysicalRecord_spec crc kLittleEndian w1
    (recordTypeOf begin
      (decide (left = min left (kBlockSize - startOffset w.block_offset_ - kHeaderSize))))
    ptr _ hfit
  refine ⟨w1, w2, s, rest, e1, ?_, by rw [o2, o1], by rw [t2, t1], by rw [l2, t1]⟩
  unfold Writer.AddRecord.body
  simp only [efr, e2]

/-- The loop of `AddRecord` returns, whatever the sink answers, and keeps the cursor
inside the block. -/
theorem Writer.AddRecord.loop_total (crc : Crc32c) (kLittleEndian : Bool) (m : Nat) :
    ∀ (w : Writer) (ptr : Bytes) (left : Nat) (begin : Bool),
      2 * left + (if w.block_offset_ = kBlockSize - kHeaderSize then 1 else 0) = m →
      w.block_offset_ ≤ kBlockSize →
      ∃ w2 s ops, Writer.AddRecord.loop crc kLittleEndian w ptr left begin = some (w2, s) ∧
        w2.block_offset_ ≤ kBlockSize ∧ w2.type_crc_ = w.type_crc_ ∧
        w2.dest_.log = w.dest_.log ++ ops := by
  induction m using Nat.strong_induction_on with
  | _ m ih =>
    intro w ptr left begin hm hoff
    obtain ⟨w1, w2, s, rest, e1, e2, o2, t2, l2⟩ :=
      Writer.AddRecord.body_spec crc kLittleEndian w ptr left begin hoff
    obtain ⟨w1q, e1q, -, -, l1⟩ := Writer.switchBlock_spec w hoff
    rw [e1] at e1q
    simp only [Option.some.injEq] at e1q
    subst e1q
    have hle := startOffset_le w.block_offset_ hoff
    have ho2 : w2.block_offset_ ≤ kBlockSize := by omega
    rw [Writer.AddRecord.loop_eq, e2]
    simp only
    by_cases hc : s.ok = true ∧
        left - min left (kBlockSize - startOffset w.block_offset_ - kHeaderSize) > 0
    · simp only [hc, and_self, if_true]
      have hdec : 2 * (left - min left (kBlockSize - startOffset w.block_offset_ - kHeaderSize))
          + (if w2.block_offset_ = kBlockSize - kHeaderSize then 1 else 0) < m := by
        have hpos := hc.2
        rw [← hm, o2]
        unfold startOffset at hpos ⊢
        simp only [kBlockSize, kHeaderSize] at *
        split_ifs at * <;> omega
      obtain ⟨w3, s3, ops, e3, o3, t3, l3⟩ := ih _ hdec w2 _ _ false rfl ho2
      exact ⟨w3, s3, _, e3, o3, by rw [t3, t2], by rw [l3, l2, l1, List.append_assoc,
        List.append_assoc]⟩
    · simp only [hc, if_false]
      exact ⟨w2, s, _, rfl, ho2, t2, by rw [l2, l1, List.append_assoc]⟩

theorem Writer.AddRecord.loop_none (crc : Crc32c) (kLittleEndian : Bool) (w : Writer)
    (ptr : Bytes) (left : Nat) (begin : Bool) (hoff : kBlockSize < w.block_offset_) :
    Writer.AddRecord.loop crc kLittleEndian w ptr left begin = none := by
  rw [Writer.AddRecord.loop_eq]
  unfold Writer.AddRecord.body Writer.AddRecord.fragment
  rw [Writer.switchBlock_none w hoff]

/-! ## Lemmas on record headers -/

theorem and_255 (n : Nat) : n &&& 255 = n % 256 := Nat.and_pow_two_sub_one_eq_mod n 8

theorem EncodeFixed32_eq (kLittleEndian : Bool) (value : Nat) :
    EncodeFixed32 kLittleEndian value = littleEndianBytes 4 (uint32_t value) := by
  unfold EncodeFixed32
  cases kLittleEndian
  · simp only [Bool.false_eq_true, if_false, littleEndianBytes, uchar, and_255,
      Nat.shiftRight_eq_div_pow, Nat.mod_mod]
    simp only [Nat.div_div_eq_div_mul]
  · simp only [if_true]

theorem littleEndianBytes_length (n v : Nat) : (littleEndianBytes n v).length = n := by
  induction n generalizing v with
  | zero => rfl
  | succ k ih => simp [littleEndianBytes, ih]

theorem EncodeFixed32_length (kLittleEndian : Bool) (value : Nat) :
    (EncodeFixed32 kLittleEndian value).length = 4 := by
  rw [EncodeFixed32_eq, littleEndianBytes_length]

theorem RecordType.toNat_le (t : RecordType) : t.toNat ≤ 4 := by
  cases t <;> simp [RecordType.toNat]

theorem header_eq (crc : Crc32c) (kLittleEndian : Bool) (tc : List Nat) (t : RecordType)
    (ptr : Bytes) (n : Nat) :
    header crc kLittleEndian tc t ptr n =
      littleEndianBytes 4 (uint32_t (crc.Mask (uint32_t (crc.Extend (tc.getD t.toNat 0)
        (ptr.take n))))) ++ [n % 256, n / 256 % 256, t.toNat] := by
  have ht := RecordType.toNat_le t
  unfold header
  simp only [EncodeFixed32_eq, uchar, and_255, Nat.shiftRight_eq_div_pow, Nat.mod_mod]
  have h1 : uint32_t (uint32_t (crc.Mask (uint32_t (crc.Extend (tc.getD t.toNat 0)
      (ptr.take n))))) = uint32_t (crc.Mask (uint32_t (crc.Extend (tc.getD t.toNat 0)
      (ptr.take n)))) := by
    unfold uint32_t; omega
  have h2 : t.toNat % 256 = t.toNat := by omega
  rw [h1, h2]

theorem header_length (crc : Crc32c) (kLittleEndian : Bool) (tc : List Nat) (t : RecordType)
    (ptr : Bytes) (n : Nat) : (header crc kLittleEndian tc t ptr n).length = kHeaderSize := by
  rw [header_eq]
  simp [littleEndianBytes_length, kHeaderSize]

theorem getD_four_append (l : Bytes) (hl : l.length = 4) (a b c : Nat) :
    (l ++ [a, b, c]).getD 4 0 = a ∧ (l ++ [a, b, c]).getD 5 0 = b ∧
      (l ++ [a, b, c]).getD 6 0 = c := by
  match l, hl with
  | [x0, x1, x2, x3], _ => simp

theorem header_type (crc : Crc32c) (kLittleEndian : Bool) (tc : List Nat) (t : RecordType)
    (ptr : Bytes) (n : Nat) :
    PhysicalRecord.type { pos := k, header := header crc kLittleEndian tc t ptr n, payload := p }
      = t.toNat := by
  unfold PhysicalRecord.type
  rw [header_eq]
  exact (getD_four_append _ (littleEndianBytes_length 4 _) _ _ _).2.2

theorem header_lengthField (crc : Crc32c) (kLittleEndian : Bool) (tc : List Nat)
    (t : RecordType) (ptr : Bytes) (n : Nat) (hn : n ≤ 0xffff) :
    PhysicalRecord.length
      { pos := k, header := header crc kLittleEndian tc t ptr n, payload := p } = n := by
  unfold PhysicalRecord.length
  rw [header_eq]
  obtain ⟨h4, h5, -⟩ := getD_four_append (littleEndianBytes 4 (uint32_t (crc.Mask (uint32_t
    (crc.Extend (tc.getD t.toNat 0) (ptr.take n)))))) (littleEndianBytes_length 4 _)
    (n % 256) (n / 256 % 256) t.toNat
  simp only at h4 h5 ⊢
  rw [h4, h5]
  omega

/-! ## Lemmas on reading the sink log -/

theorem bytesAppended_trailerOps (off : Nat) :
    bytesAppended (trailerOps off) =
      if kBlockSize - off < kHeaderSize then kBlockSize - off else 0 := by
  unfold trailerOps
  simp only [kBlockSize, kHeaderSize]
  by_cases h7 : 32768 - off < 4 + 2 + 1
  · by_cases hp : 0 < 32768 - off
    · simp only [h7, hp, and_self, if_true, bytesAppended, List.length_take,
        List.length_replicate]
      omega
    · simp only [h7, hp, and_false, if_false, if_true, bytesAppended]
      omega
  · simp only [h7, false_and, if_false, bytesAppended]

theorem recordsOf_run (pos off : Nat) (h p : Bytes) (rest : List SinkOp) :
    recordsOf pos (trailerOps off ++ (recordOps h p ++ rest)) =
      { pos := pos + bytesAppended (trailerOps off), header := h, payload := p } ::
        recordsOf (pos + bytesAppended (trailerOps off) + h.length + p.length) rest := by
  unfold trailerOps recordOps
  split_ifs <;> simp [recordsOf, bytesAppended]

theorem start_mod (off : Nat) (hoff : off ≤ kBlockSize) :
    (off + bytesAppended (trailerOps off)) % kBlockSize = startOffset off := by
  rw [bytesAppended_trailerOps]
  unfold startOffset
  simp only [kBlockSize, kHeaderSize] at *
  split_ifs <;> omega

/-! ## Consequences of a successful run -/

theorem Writer.AddRecord_run (crc : Crc32c) (kLittleEndian : Bool) (w : Writer) (slice : Bytes)
    (hs : w.dest_.allSucceed) (hoff : w.block_offset_ ≤ kBlockSize) :
    ∃ w2, w.AddRecord crc kLittleEndian slice = some (w2, Status.OK) ∧
      w2.dest_.allSucceed ∧ w2.type_crc_ = w.type_crc_ ∧
      FragmentRun (fun t p => header crc kLittleEndian w.type_crc_ t p p.length)
        w.block_offset_ true slice (w2.opsSince w.dest_.log.length) w2.block_offset_ := by
  obtain ⟨w2, ops, e, l, s2, t2, r⟩ :=
    Writer.AddRecord.loop_run crc kLittleEndian _ w slice true rfl hs hoff
  refine ⟨w2, e, s2, t2, ?_⟩
  unfold Writer.opsSince
  rw [l, List.drop_left]
  exact r

theorem Writer.AddRecord_none (crc : Crc32c) (kLittleEndian : Bool) (w : Writer) (slice : Bytes)
    (hoff : kBlockSize < w.block_offset_) : w.AddRecord crc kLittleEndian slice = none :=
  Writer.AddRecord.loop_none crc kLittleEndian w slice slice.length true hoff

theorem FragmentRun.inv {hdr : RecordType → Bytes → Bytes} {off : Nat} {begin : Bool}
    {ptr : Bytes} {ops : List SinkOp} {off2 : Nat}
    (r : FragmentRun hdr off begin ptr ops off2) :
    off ≤ kBlockSize ∧
    ((ptr.length ≤ kBlockSize - startOffset off - kHeaderSize ∧
      ops = trailerOps off ++ recordOps (hdr (recordTypeOf begin true) ptr) ptr ∧
      off2 = startOffset off + kHeaderSize + ptr.length) ∨
    (kBlockSize - startOffset off - kHeaderSize < ptr.length ∧
      ∃ ops2, FragmentRun hdr kBlockSize false
          (ptr.drop (kBlockSize - startOffset off - kHeaderSize)) ops2 off2 ∧
        ops = trailerOps off ++
          recordOps (hdr (recordTypeOf begin false)
            (ptr.take (kBlockSize - startOffset off - kHeaderSize)))
            (ptr.take (kBlockSize - startOffset off - kHeaderSize)) ++ ops2)) := by
  cases r with
  | last _ _ _ hoff hfit => exact ⟨hoff, Or.inl ⟨hfit, rfl, rfl⟩⟩
  | more _ _ _ ops2 _ hoff hbig hrest => exact ⟨hoff, Or.inr ⟨hbig, ops2, hrest, rfl⟩⟩

theorem FragmentRun.payloads {crc : Crc32c} {kLittleEndian : Bool} {tc : List Nat}
    {off : Nat} {begin : Bool} {ptr : Bytes} {ops : List SinkOp} {off2 : Nat}
    (r : FragmentRun (fun t p => header crc kLittleEndian tc t p p.length)
      off begin ptr ops off2) :
    ∀ pos, ((recordsOf pos ops).map PhysicalRecord.payload).flatten = ptr := by
  induction r with
  | last off begin ptr hoff hfit =>
    intro pos
    have := recordsOf_run pos off
      (header crc kLittleEndian tc (recordTypeOf begin true) ptr ptr.length) ptr []
    simp only [List.append_nil] at this
    simp [this, recordsOf]
  | more off begin ptr ops off2 hoff hbig hrest ih =>
    intro pos
    rw [List.append_assoc, recordsOf_run]
    simp only [List.map_cons, List.flatten_cons, ih, List.take_append_drop]

theorem FragmentRun.types {crc : Crc32c} {kLittleEndian : Bool} {tc : List Nat}
    {off : Nat} {begin : Bool} {ptr : Bytes} {ops : List SinkOp} {off2 : Nat}
    (r : FragmentRun (fun t p => header crc kLittleEndian tc t p p.length)
      off begin ptr ops off2) :
    ∀ pos, ∃ k, (recordsOf pos ops).map PhysicalRecord.type =
      if begin then
        (if k = 0 then [1] else 2 :: (List.replicate (k - 1) 3 ++ [4]))
      else List.replicate k 3 ++ [4] := by
  induction r with
  | last off begin ptr hoff hfit =>
    intro pos
    refine ⟨0, ?_⟩
    have := recordsOf_run pos off
      (header crc kLittleEndian tc (recordTypeOf begin true) ptr ptr.length) ptr []
    simp only [List.append_nil] at this
    rw [this]
    simp only [recordsOf, List.map_cons, List.map_nil, header_type]
    cases begin <;> simp [recordTypeOf, RecordType.toNat]
  | more off begin ptr ops off2 hoff hbig hrest ih =>
    intro pos
    obtain ⟨k, hk⟩ := ih (pos + bytesAppended (trailerOps off) +
      (header crc kLittleEndian tc (recordTypeOf begin false)
        (ptr.take (kBlockSize - startOffset off - kHeaderSize))
        (ptr.take (kBlockSize - startOffset off - kHeaderSize)).length).length +
      (ptr.take (kBlockSize - startOffset off - kHeaderSize)).length)
    refine ⟨k + 1, ?_⟩
    rw [List.append_assoc, recordsOf_run]
    simp only [List.map_cons, header_type, hk]
    cases begin <;> simp [recordTypeOf, RecordType.toNat, List.replicate_succ]

theorem types_pattern_index (ts : List Nat)
    (h : ts = [1] ∨ ∃ k, ts = 2 :: (List.replicate k 3 ++ [4])) :
    ∀ i (hi : i < ts.length),
      ts[i] = (recordTypeOf (decide (i = 0)) (decide (i + 1 = ts.length))).toNat := by
  intro i hi
  rcases h with h | ⟨k, h⟩
  · subst h
    simp only [List.length_singleton, Nat.lt_one_iff] at hi
    subst hi
    simp [recordTypeOf, RecordType.toNat]
  · subst h
    have hi2 : i < k + 2 := by simpa using hi
    simp only [List.length_cons, List.length_append, List.length_replicate,
      List.length_singleton]
    cases i with
    | zero => simp [recordTypeOf, RecordType.toNat]
    | succ j =>
      simp only [List.getElem_cons_succ]
      by_cases hj : j < k
      · rw [List.getElem_append_left (by simpa using hj)]
        have h1 : ¬ (j + 1 + 1 = k + 1 + 1) := by omega
        simp [recordTypeOf, RecordType.toNat, h1]
      · have hjk : j = k := by omega
        subst hjk
        rw [List.getElem_append_right (by simp)]
        simp [recordTypeOf, RecordType.toNat]

theorem Writer.AddRecord_empty (crc : Crc32c) (kLittleEndian : Bool) (w : Writer)
    (hoff : w.block_offset_ ≤ kBlockSize) :
    ∃ w1, w.switchBlock = some w1 ∧ w1.block_offset_ + kHeaderSize ≤ kBlockSize ∧
      w1.type_crc_ = w.type_crc_ ∧
      Writer.AddRecord.fragment w 0 true = some (w1, RecordType.kFullType, 0) ∧
      w.AddRecord crc kLittleEndian [] =
        w1.EmitPhysicalRecord crc kLittleEndian RecordType.kFullType [] 0 := by
  obtain ⟨w1, e1, o1, t1, -⟩ := Writer.switchBlock_spec w hoff
  obtain ⟨w1r, e1r, efr⟩ := Writer.AddRecord.fragment_spec w 0 true hoff
  rw [e1] at e1r
  simp only [Option.some.injEq] at e1r
  subst e1r
  have hle := startOffset_le w.block_offset_ hoff
  simp only [Nat.zero_min, decide_True] at efr
  have hty : recordTypeOf true true = RecordType.kFullType := rfl
  rw [hty] at efr
  refine ⟨w1, e1, by rw [o1]; exact hle, t1, efr, ?_⟩
  unfold Writer.AddRecord
  rw [Writer.AddRecord.loop_eq]
  unfold Writer.AddRecord.body
  simp only [List.length_nil, efr]
  cases w1.EmitPhysicalRecord crc kLittleEndian RecordType.kFullType [] 0 with
  | none => rfl
  | some q => simp

theorem Writer.AddRecord.EmitCalls_bounds {crc : Crc32c} {kLittleEndian : Bool} {w : Writer}
    {ptr : Bytes} {left : Nat} {begin : Bool} {w1 : Writer} {t : RecordType} {p : Bytes}
    {n : Nat} (h : Writer.AddRecord.EmitCalls crc kLittleEndian w ptr left begin w1 t p n) :
    n ≤ kBlockSize - kHeaderSize ∧ n ≤ 0xffff ∧
      w1.block_offset_ + kHeaderSize + n ≤ kBlockSize := by
  induction h with
  | here w ptr left begin w1 t n hfr =>
    obtain ⟨-, hb, -, -, -, -⟩ := Writer.AddRecord.fragment_bounds w left begin w1 t n hfr
    simp only [kBlockSize, kHeaderSize] at *
    omega
  | later w ptr left begin w2 s ptr2 left2 w1 t p n hbody hcont hcall ih => exact ih

theorem Writer.AddRecord_total (crc : Crc32c) (kLittleEndian : Bool) (w : Writer)
    (slice : Bytes) (hoff : w.block_offset_ ≤ kBlockSize) :
    ∃ w2 s, w.AddRecord crc kLittleEndian slice = some (w2, s) ∧
      w2.block_offset_ ≤ kBlockSize ∧ w2.type_crc_ = w.type_crc_ := by
  obtain ⟨w2, s, ops, e, o, t, -⟩ :=
    Writer.AddRecord.loop_total crc kLittleEndian _ w slice slice.length true rfl hoff
  exact ⟨w2, s, e, o, t⟩

theorem Writer.AddRecords_total (crc : Crc32c) (kLittleEndian : Bool) (slices : List Bytes) :
    ∀ (w : Writer), w.block_offset_ ≤ kBlockSize →
      ∃ w2, w.AddRecords crc kLittleEndian slices = some w2 ∧
        w2.block_offset_ ≤ kBlockSize := by
  induction slices with
  | nil => intro w hoff; exact ⟨w, rfl, hoff⟩
  | cons slice rest ih =>
    intro w hoff
    obtain ⟨w1, s, e, o, -⟩ := Writer.AddRecord_total crc kLittleEndian w slice hoff
    obtain ⟨w2, e2, o2⟩ := ih w1 o
    refine ⟨w2, ?_, o2⟩
    simp only [Writer.AddRecords, e, e2]

theorem Writer.mk_block_offset (crc : Crc32c) (dest : WritableFile) (dest_length : Nat) :
    (Writer.mk1 crc dest).block_offset_ = 0 ∧
      (Writer.mk2 crc dest dest_length).block_offset_ < kBlockSize := by
  refine ⟨rfl, ?_⟩
  show uint64_t dest_length % kBlockSize < kBlockSize
  exact Nat.mod_lt _ (by decide)

theorem FragmentRun.lengths {crc : Crc32c} {kLittleEndian : Bool} {tc : List Nat}
    {off : Nat} {begin : Bool} {ptr : Bytes} {ops : List SinkOp} {off2 : Nat}
    (r : FragmentRun (fun t p => header crc kLittleEndian tc t p p.length)
      off begin ptr ops off2) :
    ∀ base pos, (base + pos) % kBlockSize = off % kBlockSize →
      FragmentLengths base ptr.length (recordsOf pos ops) := by
  induction r with
  | last off begin ptr hoff hfit =>
    intro base pos hmod
    have := recordsOf_run pos off
      (header crc kLittleEndian tc (recordTypeOf begin true) ptr ptr.length) ptr []
    simp only [List.append_nil] at this
    rw [this]
    have hst := start_mod off hoff
    have hle := startOffset_le off hoff
    have hm : (base + (pos + bytesAppended (trailerOps off))) % kBlockSize = startOffset off := by
      rw [← hst]
      simp only [kBlockSize] at hmod ⊢
      omega
    simp only [recordsOf, FragmentLengths, hm, ne_eq, not_true_eq_false, false_implies,
      and_true]
    omega
  | more off begin ptr ops off2 hoff hbig hrest ih =>
    intro base pos hmod
    rw [List.append_assoc, recordsOf_run]
    have hst := start_mod off hoff
    have hle := startOffset_le off hoff
    have hm : (base + (pos + bytesAppended (trailerOps off))) % kBlockSize = startOffset off := by
      rw [← hst]
      simp only [kBlockSize] at hmod ⊢
      omega
    have hl : (List.take (kBlockSize - startOffset off - kHeaderSize) ptr).length
        = kBlockSize - startOffset off - kHeaderSize := by
      rw [List.length_take]; omega
    have hend : (base + (pos + bytesAppended (trailerOps off)) + kHeaderSize +
        (kBlockSize - startOffset off - kHeaderSize)) % kBlockSize = 0 := by
      simp only [kBlockSize, kHeaderSize] at hm hle ⊢
      omega
    simp only [FragmentLengths, hm, hl, header_length]
    refine ⟨by omega, fun _ => hend, ?_⟩
    have := ih base (pos + bytesAppended (trailerOps off) + kHeaderSize +
      (kBlockSize - startOffset off - kHeaderSize)) (by
        simp only [kBlockSize, kHeaderSize] at hend ⊢
        omega)
    rw [List.length_drop] at this
    exact this

theorem Writer.AddRecord_first_pass (crc : Crc32c) (kLittleEndian : Bool) (w : Writer)
    (slice : Bytes) (hoff : w.block_offset_ ≤ kBlockSize) :
    ∃ w1 w2 w3 s s3 t n rest ops, w.switchBlock = some w1 ∧
      Writer.AddRecord.fragment w slice.length true = some (w1, t, n) ∧
      w1.EmitPhysicalRecord crc kLittleEndian t slice n = some (w2, s) ∧
      w2.dest_.log = w1.dest_.log ++
        SinkOp.Append (header crc kLittleEndian w.type_crc_ t slice n) w1.dest_.answer :: rest ∧
      w.AddRecord crc kLittleEndian slice = some (w3, s3) ∧
      w3.dest_.log = w2.dest_.log ++ ops := by
  obtain ⟨w1, e1, o1, t1, -⟩ := Writer.switchBlock_spec w hoff
  obtain ⟨w1r, e1r, efr⟩ := Writer.AddRecord.fragment_spec w slice.length true hoff
  rw [e1] at e1r
  simp only [Option.some.injEq] at e1r
  subst e1r
  have hle := startOffset_le w.block_offset_ hoff
  have hfit : w1.block_offset_ + kHeaderSize +
      min slice.length (kBlockSize - startOffset w.block_offset_ - kHeaderSize) ≤ kBlockSize := by
    rw [o1]; omega
  obtain ⟨w2, s, rest, e2, o2, t2, l2⟩ := Writer.EmitPhysicalRecord_spec crc kLittleEndian w1
    (recordTypeOf true (decide (slice.length =
      min slice.length (kBlockSize - startOffset w.block_offset_ - kHeaderSize))))
    slice _ hfit
  have hbody : Writer.AddRecord.body crc kLittleEndian w slice slice.length true =
      some (w2, s, slice.drop (min slice.length
        (kBlockSize - startOffset w.block_offset_ - kHeaderSize)),
        slice.length - min slice.length
          (kBlockSize - startOffset w.block_offset_ - kHeaderSize)) := by
    unfold Writer.AddRecord.body
    simp only [efr, e2]
  have ho2 : w2.block_offset_ ≤ kBlockSize := by omega
  rw [t1] at l2
  by_cases hc : s.ok = true ∧ slice.length - min slice.length
      (kBlockSize - startOffset w.block_offset_ - kHeaderSize) > 0
  · obtain ⟨w3, s3, ops, e3, -, -, l3⟩ := Writer.AddRecord.loop_total crc kLittleEndian _ w2
      (slice.drop (min slice.length (kBlockSize - startOffset w.block_offset_ - kHeaderSize)))
      (slice.length - min slice.length (kBlockSize - startOffset w.block_offset_ - kHeaderSize))
      false rfl ho2
    refine ⟨w1, w2, w3, s, s3, _, _, rest, ops, e1, efr, e2, l2, ?_, l3⟩
    unfold Writer.AddRecord
    rw [Writer.AddRecord.loop_eq, hbody]
    simp only [hc, and_self, if_true]
    exact e3
  · refine ⟨w1, w2, w2, s, s, _, _, rest, [], e1, efr, e2, l2, ?_, by simp⟩
    unfold Writer.AddRecord
    rw [Writer.AddRecord.loop_eq, hbody]
    simp only [hc, if_false]

theorem InitTypeCrc_getD (crc : Crc32c) (t : RecordType) :
    (InitTypeCrc crc).getD t.toNat 0 = uint32_t (crc.Value [t.toNat]) := by
  cases t <;> rfl

theorem Writer.AddRecord.body_shape {crc : Crc32c} {kLittleEndian : Bool} {w : Writer}
    {ptr : Bytes} {left : Nat} {begin : Bool} {w2 : Writer} {s : Status} {ptr2 : Bytes}
    {left2 : Nat}
    (h : Writer.AddRecord.body crc kLittleEndian w ptr left begin = some (w2, s, ptr2, left2)) :
    ∃ w1 t n, Writer.AddRecord.fragment w left begin = some (w1, t, n) ∧
      ptr2 = ptr.drop n ∧ left2 = left - n ∧
      w2.block_offset_ = w1.block_offset_ + kHeaderSize + n := by
  unfold Writer.AddRecord.body at h
  cases hfr : Writer.AddRecord.fragment w left begin with
  | none => simp [hfr] at h
  | some q =>
    obtain ⟨w1, t, n⟩ := q
    simp only [hfr] at h
    cases hem : w1.EmitPhysicalRecord crc kLittleEndian t ptr n with
    | none => simp [hem] at h
    | some r =>
      obtain ⟨w2q, sq⟩ := r
      simp only [hem, Option.some.injEq, Prod.mk.injEq] at h
      obtain ⟨hw, -, hp, hl⟩ := h
      subst hw
      refine ⟨w1, t, n, rfl, hp.symm, hl.symm, ?_⟩
      unfold Writer.EmitPhysicalRecord at hem
      split_ifs at hem
      simp only [Option.some.injEq, Prod.mk.injEq] at hem
      rw [← hem.1]
      simp only [Nat.add_assoc]

/-- Whatever the sink answers, every call of `EmitPhysicalRecord` that `AddRecord` makes
carries `min(left, avail)` bytes, `left` being the length of what is left at `ptr`. -/
theorem Writer.AddRecord.EmitCalls_length {crc : Crc32c} {kLittleEndian : Bool} {w : Writer}
    {ptr : Bytes} {left : Nat} {begin : Bool} {w1 : Writer} {t : RecordType} {p : Bytes}
    {n : Nat} (h : Writer.AddRecord.EmitCalls crc kLittleEndian w ptr left begin w1 t p n)
    (hl : left = ptr.length) :
    n = min p.length (kBlockSize - w1.block_offset_ - kHeaderSize) := by
  induction h with
  | here w ptr left begin w1 t n hfr =>
    obtain ⟨-, -, -, -, hn, -⟩ := Writer.AddRecord.fragment_bounds w left begin w1 t n hfr
    rw [← hl]
    exact hn
  | later w ptr left begin w2 s ptr2 left2 w1 t p n hbody hcont hcall ih =>
    obtain ⟨w1q, tq, nq, -, hp, hl2, -⟩ := Writer.AddRecord.body_shape hbody
    apply ih
    rw [hl2, hp, List.length_drop, hl]

/-! ## The claims on the log writer -/

/-- C1: for every payload and every writer whose block offset is at most 32768, on a sink
whose every append and flush succeeds `AddRecord` returns OK and the payloads of the
physical records it emitted, concatenated in emission order, are the original payload. -/
theorem C1_AddRecord_payloads_reassemble (crc : Crc32c) (kLittleEndian : Bool) (w : Writer)
    (slice : Bytes) (hoff : w.block_offset_ ≤ kBlockSize) (hs : w.dest_.allSucceed) :
    ∃ w2, w.AddRecord crc kLittleEndian slice = some (w2, Status.OK) ∧
      ((recordsOf 0 (w2.opsSince w.dest_.log.length)).map PhysicalRecord.payload).flatten
        = slice := by
  obtain ⟨w2, e, -, -, r⟩ := Writer.AddRecord_run crc kLittleEndian w slice hs hoff
  exact ⟨w2, e, r.payloads 0⟩

/-- C1 witness: a payload of 40000 bytes written from block offset 0. -/
theorem C1_AddRecord_payloads_reassemble_witness :
    ∃ w2, (Writer.mk1 exampleCrc (newSink [])).AddRecord exampleCrc true
        (List.replicate 40000 97) = some (w2, Status.OK) ∧
      ((recordsOf 0 (w2.opsSince (Writer.mk1 exampleCrc (newSink [])).dest_.log.length)).map
        PhysicalRecord.payload).flatten = List.replicate 40000 97 :=
  C1_AddRecord_payloads_reassemble exampleCrc true (Writer.mk1 exampleCrc (newSink []))
    (List.replicate 40000 97) (by decide) (by decide)

/-- C2: for every writer whose block offset is at most 32768, `AddRecord` on an empty
payload makes exactly one call of `EmitPhysicalRecord`, of type Full with length 0,
whatever the sink answers; on a sink that succeeds the log gains exactly one physical
record, whose type byte is 1 (Full), whose length field is 0 and whose payload is empty. -/
theorem C2_empty_payload_single_full_record (crc : Crc32c) (kLittleEndian : Bool) (w : Writer)
    (hoff : w.block_offset_ ≤ kBlockSize) :
    (∃ w1, w.switchBlock = some w1 ∧
      w.AddRecord crc kLittleEndian [] =
        w1.EmitPhysicalRecord crc kLittleEndian RecordType.kFullType [] 0 ∧
      (w.AddRecord crc kLittleEndian []).isSome ∧
      ∀ w1q t p n, Writer.AddRecord.EmitCalls crc kLittleEndian w [] 0 true w1q t p n →
        w1q = w1 ∧ t = RecordType.kFullType ∧ p = [] ∧ n = 0) ∧
    (w.dest_.allSucceed →
      ∃ w2 r, w.AddRecord crc kLittleEndian [] = some (w2, Status.OK) ∧
        recordsOf 0 (w2.opsSince w.dest_.log.length) = [r] ∧
        r.type = RecordType.kFullType.toNat ∧ r.type = 1 ∧ r.length = 0 ∧ r.payload = []) := by
  obtain ⟨w1, e1, o1, t1, efr, eadd⟩ := Writer.AddRecord_empty crc kLittleEndian w hoff
  constructor
  · refine ⟨w1, e1, eadd, ?_, ?_⟩
    · rw [eadd, Writer.EmitPhysicalRecord_isSome_iff]
      simp only [kBlockSize, kHeaderSize] at *
      omega
    · intro w1q t p n hc
      cases hc with
      | here _ _ _ _ _ _ _ hfr =>
        rw [efr] at hfr
        simp only [Option.some.injEq, Prod.mk.injEq] at hfr
        exact ⟨hfr.1.symm, hfr.2.1.symm, rfl, hfr.2.2.symm⟩
      | later _ _ _ _ w2 s ptr2 left2 _ _ _ _ hbody hcont hcall =>
        exfalso
        unfold Writer.AddRecord.body at hbody
        rw [efr] at hbody
        simp only at hbody
        cases hem : w1.EmitPhysicalRecord crc kLittleEndian RecordType.kFullType [] 0 with
        | none => simp [hem] at hbody
        | some q =>
          simp only [hem, Option.some.injEq, Prod.mk.injEq] at hbody
          obtain ⟨-, -, -, hl⟩ := hbody
          have := hcont.2
          omega
  · intro hs
    obtain ⟨w2, e, -, -, r⟩ := Writer.AddRecord_run crc kLittleEndian w [] hs hoff
    have hrec : recordsOf 0 (w2.opsSince w.dest_.log.length) =
        [{ pos := 0 + bytesAppended (trailerOps w.block_offset_),
           header := header crc kLittleEndian w.type_crc_ RecordType.kFullType [] 0,
           payload := [] }] := by
      rcases r.inv with ⟨-, ⟨-, hops, -⟩ | ⟨hbig, -⟩⟩
      · have := recordsOf_run 0 w.block_offset_
          (header crc kLittleEndian w.type_crc_ (recordTypeOf true true) [] 0) [] []
        simp only [List.append_nil] at this
        rw [hops, List.length_nil, this]
        simp [recordsOf, recordTypeOf]
      · simp at hbig
    refine ⟨w2, _, e, hrec, ?_, ?_, ?_, rfl⟩
    · exact header_type crc kLittleEndian _ _ _ _
    · exact header_type crc kLittleEndian _ _ _ _
    · exact header_lengthField crc kLittleEndian _ _ _ _ (by decide)

/-- C2 witness: a writer whose cursor is three bytes before the end of a block. -/
theorem C2_empty_payload_single_full_record_witness :
    (∃ w1, (Writer.mk2 exampleCrc (newSink []) 32765).switchBlock = some w1 ∧
      (Writer.mk2 exampleCrc (newSink []) 32765).AddRecord exampleCrc true [] =
        w1.EmitPhysicalRecord exampleCrc true RecordType.kFullType [] 0 ∧
      ((Writer.mk2 exampleCrc (newSink []) 32765).AddRecord exampleCrc true []).isSome ∧
      ∀ w1q t p n, Writer.AddRecord.EmitCalls exampleCrc true
          (Writer.mk2 exampleCrc (newSink []) 32765) [] 0 true w1q t p n →
        w1q = w1 ∧ t = RecordType.kFullType ∧ p = [] ∧ n = 0) ∧
    ((Writer.mk2 exampleCrc (newSink []) 32765).dest_.allSucceed →
      ∃ w2 r, (Writer.mk2 exampleCrc (newSink []) 32765).AddRecord exampleCrc true []
          = some (w2, Status.OK) ∧
        recordsOf 0 (w2.opsSince (Writer.mk2 exampleCrc (newSink []) 32765).dest_.log.length)
          = [r] ∧
        r.type = RecordType.kFullType.toNat ∧ r.type = 1 ∧ r.length = 0 ∧ r.payload = []) :=
  C2_empty_payload_single_full_record exampleCrc true
    (Writer.mk2 exampleCrc (newSink []) 32765) (by decide)

/-- C3: on a sink that succeeds, the types of the physical records one `AddRecord` call
emits are either the single type Full, or First, then zero or more Middle, then one
Last; the record at index `i` has the type the writer chooses for a fragment that is
first iff `i = 0` and last iff `i` is the final index; type 0 is never emitted. The call
returns for every writer whose block offset is at most 32768. -/
theorem C3_record_type_sequence (crc : Crc32c) (kLittleEndian : Bool) (w : Writer)
    (slice : Bytes) (hs : w.dest_.allSucceed) :
    (w.block_offset_ ≤ kBlockSize →
      ∃ w2, w.AddRecord crc kLittleEndian slice = some (w2, Status.OK)) ∧
    ∀ w2 s, w.AddRecord crc kLittleEndian slice = some (w2, s) →
      (((recordsOf 0 (w2.opsSince w.dest_.log.length)).map PhysicalRecord.type
          = [RecordType.kFullType.toNat]) ∨
        ∃ k, (recordsOf 0 (w2.opsSince w.dest_.log.length)).map PhysicalRecord.type
          = RecordType.kFirstType.toNat ::
            (List.replicate k RecordType.kMiddleType.toNat ++ [RecordType.kLastType.toNat])) ∧
      (∀ i (hi : i < ((recordsOf 0 (w2.opsSince w.dest_.log.length)).map
          PhysicalRecord.type).length),
        ((recordsOf 0 (w2.opsSince w.dest_.log.length)).map PhysicalRecord.type)[i] =
          (recordTypeOf (decide (i = 0)) (decide (i + 1 =
            ((recordsOf 0 (w2.opsSince w.dest_.log.length)).map
              PhysicalRecord.type).length))).toNat) ∧
      (∀ t ∈ (recordsOf 0 (w2.opsSince w.dest_.log.length)).map PhysicalRecord.type,
        t ≠ RecordType.kZeroType.toNat) := by
  constructor
  · intro hoff
    obtain ⟨w2, e, -⟩ := Writer.AddRecord_run crc kLittleEndian w slice hs hoff
    exact ⟨w2, e⟩
  · intro w2 s hadd
    by_cases hoff : w.block_offset_ ≤ kBlockSize
    · obtain ⟨w3, e, -, -, r⟩ := Writer.AddRecord_run crc kLittleEndian w slice hs hoff
      rw [e] at hadd
      simp only [Option.some.injEq, Prod.mk.injEq] at hadd
      obtain ⟨hw, -⟩ := hadd
      subst hw
      obtain ⟨k, hk⟩ := r.types 0
      simp only [if_true] at hk
      have hpat : ((recordsOf 0 (w3.opsSince w.dest_.log.length)).map PhysicalRecord.type
          = [RecordType.kFullType.toNat]) ∨
          ∃ k, (recordsOf 0 (w3.opsSince w.dest_.log.length)).map PhysicalRecord.type
            = RecordType.kFirstType.toNat ::
              (List.replicate k RecordType.kMiddleType.toNat ++
                [RecordType.kLastType.toNat]) := by
        by_cases hk0 : k = 0
        · left; rw [hk]; simp [hk0, RecordType.toNat]
        · right; exact ⟨k - 1, by rw [hk]; simp [hk0, RecordType.toNat]⟩
      refine ⟨hpat, types_pattern_index _ hpat, ?_⟩
      intro t ht
      rcases hpat with h | ⟨j, h⟩
      · rw [h] at ht
        simp only [List.mem_singleton] at ht
        subst ht
        decide
      · rw [h] at ht
        simp only [List.mem_cons, List.mem_append, List.mem_replicate, List.mem_singleton,
          List.not_mem_nil, or_false] at ht
        rcases ht with h1 | ⟨-, h2⟩ | h3 <;> subst_vars <;> decide
    · rw [Writer.AddRecord_none crc kLittleEndian w slice (by omega)] at hadd
      simp at hadd

/-- C3 witness: a payload that spans three blocks. -/
theorem C3_record_type_sequence_witness :
    ((Writer.mk1 exampleCrc (newSink [])).block_offset_ ≤ kBlockSize →
      ∃ w2, (Writer.mk1 exampleCrc (newSink [])).AddRecord exampleCrc true
        (List.replicate 70000 97) = some (w2, Status.OK)) ∧
    ∀ w2 s, (Writer.mk1 exampleCrc (newSink [])).AddRecord exampleCrc true
        (List.replicate 70000 97) = some (w2, s) →
      (((recordsOf 0 (w2.opsSince (Writer.mk1 exampleCrc (newSink [])).dest_.log.length)).map
          PhysicalRecord.type = [RecordType.kFullType.toNat]) ∨
        ∃ k, (recordsOf 0 (w2.opsSince (Writer.mk1 exampleCrc
            (newSink [])).dest_.log.length)).map PhysicalRecord.type
          = RecordType.kFirstType.toNat ::
            (List.replicate k RecordType.kMiddleType.toNat ++ [RecordType.kLastType.toNat])) ∧
      (∀ i (hi : i < ((recordsOf 0 (w2.opsSince (Writer.mk1 exampleCrc
          (newSink [])).dest_.log.length)).map PhysicalRecord.type).length),
        ((recordsOf 0 (w2.opsSince (Writer.mk1 exampleCrc
          (newSink [])).dest_.log.length)).map PhysicalRecord.type)[i] =
          (recordTypeOf (decide (i = 0)) (decide (i + 1 =
            ((recordsOf 0 (w2.opsSince (Writer.mk1 exampleCrc
              (newSink [])).dest_.log.length)).map PhysicalRecord.type).length))).toNat) ∧
      (∀ t ∈ (recordsOf 0 (w2.opsSince (Writer.mk1 exampleCrc
          (newSink [])).dest_.log.length)).map PhysicalRecord.type,
        t ≠ RecordType.kZeroType.toNat) :=
  C3_record_type_sequence exampleCrc true (Writer.mk1 exampleCrc (newSink []))
    (List.replicate 70000 97) (by decide)

/-- C4: for a writer built by either constructor and after any sequence of `AddRecord`
calls, whatever the sink answers, no assertion fails: the sequence and any further call
return, the cursor stays at most 32768, and every call of `EmitPhysicalRecord` made by
`AddRecord` has `n <= 32761`, `n <= 0xffff` and `block_offset_ + 7 + n <= 32768`, so that
it passes its two assertions. -/
theorem C4_assertions_hold (crc : Crc32c) (kLittleEndian : Bool) (dest : WritableFile)
    (dest_length : Nat) (w0 : Writer)
    (hw : w0 = Writer.mk1 crc dest ∨ w0 = Writer.mk2 crc dest dest_length)
    (slices : List Bytes) :
    w0.block_offset_ ≤ kBlockSize ∧
    ∃ w, w0.AddRecords crc kLittleEndian slices = some w ∧ w.block_offset_ ≤ 32768 ∧
      ∀ slice,
        (∃ w2 s, w.AddRecord crc kLittleEndian slice = some (w2, s) ∧
          w2.block_offset_ ≤ 32768) ∧
        ∀ w1 t p n,
          Writer.AddRecord.EmitCalls crc kLittleEndian w slice slice.length true w1 t p n →
          n ≤ 32761 ∧ n ≤ 0xffff ∧ w1.block_offset_ + 7 + n ≤ 32768 ∧
            (w1.EmitPhysicalRecord crc kLittleEndian t p n).isSome := by
  have h0 : w0.block_offset_ ≤ kBlockSize := by
    obtain ⟨h1, h2⟩ := Writer.mk_block_offset crc dest dest_length
    rcases hw with h | h <;> subst h
    · rw [h1]; exact Nat.zero_le _
    · exact Nat.le_of_lt h2
  refine ⟨h0, ?_⟩
  obtain ⟨w, e, o⟩ := Writer.AddRecords_total crc kLittleEndian slices w0 h0
  refine ⟨w, e, o, ?_⟩
  intro slice
  constructor
  · obtain ⟨w2, s, e2, o2, -⟩ := Writer.AddRecord_total crc kLittleEndian w slice o
    exact ⟨w2, s, e2, o2⟩
  · intro w1 t p n hc
    obtain ⟨b1, b2, b3⟩ := Writer.AddRecord.EmitCalls_bounds hc
    refine ⟨b1, b2, b3, ?_⟩
    rw [Writer.EmitPhysicalRecord_isSome_iff]
    exact ⟨b2, b3⟩

/-- C4 witness: a writer reopened on a file of 100000 bytes whose sink fails twice. -/
theorem C4_assertions_hold_witness :
    (Writer.mk2 exampleCrc (newSink [Status.Error Code.kIOError [], Status.OK,
        Status.Error Code.kIOError []]) 100000).block_offset_ ≤ kBlockSize ∧
    ∃ w, (Writer.mk2 exampleCrc (newSink [Status.Error Code.kIOError [], Status.OK,
        Status.Error Code.kIOError []]) 100000).AddRecords exampleCrc true
          [[1, 2, 3], List.replicate 40000 0] = some w ∧ w.block_offset_ ≤ 32768 ∧
      ∀ slice,
        (∃ w2 s, w.AddRecord exampleCrc true slice = some (w2, s) ∧
          w2.block_offset_ ≤ 32768) ∧
        ∀ w1 t p n,
          Writer.AddRecord.EmitCalls exampleCrc true w slice slice.length true w1 t p n →
          n ≤ 32761 ∧ n ≤ 0xffff ∧ w1.block_offset_ + 7 + n ≤ 32768 ∧
            (w1.EmitPhysicalRecord exampleCrc true t p n).isSome :=
  C4_assertions_hold exampleCrc true (newSink [Status.Error Code.kIOError [], Status.OK,
    Status.Error Code.kIOError []]) 100000 _ (Or.inr rfl) [[1, 2, 3], List.replicate 40000 0]

/-- C5: when a fragment is about to be written with `k = 32768 - block_offset_` bytes
left in the block, then if `k < 7` the writer appends exactly `k` zero bytes to the sink
(nothing when `k = 0`) and resets the cursor to 0, so that the header that follows is
written at block offset 0; if `k >= 7` the writer is left as it is and no filler is
written. In both cases the next operation on the sink is the append of a 7-byte header,
which `AddRecord` issues on the writer state after the switch; the same holds of every
pass of the loop body. -/
theorem C5_trailer_fill (crc : Crc32c) (kLittleEndian : Bool) (w : Writer) (slice : Bytes)
    (hoff : w.block_offset_ ≤ kBlockSize) :
    ∃ w1 w2 t n rest, w.switchBlock = some w1 ∧
      (kBlockSize - w.block_offset_ < kHeaderSize →
        w1.block_offset_ = 0 ∧
        w1.dest_.log = w.dest_.log ++
          (if 0 < kBlockSize - w.block_offset_ then
            [SinkOp.Append (List.replicate (kBlockSize - w.block_offset_) 0) w.dest_.answer]
          else [])) ∧
      (kHeaderSize ≤ kBlockSize - w.block_offset_ → w1 = w) ∧
      Writer.AddRecord.EmitCalls crc kLittleEndian w slice slice.length true w1 t slice n ∧
      (header crc kLittleEndian w.type_crc_ t slice n).length = 7 ∧
      (∃ s, w.AddRecord crc kLittleEndian slice = some (w2, s)) ∧
      w2.dest_.log = w1.dest_.log ++
        SinkOp.Append (header crc kLittleEndian w.type_crc_ t slice n) w1.dest_.answer :: rest ∧
      ∀ ptr left begin, ∃ w3 s3 ptr3 left3 t3 n3 rest3,
        Writer.AddRecord.body crc kLittleEndian w ptr left begin =
          some (w3, s3, ptr3, left3) ∧
        w3.dest_.log = w1.dest_.log ++
          SinkOp.Append (header crc kLittleEndian w.type_crc_ t3 ptr n3) w1.dest_.answer ::
            rest3 := by
  obtain ⟨w1, w2, w3, s, s3, t, n, rest, ops, e1, efr, e2, l2, e3, l3⟩ :=
    Writer.AddRecord_first_pass crc kLittleEndian w slice hoff
  obtain ⟨w1q, e1q, o1, -, l1⟩ := Writer.switchBlock_spec w hoff
  rw [e1] at e1q
  simp only [Option.some.injEq] at e1q
  subst e1q
  refine ⟨w1, w3, t, n, rest ++ ops, e1, ?_, ?_, ?_, ?_, ⟨s3, e3⟩, ?_, ?_⟩
  rotate_right
  · intro ptr left begin
    obtain ⟨w1r, w4, s4, rest4, e1r, e4, -, -, l4⟩ :=
      Writer.AddRecord.body_spec crc kLittleEndian w ptr left begin hoff
    rw [e1] at e1r
    simp only [Option.some.injEq] at e1r
    subst e1r
    exact ⟨w4, s4, _, _, _, _, rest4, e4, l4⟩
  · intro hk
    constructor
    · rw [o1]; unfold startOffset; simp only [hk, if_true]
    · rw [l1]; simp only [hk, true_and]
  · intro hk
    have hnk : ¬ (kBlockSize - w.block_offset_ < kHeaderSize) := by omega
    unfold Writer.switchBlock at e1
    have h0 : (kBlockSize : Int) - (w.block_offset_ : Int) ≥ 0 := by omega
    have h7 : ¬ ((kBlockSize : Int) - (w.block_offset_ : Int) < (kHeaderSize : Int)) := by omega
    simp only [h0, h7, not_true_eq_false, if_false, Option.some.injEq] at e1
    exact e1.symm
  · exact Writer.AddRecord.EmitCalls.here w slice slice.length true w1 t n efr
  · rw [header_length]; rfl
  · rw [l3, l2, List.append_assoc, List.cons_append]

/-- C5 witness: a writer whose cursor is three bytes before the end of a block. -/
theorem C5_trailer_fill_witness :
    ∃ w1 w2 t n rest, (Writer.mk2 exampleCrc (newSink []) 32765).switchBlock = some w1 ∧
      (kBlockSize - (Writer.mk2 exampleCrc (newSink []) 32765).block_offset_ < kHeaderSize →
        w1.block_offset_ = 0 ∧
        w1.dest_.log = (Writer.mk2 exampleCrc (newSink []) 32765).dest_.log ++
          (if 0 < kBlockSize - (Writer.mk2 exampleCrc (newSink []) 32765).block_offset_ then
            [SinkOp.Append (List.replicate
              (kBlockSize - (Writer.mk2 exampleCrc (newSink []) 32765).block_offset_) 0)
              (Writer.mk2 exampleCrc (newSink []) 32765).dest_.answer]
          else [])) ∧
      (kHeaderSize ≤ kBlockSize - (Writer.mk2 exampleCrc (newSink []) 32765).block_offset_ →
        w1 = Writer.mk2 exampleCrc (newSink []) 32765) ∧
      Writer.AddRecord.EmitCalls exampleCrc true (Writer.mk2 exampleCrc (newSink []) 32765)
        [104, 105] [104, 105].length true w1 t [104, 105] n ∧
      (header exampleCrc true (Writer.mk2 exampleCrc (newSink []) 32765).type_crc_ t
        [104, 105] n).length = 7 ∧
      (∃ s, (Writer.mk2 exampleCrc (newSink []) 32765).AddRecord exampleCrc true [104, 105]
        = some (w2, s)) ∧
      w2.dest_.log = w1.dest_.log ++
        SinkOp.Append (header exampleCrc true
          (Writer.mk2 exampleCrc (newSink []) 32765).type_crc_ t [104, 105] n)
          w1.dest_.answer :: rest ∧
      ∀ ptr left begin, ∃ w3 s3 ptr3 left3 t3 n3 rest3,
        Writer.AddRecord.body exampleCrc true (Writer.mk2 exampleCrc (newSink []) 32765)
          ptr left begin = some (w3, s3, ptr3, left3) ∧
        w3.dest_.log = w1.dest_.log ++
          SinkOp.Append (header exampleCrc true
            (Writer.mk2 exampleCrc (newSink []) 32765).type_crc_ t3 ptr n3)
            w1.dest_.answer :: rest3 :=
  C5_trailer_fill exampleCrc true (Writer.mk2 exampleCrc (newSink []) 32765) [104, 105]
    (by decide)

/-- C6: on a sink that succeeds, each physical record `AddRecord` emits carries
`min(remaining payload, 32768 - offset - 7)` bytes, where `offset` is the block offset of
its header, and every record but the last ends on a block boundary; a payload of 40000
bytes written from block offset 0 is emitted as a First record of 32761 bytes and a Last
record of 7239 bytes, and leaves the cursor at 7246. -/
theorem C6_fragment_lengths (crc : Crc32c) (kLittleEndian : Bool) (w : Writer)
    (slice : Bytes) (hoff : w.block_offset_ ≤ kBlockSize) :
    (∀ w1 t p n,
      Writer.AddRecord.EmitCalls crc kLittleEndian w slice slice.length true w1 t p n →
      n = min p.length (kBlockSize - w1.block_offset_ - kHeaderSize)) ∧
    (w.dest_.allSucceed →
    ∃ w2, w.AddRecord crc kLittleEndian slice = some (w2, Status.OK) ∧
      FragmentLengths w.block_offset_ slice.length
        (recordsOf 0 (w2.opsSince w.dest_.log.length)) ∧
      (w.block_offset_ = 0 → slice.length = 40000 →
        w2.block_offset_ = 7246 ∧
        ∃ r1 r2, recordsOf 0 (w2.opsSince w.dest_.log.length) = [r1, r2] ∧
          r1.pos = 0 ∧ r1.type = RecordType.kFirstType.toNat ∧ r1.length = 32761 ∧
          r1.payload = slice.take 32761 ∧ r1.payload.length = 32761 ∧
          r2.pos = 32768 ∧ r2.type = RecordType.kLastType.toNat ∧ r2.length = 7239 ∧
          r2.payload = slice.drop 32761 ∧ r2.payload.length = 7239)) := by
  refine ⟨fun w1 t p n hc => Writer.AddRecord.EmitCalls_length hc rfl, ?_⟩
  intro hs
  obtain ⟨w2, e, -, -, r⟩ := Writer.AddRecord_run crc kLittleEndian w slice hs hoff
  refine ⟨w2, e, r.lengths w.block_offset_ 0 rfl, ?_⟩
  intro h0 hlen
  rw [h0] at r
  have hs0 : startOffset 0 = 0 := by decide
  have hsk : startOffset kBlockSize = 0 := by decide
  have ht0 : trailerOps 0 = [] := by decide
  have htk : trailerOps kBlockSize = [] := by decide
  rcases r.inv with ⟨-, ⟨hfit, -, -⟩ | ⟨-, ops2, r2, hops⟩⟩
  · simp only [kBlockSize, kHeaderSize, hs0] at hfit
    omega
  · rw [hs0] at r2 hops
    have hd : (slice.drop (kBlockSize - 0 - kHeaderSize)).length = 7239 := by
      rw [List.length_drop, hlen]; rfl
    have htk2 : (slice.take (kBlockSize - 0 - kHeaderSize)).length = 32761 := by
      rw [List.length_take, hlen]; rfl
    rcases r2.inv with ⟨-, ⟨-, hops2, hoff2⟩ | ⟨hbig, -⟩⟩
    · rw [hsk, hd] at hoff2
      refine ⟨hoff2, ?_⟩
      rw [hops, hops2, ht0, htk, List.nil_append, List.nil_append]
      simp only [recordOps, List.cons_append, List.nil_append, recordsOf, htk2, hd,
        header_length]
      refine ⟨_, _, rfl, rfl, ?_, ?_, rfl, htk2, rfl, ?_, ?_, rfl, hd⟩
      · exact header_type crc kLittleEndian _ _ _ _
      · exact header_lengthField crc kLittleEndian _ _ _ _ (by decide)
      · exact header_type crc kLittleEndian _ _ _ _
      · exact header_lengthField crc kLittleEndian _ _ _ _ (by decide)
    · rw [hsk, hd] at hbig
      simp only [kBlockSize, kHeaderSize] at hbig
      omega

/-- C6 witness: a payload of 40000 bytes written from block offset 0. -/
theorem C6_fragment_lengths_witness :
    (∀ w1 t p n,
      Writer.AddRecord.EmitCalls exampleCrc true (Writer.mk1 exampleCrc (newSink []))
        (List.replicate 40000 97) (List.replicate 40000 97).length true w1 t p n →
      n = min p.length (kBlockSize - w1.block_offset_ - kHeaderSize)) ∧
    ((Writer.mk1 exampleCrc (newSink [])).dest_.allSucceed →
    ∃ w2, (Writer.mk1 exampleCrc (newSink [])).AddRecord exampleCrc true
        (List.replicate 40000 97) = some (w2, Status.OK) ∧
      FragmentLengths (Writer.mk1 exampleCrc (newSink [])).block_offset_
        (List.replicate 40000 97).length
        (recordsOf 0 (w2.opsSince (Writer.mk1 exampleCrc (newSink [])).dest_.log.length)) ∧
      ((Writer.mk1 exampleCrc (newSink [])).block_offset_ = 0 →
        (List.replicate 40000 97).length = 40000 →
        w2.block_offset_ = 7246 ∧
        ∃ r1 r2, recordsOf 0 (w2.opsSince
            (Writer.mk1 exampleCrc (newSink [])).dest_.log.length) = [r1, r2] ∧
          r1.pos = 0 ∧ r1.type = RecordType.kFirstType.toNat ∧ r1.length = 32761 ∧
          r1.payload = (List.replicate 40000 97).take 32761 ∧ r1.payload.length = 32761 ∧
          r2.pos = 32768 ∧ r2.type = RecordType.kLastType.toNat ∧ r2.length = 7239 ∧
          r2.payload = (List.replicate 40000 97).drop 32761 ∧ r2.payload.length = 7239)) :=
  C6_fragment_lengths exampleCrc true (Writer.mk1 exampleCrc (newSink []))
    (List.replicate 40000 97) (by decide)

/-- C7: the code at the failing input. The writer is three bytes before the end of a
block and the sink fails the next operation only. `AddRecord` passes the failing trailer
append of three zero bytes to the sink, drops its status, and returns OK. -/
theorem C7_trailer_failure_is_dropped :
    ∃ w2 rest, (Writer.mk2 exampleCrc (newSink [Status.Error Code.kIOError []]) 32765).AddRecord
        exampleCrc true [] = some (w2, Status.OK) ∧
      w2.dest_.log = SinkOp.Append [0, 0, 0] (Status.Error Code.kIOError []) :: rest := by
  have hoff : (Writer.mk2 exampleCrc (newSink [Status.Error Code.kIOError []])
      32765).block_offset_ ≤ kBlockSize := by decide
  have h2 : (Writer.mk2 exampleCrc (newSink [Status.Error Code.kIOError []])
      32765).switchBlock = some ⟨⟨[SinkOp.Append [0, 0, 0]
        (Status.Error Code.kIOError [])], []⟩, 0, InitTypeCrc exampleCrc⟩ := by
    unfold Writer.switchBlock
    rfl
  obtain ⟨w1, e1, -, -, -, eadd⟩ := Writer.AddRecord_empty exampleCrc true _ hoff
  rw [h2] at e1
  simp only [Option.some.injEq] at e1
  subst e1
  obtain ⟨w2, e2, -, -, -, l2⟩ := Writer.EmitPhysicalRecord_ok exampleCrc true
    ⟨⟨[SinkOp.Append [0, 0, 0] (Status.Error Code.kIOError [])], []⟩, 0,
      InitTypeCrc exampleCrc⟩
    RecordType.kFullType [] 0 (by intro s hmem; simp at hmem) (by decide)
  exact ⟨w2, recordOps (header exampleCrc true (InitTypeCrc exampleCrc)
    RecordType.kFullType [] 0) [], by rw [eadd, e2], by rw [l2]; rfl⟩

/-- C8: the record `EmitPhysicalRecord(t, ptr, n)` writes, when its assertions hold, is a
header of 7 bytes followed by the `n` payload bytes: bytes 0 to 3 of the header are the
little-endian bytes of `Mask(Extend(type_crc_[t], payload))`, where the table entry of a
constructed writer is the CRC of the type byte, byte 4 is `n mod 256`, byte 5 is
`n div 256` and byte 6 is the type. The header append is issued whatever the sink
answers; on a sink that succeeds the payload append and a flush follow. -/
theorem C8_physical_record_layout (crc : Crc32c) (kLittleEndian : Bool) (w : Writer)
    (t : RecordType) (ptr : Bytes) (n : Nat) (hn : n ≤ 0xffff)
    (hfit : w.block_offset_ + kHeaderSize + n ≤ kBlockSize) (hlen : n ≤ ptr.length)
    (htc : w.type_crc_ = InitTypeCrc crc) :
    ∃ c hdr,
      c = uint32_t (crc.Mask (uint32_t (crc.Extend (uint32_t (crc.Value [t.toNat]))
        (ptr.take n)))) ∧
      hdr = [c % 256, c / 256 % 256, c / 65536 % 256, c / 16777216 % 256,
        n % 256, n / 256, t.toNat] ∧
      hdr.getD 4 0 + 256 * hdr.getD 5 0 = n ∧ (ptr.take n).length = n ∧
      (∃ w2 s rest, w.EmitPhysicalRecord crc kLittleEndian t ptr n = some (w2, s) ∧
        w2.dest_.log = w.dest_.log ++ SinkOp.Append hdr w.dest_.answer :: rest) ∧
      (w.dest_.allSucceed →
        ∃ w2, w.EmitPhysicalRecord crc kLittleEndian t ptr n = some (w2, Status.OK) ∧
          w2.dest_.log = w.dest_.log ++ [SinkOp.Append hdr Status.OK,
            SinkOp.Append (ptr.take n) Status.OK, SinkOp.Flush Status.OK] ∧
          bytesAppended (w2.opsSince w.dest_.log.length) = 7 + n) := by
  have hhdr : header crc kLittleEndian w.type_crc_ t ptr n =
      [uint32_t (crc.Mask (uint32_t (crc.Extend (uint32_t (crc.Value [t.toNat]))
          (ptr.take n)))) % 256,
        uint32_t (crc.Mask (uint32_t (crc.Extend (uint32_t (crc.Value [t.toNat]))
          (ptr.take n)))) / 256 % 256,
        uint32_t (crc.Mask (uint32_t (crc.Extend (uint32_t (crc.Value [t.toNat]))
          (ptr.take n)))) / 65536 % 256,
        uint32_t (crc.Mask (uint32_t (crc.Extend (uint32_t (crc.Value [t.toNat]))
          (ptr.take n)))) / 16777216 % 256,
        n % 256, n / 256, t.toNat] := by
    rw [header_eq, htc, InitTypeCrc_getD]
    have h5 : n / 256 % 256 = n / 256 := by omega
    simp only [littleEndianBytes, h5, Nat.div_div_eq_div_mul, List.cons_append,
      List.nil_append]
  have hl : (ptr.take n).length = n := by rw [List.length_take]; omega
  refine ⟨_, _, rfl, rfl, ?_, hl, ?_, ?_⟩
  · simp only [List.getD_cons_succ, List.getD_cons_zero]
    omega
  · obtain ⟨w2, s, rest, e, -, -, l⟩ :=
      Writer.EmitPhysicalRecord_spec crc kLittleEndian w t ptr n hfit
    rw [hhdr] at l
    exact ⟨w2, s, rest, e, l⟩
  · intro hs
    obtain ⟨w2, e, -, -, -, l⟩ :=
      Writer.EmitPhysicalRecord_ok crc kLittleEndian w t ptr n hs hfit
    rw [hhdr] at l
    refine ⟨w2, e, l, ?_⟩
    unfold Writer.opsSince
    rw [l, List.drop_left]
    simp only [recordOps, bytesAppended, List.length_cons, List.length_nil, hl]
    omega

/-- C8 witness: a Full record of three bytes written at the start of a block. -/
theorem C8_physical_record_layout_witness :
    ∃ c hdr,
      c = uint32_t (exampleCrc.Mask (uint32_t (exampleCrc.Extend
        (uint32_t (exampleCrc.Value [RecordType.kFullType.toNat]))
        (([1, 2, 3] : Bytes).take 3)))) ∧
      hdr = [c % 256, c / 256 % 256, c / 65536 % 256, c / 16777216 % 256,
        3 % 256, 3 / 256, RecordType.kFullType.toNat] ∧
      hdr.getD 4 0 + 256 * hdr.getD 5 0 = 3 ∧ (([1, 2, 3] : Bytes).take 3).length = 3 ∧
      (∃ w2 s rest, (Writer.mk1 exampleCrc (newSink [])).EmitPhysicalRecord exampleCrc true
          RecordType.kFullType [1, 2, 3] 3 = some (w2, s) ∧
        w2.dest_.log = (Writer.mk1 exampleCrc (newSink [])).dest_.log ++
          SinkOp.Append hdr (Writer.mk1 exampleCrc (newSink [])).dest_.answer :: rest) ∧
      ((Writer.mk1 exampleCrc (newSink [])).dest_.allSucceed →
        ∃ w2, (Writer.mk1 exampleCrc (newSink [])).EmitPhysicalRecord exampleCrc true
            RecordType.kFullType [1, 2, 3] 3 = some (w2, Status.OK) ∧
          w2.dest_.log = (Writer.mk1 exampleCrc (newSink [])).dest_.log ++
            [SinkOp.Append hdr Status.OK,
              SinkOp.Append (([1, 2, 3] : Bytes).take 3) Status.OK,
              SinkOp.Flush Status.OK] ∧
          bytesAppended (w2.opsSince (Writer.mk1 exampleCrc (newSink [])).dest_.log.length)
            = 7 + 3) :=
  C8_physical_record_layout exampleCrc true (Writer.mk1 exampleCrc (newSink []))
    RecordType.kFullType [1, 2, 3] 3 (by decide) (by decide) (by decide) rfl

end log

/-! ## Lemmas on the coding helpers -/

set_option maxRecDepth 100000 in
theorem byte_and_128 : ∀ b < 256, (b &&& 128 = 0 ↔ b < 128) := by decide

theorem and_127 (n : Nat) : n &&& 127 = n % 128 := Nat.and_pow_two_sub_one_eq_mod n 7

theorem or_128_mod (x : Nat) : (x ||| 128) % 256 = x % 128 + 128 := by
  apply Nat.eq_of_testBit_eq
  intro i
  have h : x % 128 + 128 = 2 ^ 7 * 1 ||| x % 2 ^ 7 := by
    rw [← Nat.mul_add_lt_is_or (Nat.mod_lt _ (by decide))]
    omega
  rw [h]
  have e1 : (256 : Nat) = 2 ^ 8 := by norm_num
  have e2 : (128 : Nat) = 2 ^ 7 := by norm_num
  rw [e1, e2]
  simp only [Nat.testBit_mod_two_pow, Nat.testBit_or, Nat.testBit_two_pow, Nat.mul_one]
  by_cases h7 : i < 7
  · have h8 : i < 8 := by omega
    have h77 : ¬ (7 = i) := by omega
    simp [h7, h8, h77]
  · by_cases h8 : i = 7
    · subst h8; simp
    · have h9 : ¬ i < 8 := by omega
      have h77 : ¬ (7 = i) := by omega
      simp [h7, h9, h77]

theorem or_shift (result y shift : Nat) (h : result < 2 ^ shift) :
    result ||| (y <<< shift) = result + y * 2 ^ shift := by
  rw [Nat.shiftLeft_eq, Nat.lor_comm, Nat.mul_comm, ← Nat.mul_add_lt_is_or h, Nat.add_comm]

/-- The bytes of `EncodeVarint32` in arithmetic form. -/
theorem EncodeVarint32_eq (v : Nat) (hv : v < 4294967296) :
    EncodeVarint32 v =
      if v < 128 then [v]
      else if v < 16384 then [v % 128 + 128, v / 128]
      else if v < 2097152 then [v % 128 + 128, v / 128 % 128 + 128, v / 16384]
      else if v < 268435456 then
        [v % 128 + 128, v / 128 % 128 + 128, v / 16384 % 128 + 128, v / 2097152]
      else
        [v % 128 + 128, v / 128 % 128 + 128, v / 16384 % 128 + 128,
          v / 2097152 % 128 + 128, v / 268435456] := by
  have hu : uint32_t v = v := Nat.mod_eq_of_lt hv
  unfold EncodeVarint32
  simp only [hu, uchar, or_128_mod, Nat.shiftRight_eq_div_pow, Nat.shiftLeft_eq, Nat.one_mul]
  norm_num
  split_ifs <;> simp only [List.cons.injEq, and_true, true_and] <;> omega

theorem VarintLength.loop_lt (v len : Nat) (h : v < 128) : VarintLength.loop v len = len := by
  rw [VarintLength.loop]
  simp only [ge_iff_le, dite_eq_right_iff]
  intro h2
  omega

theorem VarintLength.loop_ge (v len : Nat) (h : 128 ≤ v) :
    VarintLength.loop v len = VarintLength.loop (v / 128) (len + 1) := by
  rw [VarintLength.loop]
  simp only [ge_iff_le, h, dite_true, Nat.shiftRight_eq_div_pow]

/-- The value of `VarintLength` on 32-bit arguments and a little beyond. -/
theorem VarintLength_eq (v : Nat) (hv : v < 34359738368) :
    VarintLength v =
      if v < 128 then 1 else if v < 16384 then 2 else if v < 2097152 then 3
      else if v < 268435456 then 4 else 5 := by
  have hu : uint64_t v = v := Nat.mod_eq_of_lt (by omega)
  unfold VarintLength
  rw [hu]
  split_ifs with h1 h2 h3 h4
  · rw [VarintLength.loop_lt _ _ h1]
  · rw [VarintLength.loop_ge _ _ (by omega), VarintLength.loop_lt _ _ (by omega)]
  · rw [VarintLength.loop_ge _ _ (by omega), VarintLength.loop_ge _ _ (by omega),
      VarintLength.loop_lt _ _ (by omega)]
  · rw [VarintLength.loop_ge _ _ (by omega), VarintLength.loop_ge _ _ (by omega),
      VarintLength.loop_ge _ _ (by omega), VarintLength.loop_lt _ _ (by omega)]
  · rw [VarintLength.loop_ge _ _ (by omega), VarintLength.loop_ge _ _ (by omega),
      VarintLength.loop_ge _ _ (by omega), VarintLength.loop_ge _ _ (by omega),
      VarintLength.loop_lt _ _ (by omega)]

theorem EncodeVarint32_length (v : Nat) (hv : v < 4294967296) :
    (EncodeVarint32 v).length = VarintLength v := by
  rw [EncodeVarint32_eq v hv, VarintLength_eq v (by omega)]
  split_ifs <;> rfl

theorem EncodeVarint32_length_le (v : Nat) :
    1 ≤ (EncodeVarint32 v).length ∧ (EncodeVarint32 v).length ≤ 5 := by
  unfold EncodeVarint32
  simp only
  split_ifs <;> simp

theorem EncodeFixed64_eq (kLittleEndian : Bool) (value : Nat) :
    EncodeFixed64 kLittleEndian value = littleEndianBytes 8 (uint64_t value) := by
  unfold EncodeFixed64
  cases kLittleEndian
  · simp only [Bool.false_eq_true, if_false, littleEndianBytes, uchar, log.and_255,
      Nat.shiftRight_eq_div_pow, Nat.mod_mod]
    simp only [Nat.div_div_eq_div_mul]
  · simp only [if_true]

theorem EncodeFixed64_length (kLittleEndian : Bool) (value : Nat) :
    (EncodeFixed64 kLittleEndian value).length = 8 := by
  rw [EncodeFixed64_eq, log.littleEndianBytes_length]

theorem littleEndianValue_bytes (n x : Nat) (rest : Bytes) :
    littleEndianValue n (littleEndianBytes n x ++ rest) = x % 256 ^ n := by
  induction n generalizing x with
  | zero => simp [littleEndianValue, Nat.mod_one]
  | succ k ih =>
    simp only [littleEndianBytes, littleEndianValue, List.cons_append, List.headD_cons,
      List.tail_cons, ih]
    rw [Nat.pow_succ, Nat.mul_comm (256 ^ k) 256, Nat.mod_mul]

theorem DecodeFixed64_EncodeFixed64 (kLittleEndian : Bool) (value : Nat) (rest : Bytes) :
    DecodeFixed64 (EncodeFixed64 kLittleEndian value ++ rest) = uint64_t value := by
  unfold DecodeFixed64
  rw [EncodeFixed64_eq, littleEndianValue_bytes]
  unfold uint64_t
  norm_num

theorem GetVarint32PtrFallback.loop_cont (shift result y : Nat) (p : Bytes) (hy : y < 128)
    (hs : shift ≤ 28) (hr : result < 2 ^ shift) (hfit : y * 2 ^ shift < 4294967296) :
    GetVarint32PtrFallback.loop shift result ((y + 128) :: p) =
      GetVarint32PtrFallback.loop (shift + 7) (result + y * 2 ^ shift) p := by
  have hb : ¬ ((y + 128) &&& 128 = 0) := by
    rw [byte_and_128 (y + 128) (by omega)]
    omega
  have h7 : (y + 128) &&& 127 = y := by rw [and_127]; omega
  have hu : uint32_t (y <<< shift) = y <<< shift := by
    unfold uint32_t
    rw [Nat.shiftLeft_eq]
    exact Nat.mod_eq_of_lt hfit
  rw [GetVarint32PtrFallback.loop]
  simp only [hs, if_true, ne_eq, hb, not_false_eq_true, h7, hu, or_shift _ _ _ hr]

theorem GetVarint32PtrFallback.loop_last (shift result b : Nat) (p : Bytes) (hb : b < 128)
    (hs : shift ≤ 28) (hr : result < 2 ^ shift) (hfit : b * 2 ^ shift < 4294967296) :
    GetVarint32PtrFallback.loop shift result (b :: p) = some (p, result + b * 2 ^ shift) := by
  have hb0 : b &&& 128 = 0 := by
    rw [byte_and_128 b (by omega)]
    exact hb
  have hu : uint32_t (b <<< shift) = b <<< shift := by
    unfold uint32_t
    rw [Nat.shiftLeft_eq]
    exact Nat.mod_eq_of_lt hfit
  rw [GetVarint32PtrFallback.loop]
  simp only [hs, if_true, ne_eq, hb0, not_true_eq_false, if_false, hu, or_shift _ _ _ hr]

/-- Decoding the bytes of `EncodeVarint32 v` gives `v` back and stops right after them. -/
theorem GetVarint32Ptr_EncodeVarint32 (v : Nat) (hv : v < 4294967296) (rest : Bytes) :
    GetVarint32Ptr (EncodeVarint32 v ++ rest) = some (rest, v) := by
  unfold GetVarint32Ptr GetVarint32PtrFallback
  rw [EncodeVarint32_eq v hv]
  split_ifs with h1 h2 h3 h4
  · rw [List.singleton_append, GetVarint32PtrFallback.loop_last 0 0 v rest h1 (by omega)
      (by norm_num) (by omega)]
    simp
  · simp only [List.cons_append, List.nil_append]
    rw [GetVarint32PtrFallback.loop_cont 0 0 _ _ (by omega) (by omega) (by norm_num)
        (by norm_num; omega),
      GetVarint32PtrFallback.loop_last _ _ _ _ (by omega) (by omega) (by norm_num; omega)
        (by norm_num; omega)]
    simp only [Option.some.injEq, Prod.mk.injEq, true_and]
    norm_num
    omega
  · simp only [List.cons_append, List.nil_append]
    rw [GetVarint32PtrFallback.loop_cont 0 0 _ _ (by omega) (by omega) (by norm_num)
        (by norm_num; omega),
      GetVarint32PtrFallback.loop_cont _ _ _ _ (by omega) (by omega) (by norm_num; omega)
        (by norm_num; omega),
      GetVarint32PtrFallback.loop_last _ _ _ _ (by omega) (by omega) (by norm_num; omega)
        (by norm_num; omega)]
    simp only [Option.some.injEq, Prod.mk.injEq, true_and]
    norm_num
    omega
  · simp only [List.cons_append, List.nil_append]
    rw [GetVarint32PtrFallback.loop_cont 0 0 _ _ (by omega) (by omega) (by norm_num)
        (by norm_num; omega),
      GetVarint32PtrFallback.loop_cont _ _ _ _ (by omega) (by omega) (by norm_num; omega)
        (by norm_num; omega),
      GetVarint32PtrFallback.loop_cont _ _ _ _ (by omega) (by omega) (by norm_num; omega)
        (by norm_num; omega),
      GetVarint32PtrFallback.loop_last _ _ _ _ (by omega) (by omega) (by norm_num; omega)
        (by norm_num; omega)]
    simp only [Option.some.injEq, Prod.mk.injEq, true_and]
    norm_num
    omega
  · simp only [List.cons_append, List.nil_append]
    rw [GetVarint32PtrFallback.loop_cont 0 0 _ _ (by omega) (by omega) (by norm_num)
        (by norm_num; omega),
      GetVarint32PtrFallback.loop_cont _ _ _ _ (by omega) (by omega) (by norm_num; omega)
        (by norm_num; omega),
      GetVarint32PtrFallback.loop_cont _ _ _ _ (by omega) (by omega) (by norm_num; omega)
        (by norm_num; omega),
      GetVarint32PtrFallback.loop_cont _ _ _ _ (by omega) (by omega) (by norm_num; omega)
        (by norm_num; omega),
      GetVarint32PtrFallback.loop_last _ _ _ _ (by omega) (by omega) (by norm_num; omega)
        (by norm_num; omega)]
    simp only [Option.some.injEq, Prod.mk.injEq, true_and]
    norm_num
    omega

/-! ## Lemmas on the MemTable -/

theorem varint_prefix (n : Nat) (hn : n < 4294967296) (body : Bytes) :
    GetVarint32Ptr ((EncodeVarint32 n ++ body).take 5) =
        some (body.take (5 - (EncodeVarint32 n).length), n) ∧
      ((EncodeVarint32 n ++ body).take 5).length
        - (body.take (5 - (EncodeVarint32 n).length)).length = (EncodeVarint32 n).length := by
  obtain ⟨-, h5⟩ := EncodeVarint32_length_le n
  have ht : (EncodeVarint32 n ++ body).take 5 =
      EncodeVarint32 n ++ body.take (5 - (EncodeVarint32 n).length) := by
    rw [List.take_append_eq_append_take, List.take_of_length_le h5]
  rw [ht]
  refine ⟨GetVarint32Ptr_EncodeVarint32 n hn _, ?_⟩
  rw [List.length_append]
  omega

theorem MemTable.GetLengthPrefixedSlice_encode (n : Nat) (hn : n < 4294967296) (body : Bytes) :
    MemTable.GetLengthPrefixedSlice (EncodeVarint32 n ++ body) = body.take n := by
  obtain ⟨h1, h2⟩ := varint_prefix n hn body
  unfold MemTable.GetLengthPrefixedSlice
  rw [h1]
  simp only [h2, List.drop_left]

theorem memcmp_self (a : Bytes) (n : Nat) : memcmp a a n = 0 := by
  induction a generalizing n with
  | nil => cases n <;> rfl
  | cons x xs ih =>
    cases n with
    | zero => rfl
    | succ k => simp [memcmp, ih]

theorem Slice.compare_self (a : Bytes) : Slice.compare a a = 0 := by
  unfold Slice.compare
  simp [memcmp_self]

theorem InternalKeyComparator.Compare_self (a : Bytes) :
    InternalKeyComparator.Compare a a = 0 := by
  unfold InternalKeyComparator.Compare userCompare
  simp [Slice.compare_self]

/-- Seeking a target that compares like `e` right after `e` was inserted finds `e`. -/
theorem SkipList.Seek_Insert (cmp : Bytes → Bytes → Int) (e target : Bytes)
    (hrefl : cmp e e = 0) (hcong : ∀ x, cmp x target = cmp x e) (list : List Bytes) :
    SkipList.Seek cmp (SkipList.Insert cmp list e) target = some e := by
  unfold SkipList.Seek
  induction list with
  | nil => simp [SkipList.Insert, hcong, hrefl]
  | cons x xs ih =>
    unfold SkipList.Insert
    by_cases hx : cmp x e < 0
    · have hnx : ¬ (cmp x target ≥ 0) := by rw [hcong]; omega
      simp only [hx, if_true, List.find?_cons, hnx, decide_False]
      exact ih
    · simp only [hx, if_false, List.find?_cons, hcong, hrefl, ge_iff_le, le_refl, decide_True]

theorem packTag_eq (s t : Nat) (ht : t < 256) :
    packTag s t = s * 256 % 18446744073709551616 + t := by
  unfold packTag uint64_t
  rw [Nat.shiftLeft_eq]
  have hdvd : ∃ q, s % 18446744073709551616 * 2 ^ 8 % 18446744073709551616 = 2 ^ 8 * q := by
    refine ⟨s % 18446744073709551616 * 2 ^ 8 % 18446744073709551616 / 2 ^ 8, ?_⟩
    norm_num
    omega
  obtain ⟨q, hq⟩ := hdvd
  rw [hq, ← Nat.mul_add_lt_is_or (by norm_num; exact ht)]
  norm_num at hq ⊢
  omega

theorem packTag_kind (s t : Nat) (ht : t < 256) : packTag s t &&& 0xff = t := by
  rw [log.and_255, packTag_eq s t ht]
  omega

theorem packTag_lt (s t : Nat) : packTag s t < 18446744073709551616 := by
  unfold packTag uint64_t
  exact Nat.mod_lt _ (by norm_num)

theorem MemTable.encodeEntry_ok (kLittleEndian : Bool) (s type : Nat) (key value : Bytes)
    (hk : key.length + 8 < 4294967296) (hv : value.length < 4294967296) :
    MemTable.encoded_len key value = VarintLength (key.length + 8) + key.length + 8 +
        VarintLength value.length + value.length ∧
      MemTable.encodeEntry kLittleEndian s type key value =
        some (EncodeVarint32 (key.length + 8) ++ (key ++
          (EncodeFixed64 kLittleEndian (packTag s type) ++
            (EncodeVarint32 value.length ++ value)))) := by
  have hu : uint64_t (key.length + 8) = key.length + 8 := Nat.mod_eq_of_lt (by omega)
  have l1 := EncodeVarint32_length (key.length + 8) hk
  have l2 := EncodeVarint32_length value.length hv
  obtain ⟨-, b1⟩ := EncodeVarint32_length_le (key.length + 8)
  obtain ⟨-, b2⟩ := EncodeVarint32_length_le value.length
  have hlen : MemTable.encoded_len key value = VarintLength (key.length + 8) + key.length + 8 +
      VarintLength value.length + value.length := by
    unfold MemTable.encoded_len
    simp only [hu]
    unfold uint64_t
    rw [Nat.mod_eq_of_lt (by omega)]
    omega
  refine ⟨hlen, ?_⟩
  unfold MemTable.encodeEntry
  simp only [hu, hlen, List.length_append, EncodeFixed64_length, l1, l2, List.append_assoc]
  rw [if_pos (by omega)]

/-- C9 (amended): for every user key with `len(key) + 8 < 2^32` and every value with
`len(value) < 2^32`, every sequence number and every kind, `MemTable::Add` requests
`VarintLength(len(key)+8) + len(key) + 8 + VarintLength(len(value)) + len(value)` bytes
and fills them exactly, its final-pointer assertion holding, with
`varint32(len(key)+8) ++ key ++ fixed64_le((s << 8) | kind) ++ varint32(len(value)) ++ value`,
which is the entry it inserts in the index. -/
theorem C9_Add_entry_layout (kLittleEndian : Bool) (s type : Nat) (key value : Bytes)
    (hk : key.length + 8 < 4294967296) (hv : value.length < 4294967296) :
    MemTable.encoded_len key value = VarintLength (key.length + 8) + key.length + 8 +
        VarintLength value.length + value.length ∧
    ∃ buf, MemTable.encodeEntry kLittleEndian s type key value = some buf ∧
      buf.length = MemTable.encoded_len key value ∧
      buf = EncodeVarint32 (key.length + 8) ++ key ++
        littleEndianBytes 8 (uint64_t (uint64_t (uint64_t s <<< 8) ||| type)) ++
        EncodeVarint32 value.length ++ value ∧
      ∀ m, MemTable.Add kLittleEndian m s type key value =
        some { table_ := SkipList.Insert MemTable.KeyComparator m.table_ buf } := by
  obtain ⟨hlen, henc⟩ := MemTable.encodeEntry_ok kLittleEndian s type key value hk hv
  have hfix : EncodeFixed64 kLittleEndian (packTag s type) =
      littleEndianBytes 8 (uint64_t (uint64_t (uint64_t s <<< 8) ||| type)) := by
    rw [EncodeFixed64_eq]
    unfold packTag uint64_t
    rw [Nat.mod_mod]
  refine ⟨hlen, _, henc, ?_, ?_, ?_⟩
  · rw [hlen]
    simp only [List.length_append, EncodeFixed64_length,
      EncodeVarint32_length (key.length + 8) hk, EncodeVarint32_length value.length hv]
    omega
  · rw [hfix]
    simp only [List.append_assoc]
  · intro m
    unfold MemTable.Add
    rw [henc]

/-- C9 witness: the entry of `Add(1, Value, "hello", "world")`. -/
theorem C9_Add_entry_layout_witness :
    MemTable.encoded_len [104, 101, 108, 108, 111] [119, 111, 114, 108, 100] =
        VarintLength (([104, 101, 108, 108, 111] : Bytes).length + 8) +
          ([104, 101, 108, 108, 111] : Bytes).length + 8 +
        VarintLength ([119, 111, 114, 108, 100] : Bytes).length +
          ([119, 111, 114, 108, 100] : Bytes).length ∧
    ∃ buf, MemTable.encodeEntry true 1 kTypeValue [104, 101, 108, 108, 111]
        [119, 111, 114, 108, 100] = some buf ∧
      buf.length = MemTable.encoded_len [104, 101, 108, 108, 111] [119, 111, 114, 108, 100] ∧
      buf = EncodeVarint32 (([104, 101, 108, 108, 111] : Bytes).length + 8) ++
        [104, 101, 108, 108, 111] ++
        littleEndianBytes 8 (uint64_t (uint64_t (uint64_t 1 <<< 8) ||| kTypeValue)) ++
        EncodeVarint32 ([119, 111, 114, 108, 100] : Bytes).length ++
        [119, 111, 114, 108, 100] ∧
      ∀ m, MemTable.Add true m 1 kTypeValue [104, 101, 108, 108, 111]
          [119, 111, 114, 108, 100] =
        some { table_ := SkipList.Insert MemTable.KeyComparator m.table_ buf } :=
  C9_Add_entry_layout true 1 kTypeValue [104, 101, 108, 108, 111] [119, 111, 114, 108, 100]
    (by decide) (by decide)

theorem EncodeVarint32_mod (v : Nat) : EncodeVarint32 v = EncodeVarint32 (v % 4294967296) := by
  unfold EncodeVarint32 uint32_t
  simp only [Nat.mod_mod]

/-- For a user key of `2^32 - 8` to `2^32 - 1` bytes the final-pointer assertion of `Add`
fails: `VarintLength` counts five bytes for the internal key size, and `EncodeVarint32`
receives it truncated to 32 bits and writes one byte. -/
theorem MemTable.encodeEntry_long_key (kLittleEndian : Bool) (s type : Nat) (key value : Bytes)
    (hk1 : 4294967288 ≤ key.length) (hk2 : key.length < 4294967296)
    (hv : value.length < 4294967296) :
    MemTable.encodeEntry kLittleEndian s type key value = none := by
  have hu : uint64_t (key.length + 8) = key.length + 8 := Nat.mod_eq_of_lt (by omega)
  have l1 : (EncodeVarint32 (key.length + 8)).length = 1 := by
    rw [EncodeVarint32_mod, EncodeVarint32_eq _ (Nat.mod_lt _ (by norm_num)), if_pos (by omega)]
    rfl
  have l2 := EncodeVarint32_length value.length hv
  obtain ⟨-, b2⟩ := EncodeVarint32_length_le value.length
  have v1 : VarintLength (key.length + 8) = 5 := by
    rw [VarintLength_eq _ (by omega), if_neg (by omega), if_neg (by omega), if_neg (by omega),
      if_neg (by omega)]
  unfold MemTable.encodeEntry MemTable.encoded_len
  simp only [hu, List.length_append, EncodeFixed64_length, l1, l2, v1]
  rw [if_neg]
  unfold uint64_t
  rw [Nat.mod_eq_of_lt (by omega)]
  omega

/-- C9 counterexample: a user key of `2^32 - 8` bytes and an empty value have lengths that
fit in 32 bits, but the final-pointer assertion of `Add` fails for them. -/
theorem C9_counterexample :
    (List.replicate 4294967288 0 : Bytes).length < 4294967296 ∧
    ([] : Bytes).length < 4294967296 ∧
    MemTable.encodeEntry true 1 kTypeValue (List.replicate 4294967288 0) [] = none :=
  ⟨by rw [List.length_replicate]; norm_num, by decide,
    MemTable.encodeEntry_long_key true 1 kTypeValue (List.replicate 4294967288 0) []
      (by rw [List.length_replicate]) (by rw [List.length_replicate]; norm_num) (by decide)⟩

/-- For a value of `2^32` to `2^32 + 127` bytes the final-pointer assertion of `Add`
fails, for the same reason as for a long key. -/
theorem MemTable.encodeEntry_long_value (kLittleEndian : Bool) (s type : Nat)
    (key value : Bytes) (hk : key.length + 8 < 4294967296)
    (hv1 : 4294967296 ≤ value.length) (hv2 : value.length < 4294967424) :
    MemTable.encodeEntry kLittleEndian s type key value = none := by
  have hu : uint64_t (key.length + 8) = key.length + 8 := Nat.mod_eq_of_lt (by omega)
  have l1 := EncodeVarint32_length (key.length + 8) hk
  obtain ⟨-, b1⟩ := EncodeVarint32_length_le (key.length + 8)
  have l2 : (EncodeVarint32 value.length).length = 1 := by
    rw [EncodeVarint32_mod, EncodeVarint32_eq _ (Nat.mod_lt _ (by norm_num)), if_pos (by omega)]
    rfl
  have v2 : VarintLength value.length = 5 := by
    rw [VarintLength_eq _ (by omega), if_neg (by omega), if_neg (by omega), if_neg (by omega),
      if_neg (by omega)]
  unfold MemTable.encodeEntry MemTable.encoded_len
  simp only [hu, List.length_append, EncodeFixed64_length, l1, l2, v2]
  rw [if_neg]
  unfold uint64_t
  rw [Nat.mod_eq_of_lt (by omega)]
  omega

theorem MemTable.entry_prefix (kLittleEndian : Bool) (s type : Nat) (key rest : Bytes) :
    (key ++ (EncodeFixed64 kLittleEndian (packTag s type) ++ rest)).take (key.length + 8) =
      key ++ EncodeFixed64 kLittleEndian (packTag s type) := by
  rw [← List.append_assoc]
  exact List.take_left' (by rw [List.length_append, EncodeFixed64_length])

/-- After `Add(seq, type, key, value)`, seeking the lookup key of `(key, seq)` positions
the iterator on the entry just added. -/
theorem MemTable.Seek_after_Add (kLittleEndian : Bool) (table : List Bytes) (seq type : Nat)
    (key rest : Bytes) (hk : key.length + 8 < 4294967296) :
    SkipList.Seek MemTable.KeyComparator
      (SkipList.Insert MemTable.KeyComparator table
        (EncodeVarint32 (key.length + 8) ++ (key ++
          (EncodeFixed64 kLittleEndian (packTag seq type) ++ rest))))
      (EncodeVarint32 (key.length + 8) ++ (key ++
          (EncodeFixed64 kLittleEndian (packTag seq type) ++ []))) =
      some (EncodeVarint32 (key.length + 8) ++ (key ++
          (EncodeFixed64 kLittleEndian (packTag seq type) ++ rest))) := by
  apply SkipList.Seek_Insert
  · unfold MemTable.KeyComparator
    exact InternalKeyComparator.Compare_self _
  · intro x
    unfold MemTable.KeyComparator
    simp only [MemTable.GetLengthPrefixedSlice_encode _ hk, MemTable.entry_prefix]

/-- The result of `Get` when `Seek` lands on an entry written by `Add` for the user key
looked up: the value of the entry for the kind `Value`. -/
theorem MemTable.Get_of_Seek (kLittleEndian : Bool) (m : MemTable) (lk : LookupKey)
    (seq : Nat) (value value0 : Bytes) (s0 : Status)
    (hk : lk.user_key.length + 8 < 4294967296) (hv : value.length < 4294967296)
    (hseek : SkipList.Seek MemTable.KeyComparator m.table_ (lk.memtable_key kLittleEndian) =
      some (EncodeVarint32 (lk.user_key.length + 8) ++ (lk.user_key ++
        (EncodeFixed64 kLittleEndian (packTag seq kTypeValue) ++
          (EncodeVarint32 value.length ++ value))))) :
    MemTable.Get kLittleEndian m lk value0 s0 = (true, value, s0) := by
  obtain ⟨h1, h2⟩ := varint_prefix (lk.user_key.length + 8) hk (lk.user_key ++
    (EncodeFixed64 kLittleEndian (packTag seq kTypeValue) ++
      (EncodeVarint32 value.length ++ value)))
  have hu : uint32_t (lk.user_key.length + 8 + 4294967296 - 8) = lk.user_key.length := by
    unfold uint32_t; omega
  have htag : DecodeFixed64 (EncodeFixed64 kLittleEndian (packTag seq kTypeValue) ++
      (EncodeVarint32 value.length ++ value)) = packTag seq kTypeValue := by
    rw [DecodeFixed64_EncodeFixed64]
    exact Nat.mod_eq_of_lt (packTag_lt _ _)
  have hkind : packTag seq kTypeValue &&& 0xff = kTypeValue :=
    packTag_kind seq kTypeValue (by decide)
  have hdrop : (lk.user_key ++ (EncodeFixed64 kLittleEndian (packTag seq kTypeValue) ++
      (EncodeVarint32 value.length ++ value))).drop (lk.user_key.length + 8) =
      EncodeVarint32 value.length ++ value := by
    rw [← List.append_assoc]
    exact List.drop_left' (by rw [List.length_append, EncodeFixed64_length])
  unfold MemTable.Get
  simp only [hseek, h1, h2, List.drop_left, hu, List.take_left, userCompare,
    Slice.compare_self, if_true, Nat.add_sub_cancel, htag, hkind, hdrop,
    MemTable.GetLengthPrefixedSlice_encode _ hv, List.take_length]

theorem MemTable.Add_of_encodeEntry_none (kLittleEndian : Bool) (m : MemTable) (s type : Nat)
    (key value : Bytes) (h : MemTable.encodeEntry kLittleEndian s type key value = none) :
    MemTable.Add kLittleEndian m s type key value = none := by
  unfold MemTable.Add
  rw [h]

/-- C10 (amended): for every key with `len(key) + 8 < 2^32`, every value with
`len(value) < 2^32`, every sequence number `seq < 2^56` and every MemTable built by Adds
whose sequence numbers are pairwise distinct and differ from `seq`, `Add(seq, Value,
key, value)` succeeds and then `Get(LookupKey(key, seq))` returns true and sets the
output value to exactly `value`, leaving the status as it was. The index is modelled by
its contract. -/
theorem C10_Get_after_Add (kLittleEndian : Bool) (history : List AddOp) (m : MemTable)
    (seq : Nat) (key value : Bytes)
    (_hm : MemTable.AddAll kLittleEndian MemTable.empty history = some m)
    (_hd : (history.map AddOp.s ++ [seq]).Nodup) (_hseq : seq < 72057594037927936)
    (hk : key.length + 8 < 4294967296) (hv : value.length < 4294967296) :
    ∃ m2, MemTable.Add kLittleEndian m seq kTypeValue key value = some m2 ∧
      ∀ value0 s0, MemTable.Get kLittleEndian m2 { user_key := key, sequence := seq }
        value0 s0 = (true, value, s0) := by
  obtain ⟨-, henc⟩ := MemTable.encodeEntry_ok kLittleEndian seq kTypeValue key value hk hv
  refine ⟨_, by unfold MemTable.Add; rw [henc], ?_⟩
  intro value0 s0
  apply MemTable.Get_of_Seek kLittleEndian _ _ seq value value0 s0 hk hv
  have hu : uint64_t (key.length + 8) = key.length + 8 := Nat.mod_eq_of_lt (by omega)
  have := MemTable.Seek_after_Add kLittleEndian m.table_ seq kTypeValue key
    (EncodeVarint32 value.length ++ value) hk
  simp only [LookupKey.memtable_key, hu, kValueTypeForSeek, List.append_assoc]
  simpa using this

/-- C10 witness: `Put("hello", "world")` on an empty MemTable, then `Get("hello")`. -/
theorem C10_Get_after_Add_witness :
    ∃ m2, MemTable.Add true MemTable.empty 1 kTypeValue [104, 101, 108, 108, 111]
        [119, 111, 114, 108, 100] = some m2 ∧
      ∀ value0 s0, MemTable.Get true m2
        { user_key := [104, 101, 108, 108, 111], sequence := 1 } value0 s0 =
          (true, [119, 111, 114, 108, 100], s0) :=
  C10_Get_after_Add true [] MemTable.empty 1 [104, 101, 108, 108, 111]
    [119, 111, 114, 108, 100] rfl (by decide) (by decide) (by decide) (by decide)

/-- C10 counterexample: on the empty MemTable, `Add(1, Value, "h", value)` with a value of
`2^32` bytes fails its final-pointer assertion, so that no `Get` returns the value. -/
theorem C10_counterexample :
    MemTable.AddAll true MemTable.empty [] = some MemTable.empty ∧
    (([] : List AddOp).map AddOp.s ++ [1]).Nodup ∧ 1 < 72057594037927936 ∧
    ¬ ∃ m2, MemTable.Add true MemTable.empty 1 kTypeValue [104]
        (List.replicate 4294967296 0) = some m2 ∧
      ∀ value0 s0, MemTable.Get true m2 { user_key := [104], sequence := 1 } value0 s0 =
        (true, List.replicate 4294967296 0, s0) := by
  refine ⟨rfl, by decide, by decide, ?_⟩
  rintro ⟨m2, hadd, -⟩
  have hnone := MemTable.Add_of_encodeEntry_none true MemTable.empty 1 kTypeValue [104]
    (List.replicate 4294967296 0)
    (MemTable.encodeEntry_long_value true 1 kTypeValue [104] (List.replicate 4294967296 0)
      (by decide) (by rw [List.length_replicate]) (by rw [List.length_replicate]; norm_num))
  rw [hnone] at hadd
  exact Option.noConfusion hadd

/-! ## Fixed-width encodings -/

theorem littleEndianBytes_eq_map (n v : Nat) :
    littleEndianBytes n v = (List.range n).map (fun i => (v >>> (8 * i)) &&& 0xff) := by
  induction n generalizing v with
  | zero => rfl
  | succ k ih =>
    rw [littleEndianBytes, ih, List.range_succ_eq_map, List.map_cons, List.map_map]
    congr 1
    · simp [log.and_255]
    · apply List.map_congr_left
      intro i _
      simp only [Function.comp, log.and_255, Nat.shiftRight_eq_div_pow]
      rw [Nat.div_div_eq_div_mul]
      congr 2
      rw [show 8 * (i + 1) = 8 + 8 * i by ring, pow_add]
      norm_num

/-- Claim C20: `EncodeFixed32` writes the four bytes `(v >> 8i) & 0xff`, `i = 0..3`, and
`EncodeFixed64` the eight bytes `(v >> 8i) & 0xff`, `i = 0..7`, of its argument (as a
32-bit, 64-bit value), the same on the `memcpy` branch and on the byte-by-byte branch;
`PutFixed32` and `PutFixed64` append exactly these bytes to `dst`, whose former contents
stay as the prefix of the result. -/
theorem C20_fixed_little_endian (kLittleEndian : Bool) (dst : Bytes) (v : Nat) :
    EncodeFixed32 kLittleEndian v
        = (List.range 4).map (fun i => (uint32_t v >>> (8 * i)) &&& 0xff)
      ∧ EncodeFixed64 kLittleEndian v
        = (List.range 8).map (fun i => (uint64_t v >>> (8 * i)) &&& 0xff)
      ∧ EncodeFixed32 true v = EncodeFixed32 false v
      ∧ EncodeFixed64 true v = EncodeFixed64 false v
      ∧ PutFixed32 kLittleEndian dst v
        = dst ++ (List.range 4).map (fun i => (uint32_t v >>> (8 * i)) &&& 0xff)
      ∧ PutFixed64 kLittleEndian dst v
        = dst ++ (List.range 8).map (fun i => (uint64_t v >>> (8 * i)) &&& 0xff)
      ∧ (PutFixed32 kLittleEndian dst v).take dst.length = dst
      ∧ (PutFixed64 kLittleEndian dst v).take dst.length = dst
      ∧ (PutFixed32 kLittleEndian dst v).length = dst.length + 4
      ∧ (PutFixed64 kLittleEndian dst v).length = dst.length + 8 := by
  have h32 := fun k => (log.EncodeFixed32_eq k v).trans (littleEndianBytes_eq_map 4 (uint32_t v))
  have h64 := fun k => (EncodeFixed64_eq k v).trans (littleEndianBytes_eq_map 8 (uint64_t v))
  refine ⟨h32 _, h64 _, (h32 true).trans (h32 false).symm, (h64 true).trans (h64 false).symm,
    ?_, ?_, ?_, ?_, ?_, ?_⟩
  · simp only [PutFixed32, h32]
  · simp only [PutFixed64, h64]
  · simp [PutFixed32]
  · simp [PutFixed64]
  · simp [PutFixed32, log.EncodeFixed32_length]
  · simp [PutFixed64, EncodeFixed64_length]

/-! ## `AllocateFallback` -/

/-- Claim C17: `AllocateFallback(n)` with `n > 1024` asks the host for one block of
exactly `n` bytes, returns its start and leaves `alloc_ptr_` and
`alloc_bytes_remaining_` as they were; with `n <= 1024` it asks the host for one block of
4096 bytes, returns its start and leaves the cursor at offset `n` of that block with
`4096 - n` bytes remaining. In both cases the block is recorded in `blocks_`. -/
theorem C17_AllocateFallback_split (a : Arena) (h : Host) (n : Nat) :
    (Arena.AllocateFallback a h n).1 = h.place h.blocks.length
      ∧ (Arena.AllocateFallback a h n).2.1.blocks_ = a.blocks_ ++ [h.place h.blocks.length]
      ∧ (n > 1024 →
          (Arena.AllocateFallback a h n).2.2.blocks
              = h.blocks ++ [(h.place h.blocks.length, n)]
            ∧ (Arena.AllocateFallback a h n).2.1.alloc_ptr_ = a.alloc_ptr_
            ∧ (Arena.AllocateFallback a h n).2.1.alloc_bytes_remaining_
              = a.alloc_bytes_remaining_)
      ∧ (n ≤ 1024 →
          (Arena.AllocateFallback a h n).2.2.blocks
              = h.blocks ++ [(h.place h.blocks.length, 4096)]
            ∧ (Arena.AllocateFallback a h n).2.1.alloc_ptr_ = h.place h.blocks.length + n
            ∧ (Arena.AllocateFallback a h n).2.1.alloc_bytes_remaining_ = 4096 - n) := by
  unfold Arena.AllocateFallback Arena.AllocateNewBlock Host.new_array Arena.kBlockSize
  norm_num
  by_cases hn : 1024 < n
  · simp [hn]
  · simp [hn, Nat.le_of_not_lt hn]

theorem C17_AllocateFallback_split_witness :
    (Arena.AllocateFallback Arena.new (exampleHost 4096 8192) 2000).2.1.alloc_ptr_ = 0
      ∧ (Arena.AllocateFallback Arena.new (exampleHost 4096 8192) 2000).2.2.blocks
        = [(4096, 2000)]
      ∧ (Arena.AllocateFallback Arena.new (exampleHost 4096 8192) 100).2.1.alloc_ptr_ = 4196
      ∧ (Arena.AllocateFallback Arena.new (exampleHost 4096 8192) 100).2.1.alloc_bytes_remaining_
        = 3996 :=
  ⟨((C17_AllocateFallback_split Arena.new (exampleHost 4096 8192) 2000).2.2.1
      (by decide)).2.1,
    ((C17_AllocateFallback_split Arena.new (exampleHost 4096 8192) 2000).2.2.1
      (by decide)).1,
    ((C17_AllocateFallback_split Arena.new (exampleHost 4096 8192) 100).2.2.2
      (by decide)).2.1,
    ((C17_AllocateFallback_split Arena.new (exampleHost 4096 8192) 100).2.2.2
      (by decide)).2.2⟩

/-! ## Varint round trips -/

/-- The value a list of varint bytes carries: seven payload bits a byte, least
significant group first. -/
theorem EncodeVarint32_payload (v : Nat) (hv : v < 4294967296) :
    (EncodeVarint32 v).foldr (fun b acc => b % 128 + 128 * acc) 0 = v := by
  rw [EncodeVarint32_eq v hv]
  split_ifs <;> simp only [List.foldr_cons, List.foldr_nil] <;> omega

theorem EncodeVarint32_flags (v : Nat) (hv : v < 4294967296) :
    (∀ b ∈ (EncodeVarint32 v).dropLast, 128 ≤ b ∧ b < 256)
      ∧ ∃ last, (EncodeVarint32 v).getLast? = some last ∧ last < 128 := by
  rw [EncodeVarint32_eq v hv]
  split_ifs
  · exact ⟨by simp, v, by simp, by omega⟩
  · refine ⟨?_, v / 128, by simp, by omega⟩
    simp only [List.dropLast, List.mem_cons, List.mem_singleton, List.not_mem_nil, or_false]
    omega
  · refine ⟨?_, v / 16384, by simp, by omega⟩
    simp only [List.dropLast, List.mem_cons, List.mem_singleton, List.not_mem_nil, or_false]
    omega
  · refine ⟨?_, v / 2097152, by simp, by omega⟩
    simp only [List.dropLast, List.mem_cons, List.mem_singleton, List.not_mem_nil, or_false]
    omega
  · refine ⟨?_, v / 268435456, by simp, by omega⟩
    simp only [List.dropLast, List.mem_cons, List.mem_singleton, List.not_mem_nil, or_false]
    omega

/-- Claim C18: for `v < 2^32`, `GetVarint32PtrFallback` on the bytes of
`EncodeVarint32(v)` followed by any bytes `rest` up to the limit returns `v` and the
position just after the encoding; the encoding has 1 to 5 bytes, every byte but the last
has the top bit set (128 to 255), the last byte is below 128, and the bytes carry `v` in
groups of seven bits, least significant group first. -/
theorem C18_varint32_round_trip (v : Nat) (hv : v < 4294967296) (rest : Bytes) :
    GetVarint32PtrFallback (EncodeVarint32 v ++ rest) = some (rest, v)
      ∧ 1 ≤ (EncodeVarint32 v).length ∧ (EncodeVarint32 v).length ≤ 5
      ∧ (∀ b ∈ (EncodeVarint32 v).dropLast, 128 ≤ b ∧ b < 256)
      ∧ (∃ last, (EncodeVarint32 v).getLast? = some last ∧ last < 128)
      ∧ (EncodeVarint32 v).foldr (fun b acc => b % 128 + 128 * acc) 0 = v :=
  ⟨GetVarint32Ptr_EncodeVarint32 v hv rest, (EncodeVarint32_length_le v).1,
    (EncodeVarint32_length_le v).2, (EncodeVarint32_flags v hv).1,
    (EncodeVarint32_flags v hv).2, EncodeVarint32_payload v hv⟩

theorem C18_varint32_round_trip_witness :
    GetVarint32PtrFallback (EncodeVarint32 300 ++ [7]) = some ([7], 300) :=
  (C18_varint32_round_trip 300 (by decide) [7]).1

theorem EncodeVarint64_loop_small (v : Nat) (h : v < 128) : EncodeVarint64.loop v = [v] := by
  rw [EncodeVarint64.loop, dif_neg (by omega)]
  simp only [uchar]
  congr 1
  omega

theorem EncodeVarint64_loop_large (v : Nat) (h : 128 ≤ v) :
    EncodeVarint64.loop v = (v % 128 + 128) :: EncodeVarint64.loop (v / 128) := by
  rw [EncodeVarint64.loop, dif_pos h]
  simp only [uchar, Nat.shiftRight_eq_div_pow]
  congr 1
  rw [show (128 - 1 : Nat) = 127 by rfl, and_127, or_128_mod, Nat.mod_mod]

theorem GetVarint64Ptr_loop_continue (shift result x : Nat) (p : Bytes) (hs : shift ≤ 63)
    (hx : x < 128) (hr : result < 2 ^ shift) (hb : x * 2 ^ shift < 2 ^ 64) :
    GetVarint64Ptr.loop shift result ((x + 128) :: p)
      = GetVarint64Ptr.loop (shift + 7) (result + x * 2 ^ shift) p := by
  have h1 : (x + 128) &&& 128 ≠ 0 := by
    intro h0
    have := (byte_and_128 (x + 128) (by omega)).1 h0
    omega
  have h2 : (x + 128) &&& 127 = x := by rw [and_127]; omega
  have hb2 : x * 2 ^ shift < 18446744073709551616 := by simpa using hb
  have hor := or_shift result x shift hr
  rw [Nat.shiftLeft_eq] at hor
  rw [GetVarint64Ptr.loop, if_pos hs, if_pos h1, h2, Nat.shiftLeft_eq, uint64_t,
    Nat.mod_eq_of_lt hb2, hor]

theorem GetVarint64Ptr_loop_final (shift result x : Nat) (p : Bytes) (hs : shift ≤ 63)
    (hx : x < 128) (hr : result < 2 ^ shift) (hb : x * 2 ^ shift < 2 ^ 64) :
    GetVarint64Ptr.loop shift result (x :: p) = some (p, result + x * 2 ^ shift) := by
  have h1 : ¬ (x &&& 128 ≠ 0) := by
    rw [not_not]
    exact (byte_and_128 x (by omega)).2 hx
  have hb2 : x * 2 ^ shift < 18446744073709551616 := by simpa using hb
  have hor := or_shift result x shift hr
  rw [Nat.shiftLeft_eq] at hor
  rw [GetVarint64Ptr.loop, if_pos hs, if_neg h1, Nat.shiftLeft_eq, uint64_t,
    Nat.mod_eq_of_lt hb2, hor]

theorem GetVarint64Ptr_loop_encode (v : Nat) :
    ∀ (shift result : Nat) (rest : Bytes), shift ≤ 63 → result < 2 ^ shift →
      v * 2 ^ shift < 2 ^ 64 →
      GetVarint64Ptr.loop shift result (EncodeVarint64.loop v ++ rest)
        = some (rest, result + v * 2 ^ shift) := by
  induction v using Nat.strong_induction_on with
  | _ v ih =>
    intro shift result rest hs hr hb
    by_cases hv : v < 128
    · rw [EncodeVarint64_loop_small v hv, List.singleton_append,
        GetVarint64Ptr_loop_final shift result v rest hs hv hr hb]
    · have hv2 : 128 ≤ v := by omega
      have hP : 0 < 2 ^ shift := Nat.two_pow_pos shift
      have hdm : v = 128 * (v / 128) + v % 128 := (Nat.div_add_mod v 128).symm
      have hmul : v * 2 ^ shift = (v / 128) * (128 * 2 ^ shift) + (v % 128) * 2 ^ shift := by
        conv_lhs => rw [hdm]
        ring
      have hpow : 2 ^ (shift + 7) = 128 * 2 ^ shift := by rw [pow_add]; ring
      have hq : 1 ≤ v / 128 := by omega
      have hq2 : 128 * 2 ^ shift ≤ (v / 128) * (128 * 2 ^ shift) :=
        Nat.le_mul_of_pos_left _ hq
      have hs2 : shift + 7 ≤ 63 := by
        by_contra hc
        have : 2 ^ 64 ≤ 2 ^ (shift + 7) := Nat.pow_le_pow_right (by decide) (by omega)
        rw [hpow] at this
        omega
      have hm : v % 128 < 128 := Nat.mod_lt _ (by decide)
      have hmb : v % 128 * 2 ^ shift ≤ 127 * 2 ^ shift :=
        Nat.mul_le_mul_right _ (by omega)
      rw [EncodeVarint64_loop_large v hv2, List.cons_append,
        GetVarint64Ptr_loop_continue shift result (v % 128) _ hs hm hr (by omega),
        ih (v / 128) (by omega) (shift + 7) _ rest hs2 (by rw [hpow]; omega)
          (by rw [hpow]; omega),
        hpow]
      congr 2
      omega

theorem GetVarint64Ptr_EncodeVarint64 (v : Nat) (hv : v < 18446744073709551616)
    (rest : Bytes) : GetVarint64Ptr (EncodeVarint64 v ++ rest) = some (rest, v) := by
  unfold GetVarint64Ptr EncodeVarint64
  rw [uint64_t, Nat.mod_eq_of_lt hv,
    GetVarint64Ptr_loop_encode v 0 0 rest (by decide) (by decide) (by simpa using hv)]
  simp

/-- Claim C19: for `v < 2^64`, `GetVarint64Ptr` on the bytes of `EncodeVarint64(v)`
followed by any bytes `suffix` up to the limit returns `v` and the position just after
the encoding, and `GetVarint64` on a slice holding the encoding followed by `suffix`
returns true, stores `v` and leaves the slice at `suffix`. -/
theorem C19_varint64_round_trip (v : Nat) (hv : v < 18446744073709551616)
    (suffix : Bytes) (value0 : Nat) :
    GetVarint64Ptr (EncodeVarint64 v ++ suffix) = some (suffix, v)
      ∧ GetVarint64 (EncodeVarint64 v ++ suffix) value0 = (true, suffix, v) := by
  have h := GetVarint64Ptr_EncodeVarint64 v hv suffix
  refine ⟨h, ?_⟩
  unfold GetVarint64
  rw [h]

theorem C19_varint64_round_trip_witness :
    GetVarint64 (EncodeVarint64 300 ++ [7]) 0 = (true, [7], 300) :=
  (C19_varint64_round_trip 300 (by decide) [7] 0).2

/-! ## The iterator of the MemTable -/

theorem MemTable.GetLengthPrefixedSlice.data_encode (n : Nat) (hn : n < 4294967296)
    (body : Bytes) :
    MemTable.GetLengthPrefixedSlice.data (EncodeVarint32 n ++ body) = body
      ∧ MemTable.GetLengthPrefixedSlice.size (EncodeVarint32 n ++ body) = n := by
  obtain ⟨h1, h2⟩ := varint_prefix n hn body
  unfold MemTable.GetLengthPrefixedSlice.data MemTable.GetLengthPrefixedSlice.size
  rw [h1]
  simp only [h2, List.drop_left, and_self]

/-- On an entry written by `Add`, `key()` of the iterator is the internal key and
`value()` the value. -/
theorem MemTableIterator.key_value_of_entry (kLittleEndian : Bool) (s type : Nat)
    (key value : Bytes) (hk : key.length + 8 < 4294967296)
    (hv : value.length < 4294967296) (it : MemTableIterator)
    (hpos : it.iter_.key = EncodeVarint32 (key.length + 8) ++ (key ++
      (EncodeFixed64 kLittleEndian (packTag s type) ++
        (EncodeVarint32 value.length ++ value)))) :
    it.key = key ++ EncodeFixed64 kLittleEndian (packTag s type) ∧ it.value = value := by
  have hdrop : (key ++ (EncodeFixed64 kLittleEndian (packTag s type) ++
      (EncodeVarint32 value.length ++ value))).drop (key.length + 8) =
      EncodeVarint32 value.length ++ value := by
    rw [← List.append_assoc]
    exact List.drop_left' (by rw [List.length_append, EncodeFixed64_length])
  constructor
  · unfold MemTableIterator.key
    rw [hpos, MemTable.GetLengthPrefixedSlice_encode _ hk, MemTable.entry_prefix]
  · unfold MemTableIterator.value
    simp only [hpos, (MemTable.GetLengthPrefixedSlice.data_encode _ hk _).1,
      (MemTable.GetLengthPrefixedSlice.data_encode _ hk _).2, hdrop,
      MemTable.GetLengthPrefixedSlice_encode _ hv, List.take_length]

/-- C13 (amended): for a user key with `len(key) + 8 < 2^32` and a value with
`len(value) < 2^32`, on an iterator positioned on the entry written by
`Add(seq, kind, key, value)`, `key()` returns the internal key, that is the user key
followed by the eight bytes of `fixed64_le((seq << 8) | kind)`, and `value()` returns
`value`; the user key is `key()` without its last eight bytes. -/
theorem C13_iterator_internal_key_and_value (kLittleEndian : Bool) (s type : Nat)
    (key value buf : Bytes) (hk : key.length + 8 < 4294967296)
    (hv : value.length < 4294967296) (it : MemTableIterator)
    (henc : MemTable.encodeEntry kLittleEndian s type key value = some buf)
    (hpos : it.iter_.key = buf) :
    it.key = key ++ EncodeFixed64 kLittleEndian (packTag s type)
      ∧ it.value = value
      ∧ it.key.take (it.key.length - 8) = key := by
  rw [(MemTable.encodeEntry_ok kLittleEndian s type key value hk hv).2] at henc
  cases henc
  obtain ⟨h1, h2⟩ := MemTableIterator.key_value_of_entry kLittleEndian s type key value hk hv
    it hpos
  refine ⟨h1, h2, ?_⟩
  rw [h1, List.length_append, EncodeFixed64_length, Nat.add_sub_cancel, List.take_left]

/-- The MemTable after `Add(1, Value, "a", "x")` on an empty one. -/
theorem MemTable.Add_example :
    MemTable.Add true MemTable.empty 1 kTypeValue [97] [120]
      = some { table_ := [EncodeVarint32 9 ++ ([97] ++
          (EncodeFixed64 true (packTag 1 kTypeValue) ++ (EncodeVarint32 1 ++ [120])))] } := by
  unfold MemTable.Add
  rw [(MemTable.encodeEntry_ok true 1 kTypeValue [97] [120] (by decide) (by decide)).2]
  rfl

theorem C13_iterator_internal_key_and_value_witness :
    (⟨⟨[EncodeVarint32 9 ++ ([97] ++ (EncodeFixed64 true (packTag 1 kTypeValue) ++
        (EncodeVarint32 1 ++ [120])))], some 0⟩, []⟩ : MemTableIterator).key
        = [97] ++ EncodeFixed64 true (packTag 1 kTypeValue)
      ∧ (⟨⟨[EncodeVarint32 9 ++ ([97] ++ (EncodeFixed64 true (packTag 1 kTypeValue) ++
        (EncodeVarint32 1 ++ [120])))], some 0⟩, []⟩ : MemTableIterator).value = [120]
      ∧ List.take ((⟨⟨[EncodeVarint32 9 ++ ([97] ++ (EncodeFixed64 true (packTag 1 kTypeValue) ++
        (EncodeVarint32 1 ++ [120])))], some 0⟩, []⟩ : MemTableIterator).key.length - 8)
        (⟨⟨[EncodeVarint32 9 ++ ([97] ++ (EncodeFixed64 true (packTag 1 kTypeValue) ++
        (EncodeVarint32 1 ++ [120])))], some 0⟩, []⟩ : MemTableIterator).key = [97] :=
  C13_iterator_internal_key_and_value true 1 kTypeValue [97] [120] _ (by decide) (by decide)
    _ (MemTable.encodeEntry_ok true 1 kTypeValue [97] [120] (by decide) (by decide)).2 rfl

/-- C13 counterexample: after `Add(1, Value, "a", "x")` on an empty MemTable, the iterator
obtained from `NewIterator` and moved by `SeekToFirst` is valid and positioned on that
entry, `value()` is `"x"`, and `key()` is the nine bytes of `"a"` followed by the tag
`(1 << 8) | 1` in little-endian order, not the user key `"a"`. -/
theorem C13_counterexample :
    ∃ m, MemTable.Add true MemTable.empty 1 kTypeValue [97] [120] = some m
      ∧ m.NewIterator.SeekToFirst.Valid = true
      ∧ m.NewIterator.SeekToFirst.value = [120]
      ∧ m.NewIterator.SeekToFirst.key = [97, 1, 1, 0, 0, 0, 0, 0, 0]
      ∧ m.NewIterator.SeekToFirst.key ≠ [97] := by
  refine ⟨_, MemTable.Add_example, by decide, ?_⟩
  obtain ⟨h1, h2⟩ := MemTableIterator.key_value_of_entry true 1 kTypeValue [97] [120]
    (by decide) (by decide)
    (MemTable.NewIterator { table_ := [EncodeVarint32 9 ++ ([97] ++
          (EncodeFixed64 true (packTag 1 kTypeValue) ++ (EncodeVarint32 1 ++ [120])))] }).SeekToFirst
    rfl
  have h3 : [97] ++ EncodeFixed64 true (packTag 1 kTypeValue) = [97, 1, 1, 0, 0, 0, 0, 0, 0] := by
    decide
  rw [h1, h3]
  exact ⟨h2, rfl, by decide⟩

/-! ## Arena: alignment -/

theorem and_7 (n : Nat) : n &&& 7 = n % 8 := Nat.and_pow_two_sub_one_eq_mod n 3

theorem Arena.AllocateFallback_fst (a : Arena) (h : Host) (n : Nat) :
    (Arena.AllocateFallback a h n).1 = h.place h.blocks.length := by
  unfold Arena.AllocateFallback Arena.AllocateNewBlock Host.new_array
  split_ifs <;> rfl

theorem Arena.AllocateFallback_place (a : Arena) (h : Host) (n : Nat) :
    (Arena.AllocateFallback a h n).2.2.place = h.place := by
  unfold Arena.AllocateFallback Arena.AllocateNewBlock Host.new_array
  split_ifs <;> rfl

/-- The outcome of `AllocateAligned` in arithmetic form. -/
theorem Arena.AllocateAligned_eq (a : Arena) (h : Host) (n : Nat) :
    Arena.AllocateAligned a h n =
      if uint64_t (n + (8 - a.alloc_ptr_ % 8) % 8) ≤ a.alloc_bytes_remaining_ then
        some (a.alloc_ptr_ + (8 - a.alloc_ptr_ % 8) % 8,
          { a with
            alloc_ptr_ := a.alloc_ptr_ + uint64_t (n + (8 - a.alloc_ptr_ % 8) % 8),
            alloc_bytes_remaining_ :=
              a.alloc_bytes_remaining_ - uint64_t (n + (8 - a.alloc_ptr_ % 8) % 8) },
          h)
      else if h.place h.blocks.length % 8 = 0 then some (Arena.AllocateFallback a h n)
      else none := by
  have hslop : (if a.alloc_ptr_ % 8 = 0 then 0 else 8 - a.alloc_ptr_ % 8)
      = (8 - a.alloc_ptr_ % 8) % 8 := by
    split_ifs <;> omega
  unfold Arena.AllocateAligned sizeof_pointer
  simp only [gt_iff_lt, lt_self_iff_false, if_false, Nat.add_one_sub_one, and_7,
    show (8 : Nat) % 8 = 0 by rfl, not_true_eq_false, hslop, Decidable.not_not]
  by_cases hc : uint64_t (n + (8 - a.alloc_ptr_ % 8) % 8) ≤ a.alloc_bytes_remaining_
  · have hal : (a.alloc_ptr_ + (8 - a.alloc_ptr_ % 8) % 8) % 8 = 0 := by omega
    simp only [hc, if_true, hal, not_true_eq_false, if_false]
  · simp only [hc, if_false, Arena.AllocateFallback_fst]
    split_ifs <;> rfl

theorem Arena.AllocateAligned_aligned (a : Arena) (h : Host) (n : Nat) (hh : h.aligned) :
    ∃ r, Arena.AllocateAligned a h n = some r ∧ r.1 % 8 = 0 ∧ r.2.2.place = h.place := by
  rw [Arena.AllocateAligned_eq]
  by_cases hc : uint64_t (n + (8 - a.alloc_ptr_ % 8) % 8) ≤ a.alloc_bytes_remaining_
  · rw [if_pos hc]
    exact ⟨_, rfl, by simp only; omega, rfl⟩
  · rw [if_neg hc, if_pos (hh _)]
    refine ⟨_, rfl, ?_, Arena.AllocateFallback_place a h n⟩
    rw [Arena.AllocateFallback_fst]
    exact hh _

theorem Arena.Allocate_place (a : Arena) (h : Host) (n : Nat) :
    (Arena.Allocate a h n).2.2.place = h.place := by
  unfold Arena.Allocate
  split_ifs
  · rfl
  · exact Arena.AllocateFallback_place a h n

theorem ArenaRun.run_append (st : ArenaRun) (xs ys : List ArenaCall) :
    ArenaRun.run st (xs ++ ys) = (ArenaRun.run st xs).bind fun st1 => ArenaRun.run st1 ys := by
  induction xs generalizing st with
  | nil => rfl
  | cons c rest ih =>
    simp only [List.cons_append, ArenaRun.run]
    cases st.step c with
    | none => rfl
    | some st1 => exact ih st1

theorem ArenaRun.run_aligned (calls : List ArenaCall) :
    ∀ st : ArenaRun, st.host.aligned →
      (∀ r ∈ st.results, r.1.aligned = true → r.2 % 8 = 0) →
      ∃ st1, ArenaRun.run st calls = some st1 ∧
        st1.results.map Prod.fst = st.results.map Prod.fst ++ calls ∧
        ∀ r ∈ st1.results, r.1.aligned = true → r.2 % 8 = 0 := by
  induction calls with
  | nil =>
    intro st _ hr
    exact ⟨st, rfl, by simp, hr⟩
  | cons c rest ih =>
    intro st hh hr
    cases c with
    | Allocate n =>
      have hstep : st.step (ArenaCall.Allocate n) = some
          { arena := (st.arena.Allocate st.host n).2.1,
            host := (st.arena.Allocate st.host n).2.2,
            results := st.results ++ [(ArenaCall.Allocate n, (st.arena.Allocate st.host n).1)] } :=
        rfl
      obtain ⟨st1, h1, h2, h3⟩ := ih
        { arena := (st.arena.Allocate st.host n).2.1,
          host := (st.arena.Allocate st.host n).2.2,
          results := st.results ++ [(ArenaCall.Allocate n, (st.arena.Allocate st.host n).1)] }
        (show Host.aligned (st.arena.Allocate st.host n).2.2 by
          unfold Host.aligned
          rw [Arena.Allocate_place]
          exact hh)
        (show ∀ r ∈ st.results ++ [(ArenaCall.Allocate n, (st.arena.Allocate st.host n).1)],
            r.1.aligned = true → r.2 % 8 = 0 by
          intro r hmem hal
          rw [List.mem_append, List.mem_singleton] at hmem
          rcases hmem with hmem | rfl
          · exact hr r hmem hal
          · exact absurd hal (by simp [ArenaCall.aligned]))
      refine ⟨st1, ?_, ?_, h3⟩
      · simp only [ArenaRun.run, hstep]
        exact h1
      · rw [h2]
        simp
    | AllocateAligned n =>
      obtain ⟨r0, hr0, hmod, hplace⟩ := Arena.AllocateAligned_aligned st.arena st.host n hh
      have hstep : st.step (ArenaCall.AllocateAligned n) = some
          { arena := r0.2.1, host := r0.2.2,
            results := st.results ++ [(ArenaCall.AllocateAligned n, r0.1)] } := by
        simp only [ArenaRun.step, hr0]
      obtain ⟨st1, h1, h2, h3⟩ := ih
        { arena := r0.2.1, host := r0.2.2,
          results := st.results ++ [(ArenaCall.AllocateAligned n, r0.1)] }
        (show Host.aligned r0.2.2 by
          unfold Host.aligned
          rw [hplace]
          exact hh)
        (show ∀ r ∈ st.results ++ [(ArenaCall.AllocateAligned n, r0.1)],
            r.1.aligned = true → r.2 % 8 = 0 by
          intro r hmem hal
          rw [List.mem_append, List.mem_singleton] at hmem
          rcases hmem with hmem | rfl
          · exact hr r hmem hal
          · exact hmod)
      refine ⟨st1, ?_, ?_, h3⟩
      · simp only [ArenaRun.run, hstep]
        exact h1
      · rw [h2]
        simp

/-- Claim C15: on a host that gives every block an address that is a multiple of 8,
every sequence of `Allocate` and `AllocateAligned` calls on a fresh arena runs to its
end without a failed assertion, each call returning a pointer, and every pointer an
`AllocateAligned` call returned is a multiple of 8. For every state of the arena,
`AllocateAligned(n)` passes its two assertions and returns a multiple of 8; when the
request fits the current block it returns the cursor advanced by the padding
`(8 - cursor mod 8) mod 8`, and otherwise the pointer of `AllocateFallback`. -/
theorem C15_AllocateAligned_alignment (h : Host) (hh : h.aligned) (calls : List ArenaCall)
    (a : Arena) (n : Nat) :
    (∃ st, ArenaRun.run (ArenaRun.fresh h) calls = some st
        ∧ st.results.map Prod.fst = calls
        ∧ ∀ r ∈ st.results, r.1.aligned = true → r.2 % 8 = 0)
      ∧ (∃ r, Arena.AllocateAligned a h n = some r ∧ r.1 % 8 = 0
        ∧ (uint64_t (n + (8 - a.alloc_ptr_ % 8) % 8) ≤ a.alloc_bytes_remaining_ →
            r.1 = a.alloc_ptr_ + (8 - a.alloc_ptr_ % 8) % 8)
        ∧ (¬ uint64_t (n + (8 - a.alloc_ptr_ % 8) % 8) ≤ a.alloc_bytes_remaining_ →
            r = Arena.AllocateFallback a h n)) := by
  constructor
  · obtain ⟨st, h1, h2, h3⟩ := ArenaRun.run_aligned calls (ArenaRun.fresh h) hh
      (by intro r hr; cases hr)
    exact ⟨st, h1, by simpa [ArenaRun.fresh] using h2, h3⟩
  · obtain ⟨r, hr, hmod, -⟩ := Arena.AllocateAligned_aligned a h n hh
    refine ⟨r, hr, hmod, ?_, ?_⟩
    · intro hc
      rw [Arena.AllocateAligned_eq, if_pos hc] at hr
      cases hr
      rfl
    · intro hc
      rw [Arena.AllocateAligned_eq, if_neg hc, if_pos (hh _)] at hr
      cases hr
      rfl

theorem exampleHost_aligned (k : Nat) : (exampleHost 4096 (8 * k)).aligned := by
  intro i
  simp only [exampleHost]
  rw [Nat.mul_assoc]
  omega

theorem C15_AllocateAligned_alignment_witness :
    ∃ r, Arena.AllocateAligned
        { alloc_ptr_ := 4099, alloc_bytes_remaining_ := 4093, blocks_ := [4096],
          memory_usage_ := 4104 }
        (exampleHost 4096 8192) 16 = some r ∧ r.1 % 8 = 0 :=
  match (C15_AllocateAligned_alignment (exampleHost 4096 8192) (exampleHost_aligned 1024)
    [ArenaCall.Allocate 3, ArenaCall.AllocateAligned 16]
    { alloc_ptr_ := 4099, alloc_bytes_remaining_ := 4093, blocks_ := [4096],
      memory_usage_ := 4104 } 16).2 with
  | ⟨r, h1, h2, _⟩ => ⟨r, h1, h2⟩

/-! ## Arena: the ways a call proceeds -/

theorem Arena.AllocateFallback_step (st : ArenaRun) (c : ArenaCall) :
    ArenaRun.Step st c
      { arena := (Arena.AllocateFallback st.arena st.host c.bytes).2.1,
        host := (Arena.AllocateFallback st.arena st.host c.bytes).2.2,
        results := st.results ++ [(c, (Arena.AllocateFallback st.arena st.host c.bytes).1)] } := by
  by_cases hn : c.bytes > 1024
  · apply ArenaRun.Step.dedicated hn
    · simp only [Arena.AllocateFallback_fst]
    · unfold Arena.AllocateFallback Arena.AllocateNewBlock Host.new_array Arena.kBlockSize
        Arena.MemoryUsage sizeof_pointer
      rw [if_pos (by omega)]
    · unfold Arena.AllocateFallback Arena.AllocateNewBlock Host.new_array Arena.kBlockSize
      rw [if_pos (by omega)]
  · apply ArenaRun.Step.shared (by omega)
    · simp only [Arena.AllocateFallback_fst]
    · unfold Arena.AllocateFallback Arena.AllocateNewBlock Host.new_array Arena.kBlockSize
        Arena.MemoryUsage sizeof_pointer
      rw [if_neg (by omega)]
    · unfold Arena.AllocateFallback Arena.AllocateNewBlock Host.new_array Arena.kBlockSize
      rw [if_neg (by omega)]

/-- Every call whose size, with seven bytes of padding, fits in 64 bits proceeds in one of
the three ways. -/
theorem ArenaRun.step_cases (st st1 : ArenaRun) (c : ArenaCall)
    (hstep : st.step c = some st1) (hc : c.bytes + 7 < 18446744073709551616) :
    ArenaRun.Step st c st1 := by
  cases c with
  | Allocate n =>
    simp only [ArenaRun.step, Option.some.injEq] at hstep
    subst hstep
    by_cases hfit : n ≤ st.arena.alloc_bytes_remaining_
    · apply ArenaRun.Step.carve 0
      · simpa [ArenaCall.bytes] using hfit
      · simp [Arena.Allocate, hfit]
      · simp [Arena.Allocate, hfit, ArenaCall.bytes]
      · simp [Arena.Allocate, hfit]
    · have h := Arena.AllocateFallback_step st (ArenaCall.Allocate n)
      simpa [Arena.Allocate, hfit, ArenaCall.bytes] using h
  | AllocateAligned n =>
    simp only [ArenaCall.bytes] at hc
    have hu : uint64_t (n + (8 - st.arena.alloc_ptr_ % 8) % 8)
        = (8 - st.arena.alloc_ptr_ % 8) % 8 + n := by
      unfold uint64_t
      rw [Nat.mod_eq_of_lt (by omega)]
      omega
    simp only [ArenaRun.step, Arena.AllocateAligned_eq, hu] at hstep
    by_cases hfit : (8 - st.arena.alloc_ptr_ % 8) % 8 + n ≤ st.arena.alloc_bytes_remaining_
    · simp only [hfit, if_true, Option.some.injEq] at hstep
      subst hstep
      exact ArenaRun.Step.carve ((8 - st.arena.alloc_ptr_ % 8) % 8) hfit rfl rfl rfl
    · simp only [hfit, if_false] at hstep
      split_ifs at hstep
      simp only [Option.some.injEq] at hstep
      subst hstep
      exact Arena.AllocateFallback_step st (ArenaCall.AllocateAligned n)

/-! ## Arena: regions -/

theorem regionsDisjoint_of_inside (p n q m : Nat) (b1 b2 : Nat × Nat)
    (h1 : regionInside p n b1) (h2 : regionInside q m b2) (hd : regionsDisjoint b1 b2) :
    regionsDisjoint (p, n) (q, m) := by
  unfold regionInside at h1 h2
  unfold regionsDisjoint at hd ⊢
  simp only
  omega

theorem regionsDisjoint_symm (x y : Nat × Nat) (h : regionsDisjoint x y) :
    regionsDisjoint y x := by
  unfold regionsDisjoint at h ⊢
  omega

/-- In a list of pairwise disjoint blocks that ends with `b`, `b` is disjoint from every
earlier block. -/
theorem disjoint_last (blocks : List (Nat × Nat)) (b x : Nat × Nat)
    (hd : (blocks ++ [b]).Pairwise regionsDisjoint) (hx : x ∈ blocks) :
    regionsDisjoint x b := by
  rw [List.pairwise_append] at hd
  exact hd.2.2 x hx b (List.mem_singleton_self b)

theorem ArenaRun.WellPlaced_step (st st1 : ArenaRun) (c : ArenaCall)
    (hinv : st.WellPlaced) (hstep : ArenaRun.Step st c st1) (hpos : 0 < c.bytes)
    (hd : st1.host.disjointBlocks) : st1.WellPlaced := by
  obtain ⟨j1, j2, j3, j4⟩ := hinv
  cases hstep with
  | carve slop hfit hres harena hhost =>
    have hrem : 0 < st.arena.alloc_bytes_remaining_ := by omega
    obtain ⟨b, hb, hin⟩ := j3 hrem
    unfold regionInside at hin
    refine ⟨?_, ?_, ?_, ?_⟩
    · intro r hr
      rw [hres, List.mem_append, List.mem_singleton] at hr
      rw [hhost]
      rcases hr with hr | rfl
      · exact j1 r hr
      · exact ⟨b, hb, by unfold regionInside; simp only; omega⟩
    · rw [hres, List.map_append, List.pairwise_append]
      refine ⟨j2, by simp, ?_⟩
      intro x hx y hy
      rw [List.map_singleton, List.mem_singleton] at hy
      subst hy
      obtain ⟨r, hr, rfl⟩ := List.mem_map.1 hx
      have := j4 r hr hrem
      unfold regionsDisjoint regionOf at this ⊢
      simp only at this ⊢
      omega
    · intro h0
      rw [harena] at h0 ⊢
      rw [hhost]
      simp only at h0 ⊢
      exact ⟨b, hb, by unfold regionInside; omega⟩
    · intro r hr h0
      rw [harena] at h0 ⊢
      simp only at h0 ⊢
      rw [hres, List.mem_append, List.mem_singleton] at hr
      rcases hr with hr | rfl
      · have := j4 r hr hrem
        unfold regionsDisjoint regionOf at this ⊢
        simp only at this ⊢
        omega
      · unfold regionsDisjoint regionOf
        simp only
        omega
  | dedicated hn hres harena hhost =>
    have hd2 : (st.host.blocks ++ [(st.host.place st.host.blocks.length, c.bytes)]).Pairwise
        regionsDisjoint := by
      have := hd
      unfold Host.disjointBlocks at this
      rwa [hhost] at this
    have hnew : regionInside (st.host.place st.host.blocks.length) c.bytes
        (st.host.place st.host.blocks.length, c.bytes) := by
      unfold regionInside
      simp
    refine ⟨?_, ?_, ?_, ?_⟩
    · intro r hr
      rw [hres, List.mem_append, List.mem_singleton] at hr
      rw [hhost]
      rcases hr with hr | rfl
      · obtain ⟨b, hb, hin⟩ := j1 r hr
        exact ⟨b, List.mem_append_left _ hb, hin⟩
      · exact ⟨_, List.mem_append_right _ (List.mem_singleton_self _), hnew⟩
    · rw [hres, List.map_append, List.pairwise_append]
      refine ⟨j2, by simp, ?_⟩
      intro x hx y hy
      rw [List.map_singleton, List.mem_singleton] at hy
      subst hy
      obtain ⟨r, hr, rfl⟩ := List.mem_map.1 hx
      obtain ⟨b, hb, hin⟩ := j1 r hr
      exact regionsDisjoint_of_inside _ _ _ _ _ _ hin hnew (disjoint_last _ _ _ hd2 hb)
    · intro h0
      rw [harena] at h0 ⊢
      rw [hhost]
      simp only at h0 ⊢
      obtain ⟨b, hb, hin⟩ := j3 h0
      exact ⟨b, List.mem_append_left _ hb, hin⟩
    · intro r hr h0
      rw [harena] at h0 ⊢
      simp only at h0 ⊢
      rw [hres, List.mem_append, List.mem_singleton] at hr
      rcases hr with hr | rfl
      · exact j4 r hr h0
      · obtain ⟨b, hb, hin⟩ := j3 h0
        exact regionsDisjoint_symm _ _
          (regionsDisjoint_of_inside _ _ _ _ _ _ hin hnew (disjoint_last _ _ _ hd2 hb))
  | shared hn hres harena hhost =>
    have hd2 : (st.host.blocks ++ [(st.host.place st.host.blocks.length, 4096)]).Pairwise
        regionsDisjoint := by
      have := hd
      unfold Host.disjointBlocks at this
      rwa [hhost] at this
    have hnew : regionInside (st.host.place st.host.blocks.length) c.bytes
        (st.host.place st.host.blocks.length, 4096) := by
      unfold regionInside
      simp only
      omega
    have hcur : regionInside (st.host.place st.host.blocks.length + c.bytes) (4096 - c.bytes)
        (st.host.place st.host.blocks.length, 4096) := by
      unfold regionInside
      simp only
      omega
    refine ⟨?_, ?_, ?_, ?_⟩
    · intro r hr
      rw [hres, List.mem_append, List.mem_singleton] at hr
      rw [hhost]
      rcases hr with hr | rfl
      · obtain ⟨b, hb, hin⟩ := j1 r hr
        exact ⟨b, List.mem_append_left _ hb, hin⟩
      · exact ⟨_, List.mem_append_right _ (List.mem_singleton_self _), hnew⟩
    · rw [hres, List.map_append, List.pairwise_append]
      refine ⟨j2, by simp, ?_⟩
      intro x hx y hy
      rw [List.map_singleton, List.mem_singleton] at hy
      subst hy
      obtain ⟨r, hr, rfl⟩ := List.mem_map.1 hx
      obtain ⟨b, hb, hin⟩ := j1 r hr
      exact regionsDisjoint_of_inside _ _ _ _ _ _ hin hnew (disjoint_last _ _ _ hd2 hb)
    · intro _
      rw [harena, hhost]
      exact ⟨_, List.mem_append_right _ (List.mem_singleton_self _), hcur⟩
    · intro r hr _
      rw [harena]
      simp only
      rw [hres, List.mem_append, List.mem_singleton] at hr
      rcases hr with hr | rfl
      · obtain ⟨b, hb, hin⟩ := j1 r hr
        exact regionsDisjoint_of_inside _ _ _ _ _ _ hin hcur (disjoint_last _ _ _ hd2 hb)
      · unfold regionsDisjoint regionOf
        simp only
        omega

/-! ## Arena: runs -/

theorem ArenaRun.Step.blocks (st st1 : ArenaRun) (c : ArenaCall)
    (hstep : ArenaRun.Step st c st1) :
    ∃ extra, st1.host.blocks = st.host.blocks ++ extra := by
  cases hstep with
  | carve slop hfit hres harena hhost => exact ⟨[], by rw [hhost, List.append_nil]⟩
  | dedicated hn hres harena hhost => exact ⟨_, by rw [hhost]⟩
  | shared hn hres harena hhost => exact ⟨_, by rw [hhost]⟩

theorem ArenaRun.Step.disjointBlocks (st st1 : ArenaRun) (c : ArenaCall)
    (hstep : ArenaRun.Step st c st1) (hd : st1.host.disjointBlocks) :
    st.host.disjointBlocks := by
  obtain ⟨extra, he⟩ := ArenaRun.Step.blocks st st1 c hstep
  unfold Host.disjointBlocks at hd ⊢
  rw [he, List.pairwise_append] at hd
  exact hd.1

theorem Host.bytes_le_usage (h : Host) : h.bytes ≤ h.usage := by
  unfold Host.bytes Host.usage
  induction h.blocks with
  | nil => simp
  | cons b bs ih =>
    simp only [List.map_cons, List.sum_cons]
    omega

theorem ArenaRun.Accounted_step (st st1 : ArenaRun) (c : ArenaCall)
    (hinv : st.Accounted) (hstep : ArenaRun.Step st c st1) :
    st1.Accounted ∧ st.host.usage ≤ st1.host.usage
      ∧ st1.results.map Prod.fst = st.results.map Prod.fst ++ [c] := by
  obtain ⟨u1, u2, u3⟩ := hinv
  unfold ArenaRun.Accounted ArenaRun.requested Host.usage Host.bytes sizeof_pointer at *
  cases hstep with
  | carve slop hfit hres harena hhost =>
    rw [hres, harena, hhost]
    simp only [List.map_append, List.map_singleton, List.sum_append, List.sum_singleton]
    exact ⟨⟨u1, u2, by omega⟩, le_refl _, trivial⟩
  | dedicated hn hres harena hhost =>
    rw [hres, harena, hhost]
    simp only [List.map_append, List.map_singleton, List.sum_append, List.sum_singleton]
    refine ⟨⟨?_, by rw [u2], by omega⟩, by omega, trivial⟩
    rw [u1]
    unfold uint64_t
    omega
  | shared hn hres harena hhost =>
    rw [hres, harena, hhost]
    simp only [List.map_append, List.map_singleton, List.sum_append, List.sum_singleton]
    refine ⟨⟨?_, by rw [u2], by omega⟩, by omega, trivial⟩
    rw [u1]
    unfold uint64_t
    omega

theorem ArenaRun.run_snoc (st st2 : ArenaRun) (calls : List ArenaCall) (c : ArenaCall)
    (h : ArenaRun.run st (calls ++ [c]) = some st2) :
    ∃ st1, ArenaRun.run st calls = some st1 ∧ st1.step c = some st2 := by
  rw [ArenaRun.run_append] at h
  cases h1 : ArenaRun.run st calls with
  | none => rw [h1] at h; cases h
  | some st1 =>
    rw [h1] at h
    refine ⟨st1, rfl, ?_⟩
    simp only [Option.some_bind, ArenaRun.run] at h
    cases h2 : st1.step c with
    | none => rw [h2] at h; cases h
    | some st3 => rw [h2] at h; exact h

theorem ArenaRun.fresh_Accounted (place : Nat → Nat) :
    (ArenaRun.fresh { blocks := [], place := place }).Accounted := by
  unfold ArenaRun.Accounted ArenaRun.fresh ArenaRun.requested Host.usage Host.bytes Arena.new
  exact ⟨rfl, rfl, le_refl _⟩

theorem ArenaRun.fresh_WellPlaced (place : Nat → Nat) :
    (ArenaRun.fresh { blocks := [], place := place }).WellPlaced := by
  unfold ArenaRun.WellPlaced ArenaRun.fresh Arena.new
  refine ⟨by simp, by simp, ?_, by simp⟩
  intro h
  exact absurd h (Nat.lt_irrefl 0)

/-- The counter accounts for the blocks after every run on a fresh arena. -/
theorem ArenaRun.run_Accounted (place : Nat → Nat) (calls : List ArenaCall) :
    ∀ st, (∀ c ∈ calls, c.bytes + 7 < 18446744073709551616) →
      ArenaRun.run (ArenaRun.fresh { blocks := [], place := place }) calls = some st →
      st.Accounted ∧ st.results.map Prod.fst = calls := by
  induction calls using List.reverseRecOn with
  | nil =>
    intro st _ h
    cases h
    exact ⟨ArenaRun.fresh_Accounted place, rfl⟩
  | append_singleton calls c ih =>
    intro st2 hsz h
    obtain ⟨st1, h1, h2⟩ := ArenaRun.run_snoc _ _ _ _ h
    obtain ⟨i1, i2⟩ := ih st1 (fun x hx => hsz x (List.mem_append_left _ hx)) h1
    have hs := ArenaRun.step_cases st1 st2 c h2
      (hsz c (List.mem_append_right _ (List.mem_singleton_self c)))
    obtain ⟨a1, -, a3⟩ := ArenaRun.Accounted_step st1 st2 c i1 hs
    exact ⟨a1, by rw [a3, i2]⟩

/-- The regions are well placed after every run of calls with positive sizes on a fresh
arena, when the blocks of the host are disjoint. -/
theorem ArenaRun.run_WellPlaced (place : Nat → Nat) (calls : List ArenaCall) :
    ∀ st, (∀ c ∈ calls, 0 < c.bytes ∧ c.bytes + 7 < 18446744073709551616) →
      ArenaRun.run (ArenaRun.fresh { blocks := [], place := place }) calls = some st →
      st.host.disjointBlocks → st.WellPlaced := by
  induction calls using List.reverseRecOn with
  | nil =>
    intro st _ h _
    cases h
    exact ArenaRun.fresh_WellPlaced place
  | append_singleton calls c ih =>
    intro st2 hsz h hd
    obtain ⟨st1, h1, h2⟩ := ArenaRun.run_snoc _ _ _ _ h
    have hc := hsz c (List.mem_append_right _ (List.mem_singleton_self c))
    have hs := ArenaRun.step_cases st1 st2 c h2 hc.2
    have i1 := ih st1 (fun x hx => hsz x (List.mem_append_left _ hx)) h1
      (ArenaRun.Step.disjointBlocks st1 st2 c hs hd)
    exact ArenaRun.WellPlaced_step st1 st2 c i1 hs hc.1 hd

/-! ## Arena: regions returned and memory usage -/

/-- C14 (amended): for every sequence of `Allocate` and `AllocateAligned` calls on a
fresh arena whose sizes `n` are positive with `n + 7 < 2^64`, the run returns a pointer
for every call when the host gives aligned blocks, and whenever it does, the arena owns
exactly the blocks the host handed out and, the blocks of the host being pairwise
disjoint, every returned region `[p, p + n)` lies inside one of these blocks and the
returned regions are pairwise disjoint. -/
theorem C14_regions_inside_blocks_and_disjoint (place : Nat → Nat) (calls : List ArenaCall)
    (hsz : ∀ c ∈ calls, 0 < c.bytes ∧ c.bytes + 7 < 18446744073709551616) :
    (Host.aligned { blocks := [], place := place } →
        ∃ st, ArenaRun.run (ArenaRun.fresh { blocks := [], place := place }) calls = some st)
      ∧ ∀ st, ArenaRun.run (ArenaRun.fresh { blocks := [], place := place }) calls = some st →
        st.results.map Prod.fst = calls
          ∧ st.arena.blocks_ = st.host.blocks.map Prod.fst
          ∧ (st.host.disjointBlocks →
            (∀ r ∈ st.results, ∃ b ∈ st.host.blocks, regionInside r.2 r.1.bytes b)
              ∧ (st.results.map regionOf).Pairwise regionsDisjoint) := by
  constructor
  · intro hal
    obtain ⟨st, h, -⟩ := ArenaRun.run_aligned calls
      (ArenaRun.fresh { blocks := [], place := place }) hal (by intro r hr; cases hr)
    exact ⟨st, h⟩
  · intro st h
    obtain ⟨⟨-, a2, -⟩, a4⟩ := ArenaRun.run_Accounted place calls st (fun c hc => (hsz c hc).2) h
    refine ⟨a4, a2, ?_⟩
    intro hd
    obtain ⟨j1, j2, -, -⟩ := ArenaRun.run_WellPlaced place calls st hsz h hd
    exact ⟨j1, j2⟩

/-- The run `Allocate(3)`, `AllocateAligned(16)`, `Allocate(5000)` on a fresh arena whose
host places its blocks at 4096, 12288, ... -/
theorem ArenaRun.run_example :
    ArenaRun.run (ArenaRun.fresh { blocks := [], place := fun i => 4096 + 8192 * i })
        [ArenaCall.Allocate 3, ArenaCall.AllocateAligned 16, ArenaCall.Allocate 5000]
      = some
        { arena :=
            { alloc_ptr_ := 4120, alloc_bytes_remaining_ := 4072, blocks_ := [4096, 12288],
              memory_usage_ := 9112 },
          host :=
            { blocks := [(4096, 4096), (12288, 5000)], place := fun i => 4096 + 8192 * i },
          results := [(ArenaCall.Allocate 3, 4096), (ArenaCall.AllocateAligned 16, 4104),
            (ArenaCall.Allocate 5000, 12288)] } := by
  rfl

theorem C14_regions_inside_blocks_and_disjoint_witness :
    List.Pairwise regionsDisjoint [(4096, 3), (4104, 16), (12288, 5000)] :=
  ((C14_regions_inside_blocks_and_disjoint (fun i => 4096 + 8192 * i)
    [ArenaCall.Allocate 3, ArenaCall.AllocateAligned 16, ArenaCall.Allocate 5000]
    (by simp [ArenaCall.bytes])).2 _ ArenaRun.run_example).2.2
    (by simp [Host.disjointBlocks, regionsDisjoint]) |>.2

/-- The run `AllocateAligned(1)`, `AllocateAligned(2^64 - 1)`, `AllocateAligned(2)` on a
fresh arena whose host places its blocks at 4096, 12288, ...: the sum `bytes + slop` of
the second call is 6 on 64 bits, so the call is served from the current block. -/
theorem ArenaRun.run_wrapped :
    ArenaRun.run (ArenaRun.fresh { blocks := [], place := fun i => 4096 + 8192 * i })
        [ArenaCall.AllocateAligned 1, ArenaCall.AllocateAligned 18446744073709551615,
          ArenaCall.AllocateAligned 2]
      = some
        { arena :=
            { alloc_ptr_ := 4106, alloc_bytes_remaining_ := 4086, blocks_ := [4096],
              memory_usage_ := 4104 },
          host := { blocks := [(4096, 4096)], place := fun i => 4096 + 8192 * i },
          results := [(ArenaCall.AllocateAligned 1, 4096),
            (ArenaCall.AllocateAligned 18446744073709551615, 4104),
            (ArenaCall.AllocateAligned 2, 4104)] } := by
  rfl

/-- C14 counterexample: on a fresh arena whose host places its one block of 4096 bytes
at 4096, after `AllocateAligned(1)` the call `AllocateAligned(2^64 - 1)` returns 4104 and
advances the cursor by 6 bytes only, to 4103; its region `[4104, 4104 + 2^64 - 1)` lies
inside no block, and the next call `AllocateAligned(2)` returns 4104 again, a region that
overlaps it. All sizes are positive and the blocks of the host are disjoint. -/
theorem C14_counterexample :
    ∃ st, ArenaRun.run (ArenaRun.fresh { blocks := [], place := fun i => 4096 + 8192 * i })
        [ArenaCall.AllocateAligned 1, ArenaCall.AllocateAligned 18446744073709551615,
          ArenaCall.AllocateAligned 2] = some st
      ∧ st.host.blocks = [(4096, 4096)]
      ∧ st.host.disjointBlocks
      ∧ st.results = [(ArenaCall.AllocateAligned 1, 4096),
            (ArenaCall.AllocateAligned 18446744073709551615, 4104),
            (ArenaCall.AllocateAligned 2, 4104)]
      ∧ (¬ ∃ b ∈ st.host.blocks, regionInside 4104 18446744073709551615 b)
      ∧ ¬ regionsDisjoint (4104, 18446744073709551615) (4104, 2) := by
  refine ⟨_, ArenaRun.run_wrapped, rfl, ?_, rfl, ?_, ?_⟩
  · simp [Host.disjointBlocks]
  · simp [regionInside]
  · simp [regionsDisjoint]

/-- C16 (amended): for every sequence of `Allocate` and `AllocateAligned` calls on a
fresh arena whose sizes `n` satisfy `n + 7 < 2^64`, after every call the counter is, on
64 bits, the sum of `b + 8` over the blocks of `b` bytes obtained so far, which are the
blocks the arena owns; as long as that sum is below `2^64`, `MemoryUsage` after a call
is at least `MemoryUsage` before it and at least the sum of the sizes requested so far.
The run returns a pointer for every call when the host gives aligned blocks. -/
theorem C16_memory_usage_monotone_and_bounds_requests (place : Nat → Nat)
    (calls : List ArenaCall) (c : ArenaCall)
    (hsz : ∀ x ∈ calls ++ [c], x.bytes + 7 < 18446744073709551616) :
    (Host.aligned { blocks := [], place := place } →
        ∃ st1, ArenaRun.run (ArenaRun.fresh { blocks := [], place := place }) (calls ++ [c])
          = some st1)
      ∧ ∀ st st1,
        ArenaRun.run (ArenaRun.fresh { blocks := [], place := place }) calls = some st →
        st.step c = some st1 →
        st1.arena.MemoryUsage = uint64_t st1.host.usage
          ∧ st1.arena.blocks_ = st1.host.blocks.map Prod.fst
          ∧ st1.requested = ((calls ++ [c]).map ArenaCall.bytes).sum
          ∧ (st1.host.usage < 18446744073709551616 →
            st.arena.MemoryUsage ≤ st1.arena.MemoryUsage
              ∧ st1.requested ≤ st1.arena.MemoryUsage) := by
  constructor
  · intro hal
    obtain ⟨st, h, -⟩ := ArenaRun.run_aligned (calls ++ [c])
      (ArenaRun.fresh { blocks := [], place := place }) hal (by intro r hr; cases hr)
    exact ⟨st, h⟩
  · intro st st1 h hstep
    obtain ⟨i1, i2⟩ := ArenaRun.run_Accounted place calls st
      (fun x hx => hsz x (List.mem_append_left _ hx)) h
    have hs := ArenaRun.step_cases st st1 c hstep
      (hsz c (List.mem_append_right _ (List.mem_singleton_self c)))
    obtain ⟨⟨a1, a2, a3⟩, hmono, hres⟩ := ArenaRun.Accounted_step st st1 c i1 hs
    have hreq : st1.requested = ((calls ++ [c]).map ArenaCall.bytes).sum := by
      unfold ArenaRun.requested
      rw [← i2, ← hres, List.map_map]
      rfl
    refine ⟨a1, a2, hreq, ?_⟩
    intro hlt
    have hb := Host.bytes_le_usage st1.host
    have e1 : st1.arena.MemoryUsage = st1.host.usage := by
      unfold Arena.MemoryUsage
      rw [a1]
      exact Nat.mod_eq_of_lt hlt
    have e0 : st.arena.MemoryUsage = st.host.usage := by
      unfold Arena.MemoryUsage
      rw [i1.1]
      exact Nat.mod_eq_of_lt (by omega)
    rw [e1, e0]
    exact ⟨hmono, by omega⟩

theorem C16_memory_usage_monotone_and_bounds_requests_witness :
    ∃ st st1,
      ArenaRun.run (ArenaRun.fresh { blocks := [], place := fun i => 4096 + 8192 * i })
        [ArenaCall.Allocate 3, ArenaCall.AllocateAligned 16] = some st
      ∧ st.step (ArenaCall.Allocate 5000) = some st1
      ∧ st.arena.MemoryUsage = 4104 ∧ st1.arena.MemoryUsage = 9112
      ∧ st.arena.MemoryUsage ≤ st1.arena.MemoryUsage
      ∧ st1.requested ≤ st1.arena.MemoryUsage :=
  ⟨ArenaRun.mk (Arena.mk 4120 4072 [4096] 4104)
      (Host.mk [(4096, 4096)] (fun i => 4096 + 8192 * i))
      [(ArenaCall.Allocate 3, 4096), (ArenaCall.AllocateAligned 16, 4104)],
    ArenaRun.mk (Arena.mk 4120 4072 [4096, 12288] 9112)
      (Host.mk [(4096, 4096), (12288, 5000)] (fun i => 4096 + 8192 * i))
      [(ArenaCall.Allocate 3, 4096), (ArenaCall.AllocateAligned 16, 4104),
        (ArenaCall.Allocate 5000, 12288)],
    by rfl, by rfl, by rfl, by rfl,
    ((C16_memory_usage_monotone_and_bounds_requests (fun i => 4096 + 8192 * i)
      [ArenaCall.Allocate 3, ArenaCall.AllocateAligned 16] (ArenaCall.Allocate 5000)
      (by simp [ArenaCall.bytes])).2 _ _ (by rfl) (by rfl)).2.2.2 (by decide)⟩

/-- The run `AllocateAligned(1)`, `AllocateAligned(2^64 - 1)` on a fresh arena. -/
theorem ArenaRun.run_wrapped_two :
    ArenaRun.run (ArenaRun.fresh { blocks := [], place := fun i => 4096 + 8192 * i })
        [ArenaCall.AllocateAligned 1, ArenaCall.AllocateAligned 18446744073709551615]
      = some
        { arena :=
            { alloc_ptr_ := 4103, alloc_bytes_remaining_ := 4089, blocks_ := [4096],
              memory_usage_ := 4104 },
          host := { blocks := [(4096, 4096)], place := fun i => 4096 + 8192 * i },
          results := [(ArenaCall.AllocateAligned 1, 4096),
            (ArenaCall.AllocateAligned 18446744073709551615, 4104)] } := by
  rfl

/-- C16 counterexample: on a fresh arena, after `AllocateAligned(1)` and
`AllocateAligned(2^64 - 1)` the sizes requested sum to `2^64`, while `MemoryUsage` is
4104, the one block of 4096 bytes and its pointer: the second call is served from the
current block, `bytes + slop` being 6 on 64 bits. -/
theorem C16_counterexample :
    ∃ st, ArenaRun.run (ArenaRun.fresh { blocks := [], place := fun i => 4096 + 8192 * i })
        [ArenaCall.AllocateAligned 1, ArenaCall.AllocateAligned 18446744073709551615]
        = some st
      ∧ st.requested = 18446744073709551616
      ∧ st.arena.MemoryUsage = 4104
      ∧ ¬ st.requested ≤ st.arena.MemoryUsage := by
  refine ⟨_, ArenaRun.run_wrapped_two, rfl, rfl, ?_⟩
  decide

/-! ## The order of the entries -/

theorem Slice.compare_eq_lexCompare (a b : Bytes) : Slice.compare a b = lexCompare a b := by
  induction a generalizing b with
  | nil =>
    cases b with
    | nil => simp [Slice.compare, memcmp, lexCompare]
    | cons y ys => simp [Slice.compare, memcmp, lexCompare]
  | cons x xs ih =>
    cases b with
    | nil => simp [Slice.compare, memcmp, lexCompare]
    | cons y ys =>
      have ih2 := ih ys
      have hmin : (if xs.length + 1 < ys.length + 1 then xs.length + 1 else ys.length + 1)
          = (if xs.length < ys.length then xs.length else ys.length) + 1 := by
        split_ifs <;> omega
      unfold Slice.compare at ih2 ⊢
      simp only [List.length_cons, hmin, memcmp, lexCompare] at ih2 ⊢
      by_cases h1 : x = y
      · simp only [h1, ne_eq, not_true_eq_false, if_false]
        rw [← ih2]
        simp only [Nat.add_lt_add_iff_right, gt_iff_lt]
      · have hne : (x : Int) - (y : Int) ≠ 0 := by omega
        simp only [ne_eq, h1, not_false_eq_true, if_true, hne, if_false]

theorem lexCompare_self (a : Bytes) : lexCompare a a = 0 := by
  induction a with
  | nil => rfl
  | cons x xs ih => simp [lexCompare, ih]

theorem lexCompare_eq_zero (a b : Bytes) (h : lexCompare a b = 0) : a = b := by
  induction a generalizing b with
  | nil =>
    cases b with
    | nil => rfl
    | cons y ys => simp [lexCompare] at h
  | cons x xs ih =>
    cases b with
    | nil => simp [lexCompare] at h
    | cons y ys =>
      simp only [lexCompare] at h
      split_ifs at h with h1
      all_goals first
        | (exfalso; omega)
        | (have hxy : x = y := by omega
           rw [hxy, ih ys h])

theorem lexCompare_antisymm (a b : Bytes) : lexCompare b a = - lexCompare a b := by
  induction a generalizing b with
  | nil =>
    cases b with
    | nil => rfl
    | cons y ys => rfl
  | cons x xs ih =>
    cases b with
    | nil => rfl
    | cons y ys =>
      simp only [lexCompare]
      split_ifs <;> first | omega | rfl | exact ih ys

theorem lexCompare_trans (a b c : Bytes) (h1 : lexCompare a b < 0) (h2 : lexCompare b c < 0) :
    lexCompare a c < 0 := by
  induction a generalizing b c with
  | nil =>
    cases c with
    | nil =>
      cases b with
      | nil => simp [lexCompare] at h1
      | cons y ys => simp [lexCompare] at h2
    | cons z zs => simp [lexCompare]
  | cons x xs ih =>
    cases b with
    | nil => simp [lexCompare] at h1
    | cons y ys =>
      cases c with
      | nil => simp [lexCompare] at h2
      | cons z zs =>
        simp only [lexCompare] at h1 h2 ⊢
        split_ifs at h1 h2 ⊢ <;> first | omega | exact ih ys zs h1 h2

theorem keyCmp_antisymm (a b : Bytes × Nat) : keyCmp b a = - keyCmp a b := by
  unfold keyCmp
  simp only [lexCompare_antisymm a.1 b.1]
  split_ifs <;> omega

theorem keyCmp_eq_zero (a b : Bytes × Nat) (h : keyCmp a b = 0) : a = b := by
  unfold keyCmp at h
  simp only at h
  split_ifs at h with h1 h2 h3
  all_goals first
    | (exfalso; omega)
    | exact Prod.ext (lexCompare_eq_zero _ _ h1) (by omega)

theorem keyCmp_trans (a b c : Bytes × Nat) (h1 : keyCmp a b < 0) (h2 : keyCmp b c < 0) :
    keyCmp a c < 0 := by
  unfold keyCmp at h1 h2 ⊢
  simp only at h1 h2 ⊢
  by_cases e1 : lexCompare a.1 b.1 = 0
  · have k1 := lexCompare_eq_zero _ _ e1
    rw [k1] at h1 ⊢
    by_cases e2 : lexCompare b.1 c.1 = 0
    · simp only [lexCompare_self, e2, if_true] at h1 h2 ⊢
      split_ifs at h1 h2 ⊢ <;> omega
    · simp only [e2, if_false] at h2 ⊢
      exact h2
  · simp only [e1, if_false] at h1
    by_cases e2 : lexCompare b.1 c.1 = 0
    · have k2 := lexCompare_eq_zero _ _ e2
      rw [← k2]
      simp only [e1, if_false]
      exact h1
    · simp only [e2, if_false] at h2
      have h3 := lexCompare_trans _ _ _ h1 h2
      rw [if_neg (by omega)]
      exact h3

theorem packTag_seq (s t : Nat) (hs : s < 72057594037927936) (ht : t < 256) :
    packTag s t >>> 8 = s := by
  rw [packTag_eq s t ht, Nat.shiftRight_eq_div_pow]
  norm_num
  omega

/-- On two internal keys within the limits of the format, `InternalKeyComparator::Compare`
is the comparison of their user keys and sequence numbers. -/
theorem InternalKeyComparator.Compare_eq_keyCmp (kLittleEndian : Bool) (k1 k2 : Bytes)
    (s1 t1 s2 t2 : Nat) (hs1 : s1 < 72057594037927936) (ht1 : t1 < 256)
    (hs2 : s2 < 72057594037927936) (ht2 : t2 < 256) :
    InternalKeyComparator.Compare (k1 ++ EncodeFixed64 kLittleEndian (packTag s1 t1))
        (k2 ++ EncodeFixed64 kLittleEndian (packTag s2 t2))
      = keyCmp (k1, s1) (k2, s2) := by
  have d1 : ∀ (k : Bytes) (s t : Nat),
      DecodeFixed64 (EncodeFixed64 kLittleEndian (packTag s t)) = packTag s t := by
    intro k s t
    have := DecodeFixed64_EncodeFixed64 kLittleEndian (packTag s t) []
    rw [List.append_nil] at this
    rw [this]
    exact Nat.mod_eq_of_lt (packTag_lt _ _)
  unfold InternalKeyComparator.Compare userCompare keyCmp
  simp only [List.length_append, EncodeFixed64_length, Nat.add_sub_cancel, List.take_left,
    List.drop_left, d1 k1, packTag_seq s1 t1 hs1 ht1, packTag_seq s2 t2 hs2 ht2,
    Slice.compare_eq_lexCompare]
  split_ifs with h1 <;> first | rfl | exact h1

theorem MemTable.GetLengthPrefixedSlice_key (kLittleEndian : Bool) (key : Bytes)
    (s type : Nat) (rest : Bytes) (hk : key.length + 8 < 4294967296) :
    MemTable.GetLengthPrefixedSlice (lengthPrefixedKey kLittleEndian key s type rest)
      = key ++ EncodeFixed64 kLittleEndian (packTag s type) := by
  unfold lengthPrefixedKey
  rw [MemTable.GetLengthPrefixedSlice_encode _ hk, MemTable.entry_prefix]

/-- On two length-prefixed internal keys within the limits of the format,
`MemTable::KeyComparator` is the comparison of their user keys and sequence numbers. -/
theorem MemTable.KeyComparator_eq_keyCmp (kLittleEndian : Bool) (k1 k2 r1 r2 : Bytes)
    (s1 t1 s2 t2 : Nat) (hk1 : k1.length + 8 < 4294967296) (hk2 : k2.length + 8 < 4294967296)
    (hs1 : s1 < 72057594037927936) (ht1 : t1 < 256)
    (hs2 : s2 < 72057594037927936) (ht2 : t2 < 256) :
    MemTable.KeyComparator (lengthPrefixedKey kLittleEndian k1 s1 t1 r1)
        (lengthPrefixedKey kLittleEndian k2 s2 t2 r2)
      = keyCmp (k1, s1) (k2, s2) := by
  unfold MemTable.KeyComparator
  simp only [MemTable.GetLengthPrefixedSlice_key _ _ _ _ _ hk1,
    MemTable.GetLengthPrefixedSlice_key _ _ _ _ _ hk2]
  exact InternalKeyComparator.Compare_eq_keyCmp kLittleEndian k1 k2 s1 t1 s2 t2 hs1 ht1 hs2 ht2

theorem AddOp.WellFormed.type_lt (op : AddOp) (h : op.WellFormed) : op.type < 256 := by
  obtain ⟨-, -, -, h4⟩ := h
  unfold kTypeValue kTypeDeletion at h4
  omega

theorem AddOp.KeyComparator_entry (kLittleEndian : Bool) (a b : AddOp) (ha : a.WellFormed)
    (hb : b.WellFormed) :
    MemTable.KeyComparator (a.entry kLittleEndian) (b.entry kLittleEndian)
      = keyCmp a.rank b.rank :=
  MemTable.KeyComparator_eq_keyCmp kLittleEndian _ _ _ _ _ _ _ _ ha.1 hb.1 ha.2.2.1
    (AddOp.WellFormed.type_lt a ha) hb.2.2.1 (AddOp.WellFormed.type_lt b hb)

/-- The lookup key of `(key, S)` is a length-prefixed internal key. -/
theorem LookupKey.memtable_key_eq (kLittleEndian : Bool) (key : Bytes) (S : Nat)
    (hk : key.length + 8 < 4294967296) :
    LookupKey.memtable_key kLittleEndian { user_key := key, sequence := S }
      = lengthPrefixedKey kLittleEndian key S kValueTypeForSeek [] := by
  have hu : uint64_t (key.length + 8) = key.length + 8 := Nat.mod_eq_of_lt (by omega)
  unfold LookupKey.memtable_key lengthPrefixedKey
  simp only [hu, List.append_assoc, List.append_nil]

/-- Inserting the entry of an `Add` in the index is `insertOp` on the `Add`s. -/
theorem SkipList.Insert_entries (kLittleEndian : Bool) (ops : List AddOp) (op : AddOp)
    (hops : ∀ x ∈ ops, x.WellFormed) (hop : op.WellFormed) :
    SkipList.Insert MemTable.KeyComparator (ops.map (AddOp.entry kLittleEndian))
        (op.entry kLittleEndian)
      = (insertOp ops op).map (AddOp.entry kLittleEndian) := by
  induction ops with
  | nil => rfl
  | cons x xs ih =>
    have hx := hops x (List.mem_cons_self x xs)
    simp only [List.map_cons, SkipList.Insert, insertOp,
      AddOp.KeyComparator_entry kLittleEndian x op hx hop]
    split_ifs
    · rw [List.map_cons, ih (fun y hy => hops y (List.mem_cons_of_mem x hy))]
    · simp only [List.map_cons]

theorem insertOp_mem (ops : List AddOp) (op x : AddOp) :
    x ∈ insertOp ops op ↔ x = op ∨ x ∈ ops := by
  induction ops with
  | nil => simp [insertOp]
  | cons y ys ih =>
    simp only [insertOp]
    split_ifs
    · simp only [List.mem_cons, ih]
      tauto
    · simp only [List.mem_cons]

theorem insertOp_sorted (ops : List AddOp) (op : AddOp)
    (hs : ops.Pairwise fun a b => keyCmp a.rank b.rank < 0)
    (hne : ∀ x ∈ ops, x.s ≠ op.s) :
    (insertOp ops op).Pairwise fun a b => keyCmp a.rank b.rank < 0 := by
  induction ops with
  | nil => simp [insertOp]
  | cons y ys ih =>
    rw [List.pairwise_cons] at hs
    simp only [insertOp]
    split_ifs with hlt
    · rw [List.pairwise_cons]
      refine ⟨?_, ih hs.2 (fun x hx => hne x (List.mem_cons_of_mem y hx))⟩
      intro z hz
      rcases (insertOp_mem ys op z).1 hz with rfl | hz
      · exact hlt
      · exact hs.1 z hz
    · have hy : keyCmp op.rank y.rank < 0 := by
        have h0 : keyCmp y.rank op.rank ≠ 0 := by
          intro h0
          have := keyCmp_eq_zero _ _ h0
          exact hne y (List.mem_cons_self y ys) (congrArg Prod.snd this)
        have := keyCmp_antisymm y.rank op.rank
        omega
      rw [List.pairwise_cons]
      refine ⟨?_, List.pairwise_cons.2 hs⟩
      intro z hz
      rcases List.mem_cons.1 hz with rfl | hz
      · exact hy
      · exact keyCmp_trans _ _ _ hy (hs.1 z hz)

theorem MemTable.Add_entry (kLittleEndian : Bool) (table : List Bytes) (op : AddOp)
    (hop : op.WellFormed) :
    MemTable.Add kLittleEndian { table_ := table } op.s op.type op.key op.value
      = some (MemTable.mk (SkipList.Insert MemTable.KeyComparator table
          (op.entry kLittleEndian))) := by
  unfold MemTable.Add
  rw [(MemTable.encodeEntry_ok kLittleEndian op.s op.type op.key op.value hop.1 hop.2.1).2]
  rfl

theorem MemTable.AddAll_entries (kLittleEndian : Bool) (hist : List AddOp) :
    ∀ ops : List AddOp, (∀ x ∈ ops, x.WellFormed) → (∀ x ∈ hist, x.WellFormed) →
      MemTable.AddAll kLittleEndian { table_ := ops.map (AddOp.entry kLittleEndian) } hist
        = some { table_ := (hist.foldl insertOp ops).map (AddOp.entry kLittleEndian) } := by
  induction hist with
  | nil => intro ops _ _; rfl
  | cons op rest ih =>
    intro ops hops hhist
    have hop := hhist op (List.mem_cons_self op rest)
    simp only [MemTable.AddAll, MemTable.Add_entry kLittleEndian _ op hop,
      SkipList.Insert_entries kLittleEndian ops op hops hop, List.foldl_cons]
    apply ih
    · intro x hx
      rcases (insertOp_mem ops op x).1 hx with rfl | hx
      · exact hop
      · exact hops x hx
    · exact fun x hx => hhist x (List.mem_cons_of_mem op hx)

theorem foldl_insertOp_mem (hist : List AddOp) :
    ∀ (ops : List AddOp) (x : AddOp), x ∈ hist.foldl insertOp ops ↔ x ∈ ops ∨ x ∈ hist := by
  induction hist with
  | nil => intro ops x; simp
  | cons op rest ih =>
    intro ops x
    rw [List.foldl_cons, ih, insertOp_mem, List.mem_cons]
    tauto

theorem foldl_insertOp_sorted (hist : List AddOp) :
    ∀ ops : List AddOp, (ops.Pairwise fun a b => keyCmp a.rank b.rank < 0) →
      (∀ x ∈ ops, ∀ y ∈ hist, x.s ≠ y.s) → (hist.map AddOp.s).Nodup →
      (hist.foldl insertOp ops).Pairwise fun a b => keyCmp a.rank b.rank < 0 := by
  induction hist with
  | nil => intro ops hs _ _; exact hs
  | cons op rest ih =>
    intro ops hs hne hd
    rw [List.map_cons, List.nodup_cons] at hd
    rw [List.foldl_cons]
    apply ih
    · exact insertOp_sorted ops op hs (fun x hx => hne x hx op (List.mem_cons_self op rest))
    · intro x hx y hy
      rcases (insertOp_mem ops op x).1 hx with rfl | hx
      · intro heq
        exact hd.1 (List.mem_map.2 ⟨y, hy, heq.symm⟩)
      · exact hne x hx y (List.mem_cons_of_mem op hy)
    · exact hd.2

/-- In a list whose earlier elements are related by `R` to the later ones, the first
element that satisfies `p` is related by `R` to every other element that satisfies `p`. -/
theorem find_first (R : AddOp → AddOp → Prop) (p : AddOp → Bool) (l : List AddOp) (x : AddOp)
    (hs : l.Pairwise R) (hx : x ∈ l) (hp : p x = true) :
    ∃ e, l.find? p = some e ∧ (e = x ∨ R e x) := by
  induction l with
  | nil => cases hx
  | cons a t ih =>
    rw [List.pairwise_cons] at hs
    by_cases ha : p a = true
    · refine ⟨a, by simp [List.find?_cons, ha], ?_⟩
      rcases List.mem_cons.1 hx with rfl | hx
      · exact Or.inl rfl
      · exact Or.inr (hs.1 x hx)
    · have hxt : x ∈ t := by
        rcases List.mem_cons.1 hx with rfl | hx
        · exact absurd hp ha
        · exact hx
      obtain ⟨e, he, hr⟩ := ih hs.2 hxt
      exact ⟨e, by simp [List.find?_cons, ha, he], hr⟩

/-- Seeking a length-prefixed internal key in the index is a search on the `Add`s. -/
theorem SkipList.Seek_entries (kLittleEndian : Bool) (ops : List AddOp) (key : Bytes)
    (S : Nat) (hops : ∀ x ∈ ops, x.WellFormed) (hk : key.length + 8 < 4294967296)
    (hS : S < 72057594037927936) :
    SkipList.Seek MemTable.KeyComparator (ops.map (AddOp.entry kLittleEndian))
        (lengthPrefixedKey kLittleEndian key S kValueTypeForSeek [])
      = (ops.find? fun op => decide (keyCmp op.rank (key, S) ≥ 0)).map
          (AddOp.entry kLittleEndian) := by
  unfold SkipList.Seek
  induction ops with
  | nil => rfl
  | cons x xs ih =>
    have hx := hops x (List.mem_cons_self x xs)
    have hc : MemTable.KeyComparator (x.entry kLittleEndian)
        (lengthPrefixedKey kLittleEndian key S kValueTypeForSeek []) = keyCmp x.rank (key, S) :=
      MemTable.KeyComparator_eq_keyCmp kLittleEndian _ _ _ _ _ _ _ _ hx.1 hk hx.2.2.1
        (AddOp.WellFormed.type_lt x hx) hS (by decide)
    simp only [List.map_cons, List.find?_cons, hc]
    by_cases hge : keyCmp x.rank (key, S) ≥ 0
    · simp [hge]
    · simp only [hge, decide_False]
      exact ih (fun y hy => hops y (List.mem_cons_of_mem x hy))

/-- The result of `Get` when `Seek` lands on an entry made of a length-prefixed internal
key and a value slice whose length prefix is `n`: not found for another user key, the
first `n` bytes after the prefix for the kind `Value`, found-but-deleted for the kind
`Deletion`. -/
theorem MemTable.Get_of_Seek_key (kLittleEndian : Bool) (m : MemTable) (lk : LookupKey)
    (key body : Bytes) (s type n : Nat) (hk : key.length + 8 < 4294967296)
    (hn : n < 4294967296) (ht : type = kTypeValue ∨ type = kTypeDeletion)
    (value0 : Bytes) (s0 : Status)
    (hseek : SkipList.Seek MemTable.KeyComparator m.table_ (lk.memtable_key kLittleEndian)
      = some (lengthPrefixedKey kLittleEndian key s type (EncodeVarint32 n ++ body))) :
    MemTable.Get kLittleEndian m lk value0 s0 =
      if lexCompare key lk.user_key = 0 then
        if type = kTypeValue then (true, body.take n, s0)
        else (true, value0, Status.NotFound [])
      else (false, value0, s0) := by
  have ht2 : type < 256 := by
    unfold kTypeValue kTypeDeletion at ht
    omega
  obtain ⟨h1, h2⟩ := varint_prefix (key.length + 8) hk (key ++
    (EncodeFixed64 kLittleEndian (packTag s type) ++ (EncodeVarint32 n ++ body)))
  have hu : uint32_t (key.length + 8 + 4294967296 - 8) = key.length := by
    unfold uint32_t; omega
  have htag : DecodeFixed64 (EncodeFixed64 kLittleEndian (packTag s type) ++
      (EncodeVarint32 n ++ body)) = packTag s type := by
    rw [DecodeFixed64_EncodeFixed64]
    exact Nat.mod_eq_of_lt (packTag_lt _ _)
  have hkind : packTag s type &&& 0xff = type := packTag_kind s type ht2
  have hdrop : (key ++ (EncodeFixed64 kLittleEndian (packTag s type) ++
      (EncodeVarint32 n ++ body))).drop (key.length + 8) = EncodeVarint32 n ++ body := by
    rw [← List.append_assoc]
    exact List.drop_left' (by rw [List.length_append, EncodeFixed64_length])
  unfold MemTable.Get
  simp only [hseek, lengthPrefixedKey, h1, h2, List.drop_left, hu,
    List.take_left, userCompare, Slice.compare_eq_lexCompare, Nat.add_sub_cancel, htag, hkind,
    hdrop, MemTable.GetLengthPrefixedSlice_encode _ hn]
  by_cases hc : lexCompare key lk.user_key = 0
  · simp only [hc, if_true]
    rcases ht with ht | ht
    · simp only [ht, if_true]
    · have hne : ¬ (type = kTypeValue) := by
        rw [ht]
        decide
      simp only [hne, if_false, ht, if_true]
  · simp only [hc, if_false]

/-- The result of `Get` when `Seek` lands on the entry of an `Add`: not found for another
user key, the value for a `Value` entry, found-but-deleted for a `Deletion` entry. -/
theorem MemTable.Get_of_Seek_entry (kLittleEndian : Bool) (m : MemTable) (lk : LookupKey)
    (op : AddOp) (hop : op.WellFormed) (value0 : Bytes) (s0 : Status)
    (hseek : SkipList.Seek MemTable.KeyComparator m.table_ (lk.memtable_key kLittleEndian)
      = some (op.entry kLittleEndian)) :
    MemTable.Get kLittleEndian m lk value0 s0 =
      if lexCompare op.key lk.user_key = 0 then
        if op.type = kTypeValue then (true, op.value, s0)
        else (true, value0, Status.NotFound [])
      else (false, value0, s0) := by
  rw [MemTable.Get_of_Seek_key kLittleEndian m lk op.key op.value op.s op.type
    op.value.length hop.1 hop.2.1 hop.2.2.2 value0 s0 hseek, List.take_length]

theorem MemTable.Get_of_Seek_none (kLittleEndian : Bool) (m : MemTable) (lk : LookupKey)
    (value0 : Bytes) (s0 : Status)
    (hseek : SkipList.Seek MemTable.KeyComparator m.table_ (lk.memtable_key kLittleEndian)
      = none) :
    MemTable.Get kLittleEndian m lk value0 s0 = (false, value0, s0) := by
  unfold MemTable.Get
  simp only [hseek]

/-- After the `Add`s of a history within the limits of the format, with pairwise distinct
sequence numbers, a lookup of `(key, S)` examines the entry for `key` with the greatest
sequence number at most `S`, and no entry for `key` when there is none. -/
theorem MemTable.Get_newest (kLittleEndian : Bool) (history : List AddOp) (key : Bytes)
    (S : Nat) (hwf : ∀ op ∈ history, op.WellFormed) (hd : (history.map AddOp.s).Nodup)
    (hk : key.length + 8 < 4294967296) (hS : S < 72057594037927936) :
    ∃ m, MemTable.AddAll kLittleEndian MemTable.empty history = some m
      ∧ (∀ op ∈ history, op.key = key → op.s ≤ S →
          (∀ op2 ∈ history, op2.key = key → op2.s ≤ S → op2.s ≤ op.s) →
          SkipList.Seek MemTable.KeyComparator m.table_
              (LookupKey.memtable_key kLittleEndian { user_key := key, sequence := S })
            = some (op.entry kLittleEndian)
          ∧ ∀ value0 s0,
            MemTable.Get kLittleEndian m { user_key := key, sequence := S } value0 s0 =
              if op.type = kTypeValue then (true, op.value, s0)
              else (true, value0, Status.NotFound []))
      ∧ ((∀ op ∈ history, op.key = key → S < op.s) →
          ∀ value0 s0,
            MemTable.Get kLittleEndian m { user_key := key, sequence := S } value0 s0 =
              (false, value0, s0)) := by
  have hall := MemTable.AddAll_entries kLittleEndian history [] (by simp) hwf
  have hmem := foldl_insertOp_mem history []
  have hsorted := foldl_insertOp_sorted history [] List.Pairwise.nil (by simp) hd
  have hwf2 : ∀ x ∈ history.foldl insertOp [], x.WellFormed := by
    intro x hx
    rcases (hmem x).1 hx with hx | hx
    · cases hx
    · exact hwf x hx
  have hseek := SkipList.Seek_entries kLittleEndian (history.foldl insertOp []) key S hwf2 hk hS
  rw [← LookupKey.memtable_key_eq kLittleEndian key S hk] at hseek
  refine ⟨_, hall, ?_, ?_⟩
  · intro op hop hkey hle hmax
    have hp : (fun x : AddOp => decide (keyCmp x.rank (key, S) ≥ 0)) op = true := by
      simp only [decide_eq_true_eq, AddOp.rank, keyCmp, hkey, lexCompare_self, if_true]
      split_ifs <;> omega
    obtain ⟨e, he, hr⟩ := find_first (fun a b => keyCmp a.rank b.rank < 0)
      (fun x : AddOp => decide (keyCmp x.rank (key, S) ≥ 0)) _ op hsorted
      ((hmem op).2 (Or.inr hop)) hp
    have hee : e = op := by
      rcases hr with hr | hr
      · exact hr
      · exfalso
        have hpe := List.find?_some he
        have hein : e ∈ history := by
          rcases (hmem e).1 (List.mem_of_find?_eq_some he) with h | h
          · cases h
          · exact h
        simp only [decide_eq_true_eq, AddOp.rank, keyCmp] at hpe
        simp only [AddOp.rank, keyCmp, hkey] at hr
        by_cases hz : lexCompare e.key key = 0
        · have hek := lexCompare_eq_zero _ _ hz
          simp only [hz, if_true] at hpe hr
          have hes : e.s ≤ S := by
            split_ifs at hpe <;> omega
          have := hmax e hein hek hes
          split_ifs at hr <;> omega
        · simp only [hz, if_false] at hpe hr
          omega
    rw [hee] at he
    have hseek2 : SkipList.Seek MemTable.KeyComparator
        (List.map (AddOp.entry kLittleEndian) (List.foldl insertOp [] history))
        (LookupKey.memtable_key kLittleEndian { user_key := key, sequence := S })
        = some (op.entry kLittleEndian) := by
      rw [hseek, he]
      rfl
    refine ⟨hseek2, ?_⟩
    intro value0 s0
    rw [MemTable.Get_of_Seek_entry kLittleEndian _ _ op (hwf op hop) value0 s0 hseek2]
    simp only [hkey, lexCompare_self, if_true]
  · intro hnone value0 s0
    cases hf : (history.foldl insertOp []).find? fun op => decide (keyCmp op.rank (key, S) ≥ 0) with
    | none =>
      apply MemTable.Get_of_Seek_none
      rw [hseek, hf]
      rfl
    | some e =>
      have hpe := List.find?_some hf
      have hein : e ∈ history := by
        rcases (hmem e).1 (List.mem_of_find?_eq_some hf) with h | h
        · cases h
        · exact h
      have hseek2 : SkipList.Seek MemTable.KeyComparator
          (List.map (AddOp.entry kLittleEndian) (List.foldl insertOp [] history))
          (LookupKey.memtable_key kLittleEndian { user_key := key, sequence := S })
          = some (e.entry kLittleEndian) := by
        rw [hseek, hf]
        rfl
      rw [MemTable.Get_of_Seek_entry kLittleEndian _ _ e (hwf e hein) value0 s0 hseek2]
      have hz : ¬ lexCompare e.key key = 0 := by
        intro hz
        have hek := lexCompare_eq_zero _ _ hz
        have := hnone e hein hek
        simp only [decide_eq_true_eq, AddOp.rank, keyCmp, hz, if_true] at hpe
        split_ifs at hpe <;> omega
      simp only [hz, if_false]

/-! ## Lookups in a MemTable -/

/-- C11 (amended): for every MemTable built from an empty one by `Add`s with pairwise
distinct sequence numbers below `2^56`, user keys with `len(key) + 8 < 2^32`, values with
`len(value) < 2^32` and kinds `Value` or `Deletion`, and for every lookup `(key, S)` with
`len(key) + 8 < 2^32` and `S < 2^56`: the entry that `Seek` finds and `Get` examines is the
entry for `key` with the greatest sequence number at most `S`; `Get` returns true with
that entry's value when it is a `Value` entry, true with the status `NotFound` when it is
a `Deletion` entry, and false, leaving its out-parameters as they were, when no entry for
`key` has a sequence number at most `S`. -/
theorem C11_Get_examines_newest_visible_entry (kLittleEndian : Bool) (history : List AddOp)
    (key : Bytes) (S : Nat)
    (hwf : ∀ op ∈ history, op.key.length + 8 < 4294967296 ∧ op.value.length < 4294967296
      ∧ op.s < 72057594037927936 ∧ (op.type = kTypeValue ∨ op.type = kTypeDeletion))
    (hd : (history.map AddOp.s).Nodup)
    (hk : key.length + 8 < 4294967296) (hS : S < 72057594037927936) :
    ∃ m, MemTable.AddAll kLittleEndian MemTable.empty history = some m
      ∧ (∀ op ∈ history, op.key = key → op.s ≤ S →
          (∀ op2 ∈ history, op2.key = key → op2.s ≤ S → op2.s ≤ op.s) →
          SkipList.Seek MemTable.KeyComparator m.table_
              (LookupKey.memtable_key kLittleEndian { user_key := key, sequence := S })
            = MemTable.encodeEntry kLittleEndian op.s op.type op.key op.value
          ∧ (op.type = kTypeValue → ∀ value0 s0,
              MemTable.Get kLittleEndian m { user_key := key, sequence := S } value0 s0
                = (true, op.value, s0))
          ∧ (op.type = kTypeDeletion → ∀ value0 s0,
              MemTable.Get kLittleEndian m { user_key := key, sequence := S } value0 s0
                = (true, value0, Status.NotFound [])))
      ∧ ((∀ op ∈ history, op.key = key → S < op.s) →
          ∀ value0 s0,
            MemTable.Get kLittleEndian m { user_key := key, sequence := S } value0 s0
              = (false, value0, s0)) := by
  obtain ⟨m, hm, h1, h2⟩ := MemTable.Get_newest kLittleEndian history key S hwf hd hk hS
  refine ⟨m, hm, ?_, h2⟩
  intro op hop hkey hle hmax
  obtain ⟨hseek, hget⟩ := h1 op hop hkey hle hmax
  have hw := hwf op hop
  refine ⟨?_, ?_, ?_⟩
  · rw [hseek, (MemTable.encodeEntry_ok kLittleEndian op.s op.type op.key op.value hw.1
      hw.2.1).2]
    rfl
  · intro ht value0 s0
    rw [hget, if_pos ht]
  · intro ht value0 s0
    rw [hget, if_neg]
    rw [ht]
    decide

theorem C11_Get_examines_newest_visible_entry_witness :
    ∃ m, MemTable.AddAll true MemTable.empty
        [⟨5, kTypeValue, [97], [120]⟩, ⟨7, kTypeValue, [97], [121]⟩] = some m
      ∧ MemTable.Get true m { user_key := [97], sequence := 7 } [] Status.OK
        = (true, [121], Status.OK)
      ∧ MemTable.Get true m { user_key := [97], sequence := 6 } [] Status.OK
        = (true, [120], Status.OK) := by
  obtain ⟨m, hm, h7, -⟩ := C11_Get_examines_newest_visible_entry true
    [⟨5, kTypeValue, [97], [120]⟩, ⟨7, kTypeValue, [97], [121]⟩] [97] 7
    (by decide) (by decide) (by decide) (by decide)
  obtain ⟨m2, hm2, h6, -⟩ := C11_Get_examines_newest_visible_entry true
    [⟨5, kTypeValue, [97], [120]⟩, ⟨7, kTypeValue, [97], [121]⟩] [97] 6
    (by decide) (by decide) (by decide) (by decide)
  rw [hm] at hm2
  cases hm2
  exact ⟨m, hm,
    (h7 ⟨7, kTypeValue, [97], [121]⟩ (by simp) rfl (by decide) (by decide)).2.1 rfl [] Status.OK,
    (h6 ⟨5, kTypeValue, [97], [120]⟩ (by simp) rfl (by decide) (by decide)).2.1 rfl [] Status.OK⟩

/-- C11 counterexample: after `Add(2^56 + 5, Value, "a", "x")` on an empty MemTable, the
only entry for `"a"` has the sequence number `2^56 + 5`, which is greater than 7, but the
tag stored is `((2^56 + 5) << 8) | 1` on 64 bits, that is the tag of the sequence number
5, and `Get(LookupKey("a", 7))` returns true with the value `"x"`. -/
theorem C11_counterexample :
    ∃ m, MemTable.AddAll true MemTable.empty [⟨72057594037927941, kTypeValue, [97], [120]⟩]
        = some m
      ∧ (([⟨72057594037927941, kTypeValue, [97], [120]⟩] : List AddOp).map AddOp.s).Nodup
      ∧ (∀ op ∈ ([⟨72057594037927941, kTypeValue, [97], [120]⟩] : List AddOp),
          op.key = [97] → 7 < op.s)
      ∧ packTag 72057594037927941 kTypeValue = packTag 5 kTypeValue
      ∧ MemTable.Get true m { user_key := [97], sequence := 7 } [] Status.OK
        = (true, [120], Status.OK) := by
  have hadd : MemTable.AddAll true MemTable.empty
      [⟨72057594037927941, kTypeValue, [97], [120]⟩]
      = some (MemTable.mk [lengthPrefixedKey true [97] 72057594037927941 kTypeValue
          (EncodeVarint32 1 ++ [120])]) := by
    simp only [MemTable.AddAll, MemTable.Add]
    rw [(MemTable.encodeEntry_ok true 72057594037927941 kTypeValue [97] [120] (by decide)
      (by decide)).2]
    rfl
  exact ⟨_, hadd, by decide, by decide, by decide, by rfl⟩

/-- C12 (amended): for every history of `Add`s within the limits of the format, every
`key` with `len(key) + 8 < 2^32`, every `value` with `len(value) < 2^32` and every `seq`
with `seq + 1 < 2^56`, the sequence numbers of the history, `seq` and `seq + 1` being
pairwise distinct: after `Add(seq, Value, key, value)` followed by
`Add(seq + 1, Deletion, key, "")`, `Get(LookupKey(key, seq + 1))` returns true with the
status `NotFound` and leaves the value out-parameter as it was, and
`Get(LookupKey(key, seq))` returns true with `value`. -/
theorem C12_deletion_shadows_older_value (kLittleEndian : Bool) (history : List AddOp)
    (seq : Nat) (key value : Bytes)
    (hwf : ∀ op ∈ history, op.key.length + 8 < 4294967296 ∧ op.value.length < 4294967296
      ∧ op.s < 72057594037927936 ∧ (op.type = kTypeValue ∨ op.type = kTypeDeletion))
    (hd : (history.map AddOp.s ++ [seq, seq + 1]).Nodup)
    (hseq : seq + 1 < 72057594037927936)
    (hk : key.length + 8 < 4294967296) (hv : value.length < 4294967296) :
    ∃ m, MemTable.AddAll kLittleEndian MemTable.empty
        (history ++ [⟨seq, kTypeValue, key, value⟩, ⟨seq + 1, kTypeDeletion, key, []⟩])
        = some m
      ∧ ∀ value0 s0,
        MemTable.Get kLittleEndian m { user_key := key, sequence := seq + 1 } value0 s0
            = (true, value0, Status.NotFound [])
          ∧ MemTable.Get kLittleEndian m { user_key := key, sequence := seq } value0 s0
            = (true, value, s0) := by
  have hwf2 : ∀ op ∈ history ++ [(⟨seq, kTypeValue, key, value⟩ : AddOp),
      ⟨seq + 1, kTypeDeletion, key, []⟩], op.WellFormed := by
    intro op hop
    rw [List.mem_append] at hop
    rcases hop with hop | hop
    · exact hwf op hop
    · simp only [List.mem_cons, List.mem_singleton, List.not_mem_nil, or_false] at hop
      rcases hop with rfl | rfl
      · exact ⟨hk, hv, Nat.lt_of_succ_lt hseq, Or.inl rfl⟩
      · exact ⟨hk, by simp, hseq, Or.inr rfl⟩
  have hd2 : ((history ++ [(⟨seq, kTypeValue, key, value⟩ : AddOp),
      ⟨seq + 1, kTypeDeletion, key, []⟩]).map AddOp.s).Nodup := by
    simpa using hd
  obtain ⟨m, hm, hD, -⟩ := MemTable.Get_newest kLittleEndian _ key (seq + 1) hwf2 hd2 hk hseq
  obtain ⟨m2, hm2, hV, -⟩ := MemTable.Get_newest kLittleEndian _ key seq hwf2 hd2 hk
    (by omega)
  rw [hm] at hm2
  cases hm2
  refine ⟨m, hm, ?_⟩
  intro value0 s0
  constructor
  · have h := (hD ⟨seq + 1, kTypeDeletion, key, []⟩ (by simp) rfl (le_refl _)
      (fun op2 _ _ h2 => h2)).2 value0 s0
    rw [h]
    exact if_neg (show ¬ (kTypeDeletion = kTypeValue) by decide)
  · have h := (hV ⟨seq, kTypeValue, key, value⟩ (by simp) rfl (le_refl _)
      (fun op2 _ _ h2 => h2)).2 value0 s0
    rw [h, if_pos rfl]

theorem C12_deletion_shadows_older_value_witness :
    ∃ m, MemTable.AddAll true MemTable.empty
        ([⟨3, kTypeValue, [98], [122]⟩] ++
          [⟨5, kTypeValue, [97], [120]⟩, ⟨5 + 1, kTypeDeletion, [97], []⟩]) = some m
      ∧ ∀ value0 s0,
        MemTable.Get true m { user_key := [97], sequence := 5 + 1 } value0 s0
            = (true, value0, Status.NotFound [])
          ∧ MemTable.Get true m { user_key := [97], sequence := 5 } value0 s0
            = (true, [120], s0) :=
  C12_deletion_shadows_older_value true [⟨3, kTypeValue, [98], [122]⟩] 5 [97] [120]
    (by decide) (by decide) (by decide) (by decide) (by decide)

/-- A value of `2^32 + 2^28` bytes passes the final-pointer assertion of `Add`:
`VarintLength` counts five bytes for its length, and `EncodeVarint32` writes the five
bytes of the length truncated to 32 bits, `2^28`. -/
theorem MemTable.encodeEntry_truncated_value (kLittleEndian : Bool) (s type : Nat)
    (key value : Bytes) (hk : key.length + 8 < 4294967296)
    (hv : value.length = 4563402752) :
    MemTable.encodeEntry kLittleEndian s type key value
      = some (lengthPrefixedKey kLittleEndian key s type
          (EncodeVarint32 268435456 ++ value)) := by
  have hu : uint64_t (key.length + 8) = key.length + 8 := Nat.mod_eq_of_lt (by omega)
  have l1 := EncodeVarint32_length (key.length + 8) hk
  obtain ⟨-, b1⟩ := EncodeVarint32_length_le (key.length + 8)
  have e2 : EncodeVarint32 value.length = EncodeVarint32 268435456 := by
    rw [EncodeVarint32_mod, hv]
  have l2 : (EncodeVarint32 268435456).length = 5 := by decide
  have v2 : VarintLength value.length = 5 := by
    rw [VarintLength_eq _ (by omega), if_neg (by omega), if_neg (by omega), if_neg (by omega),
      if_neg (by omega)]
  unfold MemTable.encodeEntry MemTable.encoded_len lengthPrefixedKey
  simp only [hu, e2, List.length_append, EncodeFixed64_length, l1, l2, v2, List.append_assoc]
  rw [if_pos]
  unfold uint64_t
  rw [Nat.mod_eq_of_lt (by omega)]
  omega

/-- After `Add(1, Value, "a", value)` and `Add(2, Deletion, "a", "")` with a value of
`2^32 + 2^28` bytes, `Get(LookupKey("a", 1))` returns the first `2^28` bytes of the
value. -/
theorem MemTable.Get_truncated_value (kLittleEndian : Bool) (value : Bytes)
    (hv : value.length = 4563402752) :
    ∃ m, MemTable.AddAll kLittleEndian MemTable.empty
        [⟨1, kTypeValue, [97], value⟩, ⟨1 + 1, kTypeDeletion, [97], []⟩] = some m
      ∧ ∀ value0 s0, MemTable.Get kLittleEndian m { user_key := [97], sequence := 1 } value0 s0
        = (true, value.take 268435456, s0) := by
  have hc : ∀ (s1 t1 s2 t2 : Nat) (r1 r2 : Bytes), s1 < 72057594037927936 → t1 < 256 →
      s2 < 72057594037927936 → t2 < 256 →
      MemTable.KeyComparator (lengthPrefixedKey kLittleEndian [97] s1 t1 r1)
        (lengthPrefixedKey kLittleEndian [97] s2 t2 r2) = keyCmp ([97], s1) ([97], s2) :=
    fun s1 t1 s2 t2 r1 r2 h1 h2 h3 h4 =>
      MemTable.KeyComparator_eq_keyCmp kLittleEndian [97] [97] r1 r2 s1 t1 s2 t2 (by decide)
        (by decide) h1 h2 h3 h4
  have hadd : MemTable.AddAll kLittleEndian MemTable.empty
      [⟨1, kTypeValue, [97], value⟩, ⟨1 + 1, kTypeDeletion, [97], []⟩]
      = some (MemTable.mk
        [lengthPrefixedKey kLittleEndian [97] 2 kTypeDeletion (EncodeVarint32 0 ++ []),
          lengthPrefixedKey kLittleEndian [97] 1 kTypeValue
            (EncodeVarint32 268435456 ++ value)]) := by
    have e2 : MemTable.encodeEntry kLittleEndian (1 + 1) kTypeDeletion [97] []
        = some (lengthPrefixedKey kLittleEndian [97] 2 kTypeDeletion
            (EncodeVarint32 0 ++ [])) :=
      (MemTable.encodeEntry_ok kLittleEndian 2 kTypeDeletion [97] [] (by decide)
        (by decide)).2
    have hcmp := hc 1 kTypeValue 2 kTypeDeletion (EncodeVarint32 268435456 ++ value)
      (EncodeVarint32 0 ++ []) (by decide) (by decide) (by decide) (by decide)
    have hk : keyCmp ([97], 1) ([97], 2) = 1 := by decide
    simp only [MemTable.AddAll, MemTable.Add, MemTable.empty]
    rw [MemTable.encodeEntry_truncated_value kLittleEndian 1 kTypeValue [97] value
      (by decide) hv]
    simp only [SkipList.Insert]
    rw [e2]
    simp only [SkipList.Insert]
    rw [if_neg (by rw [hcmp, hk]; decide)]
  refine ⟨_, hadd, ?_⟩
  intro value0 s0
  have hseek : SkipList.Seek MemTable.KeyComparator
      [lengthPrefixedKey kLittleEndian [97] 2 kTypeDeletion (EncodeVarint32 0 ++ []),
        lengthPrefixedKey kLittleEndian [97] 1 kTypeValue (EncodeVarint32 268435456 ++ value)]
      (LookupKey.memtable_key kLittleEndian { user_key := [97], sequence := 1 })
      = some (lengthPrefixedKey kLittleEndian [97] 1 kTypeValue
          (EncodeVarint32 268435456 ++ value)) := by
    rw [LookupKey.memtable_key_eq kLittleEndian [97] 1 (by decide)]
    have k1 : keyCmp ([97], 2) ([97], 1) = -1 := by decide
    have k2 : keyCmp ([97], 1) ([97], 1) = 0 := by decide
    simp only [SkipList.Seek, List.find?_cons,
      hc 2 kTypeDeletion 1 kValueTypeForSeek _ _ (by decide) (by decide) (by decide)
        (by decide),
      hc 1 kTypeValue 1 kValueTypeForSeek _ _ (by decide) (by decide) (by decide)
        (by decide), k1, k2]
    rfl
  rw [MemTable.Get_of_Seek_key kLittleEndian _ _ [97] value 1 kTypeValue 268435456
    (by decide) (by decide) (Or.inl rfl) value0 s0 hseek]
  rfl

/-- C12 counterexample: with a value of `2^32 + 2^28` bytes, after
`Add(1, Value, "a", value)` and `Add(2, Deletion, "a", "")` no assertion fails, and
`Get(LookupKey("a", 1))` returns the first `2^28` bytes of the value, not the value. -/
theorem C12_counterexample :
    (1 : Nat) + 1 < 72057594037927936
      ∧ ∃ m, MemTable.AddAll true MemTable.empty
          [⟨1, kTypeValue, [97], List.replicate 4563402752 0⟩,
            ⟨1 + 1, kTypeDeletion, [97], []⟩] = some m
        ∧ (∀ value0 s0, MemTable.Get true m { user_key := [97], sequence := 1 } value0 s0
          = (true, (List.replicate 4563402752 0).take 268435456, s0))
        ∧ ((List.replicate 4563402752 0 : Bytes).take 268435456).length = 268435456
        ∧ (List.replicate 4563402752 0 : Bytes).length = 4563402752
        ∧ (List.replicate 4563402752 0 : Bytes).take 268435456
          ≠ List.replicate 4563402752 0 := by
  refine ⟨by decide, ?_⟩
  obtain ⟨m, hm, hget⟩ := MemTable.Get_truncated_value true (List.replicate 4563402752 0)
    (by rw [List.length_replicate])
  have hl : ((List.replicate 4563402752 0 : Bytes).take 268435456).length = 268435456 := by
    rw [List.length_take, List.length_replicate]
    norm_num
  refine ⟨m, hm, hget, hl, by rw [List.length_replicate], ?_⟩
  intro h
  have h2 := congrArg List.length h
  rw [hl, List.length_replicate] at h2
  exact absurd h2 (by decide)

/-! ## Length-prefixed slices (`util/coding.cc`) -/

theorem GetVarint32_EncodeVarint32 (v : Nat) (hv : v < 4294967296) (rest : Bytes)
    (value0 : Nat) : GetVarint32 (EncodeVarint32 v ++ rest) value0 = (true, rest, v) := by
  unfold GetVarint32
  rw [GetVarint32Ptr_EncodeVarint32 v hv rest]

/-- Claim C21: for every byte string `s` with `len(s) < 2^32`, every suffix `t` and every
prior content of the destination, `GetLengthPrefixedSlice(input, result)` on the bytes
that `PutLengthPrefixedSlice(s)` appended, followed by `t`, returns true with
`result = s` and `input = t`, and so does the pointer version; and both versions fail
(false, `NULL`) whenever the length prefix decodes to a length greater than the number of
bytes left after it, the slice version leaving `result` as it was. -/
theorem C21_length_prefixed_slice_round_trip (s t : Bytes) (hs : s.length < 4294967296) :
    (∀ dst, PutLengthPrefixedSlice dst s = dst ++ PutLengthPrefixedSlice [] s)
      ∧ (∀ result0, GetLengthPrefixedSlice (PutLengthPrefixedSlice [] s ++ t) result0
          = (true, t, s))
      ∧ GetLengthPrefixedSlice.ptr (PutLengthPrefixedSlice [] s ++ t) = some (t, s)
      ∧ (∀ input rest len result0, GetVarint32Ptr input = some (rest, len) →
          rest.length < len →
          GetLengthPrefixedSlice input result0 = (false, rest, result0)
            ∧ GetLengthPrefixedSlice.ptr input = none) := by
  have hput : PutLengthPrefixedSlice [] s ++ t = EncodeVarint32 s.length ++ (s ++ t) := by
    unfold PutLengthPrefixedSlice PutVarint32
    simp only [List.nil_append, List.append_assoc]
  refine ⟨?_, ?_, ?_, ?_⟩
  · intro dst
    unfold PutLengthPrefixedSlice PutVarint32
    simp only [List.nil_append, List.append_assoc]
  · intro result0
    unfold GetLengthPrefixedSlice
    rw [hput, GetVarint32_EncodeVarint32 _ hs]
    simp
  · unfold GetLengthPrefixedSlice.ptr
    rw [hput, GetVarint32Ptr_EncodeVarint32 _ hs]
    simp
  · intro input rest len result0 hget hlt
    constructor
    · unfold GetLengthPrefixedSlice GetVarint32
      simp only [hget]
      rw [if_neg]
      simp only [Bool.true_and, decide_eq_true_eq]
      omega
    · unfold GetLengthPrefixedSlice.ptr
      simp only [hget]
      rw [if_pos hlt]

theorem C21_length_prefixed_slice_round_trip_witness :
    GetLengthPrefixedSlice (PutLengthPrefixedSlice [] [104, 105] ++ [7, 8]) []
        = (true, [7, 8], [104, 105])
      ∧ GetLengthPrefixedSlice [3, 104, 105] [9] = (false, [104, 105], [9]) :=
  ⟨(C21_length_prefixed_slice_round_trip [104, 105] [7, 8] (by decide)).2.1 [],
    ((C21_length_prefixed_slice_round_trip [104, 105] [7, 8] (by decide)).2.2.2
      [3, 104, 105] [104, 105] 3 [9] (by decide) (by decide)).1⟩

/-! ## `Slice::compare` and the lexicographic order -/

theorem lexCompare_neg_iff (a b : Bytes) : lexCompare a b < 0 ↔ lexLess a b := by
  induction a generalizing b with
  | nil =>
    cases b with
    | nil =>
      simp only [lexCompare, lt_self_iff_false, false_iff]
      rintro (⟨y, ys, h⟩ | ⟨p, x, xs, y, ys, h1, -, -⟩)
      · simp at h
      · simp at h1
    | cons y ys =>
      simp only [lexCompare, Int.reduceNeg, Int.reduceLT, true_iff]
      exact Or.inl ⟨y, ys, rfl⟩
  | cons x xs ih =>
    cases b with
    | nil =>
      simp only [lexCompare]
      constructor
      · intro h
        exact absurd h (by decide)
      · rintro (⟨y, ys, h⟩ | ⟨p, x2, xs2, y, ys, -, h2, -⟩)
        · simp at h
        · simp at h2
    | cons y ys =>
      simp only [lexCompare]
      constructor
      · intro h
        by_cases h1 : x = y
        · subst h1
          simp only [ne_eq, not_true_eq_false, if_false] at h
          rcases (ih ys).1 h with ⟨z, zs, hz⟩ | ⟨p, x2, xs2, y2, ys2, e1, e2, hlt⟩
          · exact Or.inl ⟨z, zs, by rw [hz]; rfl⟩
          · exact Or.inr ⟨x :: p, x2, xs2, y2, ys2, by rw [e1]; rfl, by rw [e2]; rfl, hlt⟩
        · simp only [ne_eq, h1, not_false_eq_true, if_true] at h
          exact Or.inr ⟨[], x, xs, y, ys, rfl, rfl, by omega⟩
      · rintro (⟨z, zs, hz⟩ | ⟨p, x2, xs2, y2, ys2, e1, e2, hlt⟩)
        · simp only [List.cons_append, List.cons.injEq] at hz
          obtain ⟨rfl, hz⟩ := hz
          simp only [ne_eq, not_true_eq_false, if_false]
          exact (ih ys).2 (Or.inl ⟨z, zs, hz⟩)
        · cases p with
          | nil =>
            simp only [List.nil_append, List.cons.injEq] at e1 e2
            obtain ⟨rfl, -⟩ := e1
            obtain ⟨rfl, -⟩ := e2
            have hne : ¬ x = y := by omega
            simp only [ne_eq, hne, not_false_eq_true, if_true]
            omega
          | cons q qs =>
            simp only [List.cons_append, List.cons.injEq] at e1 e2
            obtain ⟨rfl, e1⟩ := e1
            obtain ⟨rfl, e2⟩ := e2
            simp only [ne_eq, not_true_eq_false, if_false]
            exact (ih ys).2 (Or.inr ⟨qs, x2, xs2, y2, ys2, e1, e2, hlt⟩)

theorem memcmp_eq_zero_iff (a b : Bytes) (h : a.length = b.length) :
    memcmp a b a.length = 0 ↔ a = b := by
  induction a generalizing b with
  | nil =>
    cases b with
    | nil => simp [memcmp]
    | cons y ys => simp at h
  | cons x xs ih =>
    cases b with
    | nil => simp at h
    | cons y ys =>
      simp only [List.length_cons, Nat.add_right_cancel_iff] at h
      simp only [List.length_cons, memcmp, List.cons.injEq]
      by_cases h1 : x = y
      · simp only [h1, ne_eq, not_true_eq_false, if_false, ih ys h, true_and]
      · simp only [ne_eq, h1, not_false_eq_true, if_true, false_and, iff_false]
        omega

theorem Slice.eq_iff (x y : Bytes) : Slice.eq x y = true ↔ x = y := by
  unfold Slice.eq
  simp only [Bool.and_eq_true, decide_eq_true_eq]
  constructor
  · rintro ⟨h1, h2⟩
    exact (memcmp_eq_zero_iff x y h1).1 h2
  · rintro rfl
    exact ⟨rfl, memcmp_self x x.length⟩

/-- Claim C22: for all slices `a` and `b`, `a.compare(b)` is negative exactly when `a` is
less than `b` in the lexicographic order on bytes (a proper prefix being smaller), zero
exactly when `a` and `b` are the same byte string, which is exactly when `operator==`
holds, and positive exactly when `b` is less than `a`; `compare(a, b)` and
`compare(b, a)` have opposite signs: one is negative exactly when the other is positive,
and one is zero exactly when the other is. -/
theorem C22_compare_is_lexicographic (a b : Bytes) :
    (Slice.compare a b < 0 ↔ lexLess a b)
      ∧ (Slice.compare a b = 0 ↔ a = b)
      ∧ (Slice.compare a b = 0 ↔ Slice.eq a b = true)
      ∧ (Slice.compare a b > 0 ↔ lexLess b a)
      ∧ (Slice.compare b a < 0 ↔ Slice.compare a b > 0)
      ∧ (Slice.compare b a = 0 ↔ Slice.compare a b = 0)
      ∧ (Slice.compare b a > 0 ↔ Slice.compare a b < 0) := by
  have hz : Slice.compare a b = 0 ↔ a = b := by
    rw [Slice.compare_eq_lexCompare]
    constructor
    · exact lexCompare_eq_zero a b
    · rintro rfl
      exact lexCompare_self a
  have hanti : Slice.compare b a = - Slice.compare a b := by
    rw [Slice.compare_eq_lexCompare, Slice.compare_eq_lexCompare, lexCompare_antisymm]
  refine ⟨?_, hz, ?_, ?_, ?_, ?_, ?_⟩
  · rw [Slice.compare_eq_lexCompare]
    exact lexCompare_neg_iff a b
  · rw [hz, Slice.eq_iff]
  · rw [← lexCompare_neg_iff b a, ← Slice.compare_eq_lexCompare, hanti]
    omega
  · rw [hanti]
    omega
  · rw [hanti]
    omega
  · rw [hanti]
    omega

/-! ## The tag of an entry -/

/-- Claim C29: for every sequence number `s < 2^56` and kind byte `k < 256`, the tag
`(s << 8) | k` that `Add` stores is `s * 256 + k`, so that `tag & 0xff = k` (also on the
tag that `Get` decodes from the eight bytes written) and `tag >> 8 = s`, and distinct
pairs `(s, k)` give distinct tags; for an arbitrary `s` the shift is taken modulo `2^64`:
the tag is that of `s mod 2^56`, the top eight bits of `s` being lost. -/
theorem C29_tag_packs_sequence_and_kind (s k : Nat) (hs : s < 72057594037927936)
    (hk : k < 256) :
    packTag s k = s * 256 + k
      ∧ packTag s k &&& 0xff = k
      ∧ packTag s k >>> 8 = s
      ∧ (∀ kLittleEndian rest,
          DecodeFixed64 (EncodeFixed64 kLittleEndian (packTag s k) ++ rest) &&& 0xff = k)
      ∧ (∀ s2 k2, s2 < 72057594037927936 → k2 < 256 → packTag s k = packTag s2 k2 →
          s = s2 ∧ k = k2)
      ∧ (∀ big, packTag big k = packTag (big % 72057594037927936) k
          ∧ packTag big k >>> 8 = big % 72057594037927936) := by
  refine ⟨?_, packTag_kind s k hk, packTag_seq s k hs hk, ?_, ?_, ?_⟩
  · rw [packTag_eq s k hk]
    omega
  · intro kLittleEndian rest
    rw [DecodeFixed64_EncodeFixed64, uint64_t, Nat.mod_eq_of_lt (packTag_lt _ _)]
    exact packTag_kind s k hk
  · intro s2 k2 hs2 hk2 h
    rw [packTag_eq s k hk, packTag_eq s2 k2 hk2] at h
    omega
  · intro big
    have h1 : packTag big k = packTag (big % 72057594037927936) k := by
      rw [packTag_eq big k hk, packTag_eq _ k hk]
      omega
    refine ⟨h1, ?_⟩
    rw [h1]
    exact packTag_seq _ k (Nat.mod_lt _ (by norm_num)) hk

theorem C29_tag_packs_sequence_and_kind_witness :
    packTag 7 1 = 7 * 256 + 1 ∧ packTag 7 1 &&& 0xff = 1 ∧ packTag 7 1 >>> 8 = 7
      ∧ packTag 72057594037927941 1 = packTag 5 1 :=
  ⟨(C29_tag_packs_sequence_and_kind 7 1 (by decide) (by decide)).1,
    (C29_tag_packs_sequence_and_kind 7 1 (by decide) (by decide)).2.1,
    (C29_tag_packs_sequence_and_kind 7 1 (by decide) (by decide)).2.2.1,
    ((C29_tag_packs_sequence_and_kind 7 1 (by decide) (by decide)).2.2.2.2.2
      72057594037927941).1⟩

/-! ## `VarintLength` and the encoders -/

theorem VarintLength.loop_eq_length (v : Nat) :
    ∀ len, VarintLength.loop v len + 1 = len + (EncodeVarint64.loop v).length := by
  induction v using Nat.strong_induction_on with
  | _ v ih =>
    intro len
    by_cases hv : v < 128
    · rw [VarintLength.loop_lt v len hv, EncodeVarint64_loop_small v hv]
      rfl
    · rw [VarintLength.loop_ge v len (by omega), EncodeVarint64_loop_large v (by omega),
        ih (v / 128) (by omega) (len + 1), List.length_cons]
      omega

theorem VarintLength.loop_le (k : Nat) :
    ∀ v len, v < 128 ^ (k + 1) → VarintLength.loop v len ≤ len + k := by
  induction k with
  | zero =>
    intro v len hv
    rw [VarintLength.loop_lt v len (by simpa using hv)]
    omega
  | succ k ih =>
    intro v len hv
    by_cases h : v < 128
    · rw [VarintLength.loop_lt v len h]
      omega
    · rw [VarintLength.loop_ge v len (by omega)]
      have hdiv : v / 128 < 128 ^ (k + 1) := by
        rw [Nat.div_lt_iff_lt_mul (by decide)]
        rw [pow_succ] at hv
        exact hv
      have := ih (v / 128) (len + 1) hdiv
      omega

theorem VarintLength.loop_ge_len (v : Nat) : ∀ len, len ≤ VarintLength.loop v len := by
  induction v using Nat.strong_induction_on with
  | _ v ih =>
    intro len
    by_cases hv : v < 128
    · rw [VarintLength.loop_lt v len hv]
    · rw [VarintLength.loop_ge v len (by omega)]
      have := ih (v / 128) (by omega) (len + 1)
      omega

theorem EncodeVarint32_eq_EncodeVarint64 (v : Nat) (hv : v < 4294967296) :
    EncodeVarint32 v = EncodeVarint64 v := by
  have hu : uint64_t v = v := Nat.mod_eq_of_lt (by omega)
  unfold EncodeVarint64
  rw [hu, EncodeVarint32_eq v hv]
  split_ifs with h1 h2 h3 h4
  · rw [EncodeVarint64_loop_small v h1]
  · rw [EncodeVarint64_loop_large v (by omega), EncodeVarint64_loop_small _ (by omega)]
  · rw [EncodeVarint64_loop_large v (by omega), EncodeVarint64_loop_large _ (by omega),
      EncodeVarint64_loop_small _ (by omega)]
    simp only [Nat.div_div_eq_div_mul]
  · rw [EncodeVarint64_loop_large v (by omega), EncodeVarint64_loop_large _ (by omega),
      EncodeVarint64_loop_large _ (by omega), EncodeVarint64_loop_small _ (by omega)]
    simp only [Nat.div_div_eq_div_mul]
  · rw [EncodeVarint64_loop_large v (by omega), EncodeVarint64_loop_large _ (by omega),
      EncodeVarint64_loop_large _ (by omega), EncodeVarint64_loop_large _ (by omega),
      EncodeVarint64_loop_small _ (by omega)]
    simp only [Nat.div_div_eq_div_mul]

/-- Claim C30: for every `v < 2^64`, `VarintLength(v)` is the number of bytes that
`EncodeVarint64(v)` writes and lies between 1 and 10; for every `v < 2^32` it is also the
number of bytes that `EncodeVarint32(v)` writes, the two encoders write the same bytes,
and the length lies between 1 and 5. -/
theorem C30_VarintLength_is_encoded_length (v : Nat) (hv : v < 18446744073709551616) :
    (EncodeVarint64 v).length = VarintLength v
      ∧ 1 ≤ VarintLength v ∧ VarintLength v ≤ 10
      ∧ (v < 4294967296 →
          (EncodeVarint32 v).length = VarintLength v
            ∧ EncodeVarint32 v = EncodeVarint64 v
            ∧ VarintLength v ≤ 5) := by
  have hu : uint64_t v = v := Nat.mod_eq_of_lt hv
  have hlen : (EncodeVarint64 v).length = VarintLength v := by
    unfold EncodeVarint64 VarintLength
    have := VarintLength.loop_eq_length (uint64_t v) 1
    omega
  refine ⟨hlen, ?_, ?_, ?_⟩
  · unfold VarintLength
    exact VarintLength.loop_ge_len _ 1
  · unfold VarintLength
    rw [hu]
    have := VarintLength.loop_le 9 v 1 (by norm_num; omega)
    omega
  · intro h32
    refine ⟨EncodeVarint32_length v h32, EncodeVarint32_eq_EncodeVarint64 v h32, ?_⟩
    rw [← EncodeVarint32_length v h32]
    exact (EncodeVarint32_length_le v).2

theorem C30_VarintLength_is_encoded_length_witness :
    (EncodeVarint64 300).length = VarintLength 300
      ∧ EncodeVarint32 300 = EncodeVarint64 300 :=
  ⟨(C30_VarintLength_is_encoded_length 300 (by decide)).1,
    ((C30_VarintLength_is_encoded_length 300 (by decide)).2.2.2 (by decide)).2.1⟩

/-! ## The out-parameters of `Get` -/

/-- The three outcomes of `Get`: not found with both out-parameters untouched, a value
with the status untouched, or found-but-deleted with the value untouched. -/
theorem MemTable.Get_outcomes (kLittleEndian : Bool) (m : MemTable) (lk : LookupKey)
    (value0 : Bytes) (s0 : Status) :
    MemTable.Get kLittleEndian m lk value0 s0 = (false, value0, s0)
      ∨ (∃ v, MemTable.Get kLittleEndian m lk value0 s0 = (true, v, s0))
      ∨ MemTable.Get kLittleEndian m lk value0 s0 = (true, value0, Status.NotFound []) := by
  unfold MemTable.Get
  simp only
  split
  · exact Or.inl rfl
  · split
    · exact Or.inl rfl
    · split_ifs
      · exact Or.inr (Or.inl ⟨_, rfl⟩)
      · exact Or.inr (Or.inr rfl)
      · exact Or.inl rfl
      · exact Or.inl rfl

/-- The result of `Get` when `Seek` lands on an entry made of a length-prefixed internal
key with an arbitrary kind byte and a value slice. -/
theorem MemTable.Get_of_Seek_kind (kLittleEndian : Bool) (m : MemTable) (lk : LookupKey)
    (key body : Bytes) (s type n : Nat) (hk : key.length + 8 < 4294967296)
    (hn : n < 4294967296) (ht : type < 256) (value0 : Bytes) (s0 : Status)
    (hseek : SkipList.Seek MemTable.KeyComparator m.table_ (lk.memtable_key kLittleEndian)
      = some (lengthPrefixedKey kLittleEndian key s type (EncodeVarint32 n ++ body))) :
    MemTable.Get kLittleEndian m lk value0 s0 =
      if lexCompare key lk.user_key = 0 then
        if type = kTypeValue then (true, body.take n, s0)
        else if type = kTypeDeletion then (true, value0, Status.NotFound [])
        else (false, value0, s0)
      else (false, value0, s0) := by
  obtain ⟨h1, h2⟩ := varint_prefix (key.length + 8) hk (key ++
    (EncodeFixed64 kLittleEndian (packTag s type) ++ (EncodeVarint32 n ++ body)))
  have hu : uint32_t (key.length + 8 + 4294967296 - 8) = key.length := by
    unfold uint32_t; omega
  have htag : DecodeFixed64 (EncodeFixed64 kLittleEndian (packTag s type) ++
      (EncodeVarint32 n ++ body)) = packTag s type := by
    rw [DecodeFixed64_EncodeFixed64]
    exact Nat.mod_eq_of_lt (packTag_lt _ _)
  have hkind : packTag s type &&& 0xff = type := packTag_kind s type ht
  have hdrop : (key ++ (EncodeFixed64 kLittleEndian (packTag s type) ++
      (EncodeVarint32 n ++ body))).drop (key.length + 8) = EncodeVarint32 n ++ body := by
    rw [← List.append_assoc]
    exact List.drop_left' (by rw [List.length_append, EncodeFixed64_length])
  unfold MemTable.Get
  simp only [hseek, lengthPrefixedKey, h1, h2, List.drop_left, hu,
    List.take_left, userCompare, Slice.compare_eq_lexCompare, Nat.add_sub_cancel, htag, hkind,
    hdrop, MemTable.GetLengthPrefixedSlice_encode _ hn]

/-- Claim C24: whatever the MemTable and the lookup key, `Get` ends in one of three ways:
it returns false and leaves the value and the status as the caller passed them; it
returns true with a value and leaves the status as the caller passed it; or it returns
true with the status `NotFound` and leaves the value as the caller passed it. When `Seek`
lands on an entry for the user key looked up, the first way is taken for a kind byte
that is neither `Value` nor `Deletion`, the second for `Value` and the third for
`Deletion`. -/
theorem C24_Get_writes_only_the_reported_out_parameter (kLittleEndian : Bool) (m : MemTable)
    (lk : LookupKey) (value0 : Bytes) (s0 : Status) :
    (MemTable.Get kLittleEndian m lk value0 s0 = (false, value0, s0)
        ∨ (∃ v, MemTable.Get kLittleEndian m lk value0 s0 = (true, v, s0))
        ∨ MemTable.Get kLittleEndian m lk value0 s0 = (true, value0, Status.NotFound []))
      ∧ ∀ (s type : Nat) (value : Bytes), lk.user_key.length + 8 < 4294967296 →
          value.length < 4294967296 → type < 256 →
          SkipList.Seek MemTable.KeyComparator m.table_ (lk.memtable_key kLittleEndian)
            = some (lengthPrefixedKey kLittleEndian lk.user_key s type
                (EncodeVarint32 value.length ++ value)) →
          (type = kTypeValue →
              MemTable.Get kLittleEndian m lk value0 s0 = (true, value, s0))
            ∧ (type = kTypeDeletion →
              MemTable.Get kLittleEndian m lk value0 s0 = (true, value0, Status.NotFound []))
            ∧ (type ≠ kTypeValue → type ≠ kTypeDeletion →
              MemTable.Get kLittleEndian m lk value0 s0 = (false, value0, s0)) := by
  refine ⟨MemTable.Get_outcomes kLittleEndian m lk value0 s0, ?_⟩
  intro s type value hk hv ht hseek
  have h := MemTable.Get_of_Seek_kind kLittleEndian m lk lk.user_key value s type value.length
    hk hv ht value0 s0 hseek
  rw [if_pos (lexCompare_self _), List.take_length] at h
  refine ⟨?_, ?_, ?_⟩
  · intro e
    rw [h, if_pos e]
  · intro e
    rw [h, if_neg, if_pos e]
    rw [e]
    decide
  · intro e1 e2
    rw [h, if_neg e1, if_neg e2]

theorem C24_Get_writes_only_the_reported_out_parameter_witness :
    MemTable.Get true
        (MemTable.mk [lengthPrefixedKey true [97] 1 2 (EncodeVarint32 1 ++ [120])])
        { user_key := [97], sequence := 1 } [9] Status.OK = (false, [9], Status.OK) :=
  ((C24_Get_writes_only_the_reported_out_parameter true
    (MemTable.mk [lengthPrefixedKey true [97] 1 2 (EncodeVarint32 1 ++ [120])])
    { user_key := [97], sequence := 1 } [9] Status.OK).2 1 2 [120] (by decide) (by decide)
    (by decide) (by rfl)).2.2 (by decide) (by decide)

namespace log

/-! ## Failures of the sink within one `AddRecord` -/

/-- When the header append fails, `EmitPhysicalRecord` issues no other operation and
returns the status of that append. -/
theorem Writer.EmitPhysicalRecord_failed_header (crc : Crc32c) (kLittleEndian : Bool)
    (w : Writer) (t : RecordType) (ptr : Bytes) (n : Nat) (hn : n ≤ 0xffff)
    (hfit : w.block_offset_ + kHeaderSize + n ≤ kBlockSize)
    (hfail : w.dest_.answer.ok = false) :
    ∃ w2, w.EmitPhysicalRecord crc kLittleEndian t ptr n = some (w2, w.dest_.answer)
      ∧ w2.dest_.log = w.dest_.log ++
        [SinkOp.Append (header crc kLittleEndian w.type_crc_ t ptr n) w.dest_.answer] := by
  unfold Writer.EmitPhysicalRecord
  rw [if_neg (not_not.2 hn), if_neg (not_not.2 hfit)]
  simp only [WritableFile.Append, hfail, Bool.false_eq_true, if_false]
  exact ⟨_, rfl, rfl⟩

/-- When the header append succeeds and the payload append fails, `EmitPhysicalRecord`
issues no flush and returns the status of the payload append. -/
theorem Writer.EmitPhysicalRecord_failed_payload (crc : Crc32c) (kLittleEndian : Bool)
    (w : Writer) (t : RecordType) (ptr : Bytes) (n : Nat) (hn : n ≤ 0xffff)
    (hfit : w.block_offset_ + kHeaderSize + n ≤ kBlockSize) (s2 : Status)
    (rest : List Status) (hscript : w.dest_.script = Status.OK :: s2 :: rest)
    (hfail : s2.ok = false) :
    ∃ w2, w.EmitPhysicalRecord crc kLittleEndian t ptr n = some (w2, s2)
      ∧ w2.dest_.log = w.dest_.log ++
        [SinkOp.Append (header crc kLittleEndian w.type_crc_ t ptr n) Status.OK,
          SinkOp.Append (ptr.take n) s2] := by
  cases s2 with
  | OK => exact absurd hfail (by decide)
  | Error code msg =>
    unfold Writer.EmitPhysicalRecord
    rw [if_neg (not_not.2 hn), if_neg (not_not.2 hfit)]
    simp only [WritableFile.Append, WritableFile.answer, hscript, List.headD_cons, Status.ok,
      if_true, List.tail_cons, Bool.false_eq_true, if_false]
    refine ⟨_, rfl, ?_⟩
    simp only [List.append_assoc, List.singleton_append]

/-- When a pass through the loop body ends with a failing status, the loop of `AddRecord`
ends and returns that status: no further fragment is emitted. -/
theorem Writer.AddRecord.loop_stops (crc : Crc32c) (kLittleEndian : Bool) (w w2 : Writer)
    (ptr ptr2 : Bytes) (left left2 : Nat) (begin : Bool) (s : Status)
    (hbody : Writer.AddRecord.body crc kLittleEndian w ptr left begin
      = some (w2, s, ptr2, left2))
    (hfail : s.ok = false) :
    Writer.AddRecord.loop crc kLittleEndian w ptr left begin = some (w2, s) := by
  rw [Writer.AddRecord.loop_eq, hbody]
  simp only [hfail, Bool.false_eq_true, false_and, if_false]

/-- C25: the code at the failing input. The writer is three bytes before the end of a
block and the sink fails the next operation only. `AddRecord("hi")` issues the trailer
append of three zero bytes, which fails, and then three more operations: the header
append, the payload append and the flush of a Full record. It returns OK. -/
theorem C25_operations_follow_a_failed_trailer_append :
    ∃ w2, (Writer.mk2 exampleCrc (newSink [Status.Error Code.kIOError []]) 32765).AddRecord
        exampleCrc true [104, 105] = some (w2, Status.OK)
      ∧ w2.dest_.log = [SinkOp.Append [0, 0, 0] (Status.Error Code.kIOError []),
          SinkOp.Append
            (header exampleCrc true (InitTypeCrc exampleCrc) RecordType.kFullType [104, 105] 2)
            Status.OK,
          SinkOp.Append [104, 105] Status.OK, SinkOp.Flush Status.OK] := by
  have hbody : Writer.AddRecord.body exampleCrc true
      (Writer.mk2 exampleCrc (newSink [Status.Error Code.kIOError []]) 32765) [104, 105] 2 true
      = some (⟨⟨[SinkOp.Append [0, 0, 0] (Status.Error Code.kIOError []),
          SinkOp.Append
            (header exampleCrc true (InitTypeCrc exampleCrc) RecordType.kFullType [104, 105] 2)
            Status.OK,
          SinkOp.Append [104, 105] Status.OK, SinkOp.Flush Status.OK], []⟩, 9,
          InitTypeCrc exampleCrc⟩, Status.OK, [], 0) := by
    rfl
  refine ⟨⟨⟨[SinkOp.Append [0, 0, 0] (Status.Error Code.kIOError []),
          SinkOp.Append
            (header exampleCrc true (InitTypeCrc exampleCrc) RecordType.kFullType [104, 105] 2)
            Status.OK,
          SinkOp.Append [104, 105] Status.OK, SinkOp.Flush Status.OK], []⟩, 9,
          InitTypeCrc exampleCrc⟩, ?_, rfl⟩
  unfold Writer.AddRecord
  rw [Writer.AddRecord.loop_eq]
  simp only [List.length_cons, List.length_nil]
  rw [hbody]
  simp

/-! ## Termination of `AddRecord` -/

/-- Claim C26: for every writer with `block_offset_` in `0..32768`, every sink and every
payload, `AddRecord` returns; so does its loop from every state of its locals. Each pass
through the loop body returns, keeps `block_offset_` in `0..32768` and, when the loop
goes on, strictly decreases the measure `2 * left + [block_offset_ = 32761]`. In the pass
that starts with exactly 7 bytes left in the block and a non-empty rest, no payload byte
is consumed, and `block_offset_` becomes 32768. -/
theorem C26_AddRecord_terminates (crc : Crc32c) (kLittleEndian : Bool) (w : Writer)
    (slice ptr : Bytes) (left : Nat) (begin : Bool) (hoff : w.block_offset_ ≤ 32768) :
    (∃ w2 s, w.AddRecord crc kLittleEndian slice = some (w2, s))
      ∧ (∃ w2 s, Writer.AddRecord.loop crc kLittleEndian w ptr left begin = some (w2, s))
      ∧ (∃ w2 s ptr2 left2,
          Writer.AddRecord.body crc kLittleEndian w ptr left begin = some (w2, s, ptr2, left2)
            ∧ w2.block_offset_ ≤ 32768
            ∧ left2 ≤ left
            ∧ (left2 > 0 →
                2 * left2 + (if w2.block_offset_ = 32761 then 1 else 0)
                  < 2 * left + (if w.block_offset_ = 32761 then 1 else 0))
            ∧ (w.block_offset_ = 32761 → left > 0 →
                left2 = left ∧ ptr2 = ptr ∧ w2.block_offset_ = 32768)) := by
  have hoff2 : w.block_offset_ ≤ kBlockSize := hoff
  refine ⟨?_, ?_, ?_⟩
  · obtain ⟨w2, s, h, -⟩ := Writer.AddRecord_total crc kLittleEndian w slice hoff2
    exact ⟨w2, s, h⟩
  · obtain ⟨w2, s, -, h, -⟩ := Writer.AddRecord.loop_total crc kLittleEndian _ w ptr left begin
      rfl hoff2
    exact ⟨w2, s, h⟩
  · obtain ⟨w1, w2, s, rest, -, e2, o2, -, -⟩ :=
      Writer.AddRecord.body_spec crc kLittleEndian w ptr left begin hoff2
    have hle := startOffset_le w.block_offset_ hoff2
    refine ⟨w2, s, _, _, e2, ?_, by omega, ?_, ?_⟩
    · simp only [kBlockSize, kHeaderSize] at *
      omega
    · intro hpos
      rw [o2]
      unfold startOffset at hpos ⊢
      simp only [kBlockSize, kHeaderSize] at *
      split_ifs at * <;> omega
    · intro h7 hpos
      have hst : startOffset w.block_offset_ = 32761 := by
        unfold startOffset
        rw [h7]
        rfl
      rw [o2, hst]
      simp only [kBlockSize, kHeaderSize]
      refine ⟨by omega, ?_, by omega⟩
      rw [show min left (32768 - 32761 - (4 + 2 + 1)) = 0 by simp]
      rfl

theorem C26_AddRecord_terminates_witness :
    ∃ w2 s, (Writer.mk2 exampleCrc (newSink []) 32761).AddRecord exampleCrc true [104, 105]
      = some (w2, s) :=
  (C26_AddRecord_terminates exampleCrc true (Writer.mk2 exampleCrc (newSink []) 32761)
    [104, 105] [104, 105] 2 true (by decide)).1

end log

namespace log

/-! ## The stream position of the records -/

theorem bytesAppended_append (a b : List SinkOp) :
    bytesAppended (a ++ b) = bytesAppended a + bytesAppended b := by
  induction a with
  | nil => simp [bytesAppended]
  | cons x xs ih =>
    cases x with
    | Append d r => rw [List.cons_append, bytesAppended, bytesAppended, ih]; omega
    | Flush r => rw [List.cons_append, bytesAppended, bytesAppended, ih]

theorem bytesAppended_recordOps (h p : Bytes) :
    bytesAppended (recordOps h p) = h.length + p.length := by
  simp [recordOps, bytesAppended]

/-- On a sink that succeeds, the bytes a run of the loop appends advance the stream as far
as the cursor advances, modulo the block size, and every record starts at a block offset
that leaves room for its header. -/
theorem FragmentRun.stream {crc : Crc32c} {kLittleEndian : Bool} {tc : List Nat}
    {off : Nat} {begin : Bool} {ptr : Bytes} {ops : List SinkOp} {off2 : Nat}
    (r : FragmentRun (fun t p => header crc kLittleEndian tc t p p.length)
      off begin ptr ops off2) :
    ∀ base pos, (base + pos) % kBlockSize = off % kBlockSize →
      (base + pos + bytesAppended ops) % kBlockSize = off2 % kBlockSize
        ∧ off2 ≤ kBlockSize
        ∧ ∀ rec ∈ recordsOf pos ops,
          (base + rec.pos) % kBlockSize + kHeaderSize + rec.payload.length ≤ kBlockSize
            ∧ rec.header.length = kHeaderSize := by
  induction r with
  | last off begin ptr hoff hfit =>
    intro base pos hmod
    have hrun := recordsOf_run pos off
      (header crc kLittleEndian tc (recordTypeOf begin true) ptr ptr.length) ptr []
    simp only [List.append_nil] at hrun
    have hst := start_mod off hoff
    have hle := startOffset_le off hoff
    have hm : (base + (pos + bytesAppended (trailerOps off))) % kBlockSize = startOffset off := by
      rw [← hst]
      simp only [kBlockSize] at hmod ⊢
      omega
    rw [hrun, bytesAppended_append, bytesAppended_recordOps, header_length]
    refine ⟨?_, by omega, ?_⟩
    · simp only [kBlockSize, kHeaderSize] at hm hle hfit ⊢
      omega
    · intro rec hrec
      simp only [recordsOf, List.mem_singleton] at hrec
      subst hrec
      simp only [header_length, and_true]
      rw [hm]
      omega
  | more off begin ptr ops off2 hoff hbig hrest ih =>
    intro base pos hmod
    have hst := start_mod off hoff
    have hle := startOffset_le off hoff
    have hm : (base + (pos + bytesAppended (trailerOps off))) % kBlockSize = startOffset off := by
      rw [← hst]
      simp only [kBlockSize] at hmod ⊢
      omega
    have hl : (List.take (kBlockSize - startOffset off - kHeaderSize) ptr).length
        = kBlockSize - startOffset off - kHeaderSize := by
      rw [List.length_take]; omega
    have hend : (base + (pos + bytesAppended (trailerOps off)) + kHeaderSize +
        (kBlockSize - startOffset off - kHeaderSize)) % kBlockSize = 0 := by
      simp only [kBlockSize, kHeaderSize] at hm hle ⊢
      omega
    obtain ⟨i1, i2, i3⟩ := ih base (pos + bytesAppended (trailerOps off) + kHeaderSize +
      (kBlockSize - startOffset off - kHeaderSize)) (by
        simp only [kBlockSize, kHeaderSize] at hend ⊢
        omega)
    rw [List.append_assoc, recordsOf_run, bytesAppended_append, bytesAppended_append,
      bytesAppended_recordOps, header_length, hl]
    refine ⟨?_, i2, ?_⟩
    · rw [← i1]
      congr 1
      omega
    · intro rec hrec
      rw [List.mem_cons] at hrec
      rcases hrec with rfl | hrec
      · simp only [header_length, and_true, hl]
        rw [hm]
        omega
      · exact i3 rec hrec

/-- Claim C27: if every sink operation succeeds and, before `AddRecord`, `block_offset_`
is congruent modulo 32768 to the number `N` of bytes already in the sink, then the same
holds after `AddRecord` for `N` plus the bytes the call appended (trailer, headers and
fragments); every record the call emits has a header of 7 bytes that starts at a stream
position whose offset in its block is at most 32761, and lies within that block. The
constructor `Writer(dest, dest_length)` establishes the congruence for `N = dest_length`. -/
theorem C27_block_offset_tracks_stream_position (crc : Crc32c) (kLittleEndian : Bool)
    (w : Writer) (slice : Bytes) (N : Nat) (hs : w.dest_.allSucceed)
    (hoff : w.block_offset_ ≤ 32768) (hN : N % 32768 = w.block_offset_ % 32768) :
    (∃ w2, w.AddRecord crc kLittleEndian slice = some (w2, Status.OK)
        ∧ w2.dest_.log = w.dest_.log ++ w2.opsSince w.dest_.log.length
        ∧ (N + bytesAppended (w2.opsSince w.dest_.log.length)) % 32768
          = w2.block_offset_ % 32768
        ∧ w2.block_offset_ ≤ 32768
        ∧ ∀ rec ∈ recordsOf 0 (w2.opsSince w.dest_.log.length),
          rec.header.length = 7
            ∧ (N + rec.pos) % 32768 ≤ 32761
            ∧ (N + rec.pos) % 32768 + 7 + rec.payload.length ≤ 32768)
      ∧ ∀ dest dest_length, dest_length < 18446744073709551616 →
          dest_length % 32768 = (Writer.mk2 crc dest dest_length).block_offset_ % 32768 := by
  constructor
  · have hoff2 : w.block_offset_ ≤ kBlockSize := hoff
    obtain ⟨w2, e, -, -, r⟩ := Writer.AddRecord_run crc kLittleEndian w slice hs hoff2
    obtain ⟨w3, s3, ops, e3, -, -, l3⟩ := Writer.AddRecord.loop_total crc kLittleEndian _ w
      slice slice.length true rfl hoff2
    have e4 : some (w2, Status.OK) = some (w3, s3) := by
      rw [← e, ← e3]
      rfl
    simp only [Option.some.injEq, Prod.mk.injEq] at e4
    obtain ⟨rfl, -⟩ := e4
    have hops : w2.opsSince w.dest_.log.length = ops := by
      unfold Writer.opsSince
      rw [l3, List.drop_left]
    obtain ⟨s1, s2, s3q⟩ := r.stream N 0 (by simpa [kBlockSize] using hN)
    refine ⟨w2, e, by rw [hops, l3], by simpa [kBlockSize] using s1, s2, ?_⟩
    intro rec hrec
    obtain ⟨h1, h2⟩ := s3q rec hrec
    simp only [kBlockSize, kHeaderSize] at h1 h2
    exact ⟨h2, by omega, by omega⟩
  · intro dest dest_length hlen
    unfold Writer.mk2 uint64_t kBlockSize
    simp only
    rw [Nat.mod_eq_of_lt hlen, Nat.mod_mod]

theorem C27_block_offset_tracks_stream_position_witness :
    ∃ w2, (Writer.mk2 exampleCrc (newSink []) 100000).AddRecord exampleCrc true
        (List.replicate 40000 97) = some (w2, Status.OK)
      ∧ (100000 + bytesAppended
          (w2.opsSince (Writer.mk2 exampleCrc (newSink []) 100000).dest_.log.length)) % 32768
        = w2.block_offset_ % 32768 :=
  match (C27_block_offset_tracks_stream_position exampleCrc true
    (Writer.mk2 exampleCrc (newSink []) 100000) (List.replicate 40000 97) 100000
    (by decide) (by decide) (by decide)).1 with
  | ⟨w2, h1, _, h3, _⟩ => ⟨w2, h1, h3⟩

end log

namespace log

/-! ## Exactly seven bytes left in the block -/

/-- A run of the loop that starts where no trailer is due writes no trailer at all: the
bytes appended are the headers and the payload. -/
theorem FragmentRun.no_trailer {crc : Crc32c} {kLittleEndian : Bool} {tc : List Nat}
    {off : Nat} {begin : Bool} {ptr : Bytes} {ops : List SinkOp} {off2 : Nat}
    (r : FragmentRun (fun t p => header crc kLittleEndian tc t p p.length)
      off begin ptr ops off2) :
    trailerOps off = [] →
      ∀ pos, bytesAppended ops = kHeaderSize * (recordsOf pos ops).length + ptr.length := by
  have htk : trailerOps kBlockSize = [] := by decide
  induction r with
  | last off begin ptr hoff hfit =>
    intro ht pos
    rw [ht, List.nil_append, bytesAppended_recordOps, header_length]
    simp only [recordOps, recordsOf, List.length_singleton]
    omega
  | more off begin ptr ops off2 hoff hbig hrest ih =>
    intro ht pos
    have hl : (List.take (kBlockSize - startOffset off - kHeaderSize) ptr).length
        = kBlockSize - startOffset off - kHeaderSize := by
      rw [List.length_take]; omega
    have hrun := recordsOf_run pos off
      (header crc kLittleEndian tc (recordTypeOf begin false)
        (List.take (kBlockSize - startOffset off - kHeaderSize) ptr)
        (List.take (kBlockSize - startOffset off - kHeaderSize) ptr).length)
      (List.take (kBlockSize - startOffset off - kHeaderSize) ptr) ops
    rw [List.append_assoc, hrun, ht, List.nil_append, bytesAppended_append,
      bytesAppended_recordOps, header_length, List.length_cons,
      ih htk (pos + bytesAppended [] + kHeaderSize +
        (List.take (kBlockSize - startOffset off - kHeaderSize) ptr).length),
      List.length_drop, hl]
    have := hbig
    rw [Nat.mul_add]
    omega

/-- The records of a run are read at or after the position the run starts at. -/
theorem FragmentRun.positions {crc : Crc32c} {kLittleEndian : Bool} {tc : List Nat}
    {off : Nat} {begin : Bool} {ptr : Bytes} {ops : List SinkOp} {off2 : Nat}
    (r : FragmentRun (fun t p => header crc kLittleEndian tc t p p.length)
      off begin ptr ops off2) :
    ∀ pos, ∀ rec ∈ recordsOf pos ops, pos ≤ rec.pos := by
  induction r with
  | last off begin ptr hoff hfit =>
    intro pos rec hrec
    have hrun := recordsOf_run pos off
      (header crc kLittleEndian tc (recordTypeOf begin true) ptr ptr.length) ptr []
    simp only [List.append_nil] at hrun
    rw [hrun] at hrec
    simp only [recordsOf, List.mem_singleton] at hrec
    subst hrec
    exact Nat.le_add_right _ _
  | more off begin ptr ops off2 hoff hbig hrest ih =>
    intro pos rec hrec
    rw [List.append_assoc, recordsOf_run, List.mem_cons] at hrec
    rcases hrec with rfl | hrec
    · exact Nat.le_add_right _ _
    · have := ih _ rec hrec
      omega

/-- Claim C28: when exactly 7 bytes remain in the current block (`block_offset_ = 32761`)
and the payload is not empty, `AddRecord` writes no trailer and first calls
`EmitPhysicalRecord(kFirstType, ptr, 0)`. On a sink that succeeds the first record is a
First record with an empty fragment, whose header fills the block; the records that
follow are Middle records and one Last record, they start in later blocks and carry the
whole payload; all bytes appended are headers and payload. -/
theorem C28_zero_length_first_fragment (crc : Crc32c) (kLittleEndian : Bool) (w : Writer)
    (slice : Bytes) (hoff : w.block_offset_ = 32761) (hne : slice ≠ []) :
    w.switchBlock = some w
      ∧ Writer.AddRecord.fragment w slice.length true = some (w, RecordType.kFirstType, 0)
      ∧ (w.dest_.allSucceed →
          ∃ w2 ops2, w.AddRecord crc kLittleEndian slice = some (w2, Status.OK)
            ∧ w2.opsSince w.dest_.log.length
              = recordOps (header crc kLittleEndian w.type_crc_ RecordType.kFirstType [] 0) []
                ++ ops2
            ∧ recordsOf 0 (w2.opsSince w.dest_.log.length)
              = { pos := 0,
                  header := header crc kLittleEndian w.type_crc_ RecordType.kFirstType [] 0,
                  payload := [] } :: recordsOf 7 ops2
            ∧ ((recordsOf 7 ops2).map PhysicalRecord.payload).flatten = slice
            ∧ (∃ k, (recordsOf 7 ops2).map PhysicalRecord.type
                = List.replicate k RecordType.kMiddleType.toNat
                  ++ [RecordType.kLastType.toNat])
            ∧ (∀ rec ∈ recordsOf 7 ops2,
                32768 ≤ w.block_offset_ + rec.pos
                  ∧ (w.block_offset_ + rec.pos) % 32768 + 7 + rec.payload.length ≤ 32768)
            ∧ bytesAppended (w2.opsSince w.dest_.log.length)
              = 7 * (recordsOf 0 (w2.opsSince w.dest_.log.length)).length + slice.length) := by
  have hoffk : w.block_offset_ ≤ kBlockSize := by rw [hoff]; decide
  have hst : startOffset w.block_offset_ = 32761 := by rw [hoff]; rfl
  have htr : trailerOps w.block_offset_ = [] := by rw [hoff]; rfl
  have hpos : 0 < slice.length := List.length_pos.2 hne
  have hsw : w.switchBlock = some w := by
    unfold Writer.switchBlock
    simp only [hoff, kBlockSize, kHeaderSize]
    rfl
  have hmin : min slice.length (kBlockSize - startOffset w.block_offset_ - kHeaderSize) = 0 := by
    rw [hst]
    simp [kBlockSize, kHeaderSize]
  refine ⟨hsw, ?_, ?_⟩
  · obtain ⟨w1, e1, e2⟩ := Writer.AddRecord.fragment_spec w slice.length true hoffk
    rw [e2, hmin]
    rw [hsw] at e1
    simp only [Option.some.injEq] at e1
    subst e1
    have : decide (slice.length = 0) = false := by
      simp only [decide_eq_false_iff_not]
      omega
    rw [this]
    rfl
  · intro hs
    obtain ⟨w2, e, -, -, r⟩ := Writer.AddRecord_run crc kLittleEndian w slice hs hoffk
    rcases r.inv with ⟨-, ⟨hfit, -, -⟩ | ⟨-, ops2, r2, hops⟩⟩
    · rw [hst] at hfit
      simp only [kBlockSize, kHeaderSize] at hfit
      omega
    · have hzero : kBlockSize - startOffset w.block_offset_ - kHeaderSize = 0 := by
        rw [hst]
        rfl
      rw [hzero, List.drop_zero] at r2
      rw [hzero, htr, List.take_zero, List.nil_append] at hops
      have hrec : recordsOf 0 (w2.opsSince w.dest_.log.length)
          = { pos := 0,
              header := header crc kLittleEndian w.type_crc_ RecordType.kFirstType [] 0,
              payload := [] } :: recordsOf 7 ops2 := by
        rw [hops]
        simp only [recordOps, List.cons_append, List.nil_append, recordsOf, header_length,
          List.length_nil]
        rfl
      obtain ⟨k, hk⟩ := r2.types 7
      obtain ⟨-, -, s3⟩ := r2.stream w.block_offset_ 7 (by rw [hoff]; rfl)
      refine ⟨w2, ops2, e, hops, hrec, r2.payloads 7, ⟨k, ?_⟩, ?_, ?_⟩
      · simpa using hk
      · intro rec hmem
        obtain ⟨h1, -⟩ := s3 rec hmem
        simp only [kBlockSize, kHeaderSize] at h1
        have hp : 7 ≤ rec.pos := r2.positions 7 rec hmem
        exact ⟨by omega, by omega⟩
      · rw [hrec, List.length_cons, hops, bytesAppended_append, bytesAppended_recordOps,
          header_length, r2.no_trailer (by decide) 7]
        simp only [kHeaderSize, List.length_nil]
        omega

theorem C28_zero_length_first_fragment_witness :
    Writer.AddRecord.fragment (Writer.mk2 exampleCrc (newSink []) 32761)
        ([104, 105] : Bytes).length true
      = some (Writer.mk2 exampleCrc (newSink []) 32761, RecordType.kFirstType, 0) :=
  (C28_zero_length_first_fragment exampleCrc true (Writer.mk2 exampleCrc (newSink []) 32761)
    [104, 105] (by decide) (by decide)).2.1

end log


/-! ## Lemmas on the hash table of the cache -/

theorem flatten_perm_getD (l : List (List Nat)) (i : Nat) (hi : i < l.length) :
    l.flatten.Perm (l.getD i [] ++ (l.eraseIdx i).flatten) := by
  induction l generalizing i with
  | nil => simp at hi
  | cons a l ih =>
    cases i with
    | zero => simp
    | succ i =>
      have h := ih i (by simpa using hi)
      simp only [List.flatten_cons, List.getD_cons_succ, List.eraseIdx_cons_succ]
      refine (List.Perm.append_left a h).trans ?_
      rw [← List.append_assoc, ← List.append_assoc]
      exact List.Perm.append_right _ List.perm_append_comm

theorem flatten_set_perm (l : List (List Nat)) (i : Nat) (c : List Nat) (hi : i < l.length) :
    (l.set i c).flatten.Perm (c ++ (l.eraseIdx i).flatten) := by
  induction l generalizing i with
  | nil => simp at hi
  | cons a l ih =>
    cases i with
    | zero => simp
    | succ i =>
      have h := ih i (by simpa using hi)
      simp only [List.set_cons_succ, List.flatten_cons, List.eraseIdx_cons_succ]
      refine (List.Perm.append_left a h).trans ?_
      rw [← List.append_assoc, ← List.append_assoc]
      exact List.Perm.append_right _ List.perm_append_comm

theorem getD_set_self (l : List (List Nat)) (i : Nat) (c : List Nat) (hi : i < l.length) :
    (l.set i c).getD i [] = c := by
  simp [List.getD_eq_getElem?_getD, List.getElem?_set, hi]

theorem getD_set_other (l : List (List Nat)) (i k : Nat) (c : List Nat) (hk : k ≠ i) :
    (l.set i c).getD k [] = l.getD k [] := by
  simp [List.getD_eq_getElem?_getD, List.getElem?_set, Ne.symm hk]

theorem mem_flatten_iff_getD (l : List (List Nat)) (p : Nat) :
    p ∈ l.flatten ↔ ∃ i, i < l.length ∧ p ∈ l.getD i [] := by
  rw [List.mem_flatten]
  constructor
  · rintro ⟨c, hc, hp⟩
    obtain ⟨i, hi, rfl⟩ := List.mem_iff_getElem.mp hc
    exact ⟨i, hi, by rw [List.getD_eq_getElem _ _ hi]; exact hp⟩
  · rintro ⟨i, hi, hp⟩
    rw [List.getD_eq_getElem _ _ hi] at hp
    exact ⟨_, List.getElem_mem hi, hp⟩

theorem getD_nil_of_le (l : List (List Nat)) (i : Nat) (hi : l.length ≤ i) :
    l.getD i [] = [] := by
  simp [List.getD_eq_getElem?_getD, List.getElem?_eq_none hi]

theorem getElem?_append_cons (pre : List Nat) (x : Nat) (post : List Nat) :
    (pre ++ x :: post)[pre.length]? = some x := by
  induction pre with
  | nil => simp
  | cons a pre ih => simpa using ih

theorem set_append_cons (pre : List Nat) (x y : Nat) (post : List Nat) :
    (pre ++ x :: post).set pre.length y = pre ++ y :: post := by
  induction pre with
  | nil => rfl
  | cons a pre ih => simp

theorem eraseIdx_append_cons (pre : List Nat) (x : Nat) (post : List Nat) :
    (pre ++ x :: post).eraseIdx pre.length = pre ++ post := by
  induction pre with
  | nil => rfl
  | cons a pre ih => simpa using ih

theorem mask_eq (L : Nat) (h1 : 1 ≤ L) (h2 : L < 4294967296) :
    uint32_t (L + 4294967296 - 1) = L - 1 := by
  unfold uint32_t
  omega

theorem bucket_lt (hash L : Nat) (h1 : 1 ≤ L) : hash &&& (L - 1) < L :=
  Nat.lt_of_le_of_lt Nat.and_le_right (by omega)

/-- The loop of `FindPointer` on a chain of live handles stops at the first handle with
the hash and key looked up, or at the end of the chain if there is none. -/
theorem HandleTable.FindPointer.loop_stops_at_match (read : Nat → Option (Nat × Bytes)) (key : Bytes)
    (hash : Nat) (chain : List Nat) (hlive : ∀ p ∈ chain, read p ≠ none) :
    (HandleTable.FindPointer.loop read key hash chain = some chain.length ∧
        ∀ p ∈ chain, read p ≠ some (hash, key)) ∨
      ∃ cpre o cpost, chain = cpre ++ o :: cpost ∧
        HandleTable.FindPointer.loop read key hash chain = some cpre.length ∧
        read o = some (hash, key) ∧ ∀ q ∈ cpre, read q ≠ some (hash, key) := by
  induction chain with
  | nil => left; exact ⟨rfl, by simp⟩
  | cons p rest ih =>
    have ih := ih fun q hq => hlive q (List.mem_cons_of_mem _ hq)
    obtain ⟨⟨h, k⟩, hp⟩ := Option.ne_none_iff_exists'.mp (hlive p (List.mem_cons_self _ _))
    unfold HandleTable.FindPointer.loop
    simp only [hp]
    by_cases hc : h ≠ hash ∨ Slice.eq key k = false
    · rw [if_pos hc]
      have hne : some (h, k) ≠ some (hash, key) := by
        intro he
        simp only [Option.some.injEq, Prod.mk.injEq] at he
        rcases hc with hc | hc
        · exact hc he.1
        · rw [he.2, (Slice.eq_iff key key).mpr rfl] at hc
          exact absurd hc (by decide)
      rcases ih with ⟨h1, h2⟩ | ⟨cpre, o, cpost, h1, h2, h3, h4⟩
      · left
        refine ⟨by rw [h1]; rfl, ?_⟩
        intro q hq
        rcases List.mem_cons.mp hq with rfl | hq
        · rw [hp]; exact hne
        · exact h2 q hq
      · right
        refine ⟨p :: cpre, o, cpost, by rw [h1]; rfl, by rw [h2]; rfl, h3, ?_⟩
        intro q hq
        rcases List.mem_cons.mp hq with rfl | hq
        · rw [hp]; exact hne
        · exact h4 q hq
    · rw [if_neg hc]
      right
      have hc2 : h = hash ∧ Slice.eq key k = true := by
        by_cases a : h = hash
        · refine ⟨a, ?_⟩
          cases hb : Slice.eq key k
          · exact absurd (Or.inr hb) hc
          · rfl
        · exact absurd (Or.inl a) hc
      refine ⟨[], p, rest, rfl, rfl, ?_, by simp⟩
      rw [hp, hc2.1, (Slice.eq_iff key k).mp hc2.2]

theorem HandleTable.Resize.grow_spec (elems_ : Nat) (he : elems_ ≤ 2147483648) (fuel a : Nat)
    (ha : a ≤ 31) (hf : 31 - a < fuel) :
    ∃ b, HandleTable.Resize.grow elems_ fuel (2 ^ a) = some (2 ^ b) ∧ a ≤ b ∧ b ≤ 31 ∧
      elems_ ≤ 2 ^ b ∧ (b = a ∨ 2 ^ (b - 1) < elems_) := by
  induction fuel generalizing a with
  | zero => omega
  | succ fuel ih =>
    unfold HandleTable.Resize.grow
    by_cases hc : 2 ^ a < elems_
    · rw [if_pos hc]
      have ha2 : a < 31 := by
        rcases Nat.lt_or_ge a 31 with h | h
        · exact h
        · have : a = 31 := by omega
          subst this
          norm_num at hc
          omega
      have hp : uint32_t (2 ^ a * 2) = 2 ^ (a + 1) := by
        unfold uint32_t
        rw [← Nat.pow_succ]
        apply Nat.mod_eq_of_lt
        calc 2 ^ (a + 1) ≤ 2 ^ 31 := Nat.pow_le_pow_right (by decide) (by omega)
          _ < 4294967296 := by norm_num
      rw [hp]
      obtain ⟨b, h1, h2, h3, h4, h5⟩ := ih (a + 1) (by omega) (by omega)
      refine ⟨b, h1, by omega, h3, h4, ?_⟩
      right
      rcases h5 with h5 | h5
      · subst h5; simpa using hc
      · exact h5
    · rw [if_neg hc]
      exact ⟨a, rfl, le_refl _, ha, by omega, Or.inl rfl⟩

theorem getD_replicate_nil (n i : Nat) : (List.replicate n ([] : List Nat)).getD i [] = [] := by
  rw [List.getD_eq_getElem?_getD, List.getElem?_replicate]
  split <;> rfl

theorem flatten_replicate_nil (n : Nat) : (List.replicate n ([] : List Nat)).flatten = [] := by
  induction n with
  | zero => rfl
  | succ n ih => simp [List.replicate_succ, ih]

theorem HandleTable.Resize.rehash_spec (read : Nat → Option (Nat × Bytes)) (L : Nat)
    (hL1 : 1 ≤ L) (hL2 : L < 4294967296) (visited : List Nat) (nl : List (List Nat))
    (hlive : ∀ p ∈ visited, read p ≠ none) (hlen : nl.length = L)
    (hplaced : ∀ i, ∀ p ∈ nl.getD i [], ∃ h k, read p = some (h, k) ∧ h &&& (L - 1) = i) :
    ∃ nl2, HandleTable.Resize.rehash read L visited nl = some nl2 ∧ nl2.length = L ∧
      nl2.flatten.Perm (visited ++ nl.flatten) ∧
      ∀ i, ∀ p ∈ nl2.getD i [], ∃ h k, read p = some (h, k) ∧ h &&& (L - 1) = i := by
  induction visited generalizing nl with
  | nil => exact ⟨nl, rfl, hlen, by simp, hplaced⟩
  | cons e rest ih =>
    obtain ⟨⟨h, k⟩, hp⟩ := Option.ne_none_iff_exists'.mp (hlive e (List.mem_cons_self _ _))
    unfold HandleTable.Resize.rehash
    simp only [hp, mask_eq L hL1 hL2]
    have hi : h &&& (L - 1) < nl.length := by rw [hlen]; exact bucket_lt h L hL1
    obtain ⟨nl2, h1, h2, h3, h4⟩ :=
      ih (nl.set (h &&& (L - 1)) (e :: nl.getD (h &&& (L - 1)) []))
        (fun q hq => hlive q (List.mem_cons_of_mem _ hq)) (by simpa using hlen) (by
          intro i p hp2
          by_cases hik : i = h &&& (L - 1)
          · subst hik
            rw [getD_set_self _ _ _ hi] at hp2
            rcases List.mem_cons.mp hp2 with rfl | hp2
            · exact ⟨h, k, hp, rfl⟩
            · exact hplaced _ _ hp2
          · rw [getD_set_other _ _ _ _ hik] at hp2
            exact hplaced _ _ hp2)
    refine ⟨nl2, h1, h2, ?_, h4⟩
    refine h3.trans ?_
    have hs := flatten_set_perm nl _ (e :: nl.getD (h &&& (L - 1)) []) hi
    have hg := flatten_perm_getD nl _ hi
    have hc : (nl.set (h &&& (L - 1)) (e :: nl.getD (h &&& (L - 1)) [])).flatten.Perm
        (e :: nl.flatten) := hs.trans (List.Perm.cons e hg.symm)
    exact (List.Perm.append_left rest hc).trans List.perm_middle

/-- Two handles of a list of handles with distinct keys are equal when they read alike;
the property passes to a permutation of the list. -/
theorem inj_of_perm {read : Nat → Option (Nat × Bytes)} {E F : List Nat} (hp : F.Perm E)
    (hinj : ∀ p ∈ E, ∀ q ∈ E, read p = read q → p = q) :
    ∀ p ∈ F, ∀ q ∈ F, read p = read q → p = q :=
  fun p hp1 q hq1 h => hinj p (hp.mem_iff.mp hp1) q (hp.mem_iff.mp hq1) h

theorem inj_cons {read : Nat → Option (Nat × Bytes)} {E : List Nat} {e : Nat}
    (hinj : ∀ p ∈ E, ∀ q ∈ E, read p = read q → p = q)
    (hne : ∀ p ∈ E, read p ≠ read e) :
    ∀ p ∈ e :: E, ∀ q ∈ e :: E, read p = read q → p = q := by
  intro p hp q hq h
  rcases List.mem_cons.mp hp with hp2 | hp2 <;> rcases List.mem_cons.mp hq with hq2 | hq2
  · rw [hp2, hq2]
  · rw [hp2] at h; exact absurd h.symm (hne q hq2)
  · rw [hq2] at h; exact absurd h (hne p hp2)
  · exact hinj p hp2 q hq2 h

theorem HandleTable.Resize_spec (read : Nat → Option (Nat × Bytes)) (t : HandleTable)
    (hlen : t.list_.length = t.length_) (hlive : ∀ p ∈ t.entries, read p ≠ none)
    (helems : t.elems_ = t.entries.length) (hle : t.elems_ ≤ 2147483648)
    (hnodup : t.entries.Nodup)
    (hinj : ∀ p ∈ t.entries, ∀ q ∈ t.entries, read p = read q → p = q) :
    ∃ t2, t.Resize read = some t2 ∧ t2.WellFormed read ∧ t2.entries.Perm t.entries ∧
      t2.elems_ = t.elems_ := by
  obtain ⟨b, hb1, _, hb3, hb4, _⟩ :=
    HandleTable.Resize.grow_spec t.elems_ hle 32 2 (by decide) (by decide)
  have hb1 : HandleTable.Resize.grow t.elems_ 32 4 = some (2 ^ b) := hb1
  have hL1 : 1 ≤ 2 ^ b := Nat.one_le_two_pow
  have hL2 : 2 ^ b < 4294967296 :=
    calc 2 ^ b ≤ 2 ^ 31 := Nat.pow_le_pow_right (by decide) hb3
      _ < 4294967296 := by norm_num
  have htake : t.list_.take t.length_ = t.list_ := by rw [← hlen]; exact List.take_length _
  obtain ⟨nl, hn1, hn2, hn3, hn4⟩ := HandleTable.Resize.rehash_spec read (2 ^ b) hL1 hL2
    t.entries (List.replicate (2 ^ b) []) hlive (by simp) (by
      intro i p hp
      rw [getD_replicate_nil] at hp
      exact absurd hp (List.not_mem_nil p))
  rw [flatten_replicate_nil, List.append_nil] at hn3
  have hcount : t.elems_ = uint32_t t.list_.flatten.length := by
    unfold uint32_t
    rw [Nat.mod_eq_of_lt]
    · exact helems
    · have : t.list_.flatten.length = t.elems_ := helems.symm
      omega
  unfold HandleTable.Resize
  simp only [hb1, htake]
  simp only [HandleTable.entries] at hn1
  rw [hn1]
  simp only
  rw [if_neg (not_not.mpr hcount)]
  refine ⟨_, rfl, ?_, hn3, rfl⟩
  exact
    { length_eq := hn2
      length_pos := hL1
      length_lt := hL2
      elems_eq := by
        show t.elems_ = nl.flatten.length
        rw [hn3.length_eq]; exact helems
      elems_le := hb4
      placed := hn4
      nodup := hn3.nodup_iff.mpr hnodup
      inj := inj_of_perm hn3 hinj }

theorem HandleTable.new_eq : HandleTable.new = { length_ := 4, elems_ := 0, list_ := [[], [], [], []] } := by
  rfl

theorem HandleTable.new_WellFormed (read : Nat → Option (Nat × Bytes)) :
    HandleTable.new.WellFormed read := by
  rw [HandleTable.new_eq]
  exact
    { length_eq := rfl
      length_pos := by decide
      length_lt := by decide
      elems_eq := rfl
      elems_le := by decide
      placed := by
        intro i p hp
        have : ([[], [], [], []] : List (List Nat)).getD i [] = [] := getD_replicate_nil 4 i
        rw [this] at hp
        exact absurd hp (List.not_mem_nil p)
      nodup := List.nodup_nil
      inj := fun p hp => absurd hp (List.not_mem_nil p) }

theorem flatten_perm_of_chain (l : List (List Nat)) (i x : Nat) (c0 : List Nat)
    (hi : i < l.length) (hc : (l.getD i []).Perm (x :: c0)) :
    l.flatten.Perm (x :: (c0 ++ (l.eraseIdx i).flatten)) :=
  (flatten_perm_getD l i hi).trans (List.Perm.append_right _ hc)

theorem flatten_set_perm_of_chain (l : List (List Nat)) (i x : Nat) (c c0 : List Nat)
    (hi : i < l.length) (hc : c.Perm (x :: c0)) :
    (l.set i c).flatten.Perm (x :: (c0 ++ (l.eraseIdx i).flatten)) :=
  (flatten_set_perm l i c hi).trans (List.Perm.append_right _ hc)

theorem placed_set {P : Nat → Nat → Prop} (l : List (List Nat)) (i : Nat) (c : List Nat)
    (hi : i < l.length) (hpl : ∀ k, ∀ p ∈ l.getD k [], P k p) (hc : ∀ p ∈ c, P i p) :
    ∀ k, ∀ p ∈ (l.set i c).getD k [], P k p := by
  intro k p hp
  by_cases hk : k = i
  · subst hk
    rw [getD_set_self _ _ _ hi] at hp
    exact hc p hp
  · rw [getD_set_other _ _ _ _ hk] at hp
    exact hpl k p hp

theorem HandleTable.FindPointer_spec (read : Nat → Option (Nat × Bytes)) (t : HandleTable)
    (key : Bytes) (hash : Nat) (hwf : t.WellFormed read) :
    (t.FindPointer read key hash =
        some (hash &&& (t.length_ - 1), (t.list_.getD (hash &&& (t.length_ - 1)) []).length) ∧
      ∀ p ∈ t.entries, read p ≠ some (hash, key)) ∨
    ∃ cpre o cpost, t.list_.getD (hash &&& (t.length_ - 1)) [] = cpre ++ o :: cpost ∧
      t.FindPointer read key hash = some (hash &&& (t.length_ - 1), cpre.length) ∧
      read o = some (hash, key) := by
  have hi : hash &&& (t.length_ - 1) < t.list_.length := by
    rw [hwf.length_eq]; exact bucket_lt _ _ hwf.length_pos
  have hlive : ∀ p ∈ t.list_.getD (hash &&& (t.length_ - 1)) [], read p ≠ none := by
    intro p hp
    obtain ⟨h, k, hr, _⟩ := hwf.placed _ p hp
    rw [hr]; exact Option.some_ne_none _
  unfold HandleTable.FindPointer
  simp only [mask_eq _ hwf.length_pos hwf.length_lt, hi, if_true]
  rcases HandleTable.FindPointer.loop_stops_at_match read key hash _ hlive with
    ⟨h1, h2⟩ | ⟨cpre, o, cpost, h1, h2, h3, _⟩
  · left
    refine ⟨by rw [h1]; rfl, ?_⟩
    intro p hp hr
    obtain ⟨k, _, hpk⟩ := (mem_flatten_iff_getD _ _).mp hp
    obtain ⟨h2', k2, hr2, hb⟩ := hwf.placed k p hpk
    rw [hr] at hr2
    simp only [Option.some.injEq, Prod.mk.injEq] at hr2
    rw [← hr2.1] at hb
    rw [← hb] at hpk
    exact h2 p hpk hr
  · right
    exact ⟨cpre, o, cpost, h1, by rw [h2]; rfl, h3⟩

theorem HandleTable.slot_end (t : HandleTable) (i : Nat) :
    t.slot (i, (t.list_.getD i []).length) = none := by
  unfold HandleTable.slot
  exact List.getElem?_eq_none (le_refl _)

theorem HandleTable.slot_found (t : HandleTable) (i : Nat) (cpre : List Nat) (o : Nat)
    (cpost : List Nat) (h : t.list_.getD i [] = cpre ++ o :: cpost) :
    t.slot (i, cpre.length) = some o := by
  unfold HandleTable.slot
  simp only [h]
  exact getElem?_append_cons cpre o cpost

theorem HandleTable.mem_entries_of_chain (t : HandleTable) (i p : Nat)
    (h : p ∈ t.list_.getD i []) : p ∈ t.entries := by
  unfold HandleTable.entries
  rw [mem_flatten_iff_getD]
  refine ⟨i, ?_, h⟩
  by_contra hc
  rw [getD_nil_of_le _ _ (by omega)] at h
  exact absurd h (List.not_mem_nil p)

/-- The method `Lookup` on a well-formed table returns the handle of the table with the hash and key
looked up, and `NULL` when there is none. -/
theorem HandleTable.Lookup_finds (read : Nat → Option (Nat × Bytes)) (t : HandleTable)
    (key : Bytes) (hash : Nat) (hwf : t.WellFormed read) :
    (t.Lookup read key hash = some none ∧ ∀ p ∈ t.entries, read p ≠ some (hash, key)) ∨
    ∃ o, t.Lookup read key hash = some (some o) ∧ o ∈ t.entries ∧
      read o = some (hash, key) := by
  unfold HandleTable.Lookup
  rcases HandleTable.FindPointer_spec read t key hash hwf with
    ⟨h1, h2⟩ | ⟨cpre, o, cpost, h1, h2, h3⟩
  · left
    rw [h1]
    exact ⟨by rw [Option.map_some', HandleTable.slot_end], h2⟩
  · right
    rw [h2]
    refine ⟨o, by rw [Option.map_some', HandleTable.slot_found t _ cpre o cpost h1], ?_, h3⟩
    exact HandleTable.mem_entries_of_chain t _ o (by rw [h1]; simp)

/-- The method `Remove` on a well-formed table unlinks the handle with the hash and key given and
returns it, and changes nothing when there is none. -/
theorem HandleTable.Remove_spec (read : Nat → Option (Nat × Bytes)) (t : HandleTable)
    (key : Bytes) (hash : Nat) (hwf : t.WellFormed read) :
    (t.Remove read key hash = some (t, none) ∧ ∀ p ∈ t.entries, read p ≠ some (hash, key)) ∨
    ∃ t2 o, t.Remove read key hash = some (t2, some o) ∧ read o = some (hash, key) ∧
      t.entries.Perm (o :: t2.entries) ∧ t2.WellFormed read ∧ t2.elems_ + 1 = t.elems_ ∧
      t2.length_ = t.length_ := by
  have hi : hash &&& (t.length_ - 1) < t.list_.length := by
    rw [hwf.length_eq]; exact bucket_lt _ _ hwf.length_pos
  unfold HandleTable.Remove
  rcases HandleTable.FindPointer_spec read t key hash hwf with
    ⟨h1, h2⟩ | ⟨cpre, o, cpost, h1, h2, h3⟩
  · left
    rw [h1]
    simp only [HandleTable.slot_end]
    exact ⟨trivial, h2⟩
  · right
    rw [h2]
    simp only [HandleTable.slot_found t _ cpre o cpost h1, h1, eraseIdx_append_cons]
    have hperm : t.entries.Perm
        (o :: (t.list_.set (hash &&& (t.length_ - 1)) (cpre ++ cpost)).flatten) :=
      (flatten_perm_of_chain t.list_ _ o (cpre ++ cpost) hi
        (by rw [h1]; exact List.perm_middle)).trans
        (List.Perm.cons o (flatten_set_perm t.list_ _ (cpre ++ cpost) hi).symm)
    have hnd := hwf.nodup
    rw [hperm.nodup_iff, List.nodup_cons] at hnd
    have hlen := hperm.length_eq
    rw [List.length_cons, ← hwf.elems_eq] at hlen
    have hle := hwf.elems_le
    have hlt := hwf.length_lt
    have hel : uint32_t (t.elems_ + 4294967296 - 1) = t.elems_ - 1 := by
      unfold uint32_t; omega
    refine ⟨_, o, rfl, h3, hperm, ?_, ?_, rfl⟩
    · exact
        { length_eq := by simpa using hwf.length_eq
          length_pos := hwf.length_pos
          length_lt := hwf.length_lt
          elems_eq := by
            show uint32_t (t.elems_ + 4294967296 - 1) = _
            rw [hel]
            show _ = (t.list_.set (hash &&& (t.length_ - 1)) (cpre ++ cpost)).flatten.length
            omega
          elems_le := by
            show uint32_t (t.elems_ + 4294967296 - 1) ≤ t.length_
            rw [hel]; omega
          placed := placed_set t.list_ _ _ hi hwf.placed (by
            intro p hp
            exact hwf.placed _ p (by
              rw [h1]
              rcases List.mem_append.mp hp with hp | hp
              · exact List.mem_append_left _ hp
              · exact List.mem_append_right _ (List.mem_cons_of_mem _ hp)))
          nodup := hnd.2
          inj := fun p hp q hq =>
            hwf.inj p (hperm.mem_iff.mpr (List.mem_cons_of_mem _ hp)) q
              (hperm.mem_iff.mpr (List.mem_cons_of_mem _ hq)) }
    · show uint32_t (t.elems_ + 4294967296 - 1) + 1 = t.elems_
      rw [hel]; omega

/-- The method `Insert` on a well-formed table chains the handle given, in place of the handle with
the same hash and key if there is one, which it returns. A table of `2^31` handles takes
the handle only in place of another. -/
theorem HandleTable.Insert_cases (read : Nat → Option (Nat × Bytes)) (t : HandleTable)
    (e hash : Nat) (key : Bytes) (hwf : t.WellFormed read) (he : read e = some (hash, key))
    (hnew : e ∉ t.entries)
    (hle : t.elems_ < 2147483648 ∨ ∃ o ∈ t.entries, read o = some (hash, key)) :
    ∃ t2 old, t.Insert read e = some (t2, old) ∧ t2.WellFormed read ∧
      t2.elems_ ≤ t.elems_ + 1 ∧
      ((old = none ∧ (∀ p ∈ t.entries, read p ≠ some (hash, key)) ∧
          t2.entries.Perm (e :: t.entries)) ∨
        ∃ o R, old = some o ∧ read o = some (hash, key) ∧ t.entries.Perm (o :: R) ∧
          t2.entries.Perm (e :: R)) := by
  have hi : hash &&& (t.length_ - 1) < t.list_.length := by
    rw [hwf.length_eq]; exact bucket_lt _ _ hwf.length_pos
  unfold HandleTable.Insert
  simp only [he]
  rcases HandleTable.FindPointer_spec read t key hash hwf with
    ⟨h1, h2⟩ | ⟨cpre, o, cpost, h1, h2, h3⟩
  · rw [h1]
    simp only [HandleTable.slot_end]
    have hle : t.elems_ < 2147483648 := by
      rcases hle with hle | ⟨o, ho, hr⟩
      · exact hle
      · exact absurd hr (h2 o ho)
    have hel : uint32_t (t.elems_ + 1) = t.elems_ + 1 := by unfold uint32_t; omega
    have hperm : (t.list_.set (hash &&& (t.length_ - 1))
        (t.list_.getD (hash &&& (t.length_ - 1)) [] ++ [e])).flatten.Perm (e :: t.entries) :=
      (flatten_set_perm_of_chain t.list_ _ e _ (t.list_.getD (hash &&& (t.length_ - 1)) []) hi
        (List.perm_append_singleton _ _)).trans
        (List.Perm.cons e (flatten_perm_getD t.list_ _ hi).symm)
    have hnd1 := hperm.nodup_iff.mpr (List.nodup_cons.mpr ⟨hnew, hwf.nodup⟩)
    have hinj1 := inj_of_perm hperm
      (inj_cons hwf.inj (fun p hp => by rw [he]; exact h2 p hp))
    have hpl1 := placed_set t.list_ (hash &&& (t.length_ - 1))
      (t.list_.getD (hash &&& (t.length_ - 1)) [] ++ [e]) hi hwf.placed (by
        intro p hp
        rcases List.mem_append.mp hp with hp | hp
        · exact hwf.placed _ p hp
        · rw [List.mem_singleton.mp hp]
          exact ⟨hash, key, he, rfl⟩)
    have hlen1 := hperm.length_eq
    rw [List.length_cons, ← hwf.elems_eq] at hlen1
    split_ifs with hc
    · obtain ⟨t2, hr, hwf2, hp2, he2⟩ := HandleTable.Resize_spec read
        { t with list_ := t.list_.set (hash &&& (t.length_ - 1))
                   (t.list_.getD (hash &&& (t.length_ - 1)) [] ++ [e]),
                 elems_ := uint32_t (t.elems_ + 1) }
        (by simpa using hwf.length_eq)
        (by
          intro p hp
          obtain ⟨k, _, hpk⟩ := (mem_flatten_iff_getD _ _).mp hp
          obtain ⟨a, b, hr, _⟩ := hpl1 k p hpk
          rw [hr]; exact Option.some_ne_none _)
        (by
          show uint32_t (t.elems_ + 1) = _
          rw [hel]; exact hlen1.symm)
        (by
          show uint32_t (t.elems_ + 1) ≤ _
          rw [hel]; omega)
        hnd1 hinj1
      rw [hr]
      refine ⟨t2, none, rfl, hwf2, ?_, Or.inl ⟨rfl, h2, hp2.trans hperm⟩⟩
      rw [he2]
      show uint32_t (t.elems_ + 1) ≤ _
      rw [hel]
    · refine ⟨_, none, rfl, ?_, ?_, Or.inl ⟨rfl, h2, hperm⟩⟩
      · exact
          { length_eq := by simpa using hwf.length_eq
            length_pos := hwf.length_pos
            length_lt := hwf.length_lt
            elems_eq := by
              show uint32_t (t.elems_ + 1) = _
              rw [hel]; exact hlen1.symm
            elems_le := Nat.le_of_not_lt hc
            placed := hpl1
            nodup := hnd1
            inj := hinj1 }
      · show uint32_t (t.elems_ + 1) ≤ _
        rw [hel]
  · rw [h2]
    simp only [HandleTable.slot_found t _ cpre o cpost h1, h1, set_append_cons]
    have hp0 : t.entries.Perm (o :: (cpre ++ cpost ++
        (t.list_.eraseIdx (hash &&& (t.length_ - 1))).flatten)) :=
      flatten_perm_of_chain t.list_ _ o (cpre ++ cpost) hi (by rw [h1]; exact List.perm_middle)
    have hp1 : (t.list_.set (hash &&& (t.length_ - 1)) (cpre ++ e :: cpost)).flatten.Perm
        (e :: (cpre ++ cpost ++ (t.list_.eraseIdx (hash &&& (t.length_ - 1))).flatten)) :=
      flatten_set_perm_of_chain t.list_ _ e _ (cpre ++ cpost) hi List.perm_middle
    have hnd := hwf.nodup
    rw [hp0.nodup_iff, List.nodup_cons] at hnd
    have hsub : ∀ p ∈ cpre ++ cpost ++ (t.list_.eraseIdx (hash &&& (t.length_ - 1))).flatten,
        p ∈ t.entries := fun p hp => hp0.mem_iff.mpr (List.mem_cons_of_mem _ hp)
    have ho : o ∈ t.entries := hp0.mem_iff.mpr (List.mem_cons_self _ _)
    have hlen0 := hp0.length_eq
    have hlen1 := hp1.length_eq
    rw [List.length_cons] at hlen0 hlen1
    refine ⟨_, some o, rfl, ?_, Nat.le_succ _, Or.inr ⟨o, _, rfl, h3, hp0, hp1⟩⟩
    exact
      { length_eq := by simpa using hwf.length_eq
        length_pos := hwf.length_pos
        length_lt := hwf.length_lt
        elems_eq := by
          show t.elems_ = (t.list_.set (hash &&& (t.length_ - 1)) (cpre ++ e :: cpost)).flatten.length
          rw [hlen1, ← hlen0]; exact hwf.elems_eq
        elems_le := hwf.elems_le
        placed := placed_set t.list_ _ _ hi hwf.placed (by
          intro p hp
          rcases List.mem_append.mp hp with hp | hp
          · exact hwf.placed _ p (by rw [h1]; exact List.mem_append_left _ hp)
          · rcases List.mem_cons.mp hp with hp | hp
            · rw [hp]; exact ⟨hash, key, he, rfl⟩
            · exact hwf.placed _ p (by
                rw [h1]; exact List.mem_append_right _ (List.mem_cons_of_mem _ hp)))
        nodup := hp1.nodup_iff.mpr
          (List.nodup_cons.mpr ⟨fun hm => hnew (hsub e hm), hnd.2⟩)
        inj := inj_of_perm hp1 (inj_cons
          (fun p hp q hq => hwf.inj p (hsub p hp) q (hsub q hq))
          (fun p hp hr => hnd.1 (by
            have := hwf.inj p (hsub p hp) o ho (by rw [hr, he, h3])
            rw [← this]; exact hp))) }

/-- The method `Insert` on a well-formed table of fewer than `2^31` handles chains the handle
given, in place of the handle with the same hash and key if there is one, which it
returns. -/
theorem HandleTable.Insert_chains (read : Nat → Option (Nat × Bytes)) (t : HandleTable)
    (e hash : Nat) (key : Bytes) (hwf : t.WellFormed read) (he : read e = some (hash, key))
    (hnew : e ∉ t.entries) (hle : t.elems_ < 2147483648) :
    ∃ t2 old, t.Insert read e = some (t2, old) ∧ t2.WellFormed read ∧
      t2.elems_ ≤ t.elems_ + 1 ∧
      ((old = none ∧ (∀ p ∈ t.entries, read p ≠ some (hash, key)) ∧
          t2.entries.Perm (e :: t.entries)) ∨
        ∃ o R, old = some o ∧ read o = some (hash, key) ∧ t.entries.Perm (o :: R) ∧
          t2.entries.Perm (e :: R)) :=
  HandleTable.Insert_cases read t e hash key hwf he hnew (Or.inl hle)

/-! ## Lemmas on the table and the lists of the cache -/

theorem HandleTable.WellFormed.congr {read read2 : Nat → Option (Nat × Bytes)}
    {t : HandleTable} (hwf : t.WellFormed read)
    (h : ∀ p ∈ t.entries, read2 p = read p) : t.WellFormed read2 :=
  { length_eq := hwf.length_eq
    length_pos := hwf.length_pos
    length_lt := hwf.length_lt
    elems_eq := hwf.elems_eq
    elems_le := hwf.elems_le
    placed := fun i p hp => by
      rw [h p (HandleTable.mem_entries_of_chain t i p hp)]
      exact hwf.placed i p hp
    nodup := hwf.nodup
    inj := fun p hp q hq hr => hwf.inj p hp q hq (by rw [← h p hp, ← h q hq]; exact hr) }

theorem LRUCache.TableInv.carry {c c2 : LRUCache} (htab : c.TableInv)
    (ht : c2.table_ = c.table_)
    (hread : ∀ p ∈ c.table_.entries, c2.read p = c.read p)
    (hmem : ∀ p, (∃ h, c2.heap p = some h ∧ h.in_cache = true) ↔
      ∃ h, c.heap p = some h ∧ h.in_cache = true) : c2.TableInv := by
  refine ⟨?_, ?_⟩
  · rw [ht]; exact htab.wf.congr hread
  · intro p
    rw [ht, hmem p]; exact htab.mem_iff p

theorem mem_erase_other {l : List Nat} {p e : Nat} (hp : p ≠ e) : p ∈ l.erase e ↔ p ∈ l :=
  List.mem_erase_of_ne hp

theorem not_mem_erase_self {l : List Nat} {e : Nat} (hnd : l.Nodup) : e ∉ l.erase e :=
  fun hm => (hnd.mem_erase_iff.mp hm).1 rfl

theorem mem_append_single_other {l : List Nat} {p e : Nat} (hp : p ≠ e) :
    p ∈ l ++ [e] ↔ p ∈ l := by
  simp [hp]

theorem nodup_append_single {l : List Nat} {e : Nat} (hnd : l.Nodup) (he : e ∉ l) :
    (l ++ [e]).Nodup := by
  rw [List.nodup_append]
  refine ⟨hnd, List.nodup_singleton e, ?_⟩
  intro a ha hb
  rw [List.mem_singleton.mp hb] at ha
  exact he ha

/-- The invariant of the table is restored when the handle that the table no longer
chains has left the cache. -/
theorem LRUCache.TableInv.restore {c c3 : LRUCache} {t2 : HandleTable} {o : Nat}
    (hwf : t2.WellFormed c.read)
    (hmem : ∀ q, q ≠ o → (q ∈ t2.entries ↔ ∃ h, c.heap q = some h ∧ h.in_cache = true))
    (ho : o ∉ t2.entries) (htab : c3.table_ = t2)
    (hheap : ∀ q, q ≠ o → c3.heap q = c.heap q)
    (hgone : ¬ ∃ h, c3.heap o = some h ∧ h.in_cache = true) : c3.TableInv := by
  refine ⟨?_, ?_⟩
  · rw [htab]
    refine hwf.congr ?_
    intro p hp
    have hpo : p ≠ o := fun h => ho (h ▸ hp)
    unfold LRUCache.read
    rw [hheap p hpo]
  · intro q
    rw [htab]
    by_cases hq : q = o
    · subst hq
      exact ⟨fun h => absurd h ho, fun h => absurd h hgone⟩
    · rw [hheap q hq]
      exact hmem q hq

/-! ## The reference count of a handle in 32 bits -/

theorem CacheRun.disciplined_of_holds (ops : List CacheOp)
    (h : ∀ op ∈ ops, ∀ st : CacheRun, st.holds op = true) (st : CacheRun) :
    st.disciplined ops = true := by
  induction ops generalizing st with
  | nil => rfl
  | cons op rest ih =>
    unfold CacheRun.disciplined
    rw [Bool.and_eq_true]
    refine ⟨h op (List.mem_cons_self _ _) st, ?_⟩
    cases hs : st.step op with
    | none => rfl
    | some st1 => exact ih (fun o ho => h o (List.mem_cons_of_mem _ ho)) st1

theorem CacheRun.fresh_Insert :
    (CacheRun.fresh 1).step (CacheOp.Insert [107] 0 0 1 0) = some (CacheRun.afterLookups 0) := by
  have hheap : Function.update (Function.update (fun _ => none) 0
      (some ({ value := 0, deleter := 0, charge := 1, key := [107], in_cache := false,
               refs := 1, hash := 0 } : LRUHandle))) 0
      (some ({ value := 0, deleter := 0, charge := 1, key := [107], in_cache := true,
               refs := 2, hash := 0 } : LRUHandle)) =
      Function.update (fun _ => none) 0
        (some ({ value := 0, deleter := 0, charge := 1, key := [107], in_cache := true,
                 refs := 2, hash := 0 } : LRUHandle)) := Function.update_idem _ _ _
  have hrun : (CacheRun.fresh 1).step (CacheOp.Insert [107] 0 0 1 0) =
      some (CacheRun.mk
          { capacity_ := 1, usage_ := 1, lru_ := [], in_use_ := [0],
            table_ := { length_ := 4, elems_ := 1, list_ := [[0], [], [], []] },
            heap := Function.update (Function.update (fun _ => none) 0
              (some ({ value := 0, deleter := 0, charge := 1, key := [107], in_cache := false,
                       refs := 1, hash := 0 } : LRUHandle))) 0
              (some ({ value := 0, deleter := 0, charge := 1, key := [107], in_cache := true,
                       refs := 2, hash := 0 } : LRUHandle)),
            allocated := 1, deleted := [] } [0]) := by
    rfl
  rw [hrun, hheap]
  rfl

theorem CacheRun.afterLookups_Lookup (j : Nat) (hj : j + 2 < 4294967296) :
    (CacheRun.afterLookups j).step (CacheOp.Lookup [107] 0) =
      some (CacheRun.afterLookups (j + 1)) := by
  have h1 : uint32_t (2 + j) = 2 + j := Nat.mod_eq_of_lt (by omega)
  have heq : Slice.eq [107] [107] = true := (Slice.eq_iff _ _).mpr rfl
  have hmask : uint32_t (4 + 4294967296 - 1) = 3 := rfl
  have hland : 0 &&& 3 = 0 := rfl
  have hlook : HandleTable.Lookup (CacheRun.afterLookups j).cache.read
      (CacheRun.afterLookups j).cache.table_ [107] 0 = some (some 0) := by
    unfold HandleTable.Lookup HandleTable.FindPointer CacheRun.afterLookups LRUCache.read
    simp only [hmask, hland]
    simp only [List.length_cons, List.length_nil, List.getD_cons_zero,
      HandleTable.FindPointer.loop, Function.update_same, Option.map_some', heq]
    rfl
  have hne : ¬ (2 + j = 1 ∧ True) := fun h => by omega
  unfold CacheRun.step LRUCache.Lookup
  simp only [hlook]
  unfold LRUCache.Ref CacheRun.afterLookups
  simp only [Function.update_same, h1, hne, if_false, Option.map_some', Function.update_idem]
  rw [List.replicate_succ' (j + 1) 0, Nat.add_assoc 2 j 1]

/-- After `Insert` and `k` more calls of `Lookup` with no `Release`, the count of the
handle has been incremented `k` times in 32 bits. -/
theorem CacheRun.afterLookups_run (k j : Nat) (h : j + k + 2 ≤ 4294967296) :
    (CacheRun.afterLookups j).run (List.replicate k (CacheOp.Lookup [107] 0)) =
      some (CacheRun.afterLookups (j + k)) := by
  induction k generalizing j with
  | zero => rfl
  | succ k ih =>
    rw [List.replicate_succ]
    unfold CacheRun.run
    rw [CacheRun.afterLookups_Lookup j (by omega)]
    simp only
    rw [ih (j + 1) (by omega)]
    have : j + 1 + k = j + (k + 1) := by omega
    rw [this]

theorem CacheRun.afterLookups_all : (CacheRun.fresh 1).run
    (CacheOp.Insert [107] 0 0 1 0 :: List.replicate 4294967294 (CacheOp.Lookup [107] 0)) =
      some (CacheRun.afterLookups 4294967294) := by
  unfold CacheRun.run
  rw [CacheRun.fresh_Insert]
  simp only
  rw [CacheRun.afterLookups_run 4294967294 0 (by decide)]

/-! ## The `NULL` results of `GetVarint32PtrFallback` -/

theorem continuation_bit (y : Nat) (hy : y < 128) : (y + 128) &&& 128 ≠ 0 := by
  rw [Ne, byte_and_128 (y + 128) (by omega)]
  omega

theorem GetVarint32PtrFallback.loop_none_iff (i result : Nat) (p : Bytes) (hi : i ≤ 5) :
    GetVarint32PtrFallback.loop (7 * i) result p = none ↔
      ∀ b ∈ p.take (5 - i), b &&& 128 ≠ 0 := by
  induction p generalizing i result with
  | nil => simp [GetVarint32PtrFallback.loop]
  | cons byte p ih =>
    rw [GetVarint32PtrFallback.loop]
    by_cases h5 : i = 5
    · subst h5
      simp
    · have hs : 7 * i ≤ 28 := by omega
      have ht : 5 - i = (5 - (i + 1)) + 1 := by omega
      rw [if_pos hs, ht, List.take_succ_cons]
      by_cases hb : byte &&& 128 ≠ 0
      · rw [if_pos hb, show 7 * i + 7 = 7 * (i + 1) by ring, ih (i + 1) _ (by omega)]
        constructor
        · intro h b hm
          rcases List.mem_cons.mp hm with rfl | hm
          · exact hb
          · exact h b hm
        · intro h b hm
          exact h b (List.mem_cons_of_mem _ hm)
      · rw [if_neg hb]
        constructor
        · intro h
          cases h
        · intro h
          exact absurd (h byte (List.mem_cons_self _ _)) hb

theorem GetVarint32PtrFallback.loop_some (i result : Nat) (pre : Bytes) (b : Nat)
    (rest : Bytes) (h : pre.length + i < 5) (hpre : ∀ x ∈ pre, x &&& 128 ≠ 0)
    (hb : b &&& 128 = 0) :
    ∃ v, GetVarint32PtrFallback.loop (7 * i) result (pre ++ b :: rest) = some (rest, v) := by
  induction pre generalizing i result with
  | nil =>
    rw [List.nil_append, GetVarint32PtrFallback.loop]
    have hs : 7 * i ≤ 28 := by
      simp only [List.length_nil] at h
      omega
    rw [if_pos hs, if_neg (not_not.mpr hb)]
    exact ⟨_, rfl⟩
  | cons x pre ih =>
    rw [List.cons_append, GetVarint32PtrFallback.loop]
    rw [List.length_cons] at h
    have hs : 7 * i ≤ 28 := by omega
    rw [if_pos hs, if_pos (hpre x (List.mem_cons_self _ _)),
      show 7 * i + 7 = 7 * (i + 1) by ring]
    exact ih (i + 1) _ (by omega) (fun y hy => hpre y (List.mem_cons_of_mem _ hy))

theorem EncodeVarint32_uint32_t (v : Nat) : EncodeVarint32 v = EncodeVarint32 (uint32_t v) := by
  unfold EncodeVarint32
  have : uint32_t (uint32_t v) = uint32_t v := by
    unfold uint32_t
    exact Nat.mod_mod _ _
  simp only [this]

/-- Every byte of `EncodeVarint32 v` but the last has its top bit set. -/
theorem EncodeVarint32_prefix_bits (v k : Nat) (hk : k < (EncodeVarint32 v).length) :
    ∀ b ∈ (EncodeVarint32 v).take k, b &&& 128 ≠ 0 := by
  rw [EncodeVarint32_uint32_t] at hk ⊢
  have hv : uint32_t v < 4294967296 := Nat.mod_lt _ (by decide)
  generalize uint32_t v = w at hk hv ⊢
  rw [EncodeVarint32_eq w hv] at hk ⊢
  have c1 := continuation_bit (w % 128) (Nat.mod_lt _ (by decide))
  have c2 := continuation_bit (w / 128 % 128) (Nat.mod_lt _ (by decide))
  have c3 := continuation_bit (w / 16384 % 128) (Nat.mod_lt _ (by decide))
  have c4 := continuation_bit (w / 2097152 % 128) (Nat.mod_lt _ (by decide))
  split_ifs at hk ⊢ <;> simp only [List.length_cons, List.length_nil] at hk <;>
    interval_cases k <;>
    simp only [List.take_zero, List.take_succ_cons, List.forall_mem_cons, List.not_mem_nil,
      false_imp_iff, implies_true, and_true] <;>
    trivial

/-- C31: `GetVarint32PtrFallback(p, limit, value)` returns `NULL` exactly when none of the
first `min(5, limit - p)` bytes has its top bit clear. In particular it returns `NULL` on
the empty input, on every proper prefix of `EncodeVarint32 v`, and on five bytes that all
have the continuation bit set, whatever follows them. Otherwise, `b` being the first byte
whose top bit is clear, it returns the position just after `b`. -/
theorem C31_fallback_null_iff_no_terminator (p : Bytes) :
    (GetVarint32PtrFallback p = none ↔ ∀ b ∈ p.take 5, b &&& 128 ≠ 0) ∧
    GetVarint32PtrFallback [] = none ∧
    (∀ v k, k < (EncodeVarint32 v).length →
      GetVarint32PtrFallback ((EncodeVarint32 v).take k) = none) ∧
    (∀ five rest : Bytes, five.length = 5 → (∀ b ∈ five, b &&& 128 ≠ 0) →
      GetVarint32PtrFallback (five ++ rest) = none) ∧
    (∀ (pre : Bytes) (b : Nat) (rest : Bytes), p = pre ++ b :: rest → pre.length < 5 →
      (∀ x ∈ pre, x &&& 128 ≠ 0) → b &&& 128 = 0 →
      ∃ v, GetVarint32PtrFallback p = some (rest, v)) := by
  have hiff : ∀ q : Bytes,
      GetVarint32PtrFallback q = none ↔ ∀ b ∈ q.take 5, b &&& 128 ≠ 0 := fun q =>
    GetVarint32PtrFallback.loop_none_iff 0 0 q (by decide)
  refine ⟨hiff p, rfl, ?_, ?_, ?_⟩
  · intro v k hk
    rw [hiff]
    intro b hb
    exact EncodeVarint32_prefix_bits v k hk b (List.mem_of_mem_take hb)
  · intro five rest h5 hall
    rw [hiff, List.take_append_of_le_length (le_of_eq h5.symm), ← h5, List.take_length]
    exact hall
  · intro pre b rest hp hlen hpre hb
    rw [hp]
    exact GetVarint32PtrFallback.loop_some 0 0 pre b rest (by omega) hpre hb

theorem C31_fallback_null_iff_no_terminator_witness :
    ∃ v, GetVarint32PtrFallback [172, 2, 9] = some ([9], v) :=
  (C31_fallback_null_iff_no_terminator [172, 2, 9]).2.2.2.2 [172] 2 [9] rfl (by decide)
    (by decide) (by decide)

/-! ## The length of the hash table -/

/-- The first loop of `Resize` never stops on more than `2^31` handles: `new_length` goes
through the powers of two up to `2^31` and then stays at 0, whatever the fuel. -/
theorem HandleTable.Resize.grow_none (elems_ : Nat) (he : 2147483648 < elems_) (fuel n : Nat)
    (hn : n = 0 ∨ ∃ a, a ≤ 31 ∧ n = 2 ^ a) :
    HandleTable.Resize.grow elems_ fuel n = none := by
  induction fuel generalizing n with
  | zero => rfl
  | succ fuel ih =>
    unfold HandleTable.Resize.grow
    have hlt : n < elems_ := by
      rcases hn with h | ⟨a, ha, h⟩
      · omega
      · have : 2 ^ a ≤ 2 ^ 31 := Nat.pow_le_pow_right (by decide) ha
        omega
    rw [if_pos hlt]
    apply ih
    rcases hn with h | ⟨a, ha, h⟩
    · left
      rw [h]
      rfl
    · rcases Nat.lt_or_ge a 31 with h31 | h31
      · right
        refine ⟨a + 1, by omega, ?_⟩
        rw [h, ← Nat.pow_succ]
        unfold uint32_t
        apply Nat.mod_eq_of_lt
        calc 2 ^ (a + 1) ≤ 2 ^ 31 := Nat.pow_le_pow_right (by decide) (by omega)
          _ < 4294967296 := by norm_num
      · left
        have : a = 31 := by omega
        rw [h, this]
        rfl

/-- The table that `Resize` returns has the length that its first loop computes. -/
theorem HandleTable.Resize_shape (read : Nat → Option (Nat × Bytes)) (t t2 : HandleTable)
    (h : t.Resize read = some t2) :
    HandleTable.Resize.grow t.elems_ 32 4 = some t2.length_ ∧ t2.elems_ = t.elems_ := by
  unfold HandleTable.Resize at h
  cases hg : HandleTable.Resize.grow t.elems_ 32 4 with
  | none =>
    rw [hg] at h
    cases h
  | some L =>
    rw [hg] at h
    simp only at h
    split at h
    · cases h
    · split_ifs at h
      cases h
      exact ⟨rfl, rfl⟩

/-- When `Resize` is called with one handle more than the length, a power of two that is
at least 4, the new length is twice the old. -/
theorem HandleTable.Resize.grow_doubles (k L : Nat) (hk : 2 ≤ k)
    (h : HandleTable.Resize.grow (2 ^ k + 1) 32 4 = some L) : L = 2 * 2 ^ k := by
  have hk31 : k < 31 := by
    by_contra hc
    have : 2 ^ 31 ≤ 2 ^ k := Nat.pow_le_pow_right (by decide) (by omega)
    rw [HandleTable.Resize.grow_none (2 ^ k + 1) (by omega) 32 4 (Or.inr ⟨2, by decide, rfl⟩)]
      at h
    cases h
  have hle : 2 ^ k + 1 ≤ 2147483648 := by
    have : 2 ^ k ≤ 2 ^ 30 := Nat.pow_le_pow_right (by decide) (by omega)
    omega
  obtain ⟨b, hb1, hb2, hb3, hb4, hb5⟩ :=
    HandleTable.Resize.grow_spec (2 ^ k + 1) hle 32 2 (by decide) (by decide)
  have hb1 : HandleTable.Resize.grow (2 ^ k + 1) 32 4 = some (2 ^ b) := hb1
  rw [hb1] at h
  cases h
  have h1 : k < b := by
    by_contra hc
    have : 2 ^ b ≤ 2 ^ k := Nat.pow_le_pow_right (by decide) (by omega)
    omega
  have h2 : b - 1 ≤ k := by
    rcases hb5 with h5 | h5
    · omega
    · by_contra hc
      have : 2 ^ (k + 1) ≤ 2 ^ (b - 1) := Nat.pow_le_pow_right (by decide) (by omega)
      rw [Nat.pow_succ] at this
      have : 1 ≤ 2 ^ k := Nat.one_le_two_pow
      omega
  have : b = k + 1 := by omega
  rw [this, Nat.pow_succ, Nat.mul_comm]

/-- The length and count of the table that `Insert` returns. -/
theorem HandleTable.Insert_shape (read : Nat → Option (Nat × Bytes)) (t t2 : HandleTable)
    (e : Nat) (old : Option Nat) (h : t.Insert read e = some (t2, old)) :
    (old ≠ none ∧ t2.length_ = t.length_ ∧ t2.elems_ = t.elems_) ∨
    (old = none ∧ ¬ (uint32_t (t.elems_ + 1) > t.length_) ∧ t2.length_ = t.length_ ∧
      t2.elems_ = uint32_t (t.elems_ + 1)) ∨
    (old = none ∧ uint32_t (t.elems_ + 1) > t.length_ ∧
      HandleTable.Resize.grow (uint32_t (t.elems_ + 1)) 32 4 = some t2.length_ ∧
      t2.elems_ = uint32_t (t.elems_ + 1)) := by
  unfold HandleTable.Insert at h
  split at h
  · cases h
  · split at h
    · cases h
    · rename_i ptr _
      simp only at h
      split at h
      · rename_i o ho
        simp only [Option.some.injEq, Prod.mk.injEq] at h
        left
        refine ⟨?_, ?_, ?_⟩
        · rw [← h.2, ho]
          exact Option.some_ne_none _
        · rw [← h.1]
        · rw [← h.1]
      · rename_i ho
        right
        split_ifs at h with hc
        · right
          cases hr : HandleTable.Resize read
              { length_ := t.length_, elems_ := uint32_t (t.elems_ + 1),
                list_ := t.list_.set ptr.1 (t.list_.getD ptr.1 [] ++ [e]) } with
          | none =>
            rw [hr] at h
            cases h
          | some t3 =>
            rw [hr] at h
            simp only [Option.map_some', Option.some.injEq, Prod.mk.injEq] at h
            obtain ⟨h1, h2⟩ := HandleTable.Resize_shape read _ t3 hr
            rw [← h.1]
            exact ⟨by rw [← h.2, ho], hc, h1, h2⟩
        · left
          simp only [Option.some.injEq, Prod.mk.injEq] at h
          refine ⟨by rw [← h.2, ho], hc, ?_, ?_⟩
          · rw [← h.1]
          · rw [← h.1]

theorem HandleTable.Invariant.length_le {read : Nat → Option (Nat × Bytes)} {t : HandleTable}
    (h : t.Invariant read) : t.length_ ≤ 2147483648 := by
  obtain ⟨hwf, ⟨b, hb⟩, _⟩ := h
  have hlt := hwf.length_lt
  rw [hb] at hlt ⊢
  have hb31 : b ≤ 31 := by
    by_contra hc
    have : 2 ^ 32 ≤ 2 ^ b := Nat.pow_le_pow_right (by decide) (by omega)
    omega
  calc 2 ^ b ≤ 2 ^ 31 := Nat.pow_le_pow_right (by decide) hb31
    _ = 2147483648 := by norm_num

theorem HandleTable.new_Invariant (read : Nat → Option (Nat × Bytes)) :
    HandleTable.new.Invariant read :=
  ⟨HandleTable.new_WellFormed read, ⟨2, by rw [HandleTable.new_eq]; rfl⟩,
    by rw [HandleTable.new_eq]⟩

/-- The method `Remove` keeps the invariant of the table, and its length. -/
theorem HandleTable.Remove_invariant (read : Nat → Option (Nat × Bytes)) (t : HandleTable)
    (key : Bytes) (hash : Nat) (hinv : t.Invariant read) :
    ∃ t2 r, t.Remove read key hash = some (t2, r) ∧ t2.Invariant read ∧
      t2.length_ = t.length_ ∧
      ((r = none ∧ t2 = t ∧ ∀ p ∈ t.entries, read p ≠ some (hash, key)) ∨
        ∃ o, r = some o ∧ read o = some (hash, key) ∧ t.entries.Perm (o :: t2.entries) ∧
          t2.elems_ + 1 = t.elems_) := by
  rcases HandleTable.Remove_spec read t key hash hinv.1 with
    ⟨h1, h2⟩ | ⟨t2, o, h1, h2, h3, h4, h5, h6⟩
  · exact ⟨t, none, h1, hinv, rfl, Or.inl ⟨rfl, rfl, h2⟩⟩
  · refine ⟨t2, some o, h1, ⟨h4, ?_, ?_⟩, h6, Or.inr ⟨o, rfl, h2, h3, h5⟩⟩
    · rw [h6]; exact hinv.2.1
    · rw [h6]; exact hinv.2.2

/-- The method `Insert` on a table of `2^31` handles does not return when the key is new:
the first loop of `Resize` does not stop. -/
theorem HandleTable.Insert_hangs (read : Nat → Option (Nat × Bytes)) (t : HandleTable)
    (e hash : Nat) (key : Bytes) (hinv : t.Invariant read) (he : read e = some (hash, key))
    (hno : ∀ p ∈ t.entries, read p ≠ some (hash, key)) (hfull : 2147483648 ≤ t.elems_) :
    t.Insert read e = none := by
  have hlen := hinv.length_le
  have hel := hinv.1.elems_le
  have h1 : uint32_t (t.elems_ + 1) = 2147483649 := by
    unfold uint32_t
    omega
  cases hI : t.Insert read e with
  | none => rfl
  | some r =>
    obtain ⟨t2, old⟩ := r
    rcases HandleTable.Insert_shape read t t2 e old hI with
      ⟨k1, _, _⟩ | ⟨_, k2, _, _⟩ | ⟨_, _, k3, _⟩
    · exfalso
      have hwf := hinv.1
      have hi : hash &&& (t.length_ - 1) < t.list_.length := by
        rw [hwf.length_eq]; exact bucket_lt _ _ hwf.length_pos
      unfold HandleTable.Insert at hI
      simp only [he] at hI
      rcases HandleTable.FindPointer_spec read t key hash hwf with
        ⟨j1, _⟩ | ⟨cpre, o, cpost, j1, _, j3⟩
      · rw [j1] at hI
        simp only [HandleTable.slot_end] at hI
        split_ifs at hI
        · cases hr : HandleTable.Resize read
              { length_ := t.length_, elems_ := uint32_t (t.elems_ + 1),
                list_ := t.list_.set (hash &&& (t.length_ - 1))
                  (t.list_.getD (hash &&& (t.length_ - 1)) [] ++ [e]) } with
          | none =>
            rw [hr] at hI
            cases hI
          | some t3 =>
            rw [hr] at hI
            simp only [Option.map_some', Option.some.injEq, Prod.mk.injEq] at hI
            exact k1 hI.2.symm
        · simp only [Option.some.injEq, Prod.mk.injEq] at hI
          exact k1 hI.2.symm
      · exact hno o (HandleTable.mem_entries_of_chain t _ o (by rw [j1]; simp)) j3
    · exfalso
      rw [h1] at k2
      omega
    · exfalso
      rw [h1, HandleTable.Resize.grow_none 2147483649 (by decide) 32 4
        (Or.inr ⟨2, by decide, rfl⟩)] at k3
      cases k3

/-- The method `Insert` keeps the invariant of the table; it returns when the table has
fewer than `2^31` handles; the length is doubled when `Resize` is called, that is when a
handle is added to a table with `elems_ == length_`, and is kept otherwise. -/
theorem HandleTable.Insert_invariant (read : Nat → Option (Nat × Bytes)) (t : HandleTable)
    (e hash : Nat) (key : Bytes) (hinv : t.Invariant read) (he : read e = some (hash, key))
    (hnew : e ∉ t.entries) :
    (t.elems_ < 2147483648 → ∃ t2 old, t.Insert read e = some (t2, old)) ∧
    ∀ t2 old, t.Insert read e = some (t2, old) →
      t2.Invariant read ∧
      (old = none ∧ t.length_ < t.elems_ + 1 → t2.length_ = 2 * t.length_) ∧
      (¬ (old = none ∧ t.length_ < t.elems_ + 1) → t2.length_ = t.length_) ∧
      ((old = none ∧ (∀ p ∈ t.entries, read p ≠ some (hash, key)) ∧
          t2.entries.Perm (e :: t.entries) ∧ t2.elems_ = t.elems_ + 1) ∨
        ∃ o R, old = some o ∧ read o = some (hash, key) ∧ t.entries.Perm (o :: R) ∧
          t2.entries.Perm (e :: R) ∧ t2.elems_ = t.elems_) := by
  constructor
  · intro hle
    obtain ⟨t2, old, h1, _⟩ := HandleTable.Insert_chains read t e hash key hinv.1 he hnew hle
    exact ⟨t2, old, h1⟩
  · intro t2 old hI
    have hlen := hinv.length_le
    have hel := hinv.1.elems_le
    by_cases hcase : t.elems_ < 2147483648 ∨ ∃ o ∈ t.entries, read o = some (hash, key)
    · obtain ⟨t3, old3, h1, hwf2, _, hrel⟩ :=
        HandleTable.Insert_cases read t e hash key hinv.1 he hnew hcase
      rw [hI] at h1
      simp only [Option.some.injEq, Prod.mk.injEq] at h1
      obtain ⟨rfl, rfl⟩ := h1
      obtain ⟨b, hb⟩ := hinv.2.1
      have hshape := HandleTable.Insert_shape read t t2 e old hI
      have hlength : (old = none ∧ t.length_ < t.elems_ + 1 → t2.length_ = 2 * t.length_) ∧
          (¬ (old = none ∧ t.length_ < t.elems_ + 1) → t2.length_ = t.length_) ∧
          (old = none → t2.elems_ = t.elems_ + 1) ∧ (old ≠ none → t2.elems_ = t.elems_) := by
        rcases hshape with ⟨k1, k2, k3⟩ | ⟨k1, k2, k3, k4⟩ | ⟨k1, k2, k3, k4⟩
        · exact ⟨fun h => absurd h.1 k1, fun _ => k2, fun h => absurd h k1, fun _ => k3⟩
        · have hlt : t.elems_ < 2147483648 := by
            rcases hcase with h | ⟨o, ho, hr⟩
            · exact h
            · rcases hrel with ⟨_, h2, _⟩ | ⟨o2, R, h2, _⟩
              · exact absurd hr (h2 o ho)
              · rw [k1] at h2
                cases h2
          have hu : uint32_t (t.elems_ + 1) = t.elems_ + 1 := by
            unfold uint32_t
            omega
          rw [hu] at k2 k4
          exact ⟨fun h => absurd h.2 (by omega), fun _ => k3, fun _ => k4,
            fun h => absurd k1 h⟩
        · have hlt : t.elems_ < 2147483648 := by
            rcases hcase with h | ⟨o, ho, hr⟩
            · exact h
            · rcases hrel with ⟨_, h2, _⟩ | ⟨o2, R, h2, _⟩
              · exact absurd hr (h2 o ho)
              · rw [k1] at h2
                cases h2
          have hu : uint32_t (t.elems_ + 1) = t.elems_ + 1 := by
            unfold uint32_t
            omega
          rw [hu] at k2 k3 k4
          have hfull : t.elems_ = 2 ^ b := by omega
          have hb2 : 2 ≤ b := by
            by_contra hc
            have : 2 ^ b ≤ 2 ^ 1 := Nat.pow_le_pow_right (by decide) (by omega)
            have := hinv.2.2
            omega
          rw [hfull] at k3
          have hd := HandleTable.Resize.grow_doubles b t2.length_ hb2 k3
          rw [hb]
          exact ⟨fun _ => hd, fun h => absurd ⟨k1, by omega⟩ h, fun _ => k4,
            fun h => absurd k1 h⟩
      refine ⟨⟨hwf2, ?_, ?_⟩, hlength.1, hlength.2.1, ?_⟩
      · by_cases htr : old = none ∧ t.length_ < t.elems_ + 1
        · refine ⟨b + 1, ?_⟩
          rw [hlength.1 htr, hb, Nat.pow_succ, Nat.mul_comm]
        · rw [hlength.2.1 htr]
          exact hinv.2.1
      · by_cases htr : old = none ∧ t.length_ < t.elems_ + 1
        · rw [hlength.1 htr]
          have := hinv.2.2
          omega
        · rw [hlength.2.1 htr]
          exact hinv.2.2
      · rcases hrel with ⟨h1, h2, h3⟩ | ⟨o, R, h1, h2, h3, h4⟩
        · exact Or.inl ⟨h1, h2, h3, hlength.2.2.1 h1⟩
        · exact Or.inr ⟨o, R, h1, h2, h3, h4,
            hlength.2.2.2 (by rw [h1]; exact Option.some_ne_none _)⟩
    · exfalso
      have hno : ∀ p ∈ t.entries, read p ≠ some (hash, key) :=
        fun p hp hr => hcase (Or.inr ⟨p, hp, hr⟩)
      rw [HandleTable.Insert_hangs read t e hash key hinv he hno (by omega)] at hI
      cases hI

/-- The method `Resize` keeps the handles of the table and establishes its invariant. Its
assertion holds, and it returns when the table has at most `2^31` handles. -/
theorem HandleTable.Resize_invariant (read : Nat → Option (Nat × Bytes)) (t : HandleTable)
    (hlen : t.list_.length = t.length_) (hlive : ∀ p ∈ t.entries, read p ≠ none)
    (helems : t.elems_ = t.entries.length) (hnodup : t.entries.Nodup)
    (hinj : ∀ p ∈ t.entries, ∀ q ∈ t.entries, read p = read q → p = q) :
    (t.elems_ ≤ 2147483648 → ∃ t2, t.Resize read = some t2) ∧
    ∀ t2, t.Resize read = some t2 →
      t2.Invariant read ∧ t2.entries.Perm t.entries ∧ t2.elems_ = t.elems_ := by
  constructor
  · intro hle
    obtain ⟨t2, h1, _⟩ := HandleTable.Resize_spec read t hlen hlive helems hle hnodup hinj
    exact ⟨t2, h1⟩
  · intro t2 hR
    obtain ⟨hg, _⟩ := HandleTable.Resize_shape read t t2 hR
    by_cases hle : t.elems_ ≤ 2147483648
    · obtain ⟨t3, h1, h2, h3, h4⟩ :=
        HandleTable.Resize_spec read t hlen hlive helems hle hnodup hinj
      rw [hR] at h1
      cases h1
      obtain ⟨b, hb1, hb2, _, _, _⟩ :=
        HandleTable.Resize.grow_spec t.elems_ hle 32 2 (by decide) (by decide)
      have hb1 : HandleTable.Resize.grow t.elems_ 32 4 = some (2 ^ b) := hb1
      rw [hb1] at hg
      have hL : 2 ^ b = t2.length_ := Option.some.inj hg
      refine ⟨⟨h2, ⟨b, hL.symm⟩, ?_⟩, h3, h4⟩
      have : 2 ^ 2 ≤ 2 ^ b := Nat.pow_le_pow_right (by decide) hb2
      omega
    · rw [HandleTable.Resize.grow_none t.elems_ (by omega) 32 4 (Or.inr ⟨2, by decide, rfl⟩)]
        at hg
      cases hg

/-- The method `HandleTable::Insert` returns exactly when the table chains fewer than `2^31`
handles or chains a handle with the hash and key of the new one. -/
theorem HandleTable.Insert_returns_iff (read : Nat → Option (Nat × Bytes)) (t : HandleTable)
    (e hash : Nat) (key : Bytes) (hinv : t.Invariant read) (he : read e = some (hash, key))
    (hnew : e ∉ t.entries) :
    (t.elems_ < 2147483648 ∨ ∃ o ∈ t.entries, read o = some (hash, key)) ↔
      ∃ t2 old, t.Insert read e = some (t2, old) := by
  constructor
  · intro h
    obtain ⟨t2, old, h1, _⟩ := HandleTable.Insert_cases read t e hash key hinv.1 he hnew h
    exact ⟨t2, old, h1⟩
  · rintro ⟨t2, old, h1⟩
    by_contra hc
    rw [not_or] at hc
    have hno : ∀ p ∈ t.entries, read p ≠ some (hash, key) := fun p hp hr => hc.2 ⟨p, hp, hr⟩
    rw [HandleTable.Insert_hangs read t e hash key hinv he hno (by omega)] at h1
    cases h1

/-- A table that `2^31` calls of `Insert` have filled: every call returns while fewer than
`2^31` handles are chained, and the invariant holds after each. -/
theorem HandleTable.filled_spec (n : Nat) (hn : n ≤ 2147483648) :
    ∃ t, HandleTable.filled (fun p => some (p, [])) n = some t ∧
      t.Invariant (fun p => some (p, [])) ∧ t.elems_ = n ∧ ∀ p ∈ t.entries, p < n := by
  induction n with
  | zero =>
    refine ⟨HandleTable.new, rfl, HandleTable.new_Invariant _, ?_, ?_⟩
    · rw [HandleTable.new_eq]
    · rw [HandleTable.new_eq]
      intro p hp
      simp [HandleTable.entries] at hp
  | succ n ih =>
    obtain ⟨t, h1, h2, h3, h4⟩ := ih (by omega)
    have hnew : n ∉ t.entries := fun hm => by
      have := h4 n hm
      omega
    obtain ⟨htot, hpart⟩ := HandleTable.Insert_invariant (fun p => some (p, [])) t n n []
      h2 rfl hnew
    obtain ⟨t2, old, hI⟩ := htot (by omega)
    obtain ⟨k1, _, _, k4⟩ := hpart t2 old hI
    refine ⟨t2, ?_, k1, ?_, ?_⟩
    · unfold HandleTable.filled
      rw [h1, Option.some_bind, hI]
      rfl
    · rcases k4 with ⟨_, _, _, j⟩ | ⟨o, R, _, j2, j3, _⟩
      · omega
      · have ho : o < n := h4 o (j3.mem_iff.mpr (List.mem_cons_self _ _))
        have j2 := Prod.mk.inj (Option.some.inj j2)
        omega
    · intro p hp
      rcases k4 with ⟨_, _, j, _⟩ | ⟨o, R, _, j2, j3, _⟩
      · rcases List.mem_cons.mp (j.mem_iff.mp hp) with h5 | h5
        · omega
        · have := h4 p h5
          omega
      · have ho : o < n := h4 o (j3.mem_iff.mpr (List.mem_cons_self _ _))
        have j2 := Prod.mk.inj (Option.some.inj j2)
        omega

/-- The method `HandleTable::Resize` returns exactly when `elems_` is at most `2^31`. -/
theorem HandleTable.Resize_returns_iff (read : Nat → Option (Nat × Bytes)) (t : HandleTable)
    (hlen : t.list_.length = t.length_) (hlive : ∀ p ∈ t.entries, read p ≠ none)
    (helems : t.elems_ = t.entries.length) (hnodup : t.entries.Nodup)
    (hinj : ∀ p ∈ t.entries, ∀ q ∈ t.entries, read p = read q → p = q) :
    t.elems_ ≤ 2147483648 ↔ ∃ t2, t.Resize read = some t2 := by
  constructor
  · exact (HandleTable.Resize_invariant read t hlen hlive helems hnodup hinj).1
  · rintro ⟨t2, h⟩
    by_contra hc
    have h1 := (HandleTable.Resize_shape read t t2 h).1
    rw [HandleTable.Resize.grow_none t.elems_ (by omega) 32 4 (Or.inr ⟨2, by omega, rfl⟩)] at h1
    cases h1

/-- Claim C34 (as amended): a new `HandleTable` satisfies the invariant: `length_` is a
power of two that is at least 4, the array has `length_` buckets, `elems_` is the number
of handles chained and is at most `length_`, every handle chained is live and sits in the
bucket `hash & (length_ - 1)`, and no two handles chained have the same hash and key.
`Remove` returns and keeps the invariant and the length. `Insert` returns exactly when the
table chains fewer than `2^31` handles or chains a handle with the hash and key of the new
one; when it returns it keeps the invariant, it doubles `length_` exactly when it calls
`Resize`, which is when no handle had the hash and key of the new one and
`elems_ == length_` before, and leaves `length_` unchanged otherwise. `Resize` returns
exactly when `elems_` is at most `2^31`; it then keeps the handles chained, and its
assertion holds. -/
theorem C34_table_invariant (read : Nat → Option (Nat × Bytes)) :
    HandleTable.new.Invariant read ∧
    (∀ (t : HandleTable) (key : Bytes) (hash : Nat), t.Invariant read →
      ∃ t2 r, t.Remove read key hash = some (t2, r) ∧ t2.Invariant read ∧
        t2.length_ = t.length_ ∧
        ((r = none ∧ t2 = t ∧ ∀ p ∈ t.entries, read p ≠ some (hash, key)) ∨
          ∃ o, r = some o ∧ read o = some (hash, key) ∧ t.entries.Perm (o :: t2.entries) ∧
            t2.elems_ + 1 = t.elems_)) ∧
    (∀ (t : HandleTable) (e hash : Nat) (key : Bytes), t.Invariant read →
      read e = some (hash, key) → e ∉ t.entries →
      ((t.elems_ < 2147483648 ∨ ∃ o ∈ t.entries, read o = some (hash, key)) ↔
        ∃ t2 old, t.Insert read e = some (t2, old)) ∧
      ∀ t2 old, t.Insert read e = some (t2, old) →
        t2.Invariant read ∧
        (old = none ∧ t.length_ < t.elems_ + 1 → t2.length_ = 2 * t.length_) ∧
        (¬ (old = none ∧ t.length_ < t.elems_ + 1) → t2.length_ = t.length_) ∧
        ((old = none ∧ (∀ p ∈ t.entries, read p ≠ some (hash, key)) ∧
            t2.entries.Perm (e :: t.entries) ∧ t2.elems_ = t.elems_ + 1) ∨
          ∃ o R, old = some o ∧ read o = some (hash, key) ∧ t.entries.Perm (o :: R) ∧
            t2.entries.Perm (e :: R) ∧ t2.elems_ = t.elems_)) ∧
    (∀ t : HandleTable, t.list_.length = t.length_ → (∀ p ∈ t.entries, read p ≠ none) →
      t.elems_ = t.entries.length → t.entries.Nodup →
      (∀ p ∈ t.entries, ∀ q ∈ t.entries, read p = read q → p = q) →
      (t.elems_ ≤ 2147483648 ↔ ∃ t2, t.Resize read = some t2) ∧
      ∀ t2, t.Resize read = some t2 →
        t2.Invariant read ∧ t2.entries.Perm t.entries ∧ t2.elems_ = t.elems_) :=
  ⟨HandleTable.new_Invariant read,
    fun t key hash h => HandleTable.Remove_invariant read t key hash h,
    fun t e hash key h he hnew =>
      ⟨HandleTable.Insert_returns_iff read t e hash key h he hnew,
        (HandleTable.Insert_invariant read t e hash key h he hnew).2⟩,
    fun t h1 h2 h3 h4 h5 =>
      ⟨HandleTable.Resize_returns_iff read t h1 h2 h3 h4 h5,
        (HandleTable.Resize_invariant read t h1 h2 h3 h4 h5).2⟩⟩

theorem C34_table_invariant_witness :
    ∃ t2 old, HandleTable.new.Insert (fun p => if p = 0 then some (5, [1]) else none) 0 =
      some (t2, old) :=
  ((C34_table_invariant (fun p => if p = 0 then some (5, [1]) else none)).2.2.1
    HandleTable.new 0 5 [1]
    (C34_table_invariant (fun p => if p = 0 then some (5, [1]) else none)).1 rfl
    (by decide)).1.mp (Or.inl (by decide))

/-- C34 as stated fails on a table that chains `2^31` handles. After `Insert` of the
handles `0, ..., 2^31 - 1`, which have the hashes `0, ..., 2^31 - 1` and the empty key,
the table satisfies the invariant with `elems_ == length_ == 2^31`; the `Insert` of one
more handle with a new hash calls `Resize`, whose loop doubles `new_length` in 32 bits from
4 to `2^31` and then to 0 and never reaches `elems_ == 2^31 + 1`: the call does not
return, so that there is no table after it and no new length. -/
theorem C34_counterexample :
    ∃ t, HandleTable.filled (fun p => some (p, [])) 2147483648 = some t ∧
      t.Invariant (fun p => some (p, [])) ∧ t.elems_ = 2147483648 ∧
      t.length_ = 2147483648 ∧ 2147483648 ∉ t.entries ∧
      t.Insert (fun p => some (p, [])) 2147483648 = none ∧
      ∀ fuel, HandleTable.Resize.grow 2147483649 fuel 4 = none := by
  obtain ⟨t, h1, h2, h3, h4⟩ := HandleTable.filled_spec 2147483648 (le_refl _)
  have hnew : (2147483648 : Nat) ∉ t.entries := fun hm => by
    have := h4 _ hm
    omega
  refine ⟨t, h1, h2, h3, ?_, hnew, ?_, ?_⟩
  · have k1 := h2.length_le
    have k2 := h2.1.elems_le
    omega
  · refine HandleTable.Insert_hangs _ t 2147483648 2147483648 [] h2 rfl ?_ (by omega)
    intro p hp hr
    have := h4 p hp
    have hr := Prod.mk.inj (Option.some.inj hr)
    omega
  · intro fuel
    exact HandleTable.Resize.grow_none 2147483649 (by omega) fuel 4 (Or.inr ⟨2, by omega, rfl⟩)

/-! ## The changes that the operations of the cache make -/

/-- What `FinishErase(e)` changes, for `e != NULL`, when no assertion fails: the entry
leaves its list and the cache, `usage_` is decreased in 64 bits by its charge, and the entry
is freed when the cache held the only reference. -/
theorem LRUCache.FinishErase_shape (c c3 : LRUCache) (p : Nat) (b : Bool)
    (h : c.FinishErase (some p) = some (c3, b)) :
    ∃ hd, c.heap p = some hd ∧ hd.in_cache = true ∧ b = true ∧
      c3.usage_ = uint64_t (c.usage_ + (18446744073709551616 - uint64_t hd.charge)) ∧
      c3.capacity_ = c.capacity_ ∧ c3.allocated = c.allocated ∧ c3.table_ = c.table_ ∧
      c3.lru_ = c.lru_.erase p ∧
      c3.in_use_ = (if p ∈ c.lru_ then c.in_use_ else c.in_use_.erase p) ∧
      (∀ q, q ≠ p → c3.heap q = c.heap q) ∧
      ((c3.heap p = none ∧ hd.refs = 1 ∧
          c3.deleted = c.deleted ++ [(hd.deleter, hd.key, hd.value)]) ∨
        (c3.heap p = some { hd with in_cache := false, refs := hd.refs - 1 } ∧ 1 < hd.refs ∧
          c3.deleted = c.deleted)) := by
  unfold LRUCache.FinishErase at h
  simp only at h
  cases hh : c.heap p with
  | none =>
    rw [hh] at h
    cases h
  | some hd =>
    rw [hh] at h
    simp only at h
    by_cases hic : hd.in_cache = true
    · simp only [hic, not_true_eq_false, if_false] at h
      -- the cache after `LRU_Remove`
      have hrem : ∃ c1, c.LRU_Remove p = some c1 ∧ c1.heap = c.heap ∧ c1.usage_ = c.usage_ ∧
          c1.capacity_ = c.capacity_ ∧ c1.allocated = c.allocated ∧ c1.table_ = c.table_ ∧
          c1.deleted = c.deleted ∧ c1.lru_ = c.lru_.erase p ∧
          c1.in_use_ = (if p ∈ c.lru_ then c.in_use_ else c.in_use_.erase p) := by
        cases hr : c.LRU_Remove p with
        | none =>
          rw [hr] at h
          cases h
        | some c1 =>
          refine ⟨c1, rfl, ?_⟩
          unfold LRUCache.LRU_Remove at hr
          by_cases hl : p ∈ c.lru_
          · rw [if_pos hl] at hr
            cases hr
            exact ⟨rfl, rfl, rfl, rfl, rfl, rfl, rfl, by rw [if_pos hl]⟩
          · rw [if_neg hl] at hr
            by_cases hi : p ∈ c.in_use_
            · rw [if_pos hi] at hr
              cases hr
              exact ⟨rfl, rfl, rfl, rfl, rfl, rfl, (List.erase_of_not_mem hl).symm,
                by rw [if_neg hl]⟩
            · rw [if_neg hi] at hr
              cases hr
      obtain ⟨c1, hc1, e1, e2, e3, e4, e5, e6, e7, e8⟩ := hrem
      rw [hc1] at h
      simp only at h
      unfold LRUCache.Unref at h
      simp only [Function.update_same, Bool.false_eq_true, false_and, if_false] at h
      by_cases hpos : hd.refs > 0
      · simp only [hpos, not_true_eq_false, if_false] at h
        by_cases h0 : hd.refs - 1 = 0
        · simp only [h0, if_true, Option.map_some', Option.some.injEq, Prod.mk.injEq] at h
          obtain ⟨h1, h2⟩ := h
          subst h1
          refine ⟨hd, rfl, hic, h2.symm, by rw [e2], e3, e4, e5, e7, e8, ?_,
            Or.inl ⟨Function.update_same _ _ _, by omega, by rw [e6]⟩⟩
          intro q hq
          show Function.update (Function.update c1.heap p _) p none q = _
          rw [Function.update_noteq hq, Function.update_noteq hq, e1]
        · simp only [h0, if_false, Option.map_some', Option.some.injEq, Prod.mk.injEq] at h
          obtain ⟨h1, h2⟩ := h
          subst h1
          refine ⟨hd, rfl, hic, h2.symm, by rw [e2], e3, e4, e5, e7, e8, ?_,
            Or.inr ⟨Function.update_same _ _ _, by omega, e6⟩⟩
          intro q hq
          show Function.update (Function.update c1.heap p _) p _ q = _
          rw [Function.update_noteq hq, Function.update_noteq hq, e1]
      · simp only [hpos, not_false_eq_true, if_true, Option.map_none'] at h
        cases h
    · simp only [hic, not_false_eq_true, if_true] at h
      cases h

/-- The method `Insert` in two steps: the handle enters the cache, then the loop of line 343
runs. -/
theorem LRUCache.Insert_eq (c : LRUCache) (key : Bytes) (hash value charge deleter : Nat) :
    c.Insert key hash value charge deleter =
      (if c.capacity_ > 0 then
          LRUCache.Insert.link (LRUCache.Insert.entered c key hash value charge deleter)
            c.allocated
        else some (LRUCache.Insert.uncached c key hash value charge deleter)).bind
        fun c5 => (LRUCache.Insert.evict (c5.table_.list_.flatten.length + 1) c5).map
          fun c6 => (c6, c.allocated) := by
  unfold LRUCache.Insert LRUCache.Insert.entered LRUCache.Insert.uncached
  simp only [LRUCache.LRU_Append, show uint32_t (1 + 1) = 2 from rfl, Function.update_idem]
  by_cases hcap : c.capacity_ > 0
  · simp only [hcap, if_true]
    cases LRUCache.Insert.link _ c.allocated <;> rfl
  · simp only [hcap, if_false]
    rfl

theorem sum_range_congr (f g : Nat → Nat) (n : Nat) (h : ∀ p, p < n → g p = f p) :
    ((List.range n).map g).sum = ((List.range n).map f).sum := by
  induction n with
  | zero => rfl
  | succ n ih =>
    rw [List.range_succ, List.map_append, List.map_append, List.sum_append, List.sum_append,
      ih (fun p hp => h p (Nat.lt_succ_of_lt hp))]
    simp only [List.map_cons, List.map_nil, List.sum_cons, List.sum_nil, Nat.add_zero]
    rw [h n (Nat.lt_succ_self n)]

/-- A sum over `0, ..., n - 1` of a function changed at one point. -/
theorem sum_range_update (f g : Nat → Nat) (n e : Nat) (he : e < n)
    (h : ∀ p, p ≠ e → g p = f p) :
    ((List.range n).map g).sum + f e = ((List.range n).map f).sum + g e := by
  induction n with
  | zero => omega
  | succ n ih =>
    rw [List.range_succ, List.map_append, List.map_append, List.sum_append, List.sum_append]
    simp only [List.map_cons, List.map_nil, List.sum_cons, List.sum_nil, Nat.add_zero]
    by_cases hen : e = n
    · subst hen
      rw [sum_range_congr f g e (fun p hp => h p (by omega))]
      omega
    · have := ih (by omega)
      rw [h n (fun hc => hen hc.symm)]
      omega

theorem LRUCache.chargeAt_congr {c c2 : LRUCache} {p : Nat} (h : c2.heap p = c.heap p) :
    c2.chargeAt p = c.chargeAt p := by
  unfold LRUCache.chargeAt
  rw [h]

theorem LRUCache.chargeAt_some {c : LRUCache} {p : Nat} {h : LRUHandle}
    (hh : c.heap p = some h) :
    c.chargeAt p = if h.in_cache = true then h.charge else 0 := by
  unfold LRUCache.chargeAt
  rw [hh]

theorem LRUCache.chargeAt_none {c : LRUCache} {p : Nat} (hh : c.heap p = none) :
    c.chargeAt p = 0 := by
  unfold LRUCache.chargeAt
  rw [hh]

theorem LRUCache.cachedCharge_congr {c c2 : LRUCache} (ha : c2.allocated = c.allocated)
    (h : ∀ p, c2.chargeAt p = c.chargeAt p) : c2.cachedCharge = c.cachedCharge := by
  unfold LRUCache.cachedCharge
  rw [ha]
  exact sum_range_congr _ _ _ (fun p _ => h p)

theorem LRUCache.cachedCharge_update {c c2 : LRUCache} (e : Nat)
    (ha : c2.allocated = c.allocated) (he : e < c.allocated)
    (h : ∀ p, p ≠ e → c2.chargeAt p = c.chargeAt p) :
    c2.cachedCharge + c.chargeAt e = c.cachedCharge + c2.chargeAt e := by
  unfold LRUCache.cachedCharge
  rw [ha]
  exact sum_range_update _ _ _ e he h

theorem LRUCache.cachedCharge_alloc {c c2 : LRUCache}
    (ha : c2.allocated = c.allocated + 1)
    (h : ∀ p, p ≠ c.allocated → c2.chargeAt p = c.chargeAt p) :
    c2.cachedCharge = c.cachedCharge + c2.chargeAt c.allocated := by
  unfold LRUCache.cachedCharge
  rw [ha, List.range_succ, List.map_append, List.sum_append,
    sum_range_congr c.chargeAt c2.chargeAt c.allocated (fun p hp => h p (by omega))]
  simp

/-- Subtraction of a charge in 64 bits. -/
theorem usage_sub (s ch : Nat) (h : ch ≤ s) :
    uint64_t (uint64_t s + (18446744073709551616 - uint64_t ch)) = uint64_t (s - ch) := by
  unfold uint64_t
  omega

/-- What `Ref(e)` leaves unchanged. -/
theorem LRUCache.Ref_shape (c c2 : LRUCache) (e : Nat) (h : c.Ref e = some c2) :
    c2.usage_ = c.usage_ ∧ c2.capacity_ = c.capacity_ ∧ c2.allocated = c.allocated ∧
      c2.table_ = c.table_ ∧ c2.deleted = c.deleted ∧
      (∀ p, c2.chargeAt p = c.chargeAt p) ∧ (∀ p, p ≠ e → c2.heap p = c.heap p) ∧
      ∃ hd, c.heap e = some hd ∧
        c2.heap e = some { hd with refs := uint32_t (hd.refs + 1) } := by
  unfold LRUCache.Ref at h
  cases hh : c.heap e with
  | none =>
    rw [hh] at h
    cases h
  | some hd =>
    rw [hh] at h
    simp only at h
    have hcharge : ∀ (c1 : LRUCache), c1.heap = Function.update c.heap e
        (some { hd with refs := uint32_t (hd.refs + 1) }) → ∀ p,
        c1.chargeAt p = c.chargeAt p := by
      intro c1 h1 p
      unfold LRUCache.chargeAt
      by_cases hp : p = e
      · subst hp
        simp only [h1, Function.update_same, hh]
      · simp only [h1, Function.update_noteq hp]
    by_cases hc : hd.refs = 1 ∧ hd.in_cache = true
    · rw [if_pos hc] at h
      unfold LRUCache.LRU_Remove at h
      by_cases hl : e ∈ c.lru_
      · rw [if_pos hl] at h
        simp only [Option.map_some', LRUCache.LRU_Append, Option.some.injEq] at h
        subst h
        exact ⟨rfl, rfl, rfl, rfl, rfl, hcharge _ rfl,
          fun p hp => Function.update_noteq hp _ _, hd, rfl, Function.update_same _ _ _⟩
      · rw [if_neg hl] at h
        by_cases hi : e ∈ c.in_use_
        · rw [if_pos hi] at h
          simp only [Option.map_some', LRUCache.LRU_Append, Option.some.injEq] at h
          subst h
          exact ⟨rfl, rfl, rfl, rfl, rfl, hcharge _ rfl,
            fun p hp => Function.update_noteq hp _ _, hd, rfl, Function.update_same _ _ _⟩
        · rw [if_neg hi] at h
          cases h
    · rw [if_neg hc] at h
      simp only [Option.map_some', Option.some.injEq] at h
      subst h
      exact ⟨rfl, rfl, rfl, rfl, rfl, hcharge _ rfl,
        fun p hp => Function.update_noteq hp _ _, hd, rfl, Function.update_same _ _ _⟩

/-- What `Unref(e)` leaves unchanged. -/
theorem LRUCache.Unref_shape (c c2 : LRUCache) (e : Nat) (h : c.Unref e = some c2) :
    c2.usage_ = c.usage_ ∧ c2.capacity_ = c.capacity_ ∧ c2.allocated = c.allocated ∧
      c2.table_ = c.table_ ∧ (∀ p, c2.chargeAt p = c.chargeAt p) ∧
      (∀ p, p ≠ e → c2.heap p = c.heap p) := by
  unfold LRUCache.Unref at h
  cases hh : c.heap e with
  | none =>
    rw [hh] at h
    cases h
  | some hd =>
    rw [hh] at h
    simp only at h
    by_cases hpos : hd.refs > 0
    · simp only [hpos, not_true_eq_false, if_false] at h
      by_cases h0 : hd.refs - 1 = 0
      · simp only [h0, if_true] at h
        by_cases hic : hd.in_cache = false
        · simp only [hic, not_true_eq_false, if_false, Option.some.injEq] at h
          subst h
          refine ⟨rfl, rfl, rfl, rfl, ?_, fun p hp => Function.update_noteq hp _ _⟩
          intro p
          unfold LRUCache.chargeAt
          by_cases hp : p = e
          · subst hp
            simp only [Function.update_same, hh, hic, Bool.false_eq_true, if_false]
          · simp only [Function.update_noteq hp]
        · simp only [hic, not_false_eq_true, if_true] at h
          cases h
      · simp only [h0, if_false] at h
        have hcharge : ∀ (c1 : LRUCache), c1.heap = Function.update c.heap e
            (some { hd with refs := hd.refs - 1 }) → ∀ p, c1.chargeAt p = c.chargeAt p := by
          intro c1 h1 p
          unfold LRUCache.chargeAt
          by_cases hp : p = e
          · subst hp
            simp only [h1, Function.update_same, hh]
          · simp only [h1, Function.update_noteq hp]
        have hframe : ∀ (c1 : LRUCache), c1.heap = Function.update c.heap e
            (some { hd with refs := hd.refs - 1 }) → ∀ p, p ≠ e → c1.heap p = c.heap p := by
          intro c1 h1 p hp
          rw [h1, Function.update_noteq hp]
        by_cases hc : hd.in_cache = true ∧ hd.refs - 1 = 1
        · rw [if_pos hc] at h
          unfold LRUCache.LRU_Remove at h
          simp only at h
          by_cases hl : e ∈ c.lru_
          · rw [if_pos hl] at h
            simp only [Option.map_some', LRUCache.LRU_Append, Option.some.injEq] at h
            subst h
            exact ⟨rfl, rfl, rfl, rfl, hcharge _ rfl, hframe _ rfl⟩
          · rw [if_neg hl] at h
            by_cases hi : e ∈ c.in_use_
            · rw [if_pos hi] at h
              simp only [Option.map_some', LRUCache.LRU_Append, Option.some.injEq] at h
              subst h
              exact ⟨rfl, rfl, rfl, rfl, hcharge _ rfl, hframe _ rfl⟩
            · rw [if_neg hi] at h
              cases h
        · rw [if_neg hc] at h
          simp only [Option.some.injEq] at h
          subst h
          exact ⟨rfl, rfl, rfl, rfl, hcharge _ rfl, hframe _ rfl⟩
    · simp only [hpos, not_false_eq_true, if_true] at h
      cases h

/-- The statement `FinishErase(table_.Insert(e))` step by step. -/
theorem LRUCache.Insert.link_shape (c c5 : LRUCache) (e : Nat)
    (h : LRUCache.Insert.link c e = some c5) :
    ∃ t old, c.table_.Insert c.read e = some (t, old) ∧
      ((old = none ∧ c5.table_ = t ∧ c5.lru_ = c.lru_ ∧ c5.in_use_ = c.in_use_ ∧
          c5.heap = c.heap ∧ c5.deleted = c.deleted ∧ c5.usage_ = c.usage_ ∧
          c5.capacity_ = c.capacity_ ∧ c5.allocated = c.allocated) ∨
        ∃ o, old = some o ∧
          LRUCache.FinishErase { c with table_ := t } (some o) = some (c5, true)) := by
  unfold LRUCache.Insert.link at h
  cases hI : c.table_.Insert c.read e with
  | none =>
    rw [hI] at h
    cases h
  | some r =>
    obtain ⟨t, old⟩ := r
    rw [hI] at h
    simp only at h
    refine ⟨t, old, rfl, ?_⟩
    cases old with
    | none =>
      left
      simp only [LRUCache.FinishErase, Option.map_some', Option.some.injEq] at h
      subst h
      exact ⟨rfl, rfl, rfl, rfl, rfl, rfl, rfl, rfl, rfl⟩
    | some o =>
      right
      cases hF : LRUCache.FinishErase { c with table_ := t } (some o) with
      | none =>
        rw [hF] at h
        cases h
      | some r2 =>
        obtain ⟨c3, b⟩ := r2
        rw [hF] at h
        simp only [Option.map_some', Option.some.injEq] at h
        subst h
        obtain ⟨_, _, _, hb, _⟩ := LRUCache.FinishErase_shape _ c3 o b hF
        subst hb
        exact ⟨o, rfl, hF⟩

/-! ## The usage and the charges -/

theorem LRUCache.usage_of_same {c c2 : LRUCache} (hu : c2.usage_ = c.usage_)
    (ha : c2.allocated = c.allocated) (hc : ∀ p, c2.chargeAt p = c.chargeAt p)
    (hU : c.usage_ = uint64_t c.cachedCharge) : c2.usage_ = uint64_t c2.cachedCharge := by
  rw [hu, hU, LRUCache.cachedCharge_congr ha hc]

/-! ## The invariants that every call that returns keeps -/

theorem LRUCache.Linked.lt_allocated {c : LRUCache} {e : Nat} {h : LRUHandle}
    (hl : c.Linked) (hh : c.heap e = some h) : e < c.allocated := by
  by_contra hc
  have := hl.fresh e (Nat.le_of_not_lt hc)
  rw [hh] at this
  cases this

/-- The invariant of the lists passes from a cache to one that differs from it at one
handle only, where it is checked directly. -/
theorem LRUCache.Linked.transfer {c c2 : LRUCache} (e : Nat) (hl : c.Linked)
    (hheap : ∀ p, p ≠ e → c2.heap p = c.heap p)
    (hlru : ∀ p, p ≠ e → (p ∈ c2.lru_ ↔ p ∈ c.lru_))
    (hin : ∀ p, p ≠ e → (p ∈ c2.in_use_ ↔ p ∈ c.in_use_))
    (halloc : c.allocated ≤ c2.allocated)
    (hnd1 : c2.lru_.Nodup) (hnd2 : c2.in_use_.Nodup)
    (he_fresh : c2.allocated ≤ e → c2.heap e = none)
    (he_lru : e ∈ c2.lru_ → ∃ h, c2.heap e = some h ∧ h.in_cache = true ∧ h.refs = 1)
    (he_in : e ∈ c2.in_use_ → ∃ h, c2.heap e = some h ∧ h.in_cache = true)
    (he_listed : ∀ h, c2.heap e = some h → h.in_cache = true →
      (e ∈ c2.lru_ ∧ e ∉ c2.in_use_) ∨ (e ∉ c2.lru_ ∧ e ∈ c2.in_use_)) : c2.Linked := by
  refine ⟨?_, hnd1, hnd2, ?_, ?_, ?_⟩ <;> intro p <;> by_cases hp : p = e
  · subst hp; exact he_fresh
  · intro ha
    rw [hheap p hp]
    exact hl.fresh p (le_trans halloc ha)
  · subst hp; exact he_lru
  · rw [hlru p hp, hheap p hp]; exact hl.lru_mem p
  · subst hp; exact he_in
  · rw [hin p hp, hheap p hp]; exact hl.in_use_mem p
  · subst hp; exact he_listed
  · rw [hheap p hp, hlru p hp, hin p hp]; exact hl.listed p

theorem LRUCache.Linked.of_eq {c c2 : LRUCache} (hl : c.Linked)
    (hheap : c2.heap = c.heap) (hlru : c2.lru_ = c.lru_) (hin : c2.in_use_ = c.in_use_)
    (hal : c2.allocated = c.allocated) : c2.Linked := by
  refine ⟨?_, ?_, ?_, ?_, ?_, ?_⟩
  · rw [hal, hheap]; exact hl.fresh
  · rw [hlru]; exact hl.lru_nodup
  · rw [hin]; exact hl.in_use_nodup
  · rw [hlru, hheap]; exact hl.lru_mem
  · rw [hin, hheap]; exact hl.in_use_mem
  · rw [hheap, hlru, hin]; exact hl.listed

/-- The method `Ref` returns on a live handle and keeps the invariant of the lists: a
handle in the cache with one reference becomes the newest entry of the `in_use_` list,
and nothing else moves. -/
theorem LRUCache.Linked.Ref_linked {c : LRUCache} {e : Nat} {h : LRUHandle} (hl : c.Linked)
    (hh : c.heap e = some h) :
    ∃ c2, c.Ref e = some c2 ∧ c2.Linked ∧
      (h.refs = 1 ∧ h.in_cache = true →
        c2.lru_ = c.lru_.erase e ∧ c2.in_use_ = c.in_use_.erase e ++ [e]) ∧
      (¬ (h.refs = 1 ∧ h.in_cache = true) → c2.lru_ = c.lru_ ∧ c2.in_use_ = c.in_use_) := by
  have hal := hl.lt_allocated hh
  unfold LRUCache.Ref
  simp only [hh]
  by_cases hc : h.refs = 1 ∧ h.in_cache = true
  · rw [if_pos hc]
    rcases hl.listed e h hh hc.2 with ⟨h1, h2⟩ | ⟨h1, h2⟩
    · simp only [LRUCache.LRU_Remove, h1, if_true, Option.map_some', LRUCache.LRU_Append]
      refine ⟨_, rfl, ?_, fun _ => ⟨rfl, by rw [List.erase_of_not_mem h2]⟩,
        fun hn => absurd hc hn⟩
      refine LRUCache.Linked.transfer e hl (fun p hp => Function.update_noteq hp _ _)
        (fun p hp => mem_erase_other hp) (fun p hp => mem_append_single_other hp) (le_refl _)
        (hl.lru_nodup.erase e) (nodup_append_single hl.in_use_nodup h2)
        (fun ha => absurd ha (Nat.not_le_of_lt hal)) ?_ ?_ ?_
      · intro hm
        exact absurd hm (not_mem_erase_self hl.lru_nodup)
      · intro _
        exact ⟨_, Function.update_same e _ c.heap, hc.2⟩
      · intro _ _ _
        exact Or.inr ⟨not_mem_erase_self hl.lru_nodup,
          List.mem_append_right _ (List.mem_singleton_self e)⟩
    · simp only [LRUCache.LRU_Remove, h1, h2, if_true, if_false, Option.map_some',
        LRUCache.LRU_Append]
      refine ⟨_, rfl, ?_, fun _ => ⟨by rw [List.erase_of_not_mem h1], rfl⟩,
        fun hn => absurd hc hn⟩
      refine LRUCache.Linked.transfer e hl (fun p hp => Function.update_noteq hp _ _)
        (fun p hp => Iff.rfl)
        (fun p hp => (mem_append_single_other hp).trans (mem_erase_other hp)) (le_refl _)
        hl.lru_nodup
        (nodup_append_single (hl.in_use_nodup.erase e) (not_mem_erase_self hl.in_use_nodup))
        (fun ha => absurd ha (Nat.not_le_of_lt hal)) ?_ ?_ ?_
      · intro hm
        exact absurd hm h1
      · intro _
        exact ⟨_, Function.update_same e _ c.heap, hc.2⟩
      · intro _ _ _
        exact Or.inr ⟨h1, List.mem_append_right _ (List.mem_singleton_self e)⟩
  · rw [if_neg hc]
    refine ⟨_, rfl, ?_, fun h2 => absurd h2 hc, fun _ => ⟨rfl, rfl⟩⟩
    refine LRUCache.Linked.transfer e hl (fun p hp => Function.update_noteq hp _ _)
      (fun p hp => Iff.rfl) (fun p hp => Iff.rfl) (le_refl _) hl.lru_nodup hl.in_use_nodup
      (fun ha => absurd ha (Nat.not_le_of_lt hal)) ?_ ?_ ?_
    · intro hm
      obtain ⟨h2, h3, h4, h5⟩ := hl.lru_mem e hm
      rw [hh] at h3
      cases h3
      exact absurd ⟨h5, h4⟩ hc
    · intro hm
      obtain ⟨h2, h3, h4⟩ := hl.in_use_mem e hm
      rw [hh] at h3
      cases h3
      exact ⟨_, Function.update_same e _ c.heap, h4⟩
    · intro h2 h3 h4
      have h5 : Function.update c.heap e
          (some { h with refs := uint32_t (h.refs + 1) }) e = some h2 := h3
      rw [Function.update_same] at h5
      cases h5
      exact hl.listed e h hh h4

/-- The method `Unref`, when it returns, keeps the invariant of the lists: the handle had
a reference to drop; with its last reference it is freed, and it was not in the cache;
a handle in the cache left with one reference becomes the newest entry of the `lru_`
list. -/
theorem LRUCache.Linked.Unref_linked {c c2 : LRUCache} {e : Nat} (hl : c.Linked)
    (h : c.Unref e = some c2) :
    c2.Linked ∧ ∃ hd, c.heap e = some hd ∧ 0 < hd.refs ∧
      ¬ (hd.refs = 1 ∧ hd.in_cache = true) ∧
      (hd.refs = 1 → c2.heap e = none ∧ c2.lru_ = c.lru_ ∧ c2.in_use_ = c.in_use_ ∧
        c2.deleted = c.deleted ++ [(hd.deleter, hd.key, hd.value)]) ∧
      (hd.refs ≠ 1 → c2.heap e = some { hd with refs := hd.refs - 1 } ∧
        c2.deleted = c.deleted ∧
        (hd.in_cache = true ∧ hd.refs = 2 →
          e ∈ c.in_use_ ∧ c2.lru_ = c.lru_ ++ [e] ∧ c2.in_use_ = c.in_use_.erase e) ∧
        (¬ (hd.in_cache = true ∧ hd.refs = 2) →
          c2.lru_ = c.lru_ ∧ c2.in_use_ = c.in_use_)) := by
  cases hh : c.heap e with
  | none =>
    unfold LRUCache.Unref at h
    simp only [hh] at h
    cases h
  | some hd =>
    have hal := hl.lt_allocated hh
    unfold LRUCache.Unref at h
    simp only [hh] at h
    by_cases hpos : hd.refs > 0
    · simp only [hpos, not_true_eq_false, if_false] at h
      by_cases h0 : hd.refs - 1 = 0
      · rw [if_pos h0] at h
        have h1 : hd.refs = 1 := by omega
        cases hic : hd.in_cache with
        | true =>
          simp only [hic, Bool.true_eq_false, not_false_eq_true, if_true] at h
          cases h
        | false =>
          simp only [hic, not_true_eq_false, if_false] at h
          cases h
          have hnl : e ∉ c.lru_ := fun hm => by
            obtain ⟨h2, h3, h4, -⟩ := hl.lru_mem e hm
            rw [hh] at h3
            cases h3
            rw [hic] at h4
            cases h4
          have hni : e ∉ c.in_use_ := fun hm => by
            obtain ⟨h2, h3, h4⟩ := hl.in_use_mem e hm
            rw [hh] at h3
            cases h3
            rw [hic] at h4
            cases h4
          refine ⟨?_, hd, rfl, hpos, fun h2 => by
            have h3 := h2.2
            first
              | cases h3
              | (rw [hic] at h3; cases h3), ?_, fun h2 => absurd h1 h2⟩
          · refine LRUCache.Linked.transfer e hl (fun p hp => Function.update_noteq hp _ _)
              (fun p hp => Iff.rfl) (fun p hp => Iff.rfl) (le_refl _) hl.lru_nodup
              hl.in_use_nodup (fun _ => Function.update_same e _ c.heap)
              (fun hm => absurd hm hnl) (fun hm => absurd hm hni) ?_
            intro h2 h3
            have h5 : Function.update c.heap e none e = some h2 := h3
            rw [Function.update_same] at h5
            cases h5
          · intro _
            exact ⟨Function.update_same e _ c.heap, rfl, rfl, rfl⟩
      · rw [if_neg h0] at h
        have h1 : hd.refs ≠ 1 := by omega
        by_cases hc : hd.in_cache = true ∧ hd.refs - 1 = 1
        · rw [if_pos hc] at h
          have hnl : e ∉ c.lru_ := fun hm => by
            obtain ⟨h2, h3, -, h4⟩ := hl.lru_mem e hm
            rw [hh] at h3
            cases h3
            exact h1 h4
          have hi : e ∈ c.in_use_ := by
            rcases hl.listed e hd hh hc.1 with ⟨h2, -⟩ | ⟨-, h2⟩
            · exact absurd h2 hnl
            · exact h2
          simp only [LRUCache.LRU_Remove, hnl, hi, if_true, if_false, Option.map_some',
            LRUCache.LRU_Append, Option.some.injEq] at h
          subst h
          refine ⟨?_, hd, rfl, hpos, fun h2 => h1 h2.1, fun h2 => absurd h2 h1, fun _ =>
            ⟨Function.update_same e _ c.heap, rfl, fun _ => ⟨hi, rfl, rfl⟩,
              fun hn => absurd ⟨hc.1, by omega⟩ hn⟩⟩
          refine LRUCache.Linked.transfer e hl (fun p hp => Function.update_noteq hp _ _)
            (fun p hp => mem_append_single_other hp) (fun p hp => mem_erase_other hp)
            (le_refl _) (nodup_append_single hl.lru_nodup hnl) (hl.in_use_nodup.erase e)
            (fun ha => absurd ha (Nat.not_le_of_lt hal)) ?_ ?_ ?_
          · intro _
            exact ⟨_, Function.update_same e _ c.heap, hc.1, hc.2⟩
          · intro hm
            exact absurd hm (not_mem_erase_self hl.in_use_nodup)
          · intro _ _ _
            exact Or.inl ⟨List.mem_append_right _ (List.mem_singleton_self e),
              not_mem_erase_self hl.in_use_nodup⟩
        · rw [if_neg hc] at h
          simp only [Option.some.injEq] at h
          subst h
          refine ⟨?_, hd, rfl, hpos, fun h2 => h1 h2.1, fun h2 => absurd h2 h1, fun _ =>
            ⟨Function.update_same e _ c.heap, rfl,
              fun h2 => absurd ⟨h2.1, by omega⟩ hc, fun _ => ⟨rfl, rfl⟩⟩⟩
          refine LRUCache.Linked.transfer e hl (fun p hp => Function.update_noteq hp _ _)
            (fun p hp => Iff.rfl) (fun p hp => Iff.rfl) (le_refl _) hl.lru_nodup
            hl.in_use_nodup (fun ha => absurd ha (Nat.not_le_of_lt hal)) ?_ ?_ ?_
          · intro hm
            obtain ⟨h2, h3, -, h4⟩ := hl.lru_mem e hm
            rw [hh] at h3
            cases h3
            exact absurd h4 h1
          · intro hm
            obtain ⟨h2, h3, h4⟩ := hl.in_use_mem e hm
            rw [hh] at h3
            cases h3
            exact ⟨_, Function.update_same e _ c.heap, h4⟩
          · intro h2 h3 h4
            have h5 : Function.update c.heap e (some { hd with refs := hd.refs - 1 }) e =
                some h2 := h3
            rw [Function.update_same] at h5
            cases h5
            exact hl.listed e hd hh h4
    · simp only [hpos, not_false_eq_true, if_true] at h
      cases h

theorem LRUCache.TableInv.of_refs {c c2 : LRUCache} {e : Nat} {hd : LRUHandle} (r : Nat)
    (htab : c.TableInv) (ht : c2.table_ = c.table_) (hh : c.heap e = some hd)
    (hframe : ∀ p, p ≠ e → c2.heap p = c.heap p)
    (he : c2.heap e = some { hd with refs := r }) : c2.TableInv := by
  refine htab.carry ht ?_ ?_
  · intro p _
    unfold LRUCache.read
    by_cases hp : p = e
    · subst hp
      rw [he, hh]
      rfl
    · rw [hframe p hp]
  · intro p
    by_cases hp : p = e
    · subst hp
      rw [he, hh]
      constructor
      · rintro ⟨h2, h3, h4⟩
        cases h3
        exact ⟨hd, rfl, h4⟩
      · rintro ⟨h2, h3, h4⟩
        cases h3
        exact ⟨_, rfl, h4⟩
    · rw [hframe p hp]

theorem LRUCache.TableInv.of_freed {c c2 : LRUCache} {e : Nat} {hd : LRUHandle}
    (htab : c.TableInv) (ht : c2.table_ = c.table_) (hh : c.heap e = some hd)
    (hic : hd.in_cache = false) (hframe : ∀ p, p ≠ e → c2.heap p = c.heap p)
    (he : c2.heap e = none) : c2.TableInv := by
  refine htab.carry ht ?_ ?_
  · intro p hp
    obtain ⟨h2, h3, h4⟩ := (htab.mem_iff p).mp hp
    have hpe : p ≠ e := by
      intro hpe
      rw [hpe, hh] at h3
      cases h3
      rw [hic] at h4
      cases h4
    unfold LRUCache.read
    rw [hframe p hpe]
  · intro p
    by_cases hp : p = e
    · subst hp
      rw [he, hh]
      constructor
      · rintro ⟨h2, h3, _⟩
        cases h3
      · rintro ⟨h2, h3, h4⟩
        cases h3
        rw [hic] at h4
        cases h4
    · rw [hframe p hp]

/-- The method `Ref` returns on a live handle and keeps the invariant of the cache. -/
theorem LRUCache.Sound.Ref_keeps {c : LRUCache} {e : Nat} {h : LRUHandle} (hs : c.Sound)
    (hh : c.heap e = some h) :
    ∃ c2, c.Ref e = some c2 ∧ c2.Sound ∧ c2.table_ = c.table_ ∧
      c2.capacity_ = c.capacity_ ∧ c2.allocated = c.allocated ∧ c2.deleted = c.deleted ∧
      (∀ p, p ≠ e → c2.heap p = c.heap p) ∧
      c2.heap e = some { h with refs := uint32_t (h.refs + 1) } ∧
      (h.refs = 1 ∧ h.in_cache = true →
        c2.lru_ = c.lru_.erase e ∧ c2.in_use_ = c.in_use_.erase e ++ [e]) ∧
      (¬ (h.refs = 1 ∧ h.in_cache = true) → c2.lru_ = c.lru_ ∧ c2.in_use_ = c.in_use_) := by
  obtain ⟨c2, h1, h2, h3, h4⟩ := hs.linked.Ref_linked hh
  obtain ⟨k1, k2, k3, k4, k5, k6, k7, hd, k8, k9⟩ := LRUCache.Ref_shape c c2 e h1
  rw [hh] at k8
  cases k8
  refine ⟨c2, h1, ⟨h2, hs.table.of_refs _ k4 hh k7 k9, by rw [k4]; exact hs.sized,
    LRUCache.usage_of_same k1 k3 k6 hs.usage⟩, k4, k2, k3, k5, k7, k9, h3, h4⟩

/-- The method `Unref`, when it returns, keeps the invariant of the cache. -/
theorem LRUCache.Sound.Unref_keeps {c c2 : LRUCache} {e : Nat} (hs : c.Sound)
    (h : c.Unref e = some c2) :
    c2.Sound ∧ c2.table_ = c.table_ ∧ c2.capacity_ = c.capacity_ ∧
      c2.allocated = c.allocated ∧ (∀ p, p ≠ e → c2.heap p = c.heap p) ∧
      ∃ hd, c.heap e = some hd ∧ 0 < hd.refs ∧ ¬ (hd.refs = 1 ∧ hd.in_cache = true) ∧
      (hd.refs = 1 → c2.heap e = none ∧ c2.lru_ = c.lru_ ∧ c2.in_use_ = c.in_use_ ∧
        c2.deleted = c.deleted ++ [(hd.deleter, hd.key, hd.value)]) ∧
      (hd.refs ≠ 1 → c2.heap e = some { hd with refs := hd.refs - 1 } ∧
        c2.deleted = c.deleted ∧
        (hd.in_cache = true ∧ hd.refs = 2 →
          e ∈ c.in_use_ ∧ c2.lru_ = c.lru_ ++ [e] ∧ c2.in_use_ = c.in_use_.erase e) ∧
        (¬ (hd.in_cache = true ∧ hd.refs = 2) →
          c2.lru_ = c.lru_ ∧ c2.in_use_ = c.in_use_)) := by
  obtain ⟨h2, hd, hh, hpos, hno, g1, g2⟩ := hs.linked.Unref_linked h
  obtain ⟨k1, k2, k3, k4, k6, k7⟩ := LRUCache.Unref_shape c c2 e h
  have htab : c2.TableInv := by
    by_cases h1 : hd.refs = 1
    · have hic : hd.in_cache = false := by
        cases hb : hd.in_cache
        · rfl
        · exact absurd ⟨h1, hb⟩ hno
      exact hs.table.of_freed k4 hh hic k7 (g1 h1).1
    · exact hs.table.of_refs _ k4 hh k7 (g2 h1).1
  exact ⟨⟨h2, htab, by rw [k4]; exact hs.sized, LRUCache.usage_of_same k1 k3 k6 hs.usage⟩,
    k4, k2, k3, k7, hd, hh, hpos, hno, g1, g2⟩

theorem LRUCache.FinishErase_usage_live {c c3 : LRUCache} {p : Nat} {b : Bool}
    (hfresh : ∀ q, c.allocated ≤ q → c.heap q = none)
    (hU : c.usage_ = uint64_t c.cachedCharge)
    (h : c.FinishErase (some p) = some (c3, b)) :
    c3.usage_ = uint64_t c3.cachedCharge := by
  obtain ⟨hd, hh, hic, _, hus, _, hal, _, _, _, hframe, hcase⟩ :=
    LRUCache.FinishErase_shape c c3 p b h
  have hp : p < c.allocated := by
    by_contra hc
    have := hfresh p (Nat.le_of_not_lt hc)
    rw [hh] at this
    cases this
  have h0 : c3.chargeAt p = 0 := by
    rcases hcase with ⟨k, _, _⟩ | ⟨k, _, _⟩
    · exact LRUCache.chargeAt_none k
    · rw [LRUCache.chargeAt_some k]
      rfl
  have h1 : c.chargeAt p = hd.charge := by rw [LRUCache.chargeAt_some hh, if_pos hic]
  have hsum := LRUCache.cachedCharge_update p hal hp
    (fun q hq => LRUCache.chargeAt_congr (hframe q hq))
  rw [h0, h1] at hsum
  rw [hus, hU, usage_sub c.cachedCharge hd.charge (by omega)]
  congr 1
  omega

/-- The method `FinishErase` returns on a live handle in the cache whose count of
references is not 0. -/
theorem LRUCache.Linked.FinishErase_returns {c : LRUCache} {p : Nat} {h : LRUHandle}
    (hl : c.Linked) (hh : c.heap p = some h) (hic : h.in_cache = true) (hpos : 0 < h.refs) :
    ∃ c3, c.FinishErase (some p) = some (c3, true) := by
  have hrem : ∃ c1, c.LRU_Remove p = some c1 := by
    unfold LRUCache.LRU_Remove
    rcases hl.listed p h hh hic with ⟨h1, _⟩ | ⟨h1, h2⟩
    · rw [if_pos h1]
      exact ⟨_, rfl⟩
    · rw [if_neg h1, if_pos h2]
      exact ⟨_, rfl⟩
  obtain ⟨c1, hc1⟩ := hrem
  unfold LRUCache.FinishErase
  simp only [hh, hic, not_true_eq_false, if_false, hc1]
  unfold LRUCache.Unref
  simp only [Function.update_same, hpos, not_true_eq_false, if_false, Bool.false_eq_true,
    false_and]
  by_cases h0 : h.refs - 1 = 0
  · rw [if_pos h0]
    exact ⟨_, rfl⟩
  · rw [if_neg h0]
    exact ⟨_, rfl⟩

/-- The method `FinishErase` on the handle that `Remove` or `Insert` took out of the table,
when it returns, restores the invariant of the cache. -/
theorem LRUCache.Sound.FinishErase_keeps {c c3 : LRUCache} {t2 : HandleTable} {o : Nat}
    {b : Bool} (hl : c.Linked) (hU : c.usage_ = uint64_t c.cachedCharge)
    (hwf2 : t2.WellFormed c.read) (hsz : (∃ k, t2.length_ = 2 ^ k) ∧ 4 ≤ t2.length_)
    (ho : o ∉ t2.entries)
    (hmem : ∀ q, q ≠ o → (q ∈ t2.entries ↔ ∃ h, c.heap q = some h ∧ h.in_cache = true))
    (h : LRUCache.FinishErase { c with table_ := t2 } (some o) = some (c3, b)) :
    c3.Sound := by
  obtain ⟨hd, hh, hic, _, hus, hcap, hal, htb, hlru, hin, hframe, hcase⟩ :=
    LRUCache.FinishErase_shape _ c3 o b h
  have hh : c.heap o = some hd := hh
  have hal : c3.allocated = c.allocated := hal
  have hlru : c3.lru_ = c.lru_.erase o := hlru
  have hin : c3.in_use_ = (if o ∈ c.lru_ then c.in_use_ else c.in_use_.erase o) := hin
  have hframe : ∀ q, q ≠ o → c3.heap q = c.heap q := hframe
  have hgone : ¬ ∃ h2, c3.heap o = some h2 ∧ h2.in_cache = true := by
    rintro ⟨h2, h3, h4⟩
    rcases hcase with ⟨k, _, _⟩ | ⟨k, _, _⟩
    · rw [k] at h3
      cases h3
    · rw [k] at h3
      cases h3
      cases h4
  have hlk : c3.Linked := by
    refine LRUCache.Linked.transfer o hl hframe
      (fun p hp => by rw [hlru]; exact mem_erase_other hp) ?_ (le_of_eq hal.symm)
      (by rw [hlru]; exact hl.lru_nodup.erase o) ?_
      (fun ha => absurd (hl.lt_allocated hh) (by rw [hal] at ha; omega)) ?_ ?_ ?_
    · intro p hp
      rw [hin]
      split_ifs
      · exact Iff.rfl
      · exact mem_erase_other hp
    · rw [hin]
      split_ifs
      · exact hl.in_use_nodup
      · exact hl.in_use_nodup.erase o
    · intro hm
      rw [hlru] at hm
      exact absurd hm (not_mem_erase_self hl.lru_nodup)
    · intro hm
      rw [hin] at hm
      split_ifs at hm with h1
      · rcases hl.listed o hd hh hic with ⟨_, h3⟩ | ⟨h3, _⟩
        · exact absurd hm h3
        · exact absurd h1 h3
      · exact absurd hm (not_mem_erase_self hl.in_use_nodup)
    · intro h2 h3 h4
      exact absurd ⟨h2, h3, h4⟩ hgone
  refine ⟨hlk, LRUCache.TableInv.restore hwf2 hmem ho htb hframe hgone, ?_, ?_⟩
  · have htb : c3.table_ = t2 := htb
    rw [htb]
    exact hsz
  · exact @LRUCache.FinishErase_usage_live { c with table_ := t2 } c3 o b hl.fresh hU h

/-- The method `Erase`, when it returns, keeps the invariant of the cache. -/
theorem LRUCache.Sound.Erase_keeps {c c2 : LRUCache} (key : Bytes) (hash : Nat)
    (hs : c.Sound) (h : c.Erase key hash = some c2) :
    c2.Sound ∧ c2.capacity_ = c.capacity_ ∧ c2.allocated = c.allocated ∧
      (∀ p ∈ c2.in_use_, p ∈ c.in_use_) ∧
      (∀ p hd, c2.heap p = some hd → ∃ hd0, c.heap p = some hd0 ∧
        (hd = hd0 ∨ (hd0.in_cache = true ∧ 0 < hd0.refs ∧
          hd = { hd0 with in_cache := false, refs := hd0.refs - 1 }))) ∧
      ∀ p hd0, c.heap p = some hd0 → c2.heap p = none →
        hd0.in_cache = true ∧ hd0.refs = 1 := by
  unfold LRUCache.Erase at h
  rcases HandleTable.Remove_spec c.read c.table_ key hash hs.table.wf with
    ⟨h1, _⟩ | ⟨t2, o, h1, h2, h3, h4, h5, h6⟩
  · simp only [h1, LRUCache.FinishErase, Option.map_some', Option.some.injEq] at h
    subst h
    exact ⟨hs, rfl, rfl, fun p hp => hp, fun p hd hp => ⟨hd, hp, Or.inl rfl⟩,
      fun p hd0 hp0 hp2 => by rw [hp0] at hp2; cases hp2⟩
  · have hnd := hs.table.wf.nodup
    rw [h3.nodup_iff, List.nodup_cons] at hnd
    rw [h1] at h
    simp only at h
    cases hf : LRUCache.FinishErase { c with table_ := t2 } (some o) with
    | none =>
      rw [hf] at h
      cases h
    | some r =>
      obtain ⟨c3, b⟩ := r
      rw [hf] at h
      simp only [Option.map_some', Option.some.injEq] at h
      subst h
      have hsnd := LRUCache.Sound.FinishErase_keeps hs.linked hs.usage h4
        (by rw [h6]; exact hs.sized) hnd.1 (by
          intro q hq
          rw [← hs.table.mem_iff q, h3.mem_iff, List.mem_cons]
          exact ⟨Or.inr, fun h => h.resolve_left hq⟩) hf
      obtain ⟨hd, k1, k2, _, _, k5, k6, _, _, k9, k10, k11⟩ :=
        LRUCache.FinishErase_shape _ c3 o b hf
      have k1 : c.heap o = some hd := k1
      have k10 : ∀ q, q ≠ o → c3.heap q = c.heap q := k10
      refine ⟨hsnd, k5, k6, ?_, ?_, ?_⟩
      · intro p hp
        have k9 : c3.in_use_ = (if o ∈ c.lru_ then c.in_use_ else c.in_use_.erase o) := k9
        rw [k9] at hp
        split_ifs at hp
        · exact hp
        · exact List.mem_of_mem_erase hp
      · intro p hd2 hp
        by_cases hpo : p = o
        · subst hpo
          rcases k11 with ⟨j, _, _⟩ | ⟨j, j2, _⟩
          · rw [j] at hp
            cases hp
          · rw [j] at hp
            cases hp
            exact ⟨hd, k1, Or.inr ⟨k2, by omega, rfl⟩⟩
        · rw [k10 p hpo] at hp
          exact ⟨hd2, hp, Or.inl rfl⟩
      · intro p hd0 hp0 hp2
        by_cases hpo : p = o
        · subst hpo
          rw [k1] at hp0
          cases hp0
          rcases k11 with ⟨_, j, _⟩ | ⟨j, _, _⟩
          · exact ⟨k2, j⟩
          · rw [j] at hp2
            cases hp2
        · rw [k10 p hpo, hp0] at hp2
          cases hp2

/-- One round of the loops of `Insert` and `Prune` returns and keeps the invariant of the
cache: the oldest entry of the `lru_` list is taken off the list and out of the table and
is freed, and its deleter is called. -/
theorem LRUCache.Sound.eraseOldest_keeps {c : LRUCache} {old : Nat} {rest : List Nat}
    (hs : c.Sound) (hl : c.lru_ = old :: rest) :
    ∃ c2 hd, c.eraseOldest = some c2 ∧ c2.Sound ∧ c.heap old = some hd ∧
      c2.lru_ = rest ∧ c2.in_use_ = c.in_use_ ∧ c2.heap old = none ∧
      (∀ q, q ≠ old → c2.heap q = c.heap q) ∧
      c2.deleted = c.deleted ++ [(hd.deleter, hd.key, hd.value)] ∧
      c2.table_.elems_ + 1 = c.table_.elems_ ∧ c2.capacity_ = c.capacity_ ∧
      c2.allocated = c.allocated := by
  have hmem : old ∈ c.lru_ := by rw [hl]; exact List.mem_cons_self _ _
  obtain ⟨h, hh, hic, hrefs⟩ := hs.linked.lru_mem old hmem
  have hold : old ∈ c.table_.entries := (hs.table.mem_iff old).mpr ⟨h, hh, hic⟩
  have hread : c.read old = some (h.hash, h.key) := by
    unfold LRUCache.read
    rw [hh]
    rfl
  rcases HandleTable.Remove_spec c.read c.table_ h.key h.hash hs.table.wf with
    ⟨_, h2⟩ | ⟨t2, o, h1, h2, h3, h4, h5, h6⟩
  · exact absurd hread (h2 old hold)
  · have ho : o = old :=
      hs.table.wf.inj o (h3.mem_iff.mpr (List.mem_cons_self _ _)) old hold (by rw [h2, hread])
    subst ho
    have hnd := hs.table.wf.nodup
    rw [h3.nodup_iff, List.nodup_cons] at hnd
    have hl2 : LRUCache.Linked { c with table_ := t2 } := hs.linked.of_eq rfl rfl rfl rfl
    obtain ⟨c3, e1⟩ := @LRUCache.Linked.FinishErase_returns { c with table_ := t2 } o h hl2
      hh hic (by omega)
    have hsnd := LRUCache.Sound.FinishErase_keeps hs.linked hs.usage h4
      (by rw [h6]; exact hs.sized) hnd.1 (by
        intro q hq
        rw [← hs.table.mem_iff q, h3.mem_iff, List.mem_cons]
        exact ⟨Or.inr, fun h => h.resolve_left hq⟩) e1
    have hes : c.eraseOldest = some c3 := by
      unfold LRUCache.eraseOldest
      rw [hl]
      rw [hl] at e1
      simp only [hh, hrefs, not_true_eq_false, if_false, h1, e1]
    obtain ⟨hd, k1, _, _, _, k5, k6, k7, k8, k9, k10, k11⟩ :=
      LRUCache.FinishErase_shape _ c3 o true e1
    have k1 : c.heap o = some hd := k1
    rw [hh] at k1
    cases k1
    refine ⟨c3, h, hes, hsnd, hh, ?_, ?_, ?_, k10, ?_, ?_, k5, k6⟩
    · rw [k8]
      show c.lru_.erase o = rest
      rw [hl, List.erase_cons_head]
    · rw [k9]
      show (if o ∈ c.lru_ then c.in_use_ else c.in_use_.erase o) = c.in_use_
      rw [if_pos hmem]
    · rcases k11 with ⟨j, _, _⟩ | ⟨_, j, _⟩
      · exact j
      · omega
    · rcases k11 with ⟨_, _, j⟩ | ⟨_, j, _⟩
      · exact j
      · omega
    · rw [k7]
      exact h5

/-- The loop of `Insert` returns within its fuel and keeps the invariant of the cache: it
frees a prefix of the `lru_` list, oldest entry first, calling the deleters in that order,
and stops as soon as `usage_ <= capacity_` or the list is empty. -/
theorem LRUCache.Sound.evict_keeps (fuel : Nat) (c : LRUCache) (hs : c.Sound)
    (hf : c.table_.elems_ < fuel) :
    ∃ c2 evicted, LRUCache.Insert.evict fuel c = some c2 ∧ c2.Sound ∧
      c.lru_ = evicted ++ c2.lru_ ∧ c2.in_use_ = c.in_use_ ∧ c2.capacity_ = c.capacity_ ∧
      c2.allocated = c.allocated ∧
      (∀ q ∈ evicted, c2.heap q = none) ∧ (∀ q, q ∉ evicted → c2.heap q = c.heap q) ∧
      c2.deleted = c.deleted ++
        evicted.filterMap (fun p => (c.heap p).map fun h => (h.deleter, h.key, h.value)) ∧
      (c2.usage_ ≤ c2.capacity_ ∨ c2.lru_ = []) ∧
      c2.table_.elems_ ≤ c.table_.elems_ := by
  induction fuel generalizing c with
  | zero => omega
  | succ fuel ih =>
    unfold LRUCache.Insert.evict
    by_cases hc : c.usage_ > c.capacity_ ∧ c.lru_ ≠ []
    · rw [if_pos hc]
      obtain ⟨old, rest, hl⟩ := List.exists_cons_of_ne_nil hc.2
      obtain ⟨c1, hd, g1, gs, g2, g3, g4, g5, g6, g7, g8, g9, g10⟩ :=
        hs.eraseOldest_keeps hl
      rw [g1]
      obtain ⟨c2, ev, k1, ks, k2, k3, k0, ka, k4, k5, k6, k7, k8⟩ := ih c1 gs (by omega)
      have hnd := hs.linked.lru_nodup
      rw [hl, List.nodup_cons] at hnd
      have hev : ∀ q ∈ ev, q ≠ old := by
        intro q hq hqo
        apply hnd.1
        rw [← g3, k2, ← hqo]
        exact List.mem_append_left _ hq
      refine ⟨c2, old :: ev, k1, ks, ?_, by rw [k3, g4], by rw [k0, g9], by rw [ka, g10],
        ?_, ?_, ?_, k7, by omega⟩
      · rw [hl, ← g3, k2]
        rfl
      · intro q hq
        rcases List.mem_cons.mp hq with hq | hq
        · rw [hq, k5 old (fun hm => hev old hm rfl)]
          exact g5
        · exact k4 q hq
      · intro q hq
        rw [List.mem_cons, not_or] at hq
        rw [k5 q hq.2, g6 q hq.1]
      · rw [k6, g7, List.filterMap_cons, g2]
        simp only [Option.map_some', List.append_assoc, List.singleton_append]
        congr 2
        apply List.filterMap_congr
        intro q hq
        rw [g6 q (hev q hq)]
    · rw [if_neg hc]
      refine ⟨c, [], rfl, hs, rfl, rfl, rfl, rfl, fun q hq => absurd hq (List.not_mem_nil q),
        fun q _ => rfl, by simp, ?_, le_refl _⟩
      by_cases hu : c.usage_ ≤ c.capacity_
      · exact Or.inl hu
      · right
        by_contra hl
        exact hc ⟨Nat.lt_of_not_le hu, hl⟩

/-- The loop of `Prune` returns within its fuel, keeps the invariant of the cache and
frees the entries of the `lru_` list. -/
theorem LRUCache.Sound.Prune_loop_keeps (fuel : Nat) (c : LRUCache) (hs : c.Sound)
    (hf : c.table_.elems_ < fuel) :
    ∃ c2, LRUCache.Prune.loop fuel c = some c2 ∧ c2.Sound ∧ c2.lru_ = [] ∧
      c2.in_use_ = c.in_use_ ∧ c2.capacity_ = c.capacity_ ∧ c2.allocated = c.allocated ∧
      (∀ q ∈ c.lru_, c2.heap q = none) ∧ (∀ q, q ∉ c.lru_ → c2.heap q = c.heap q) := by
  induction fuel generalizing c with
  | zero => omega
  | succ fuel ih =>
    unfold LRUCache.Prune.loop
    by_cases hc : c.lru_ ≠ []
    · rw [if_pos hc]
      obtain ⟨old, rest, hl⟩ := List.exists_cons_of_ne_nil hc
      obtain ⟨c1, hd, g1, gs, g2, g3, g4, g5, g6, g7, g8, g9, g10⟩ :=
        hs.eraseOldest_keeps hl
      rw [g1]
      obtain ⟨c2, k1, ks, k2, k3, k4, k5, k6, k7⟩ := ih c1 gs (by omega)
      have hnd := hs.linked.lru_nodup
      rw [hl, List.nodup_cons] at hnd
      refine ⟨c2, k1, ks, k2, by rw [k3, g4], by rw [k4, g9], by rw [k5, g10], ?_, ?_⟩
      · intro q hq
        rw [hl] at hq
        rcases List.mem_cons.mp hq with hq | hq
        · rw [hq, k7 old (by rw [g3]; exact hnd.1)]
          exact g5
        · exact k6 q (by rw [g3]; exact hq)
      · intro q hq
        rw [hl, List.mem_cons, not_or] at hq
        rw [k7 q (by rw [g3]; exact hq.2), g6 q hq.1]
    · rw [if_neg hc]
      have hnil : c.lru_ = [] := not_not.mp hc
      refine ⟨c, rfl, hs, hnil, rfl, rfl, rfl, ?_, fun q _ => rfl⟩
      intro q hq
      rw [hnil] at hq
      exact absurd hq (List.not_mem_nil q)

/-- The method `Prune` returns and keeps the invariant of the cache. -/
theorem LRUCache.Sound.Prune_keeps {c : LRUCache} (hs : c.Sound) :
    ∃ c2, c.Prune = some c2 ∧ c2.Sound ∧ c2.lru_ = [] ∧
      c2.in_use_ = c.in_use_ ∧ c2.capacity_ = c.capacity_ ∧ c2.allocated = c.allocated ∧
      (∀ q ∈ c.lru_, c2.heap q = none) ∧ (∀ q, q ∉ c.lru_ → c2.heap q = c.heap q) := by
  unfold LRUCache.Prune
  refine LRUCache.Sound.Prune_loop_keeps _ c hs ?_
  have := hs.table.wf.elems_eq
  unfold HandleTable.entries at this
  omega

theorem LRUCache.hasRoom_iff (c : LRUCache) (key : Bytes) (hash : Nat) :
    c.hasRoom key hash = true ↔
      (c.table_.elems_ < 2147483648 ∨ ∃ o ∈ c.table_.entries, c.read o = some (hash, key)) := by
  unfold LRUCache.hasRoom
  rw [Bool.or_eq_true, decide_eq_true_eq, List.any_eq_true]
  constructor
  · rintro (h | ⟨o, h1, h2⟩)
    · exact Or.inl h
    · exact Or.inr ⟨o, h1, of_decide_eq_true h2⟩
  · rintro (h | ⟨o, h1, h2⟩)
    · exact Or.inl h
    · exact Or.inr ⟨o, h1, decide_eq_true h2⟩

theorem LRUCache.Sound.invariant {c : LRUCache} (hs : c.Sound) : c.table_.Invariant c.read :=
  ⟨hs.table.wf, hs.sized⟩

/-- The method `Lookup` returns and keeps the invariant of the cache: it finds the one
entry of the table with the hash and key, if there is one, and calls `Ref` on it. -/
theorem LRUCache.Sound.Lookup_keeps {c : LRUCache} (key : Bytes) (hash : Nat) (hs : c.Sound) :
    (c.Lookup key hash = some (c, none) ∧
      ∀ p ∈ c.table_.entries, c.read p ≠ some (hash, key)) ∨
    ∃ c2 e h, c.Lookup key hash = some (c2, some e) ∧ e ∈ c.table_.entries ∧
      c.heap e = some h ∧ h.in_cache = true ∧ h.hash = hash ∧ h.key = key ∧
      c2.Sound ∧ c2.table_ = c.table_ ∧ c2.capacity_ = c.capacity_ ∧
      c2.allocated = c.allocated ∧ c2.deleted = c.deleted ∧
      (∀ p, p ≠ e → c2.heap p = c.heap p) ∧
      c2.heap e = some { h with refs := uint32_t (h.refs + 1) } ∧
      (h.refs = 1 ∧ h.in_cache = true →
        c2.lru_ = c.lru_.erase e ∧ c2.in_use_ = c.in_use_.erase e ++ [e]) ∧
      (¬ (h.refs = 1 ∧ h.in_cache = true) → c2.lru_ = c.lru_ ∧ c2.in_use_ = c.in_use_) := by
  unfold LRUCache.Lookup
  rcases HandleTable.Lookup_finds c.read c.table_ key hash hs.table.wf with
    ⟨h1, h2⟩ | ⟨o, h1, h2, h3⟩
  · left
    simp only [h1]
    exact ⟨trivial, h2⟩
  · right
    simp only [h1]
    obtain ⟨h, hh, hic⟩ := (hs.table.mem_iff o).mp h2
    have hr : (h.hash, h.key) = (hash, key) := by
      unfold LRUCache.read at h3
      rw [hh] at h3
      exact Option.some.inj h3
    obtain ⟨c2, k1, k2, k3, k4, k5, k6, k7, k8, k9, k10⟩ := hs.Ref_keeps hh
    simp only [k1, Option.map_some']
    exact ⟨c2, o, h, rfl, h2, hh, hic, (Prod.mk.inj hr).1, (Prod.mk.inj hr).2, k2, k3, k4,
      k5, k6, k7, k8, k9, k10⟩

/-- The cache within `Insert`, once the new handle has entered it, satisfies the invariant
of the lists; its table is as before and does not chain the new handle yet. -/
theorem LRUCache.Sound.entered_facts {c : LRUCache} (key : Bytes)
    (hash value charge deleter : Nat) (hs : c.Sound) :
    (LRUCache.Insert.entered c key hash value charge deleter).Linked ∧
    (LRUCache.Insert.entered c key hash value charge deleter).usage_ =
      uint64_t (LRUCache.Insert.entered c key hash value charge deleter).cachedCharge ∧
    c.table_.Invariant (LRUCache.Insert.entered c key hash value charge deleter).read ∧
    c.allocated ∉ c.table_.entries ∧
    (∀ q, q ≠ c.allocated → (q ∈ c.table_.entries ↔
      ∃ h, (LRUCache.Insert.entered c key hash value charge deleter).heap q = some h ∧
        h.in_cache = true)) ∧
    (∀ q, q ≠ c.allocated →
      (LRUCache.Insert.entered c key hash value charge deleter).heap q = c.heap q) ∧
    (∀ q, q ≠ c.allocated →
      (LRUCache.Insert.entered c key hash value charge deleter).read q = c.read q) := by
  have hfresh : c.heap c.allocated = none := hs.linked.fresh _ (le_refl _)
  have hnl : c.allocated ∉ c.lru_ := fun hm => by
    obtain ⟨h, hh, _⟩ := hs.linked.lru_mem _ hm
    rw [hfresh] at hh
    cases hh
  have hni : c.allocated ∉ c.in_use_ := fun hm => by
    obtain ⟨h, hh, _⟩ := hs.linked.in_use_mem _ hm
    rw [hfresh] at hh
    cases hh
  have hnt : c.allocated ∉ c.table_.entries := fun hm => by
    obtain ⟨h, hh, _⟩ := (hs.table.mem_iff _).mp hm
    rw [hfresh] at hh
    cases hh
  have hne : ∀ p ∈ c.table_.entries, p ≠ c.allocated := fun p hp he => hnt (he ▸ hp)
  have hheap : ∀ q, q ≠ c.allocated →
      (LRUCache.Insert.entered c key hash value charge deleter).heap q = c.heap q :=
    fun q hq => Function.update_noteq hq _ _
  have hreadq : ∀ q, q ≠ c.allocated →
      (LRUCache.Insert.entered c key hash value charge deleter).read q = c.read q := by
    intro q hq
    unfold LRUCache.read
    rw [hheap q hq]
  refine ⟨?_, ?_, ⟨hs.table.wf.congr (fun p hp => hreadq p (hne p hp)), hs.sized⟩, hnt, ?_,
    hheap, hreadq⟩
  · refine LRUCache.Linked.transfer c.allocated hs.linked hheap
      (fun p hp => Iff.rfl) (fun p hp => mem_append_single_other hp)
      (Nat.le_succ _) hs.linked.lru_nodup (nodup_append_single hs.linked.in_use_nodup hni)
      ?_ (fun hm => absurd hm hnl) ?_ ?_
    · intro ha
      have ha2 : c.allocated + 1 ≤ c.allocated := ha
      omega
    · intro _
      exact ⟨_, Function.update_same _ _ _, rfl⟩
    · intro _ _ _
      exact Or.inr ⟨hnl, List.mem_append_right _ (List.mem_singleton_self _)⟩
  · have hsum := @LRUCache.cachedCharge_alloc c
      (LRUCache.Insert.entered c key hash value charge deleter) rfl
      (fun p hp => LRUCache.chargeAt_congr (hheap p hp))
    have hch : (LRUCache.Insert.entered c key hash value charge deleter).chargeAt c.allocated
        = charge := by
      rw [LRUCache.chargeAt_some (Function.update_same _ _ _)]
      rfl
    rw [hsum, hch]
    show uint64_t (c.usage_ + charge) = _
    rw [hs.usage]
    unfold uint64_t
    omega
  · intro q hq
    rw [hheap q hq]
    exact hs.table.mem_iff q

/-- The cache within `Insert` when `capacity_ == 0` satisfies the invariant of the
cache. -/
theorem LRUCache.Sound.uncached_sound {c : LRUCache} (key : Bytes)
    (hash value charge deleter : Nat) (hs : c.Sound) :
    (LRUCache.Insert.uncached c key hash value charge deleter).Sound := by
  have hfresh : c.heap c.allocated = none := hs.linked.fresh _ (le_refl _)
  have hnl : c.allocated ∉ c.lru_ := fun hm => by
    obtain ⟨h, hh, _⟩ := hs.linked.lru_mem _ hm
    rw [hfresh] at hh
    cases hh
  have hni : c.allocated ∉ c.in_use_ := fun hm => by
    obtain ⟨h, hh, _⟩ := hs.linked.in_use_mem _ hm
    rw [hfresh] at hh
    cases hh
  have hnt : c.allocated ∉ c.table_.entries := fun hm => by
    obtain ⟨h, hh, _⟩ := (hs.table.mem_iff _).mp hm
    rw [hfresh] at hh
    cases hh
  have hne : ∀ p ∈ c.table_.entries, p ≠ c.allocated := fun p hp he => hnt (he ▸ hp)
  have hheap : ∀ q, q ≠ c.allocated →
      (LRUCache.Insert.uncached c key hash value charge deleter).heap q = c.heap q :=
    fun q hq => Function.update_noteq hq _ _
  refine ⟨?_, ?_, hs.sized, ?_⟩
  · refine LRUCache.Linked.transfer c.allocated hs.linked hheap
      (fun p hp => Iff.rfl) (fun p hp => Iff.rfl)
      (Nat.le_succ _) hs.linked.lru_nodup hs.linked.in_use_nodup
      ?_ (fun hm => absurd hm hnl) (fun hm => absurd hm hni) ?_
    · intro ha
      have ha2 : c.allocated + 1 ≤ c.allocated := ha
      omega
    · intro h2 h3 h4
      have h5 : Function.update c.heap c.allocated _ c.allocated = some h2 := h3
      rw [Function.update_same] at h5
      cases h5
      cases h4
  · refine hs.table.carry rfl ?_ ?_
    · intro p hp
      unfold LRUCache.read
      rw [hheap p (hne p hp)]
    · intro p
      by_cases hp : p = c.allocated
      · subst hp
        show (∃ h2, Function.update c.heap _ _ _ = some h2 ∧ _) ↔ _
        rw [Function.update_same, hfresh]
        constructor
        · rintro ⟨h2, h3, h4⟩
          cases h3
          cases h4
        · rintro ⟨h2, h3, _⟩
          cases h3
      · rw [hheap p hp]
  · have hsum := @LRUCache.cachedCharge_alloc c
      (LRUCache.Insert.uncached c key hash value charge deleter) rfl
      (fun p hp => LRUCache.chargeAt_congr (hheap p hp))
    have hch : (LRUCache.Insert.uncached c key hash value charge deleter).chargeAt c.allocated
        = 0 := by
      rw [LRUCache.chargeAt_some (Function.update_same _ _ _)]
      rfl
    rw [hsum, hch, Nat.add_zero]
    exact hs.usage

/-- The statement `FinishErase(table_.Insert(e))`, when it returns, establishes the
invariant of the cache: either no entry had the hash and key of the new handle, and the
handle is added to the table; or the one entry that had them is replaced in the table,
with the same count of elements, and leaves the cache. -/
theorem LRUCache.Insert.link_sound {c c5 : LRUCache} {e : Nat} {h : LRUHandle}
    (hl : c.Linked) (hU : c.usage_ = uint64_t c.cachedCharge)
    (hh : c.heap e = some h) (hic : h.in_cache = true)
    (hinv : c.table_.Invariant c.read) (hnew : e ∉ c.table_.entries)
    (hmem : ∀ q, q ≠ e → (q ∈ c.table_.entries ↔ ∃ h, c.heap q = some h ∧ h.in_cache = true))
    (hlink : LRUCache.Insert.link c e = some c5) :
    c5.Sound ∧ c5.capacity_ = c.capacity_ ∧ c5.allocated = c.allocated ∧
    c5.heap e = some h ∧ e ∈ c5.table_.entries ∧
    (c.table_.elems_ < 2147483648 ∨
      ∃ o ∈ c.table_.entries, c.read o = some (h.hash, h.key)) ∧
    (((∀ p ∈ c.table_.entries, c.read p ≠ some (h.hash, h.key)) ∧ c5.lru_ = c.lru_ ∧
        c5.in_use_ = c.in_use_ ∧ c5.heap = c.heap ∧ c5.deleted = c.deleted ∧
        c5.table_.elems_ = c.table_.elems_ + 1) ∨
      ∃ o t hd, o ∈ c.table_.entries ∧ c.read o = some (h.hash, h.key) ∧
        c.heap o = some hd ∧ hd.in_cache = true ∧ 0 < hd.refs ∧
        c.table_.Insert c.read e = some (t, some o) ∧ t.elems_ = c.table_.elems_ ∧
        c5.table_ = t ∧ c5.lru_ = c.lru_.erase o ∧
        c5.in_use_ = (if o ∈ c.lru_ then c.in_use_ else c.in_use_.erase o) ∧
        (∀ q, q ≠ o → c5.heap q = c.heap q) ∧
        ((c5.heap o = none ∧ hd.refs = 1 ∧
            c5.deleted = c.deleted ++ [(hd.deleter, hd.key, hd.value)]) ∨
          (c5.heap o = some { hd with in_cache := false, refs := hd.refs - 1 } ∧
            1 < hd.refs ∧ c5.deleted = c.deleted))) := by
  have hread : c.read e = some (h.hash, h.key) := by
    unfold LRUCache.read
    rw [hh]
    rfl
  obtain ⟨t, old, hI, hsh⟩ := LRUCache.Insert.link_shape c c5 e hlink
  have hroom := (HandleTable.Insert_returns_iff c.read c.table_ e h.hash h.key hinv hread
    hnew).mpr ⟨t, old, hI⟩
  obtain ⟨hinv2, _, _, hcase⟩ :=
    (HandleTable.Insert_invariant c.read c.table_ e h.hash h.key hinv hread hnew).2 t old hI
  rcases hsh with ⟨k1, k2, k3, k4, k5, k6, k7, k8, k9⟩ | ⟨o, k1, k2⟩
  · rcases hcase with ⟨_, j2, j3, j4⟩ | ⟨o, R, j1, _⟩
    · have hmem5 : ∀ q, q ∈ c5.table_.entries ↔ ∃ h, c5.heap q = some h ∧ h.in_cache = true := by
        intro q
        rw [k2, k5, j3.mem_iff, List.mem_cons]
        by_cases hq : q = e
        · subst hq
          exact ⟨fun _ => ⟨h, hh, hic⟩, fun _ => Or.inl rfl⟩
        · rw [hmem q hq]
          exact ⟨fun h => h.resolve_left hq, Or.inr⟩
      have hread5 : c5.read = c.read := by
        funext q
        unfold LRUCache.read
        rw [k5]
      refine ⟨⟨hl.of_eq k5 k3 k4 k9, ⟨by rw [k2, hread5]; exact hinv2.1, hmem5⟩,
        by rw [k2]; exact hinv2.2, ?_⟩, k8, k9, by rw [k5]; exact hh, ?_, hroom,
        Or.inl ⟨j2, k3, k4, k5, k6, by rw [k2]; exact j4⟩⟩
      · rw [k7, hU, LRUCache.cachedCharge_congr k9
          (fun p => LRUCache.chargeAt_congr (by rw [k5]))]
      · rw [k2, j3.mem_iff]
        exact List.mem_cons_self _ _
    · rw [k1] at j1
      cases j1
  · rcases hcase with ⟨j1, _⟩ | ⟨o2, R, j1, j2, j3, j4, j5⟩
    · rw [k1] at j1
      cases j1
    · rw [k1] at j1
      cases j1
      have hom : o ∈ c.table_.entries := j3.mem_iff.mpr (List.mem_cons_self _ _)
      have hoe : o ≠ e := fun he => hnew (he ▸ hom)
      have hnd := hinv.1.nodup
      rw [j3.nodup_iff, List.nodup_cons] at hnd
      have ho2 : o ∉ t.entries := by
        rw [j4.mem_iff, List.mem_cons]
        rintro (h5 | h5)
        · exact hoe h5
        · exact hnd.1 h5
      have hmem2 : ∀ q, q ≠ o →
          (q ∈ t.entries ↔ ∃ h, c.heap q = some h ∧ h.in_cache = true) := by
        intro q hq
        rw [j4.mem_iff, List.mem_cons]
        by_cases hqe : q = e
        · subst hqe
          exact ⟨fun _ => ⟨h, hh, hic⟩, fun _ => Or.inl rfl⟩
        · rw [← hmem q hqe, j3.mem_iff, List.mem_cons]
          exact ⟨fun h => Or.inr (h.resolve_left hqe), fun h => Or.inr (h.resolve_left hq)⟩
      have hsnd := LRUCache.Sound.FinishErase_keeps hl hU hinv2.1 hinv2.2 ho2 hmem2 k2
      obtain ⟨hd, s1, s2, _, _, s5, s6, s7, s8, s9, s10, s11⟩ :=
        LRUCache.FinishErase_shape _ c5 o true k2
      have s1 : c.heap o = some hd := s1
      have s7 : c5.table_ = t := s7
      have hpos : 0 < hd.refs := by
        rcases s11 with ⟨_, j, _⟩ | ⟨_, j, _⟩ <;> omega
      refine ⟨hsnd, s5, s6, by rw [s10 e (Ne.symm hoe)]; exact hh, ?_, hroom,
        Or.inr ⟨o, t, hd, hom, j2, s1, s2, hpos, by rw [hI, k1], j5, s7, s8, s9, s10, s11⟩⟩
      rw [s7, j4.mem_iff]
      exact List.mem_cons_self _ _

/-- The statement `FinishErase(table_.Insert(e))` returns when the table takes the new
handle and the entry it replaces, if any, has a count of references other than 0. -/
theorem LRUCache.Insert.link_returns {c : LRUCache} {e : Nat} {h : LRUHandle}
    (hl : c.Linked) (hh : c.heap e = some h)
    (hinv : c.table_.Invariant c.read) (hnew : e ∉ c.table_.entries)
    (hmem : ∀ q, q ≠ e → (q ∈ c.table_.entries ↔ ∃ h, c.heap q = some h ∧ h.in_cache = true))
    (hroom : c.table_.elems_ < 2147483648 ∨
      ∃ o ∈ c.table_.entries, c.read o = some (h.hash, h.key))
    (hrefs : ∀ o ∈ c.table_.entries, c.read o = some (h.hash, h.key) →
      ∀ hd, c.heap o = some hd → 0 < hd.refs) :
    ∃ c5, LRUCache.Insert.link c e = some c5 := by
  have hread : c.read e = some (h.hash, h.key) := by
    unfold LRUCache.read
    rw [hh]
    rfl
  obtain ⟨t2, old, hr, _, _, hcase⟩ :=
    HandleTable.Insert_cases c.read c.table_ e h.hash h.key hinv.1 hread hnew hroom
  unfold LRUCache.Insert.link
  simp only [hr]
  rcases hcase with ⟨h1, _, _⟩ | ⟨o, R, h1, h2, h3, _⟩
  · subst h1
    simp only [LRUCache.FinishErase, Option.map_some']
    exact ⟨_, rfl⟩
  · subst h1
    have hom : o ∈ c.table_.entries := h3.mem_iff.mpr (List.mem_cons_self _ _)
    have hoe : o ≠ e := fun he => hnew (he ▸ hom)
    obtain ⟨ho, hho, hoic⟩ := (hmem o hoe).mp hom
    have hl2 : LRUCache.Linked { c with table_ := t2 } := hl.of_eq rfl rfl rfl rfl
    obtain ⟨c3, e1⟩ := @LRUCache.Linked.FinishErase_returns { c with table_ := t2 } o ho hl2
      hho hoic (hrefs o hom h2 ho hho)
    simp only [e1, Option.map_some']
    exact ⟨c3, rfl⟩

/-- The method `Insert`, when it returns, keeps the invariant of the cache. The handle
returned is the one allocated; the loop of line 343 has stopped with `usage_ <= capacity_`
or an empty `lru_` list, after it freed a prefix of the `lru_` list, oldest entry first;
with a capacity above 0 the new entry is in the table, and an entry that was cached with
the same hash and key is replaced in the table and has left the cache. -/
theorem LRUCache.Sound.Insert_keeps {c c2 : LRUCache} {e : Nat} (key : Bytes)
    (hash value charge deleter : Nat) (hs : c.Sound)
    (h : c.Insert key hash value charge deleter = some (c2, e)) :
    e = c.allocated ∧ c2.Sound ∧ c2.capacity_ = c.capacity_ ∧
    c2.allocated = c.allocated + 1 ∧
    (c2.usage_ ≤ c2.capacity_ ∨ c2.lru_ = []) ∧
    (∃ evicted pre,
      (c.capacity_ > 0 →
        (c.lru_.filter fun p => decide (c.read p ≠ some (hash, key))) = evicted ++ c2.lru_) ∧
      (c.capacity_ = 0 → c.lru_ = evicted ++ c2.lru_) ∧
      (∀ p ∈ evicted, c2.heap p = none) ∧
      c2.deleted = c.deleted ++ pre ++
        evicted.filterMap (fun p => (c.heap p).map fun h => (h.deleter, h.key, h.value))) ∧
    (∃ hn, c2.heap c.allocated = some hn ∧ hn.value = value ∧ hn.key = key ∧
      hn.hash = hash ∧ hn.charge = charge ∧ hn.deleter = deleter ∧
      (c.capacity_ > 0 → hn.in_cache = true ∧ hn.refs = 2) ∧
      (c.capacity_ = 0 → hn.in_cache = false ∧ hn.refs = 1)) ∧
    (c.capacity_ > 0 →
      c.allocated ∈ c2.table_.entries ∧ c.hasRoom key hash = true ∧
      ∀ o hd, c.heap o = some hd → hd.in_cache = true → hd.key = key → hd.hash = hash →
        0 < hd.refs ∧ (∀ h2, c2.heap o = some h2 → h2.in_cache = false) ∧
        ∃ t, c.table_.Insert (LRUCache.Insert.entered c key hash value charge deleter).read
            c.allocated = some (t, some o) ∧ t.elems_ = c.table_.elems_) ∧
    (∀ p ∈ c2.in_use_, p ∈ c.in_use_ ∨ p = c.allocated) ∧
    (∀ p hd, p ≠ c.allocated → c2.heap p = some hd → ∃ hd0, c.heap p = some hd0 ∧
      (hd = hd0 ∨ (hd0.in_cache = true ∧ 0 < hd0.refs ∧
        hd = { hd0 with in_cache := false, refs := hd0.refs - 1 }))) ∧
    (∀ p hd0, c.heap p = some hd0 → c2.heap p = none →
      hd0.in_cache = true ∧ hd0.refs = 1) := by
  rw [LRUCache.Insert_eq] at h
  have hfresh : c.heap c.allocated = none := hs.linked.fresh _ (le_refl _)
  have hlru_mem : ∀ p ∈ c.lru_, p ∈ c.table_.entries ∧ p ≠ c.allocated := by
    intro p hp
    obtain ⟨h, hh, hic, _⟩ := hs.linked.lru_mem p hp
    refine ⟨(hs.table.mem_iff p).mpr ⟨h, hh, hic⟩, ?_⟩
    intro he
    rw [he, hfresh] at hh
    cases hh
  -- the loop, from the cache `c5` that the first part of the method leaves
  have htail : ∀ c5 : LRUCache, c5.Sound →
      (LRUCache.Insert.evict (c5.table_.list_.flatten.length + 1) c5).map
        (fun c6 => (c6, c.allocated)) = some (c2, e) →
      e = c.allocated ∧ c2.Sound ∧ c2.capacity_ = c5.capacity_ ∧
      c2.allocated = c5.allocated ∧ (c2.usage_ ≤ c2.capacity_ ∨ c2.lru_ = []) ∧
      c2.in_use_ = c5.in_use_ ∧
      ∃ evicted, c5.lru_ = evicted ++ c2.lru_ ∧ (∀ q ∈ evicted, c2.heap q = none) ∧
        (∀ q, q ∉ evicted → c2.heap q = c5.heap q) ∧
        c2.deleted = c5.deleted ++ evicted.filterMap
          (fun p => (c5.heap p).map fun h => (h.deleter, h.key, h.value)) := by
    intro c5 hs5 h5
    obtain ⟨c6, ev, k1, ks, k2, k3, k4, k5, k6, k7, k8, k9, _⟩ :=
      hs5.evict_keeps (c5.table_.list_.flatten.length + 1) c5 (by
        have := hs5.table.wf.elems_eq
        unfold HandleTable.entries at this
        omega)
    rw [k1] at h5
    simp only [Option.map_some', Option.some.injEq, Prod.mk.injEq] at h5
    obtain ⟨rfl, rfl⟩ := h5
    exact ⟨rfl, ks, k4, k5, k9, k3, ev, k2, k6, k7, k8⟩
  by_cases hcap : c.capacity_ > 0
  · rw [if_pos hcap] at h
    obtain ⟨a1, a2, a3, a4, a5, a6, a7⟩ := hs.entered_facts key hash value charge deleter
    cases hlink : LRUCache.Insert.link (LRUCache.Insert.entered c key hash value charge deleter)
        c.allocated with
    | none =>
      rw [hlink] at h
      cases h
    | some c5 =>
      rw [hlink, Option.some_bind] at h
      obtain ⟨s5, cap5, al5, d2, hin5, hroom, dcase⟩ := LRUCache.Insert.link_sound a1 a2
        (Function.update_same _ _ _) rfl a3 a4 a5 hlink
      obtain ⟨he, s2, cap2, al2, hstop, hin2, evicted, hlru, hnone, hframe, hdel⟩ :=
        htail c5 s5 h
      have hev_lru : ∀ p ∈ evicted, p ∈ c5.lru_ := fun p hp => by
        rw [hlru]
        exact List.mem_append_left _ hp
      have he_not_lru : c.allocated ∉ c5.lru_ := fun hm => by
        obtain ⟨h3, h4, _, h5⟩ := s5.linked.lru_mem _ hm
        rw [d2] at h4
        cases h4
        have h6 : (2 : Nat) = 1 := h5
        omega
      have he_ev : c.allocated ∉ evicted := fun hm => he_not_lru (hev_lru _ hm)
      have hheap_e := hframe c.allocated he_ev
      rw [d2] at hheap_e
      have hin_tab : c.allocated ∈ c2.table_.entries :=
        (s2.table.mem_iff _).mpr ⟨_, hheap_e, rfl⟩
      have hroom2 : c.hasRoom key hash = true := by
        rw [LRUCache.hasRoom_iff]
        rcases hroom with h1 | ⟨o, h1, h2⟩
        · exact Or.inl h1
        · refine Or.inr ⟨o, h1, ?_⟩
          rw [← a7 o (fun he => a4 (he ▸ h1))]
          exact h2
      refine ⟨he, s2, by rw [cap2, cap5]; rfl, by rw [al2, al5]; rfl, hstop, ?_,
        ⟨_, hheap_e, rfl, rfl, rfl, rfl, rfl, fun _ => ⟨rfl, rfl⟩,
          fun h0 => absurd hcap (by omega)⟩, fun _ => ⟨hin_tab, hroom2, ?_⟩, ?_, ?_, ?_⟩
      · rcases dcase with ⟨hno, k2, _, k3, k4, _⟩ | ⟨o, t, hd, hom, hread, ho, _, _, hIns, hel,
          htab5, hlru5, _, frame5, hcase5⟩
        · refine ⟨evicted, [], fun _ => ?_, fun h0 => absurd hcap (by omega), hnone, ?_⟩
          · rw [← hlru, k2]
            apply List.filter_eq_self.mpr
            intro p hp
            obtain ⟨hp1, hp2⟩ := hlru_mem p hp
            have := hno p hp1
            rw [a7 p hp2] at this
            exact decide_eq_true this
          · rw [hdel, k4, List.append_nil]
            show c.deleted ++ _ = _
            congr 1
            apply List.filterMap_congr
            intro p hp
            have hpe : p ≠ c.allocated := fun he => he_ev (he ▸ hp)
            rw [k3, a6 p hpe]
        · have hoe : o ≠ c.allocated := fun he => a4 (he ▸ hom)
          have hro : c.read o = some (hash, key) := by
            rw [← a7 o hoe]
            exact hread
          have ho_not : o ∉ c5.lru_ := by
            rw [hlru5]
            exact not_mem_erase_self hs.linked.lru_nodup
          have hkey : ∀ p ∈ c.table_.entries, c.read p = some (hash, key) → p = o := by
            intro p hp hr
            exact hs.table.wf.inj p hp o hom (by rw [hr, hro])
          have hpre : ∃ pre, c5.deleted = c.deleted ++ pre := by
            rcases hcase5 with ⟨_, _, j⟩ | ⟨_, _, j⟩
            · exact ⟨_, j⟩
            · exact ⟨[], by rw [j]; exact (List.append_nil _).symm⟩
          obtain ⟨pre, hpre⟩ := hpre
          refine ⟨evicted, pre, fun _ => ?_, fun h0 => absurd hcap (by omega), hnone, ?_⟩
          · rw [← hlru, hlru5]
            show _ = c.lru_.erase o
            rw [hs.linked.lru_nodup.erase_eq_filter o]
            apply List.filter_congr
            intro p hp
            obtain ⟨hp1, _⟩ := hlru_mem p hp
            by_cases hpo : p = o
            · rw [hpo]
              simp [hro]
            · have : c.read p ≠ some (hash, key) := fun hr => hpo (hkey p hp1 hr)
              simp [this, hpo]
          · rw [hdel, hpre]
            show c.deleted ++ pre ++ _ = _
            congr 1
            apply List.filterMap_congr
            intro p hp
            have hpe : p ≠ c.allocated := fun he => he_ev (he ▸ hp)
            have hpo : p ≠ o := fun he => ho_not (he ▸ hev_lru p hp)
            rw [frame5 p hpo, a6 p hpe]
      · intro o2 h2 hh2 hic2 hk hhash
        have ho2 : o2 ∈ c.table_.entries := (hs.table.mem_iff o2).mpr ⟨h2, hh2, hic2⟩
        have hoe2 : o2 ≠ c.allocated := fun he => a4 (he ▸ ho2)
        have hr2 : c.read o2 = some (hash, key) := by
          unfold LRUCache.read
          rw [hh2, ← hk, ← hhash]
          rfl
        rcases dcase with ⟨hno, _⟩ | ⟨o, t, hd, hom, hread, ho, _, hpos, hIns, hel,
          htab5, hlru5, _, frame5, hcase5⟩
        · exfalso
          apply hno o2 ho2
          rw [a7 o2 hoe2]
          exact hr2
        · have hoe : o ≠ c.allocated := fun he => a4 (he ▸ hom)
          have hro : c.read o = some (hash, key) := by
            rw [← a7 o hoe]
            exact hread
          have : o2 = o := hs.table.wf.inj o2 ho2 o hom (by rw [hr2, hro])
          subst this
          have ho : c.heap o2 = some hd := by
            rw [← a6 o2 hoe2]
            exact ho
          rw [hh2] at ho
          cases ho
          refine ⟨hpos, ?_, t, hIns, hel⟩
          intro h3 hh3
          by_cases hoev : o2 ∈ evicted
          · rw [hnone o2 hoev] at hh3
            cases hh3
          · rw [hframe o2 hoev] at hh3
            rcases hcase5 with ⟨j, _, _⟩ | ⟨j, _, _⟩
            · rw [j] at hh3
              cases hh3
            · rw [j] at hh3
              cases hh3
              rfl
      · intro p hp
        rw [hin2] at hp
        have hE : ∀ q, q ∈ (LRUCache.Insert.entered c key hash value charge deleter).in_use_ →
            q ∈ c.in_use_ ∨ q = c.allocated := by
          intro q hq
          have hq2 : q ∈ c.in_use_ ++ [c.allocated] := hq
          rw [List.mem_append, List.mem_singleton] at hq2
          exact hq2
        rcases dcase with ⟨_, _, k, _⟩ | ⟨o, t, hd, _, _, _, _, _, _, _, _, _, k, _⟩
        · rw [k] at hp
          exact hE p hp
        · rw [k] at hp
          split_ifs at hp
          · exact hE p hp
          · exact hE p (List.mem_of_mem_erase hp)
      · intro p hd hpe hp
        have hpev : p ∉ evicted := fun hm => by
          rw [hnone p hm] at hp
          cases hp
        rw [hframe p hpev] at hp
        rcases dcase with ⟨_, _, _, k, _⟩ | ⟨o, t, hd0, hom, _, ho, hoic, hpos, _, _, _, _, _,
          frame5, hcase5⟩
        · rw [k, a6 p hpe] at hp
          exact ⟨hd, hp, Or.inl rfl⟩
        · by_cases hpo : p = o
          · subst hpo
            have ho : c.heap p = some hd0 := by
              rw [← a6 p hpe]
              exact ho
            rcases hcase5 with ⟨j, _, _⟩ | ⟨j, _, _⟩
            · rw [j] at hp
              cases hp
            · rw [j] at hp
              cases hp
              exact ⟨hd0, ho, Or.inr ⟨hoic, hpos, rfl⟩⟩
          · rw [frame5 p hpo, a6 p hpe] at hp
            exact ⟨hd, hp, Or.inl rfl⟩
      · intro p hd0 hp0 hp2
        have hpe : p ≠ c.allocated := fun he => by
          rw [he, hfresh] at hp0
          cases hp0
        by_cases hpev : p ∈ evicted
        · obtain ⟨h3, h4, h5, h6⟩ := s5.linked.lru_mem p (hev_lru p hpev)
          rcases dcase with ⟨_, _, _, k, _⟩ | ⟨o, t, hd, _, _, _, _, _, _, _, _, hlru5, _,
            frame5, _⟩
          · rw [k, a6 p hpe, hp0] at h4
            cases h4
            exact ⟨h5, h6⟩
          · have hpo : p ≠ o := fun he => by
              have hm := hev_lru p hpev
              rw [hlru5, he] at hm
              exact not_mem_erase_self hs.linked.lru_nodup hm
            rw [frame5 p hpo, a6 p hpe, hp0] at h4
            cases h4
            exact ⟨h5, h6⟩
        · rw [hframe p hpev] at hp2
          rcases dcase with ⟨_, _, _, k, _⟩ | ⟨o, t, hd, _, _, ho, hoic, _, _, _, _, _, _,
            frame5, hcase5⟩
          · rw [k, a6 p hpe, hp0] at hp2
            cases hp2
          · by_cases hpo : p = o
            · subst hpo
              have ho : c.heap p = some hd := by
                rw [← a6 p hpe]
                exact ho
              rw [hp0] at ho
              cases ho
              rcases hcase5 with ⟨_, j, _⟩ | ⟨j, _, _⟩
              · exact ⟨hoic, j⟩
              · rw [j] at hp2
                cases hp2
            · rw [frame5 p hpo, a6 p hpe, hp0] at hp2
              cases hp2
  · rw [if_neg hcap, Option.some_bind] at h
    have hc0 : c.capacity_ = 0 := by omega
    have s5 := hs.uncached_sound key hash value charge deleter
    obtain ⟨he, s2, cap2, al2, hstop, hin2, evicted, hlru, hnone, hframe, hdel⟩ :=
      htail _ s5 h
    have hev_lru : ∀ p ∈ evicted, p ∈ c.lru_ := fun p hp => by
      have hlru : c.lru_ = evicted ++ c2.lru_ := hlru
      rw [hlru]
      exact List.mem_append_left _ hp
    have he_ev : c.allocated ∉ evicted := fun hm => (hlru_mem _ (hev_lru _ hm)).2 rfl
    have hheap_e := hframe c.allocated he_ev
    have hE : (LRUCache.Insert.uncached c key hash value charge deleter).heap c.allocated =
        some { value := value, deleter := deleter, charge := charge, key := key, hash := hash,
               in_cache := false, refs := 1 } := Function.update_same _ _ _
    rw [hE] at hheap_e
    refine ⟨he, s2, cap2, al2, hstop, ⟨evicted, [], fun h0 => absurd h0 hcap, fun _ => hlru,
      hnone, ?_⟩, ⟨_, hheap_e, rfl, rfl, rfl, rfl, rfl, fun h0 => absurd h0 hcap,
        fun _ => ⟨rfl, rfl⟩⟩, fun h0 => absurd h0 hcap, ?_, ?_, ?_⟩
    · rw [hdel, List.append_nil]
      show c.deleted ++ _ = _
      congr 1
      apply List.filterMap_congr
      intro p hp
      have hpe : p ≠ c.allocated := (hlru_mem p (hev_lru p hp)).2
      show (Function.update c.heap _ _ p).map _ = _
      rw [Function.update_noteq hpe]
    · intro p hp
      rw [hin2] at hp
      exact Or.inl hp
    · intro p hd hpe hp
      have hpev : p ∉ evicted := fun hm => by
        rw [hnone p hm] at hp
        cases hp
      rw [hframe p hpev] at hp
      have hp2 : Function.update c.heap c.allocated _ p = some hd := hp
      rw [Function.update_noteq hpe] at hp2
      exact ⟨hd, hp2, Or.inl rfl⟩
    · intro p hd0 hp0 hp2
      have hpe : p ≠ c.allocated := fun he => by
        rw [he, hfresh] at hp0
        cases hp0
      by_cases hpev : p ∈ evicted
      · obtain ⟨h3, h4, h5, h6⟩ := hs.linked.lru_mem p (hev_lru p hpev)
        rw [hp0] at h4
        cases h4
        exact ⟨h5, h6⟩
      · rw [hframe p hpev] at hp2
        have hp3 : Function.update c.heap c.allocated _ p = none := hp2
        rw [Function.update_noteq hpe, hp0] at hp3
        cases hp3

/-- The method `Insert` returns when the table takes the new entry and the entry it
replaces, if any, has a count of references other than 0; with a capacity of 0 it always
returns. -/
theorem LRUCache.Sound.Insert_returns {c : LRUCache} (key : Bytes)
    (hash value charge deleter : Nat) (hs : c.Sound)
    (hroom : c.capacity_ > 0 → c.hasRoom key hash = true)
    (hrefs : c.capacity_ > 0 → ∀ o hd, c.heap o = some hd → hd.in_cache = true →
      hd.key = key → hd.hash = hash → 0 < hd.refs) :
    ∃ c2, c.Insert key hash value charge deleter = some (c2, c.allocated) := by
  rw [LRUCache.Insert_eq]
  have htail : ∀ c5 : LRUCache, c5.Sound →
      ∃ c2, (LRUCache.Insert.evict (c5.table_.list_.flatten.length + 1) c5).map
        (fun c6 => (c6, c.allocated)) = some (c2, c.allocated) := by
    intro c5 hs5
    obtain ⟨c6, ev, k1, _⟩ :=
      hs5.evict_keeps (c5.table_.list_.flatten.length + 1) c5 (by
        have := hs5.table.wf.elems_eq
        unfold HandleTable.entries at this
        omega)
    rw [k1]
    exact ⟨c6, rfl⟩
  by_cases hcap : c.capacity_ > 0
  · rw [if_pos hcap]
    obtain ⟨a1, a2, a3, a4, a5, a6, a7⟩ := hs.entered_facts key hash value charge deleter
    obtain ⟨c5, hlink⟩ := LRUCache.Insert.link_returns a1 (Function.update_same _ _ _) a3 a4 a5
      (by
        rcases (LRUCache.hasRoom_iff c key hash).mp (hroom hcap) with h1 | ⟨o, h1, h2⟩
        · exact Or.inl h1
        · refine Or.inr ⟨o, h1, ?_⟩
          rw [a7 o (fun he => a4 (he ▸ h1))]
          exact h2)
      (by
        intro o ho hr hd hh
        have hoe : o ≠ c.allocated := fun he => a4 (he ▸ ho)
        have hh : c.heap o = some hd := by
          rw [← a6 o hoe]
          exact hh
        obtain ⟨h2, hh2, hic2⟩ := (hs.table.mem_iff o).mp ho
        rw [hh] at hh2
        cases hh2
        have hr2 : c.read o = some (hash, key) := by
          rw [← a7 o hoe]
          exact hr
        unfold LRUCache.read at hr2
        rw [hh] at hr2
        have hr3 := Option.some.inj hr2
        exact hrefs hcap o hd hh hic2 (Prod.mk.inj hr3).2 (Prod.mk.inj hr3).1)
    obtain ⟨s5, _⟩ := LRUCache.Insert.link_sound a1 a2
      (Function.update_same _ _ _) rfl a3 a4 a5 hlink
    rw [hlink, Option.some_bind]
    exact htail c5 s5
  · rw [if_neg hcap, Option.some_bind]
    exact htail _ (hs.uncached_sound key hash value charge deleter)

/-! ## The invariants along a sequence of operations, whatever the clients do -/

theorem LRUCache.new_Sound (capacity : Nat) : (LRUCache.new capacity).Sound := by
  refine ⟨⟨fun _ _ => rfl, List.nodup_nil, List.nodup_nil, ?_, ?_, ?_⟩,
    ⟨HandleTable.new_WellFormed _, ?_⟩, (HandleTable.new_Invariant fun _ => none).2, rfl⟩
  · intro p h
    exact absurd h (List.not_mem_nil p)
  · intro p h
    exact absurd h (List.not_mem_nil p)
  · intro p h h1
    cases h1
  · intro p
    exact ⟨fun h => absurd h (List.not_mem_nil p), fun ⟨h, h1, _⟩ => by cases h1⟩

theorem CacheRun.fresh_Counted (capacity : Nat) : (CacheRun.fresh capacity).Counted := by
  refine ⟨?_, ?_, ?_⟩
  · intro p h
    exact absurd h (List.not_mem_nil p)
  · intro p h h1
    cases h1
  · intro p h
    exact absurd h (List.not_mem_nil p)

theorem uint32_t_succ (ic n r : Nat) (h : r = uint32_t (ic + n)) :
    uint32_t (r + 1) = uint32_t (ic + (n + 1)) := by
  unfold uint32_t at h ⊢
  omega

theorem uint32_t_pred (ic n r : Nat) (h : r = uint32_t (ic + (n + 1))) (hpos : 0 < r) :
    r - 1 = uint32_t (ic + n) := by
  unfold uint32_t at h ⊢
  omega

theorem uint32_t_drop (n r : Nat) (h : r = uint32_t (1 + n)) (hpos : 0 < r) :
    r - 1 = uint32_t (0 + n) := by
  unfold uint32_t at h ⊢
  omega

/-- One operation that returns keeps the invariants, whatever the clients do; a `Release`
that returns was given a handle that the clients hold. -/
theorem CacheRun.step_Sound {st st2 : CacheRun} (op : CacheOp) (hs : st.cache.Sound)
    (hc : st.Counted) (h : st.step op = some st2) :
    st2.cache.Sound ∧ st2.Counted ∧ st2.cache.capacity_ = st.cache.capacity_ ∧
      st.holds op = true := by
  cases op with
  | Insert key hash value charge deleter =>
    simp only [CacheRun.step] at h
    cases hI : st.cache.Insert key hash value charge deleter with
    | none =>
      rw [hI] at h
      cases h
    | some r =>
      obtain ⟨c2, e⟩ := r
      rw [hI] at h
      simp only [Option.map_some', Option.some.injEq] at h
      subst h
      obtain ⟨he, s2, cap2, al2, _, _, ⟨hn, hh, _, _, _, _, _, hn1, hn0⟩, _, hin, hrel, _⟩ :=
        hs.Insert_keeps key hash value charge deleter hI
      subst he
      have hnot : st.cache.allocated ∉ st.held := fun hm => by
        have := hc.held_lt _ hm
        omega
      refine ⟨s2, ⟨?_, ?_, ?_⟩, cap2, rfl⟩
      · intro p hp
        have hp : p ∈ st.held ++ [st.cache.allocated] := hp
        rw [List.mem_append, List.mem_singleton] at hp
        show p < c2.allocated
        rw [al2]
        rcases hp with hp | hp
        · have := hc.held_lt p hp
          omega
        · omega
      · intro p hd hp
        have hp : c2.heap p = some hd := hp
        show hd.refs = uint32_t (_ + (st.held ++ [st.cache.allocated]).count p)
        by_cases hpe : p = st.cache.allocated
        · subst hpe
          rw [hh] at hp
          cases hp
          have hcount : (st.held ++ [st.cache.allocated]).count st.cache.allocated = 1 := by
            rw [List.count_append, List.count_eq_zero_of_not_mem hnot]
            simp
          rw [hcount]
          by_cases hcap : st.cache.capacity_ > 0
          · obtain ⟨k1, k2⟩ := hn1 hcap
            rw [k1, k2]
            rfl
          · obtain ⟨k1, k2⟩ := hn0 (by omega)
            rw [k1, k2]
            rfl
        · have hcount : (st.held ++ [st.cache.allocated]).count p = st.held.count p := by
            rw [List.count_append]
            simp [List.count_singleton, Ne.symm hpe]
          rw [hcount]
          obtain ⟨hd0, k1, k2⟩ := hrel p hd hpe hp
          have k3 := hc.refs_mod p hd0 k1
          rcases k2 with k2 | ⟨k2, k4, k5⟩
          · rw [k2]
            exact k3
          · rw [k5]
            rw [k2] at k3
            simp only [if_true] at k3
            show hd0.refs - 1 = uint32_t ((if false = true then 1 else 0) + _)
            simp only [Bool.false_eq_true, if_false]
            exact uint32_t_drop _ _ k3 k4
      · intro p hp
        show p ∈ st.held ++ [st.cache.allocated]
        rw [List.mem_append, List.mem_singleton]
        rcases hin p hp with h1 | h1
        · exact Or.inl (hc.in_use_held p h1)
        · exact Or.inr h1
  | Lookup key hash =>
    simp only [CacheRun.step] at h
    rcases hs.Lookup_keeps key hash with ⟨h1, _⟩ | ⟨c2, e, hd, h1, _, hh, hic, _, _, s2, _,
      cap2, al2, _, frame, he, hmv, hst⟩
    · rw [h1] at h
      simp only [Option.map_some', Option.some.injEq] at h
      subst h
      exact ⟨hs, hc, rfl, rfl⟩
    · rw [h1] at h
      simp only [Option.map_some', Option.some.injEq] at h
      subst h
      refine ⟨s2, ⟨?_, ?_, ?_⟩, cap2, rfl⟩
      · intro p hp
        have hp : p ∈ st.held ++ [e] := hp
        rw [List.mem_append, List.mem_singleton] at hp
        show p < c2.allocated
        rw [al2]
        rcases hp with hp | hp
        · exact hc.held_lt p hp
        · rw [hp]
          exact hs.linked.lt_allocated hh
      · intro p hd2 hp
        have hp : c2.heap p = some hd2 := hp
        show hd2.refs = uint32_t (_ + (st.held ++ [e]).count p)
        by_cases hpe : p = e
        · subst hpe
          rw [he] at hp
          cases hp
          have hcount : (st.held ++ [p]).count p = st.held.count p + 1 := by
            rw [List.count_append]
            simp
          rw [hcount]
          exact uint32_t_succ _ _ _ (hc.refs_mod p hd hh)
        · have hcount : (st.held ++ [e]).count p = st.held.count p := by
            rw [List.count_append]
            simp [List.count_singleton, Ne.symm hpe]
          rw [hcount]
          rw [frame p hpe] at hp
          exact hc.refs_mod p hd2 hp
      · intro p hp
        have hp : p ∈ c2.in_use_ := hp
        show p ∈ st.held ++ [e]
        rw [List.mem_append, List.mem_singleton]
        by_cases hm : hd.refs = 1 ∧ hd.in_cache = true
        · rw [(hmv hm).2, List.mem_append, List.mem_singleton] at hp
          rcases hp with hp | hp
          · exact Or.inl (hc.in_use_held p (List.mem_of_mem_erase hp))
          · exact Or.inr hp
        · rw [(hst hm).2] at hp
          exact Or.inl (hc.in_use_held p hp)
  | Release handle =>
    simp only [CacheRun.step, LRUCache.Release] at h
    cases hU : st.cache.Unref handle with
    | none =>
      rw [hU] at h
      cases h
    | some c2 =>
      rw [hU] at h
      simp only [Option.map_some', Option.some.injEq] at h
      subst h
      obtain ⟨s2, _, cap2, al2, frame, hd, hh, hpos, hno, g1, g2⟩ := hs.Unref_keeps hU
      have hr := hc.refs_mod handle hd hh
      have hcnt : 0 < st.held.count handle := by
        by_contra h0
        have h0 : st.held.count handle = 0 := by omega
        rw [h0] at hr
        cases hb : hd.in_cache
        · rw [hb] at hr
          simp only [Bool.false_eq_true, if_false] at hr
          have : hd.refs = 0 := hr
          omega
        · rw [hb] at hr
          simp only [if_true] at hr
          exact hno ⟨hr, hb⟩
      have hmem : handle ∈ st.held := List.count_pos_iff.mp hcnt
      have hce : (st.held.erase handle).count handle + 1 = st.held.count handle := by
        rw [List.count_erase_self]
        omega
      refine ⟨s2, ⟨?_, ?_, ?_⟩, cap2, ?_⟩
      · intro p hp
        show p < c2.allocated
        rw [al2]
        exact hc.held_lt p (List.mem_of_mem_erase hp)
      · intro p hd2 hp
        have hp : c2.heap p = some hd2 := hp
        show hd2.refs = uint32_t (_ + (st.held.erase handle).count p)
        by_cases hpe : p = handle
        · subst hpe
          by_cases h1 : hd.refs = 1
          · rw [(g1 h1).1] at hp
            cases hp
          · rw [(g2 h1).1] at hp
            cases hp
            show hd.refs - 1 = _
            rw [← hce] at hr
            exact uint32_t_pred _ _ _ hr hpos
        · rw [List.count_erase_of_ne hpe]
          rw [frame p hpe] at hp
          exact hc.refs_mod p hd2 hp
      · intro p hp
        have hp : p ∈ c2.in_use_ := hp
        show p ∈ st.held.erase handle
        have hp0 : p ∈ st.cache.in_use_ ∧ (p = handle → c2.in_use_ = st.cache.in_use_ ∧
            hd.refs ≠ 1 ∧ ¬ (hd.in_cache = true ∧ hd.refs = 2)) := by
          by_cases h1 : hd.refs = 1
          · rw [(g1 h1).2.2.1] at hp
            refine ⟨hp, fun hpe => ?_⟩
            exfalso
            obtain ⟨h3, h4, h5⟩ := hs.linked.in_use_mem p hp
            rw [hpe, hh] at h4
            cases h4
            exact hno ⟨h1, h5⟩
          · by_cases h2 : hd.in_cache = true ∧ hd.refs = 2
            · rw [((g2 h1).2.2.1 h2).2.2] at hp
              refine ⟨List.mem_of_mem_erase hp, fun hpe => ?_⟩
              exfalso
              rw [hpe] at hp
              exact not_mem_erase_self hs.linked.in_use_nodup hp
            · have h3 := ((g2 h1).2.2.2 h2).2
              rw [h3] at hp
              exact ⟨hp, fun _ => ⟨h3, h1, h2⟩⟩
        by_cases hpe : p = handle
        · obtain ⟨_, k1, k2⟩ := hp0.2 hpe
          rw [hpe]
          obtain ⟨h3, h4, h5⟩ := hs.linked.in_use_mem p hp0.1
          rw [hpe, hh] at h4
          cases h4
          rw [h5] at hr
          simp only [if_true] at hr
          have h2 : 2 ≤ st.held.count handle := by
            by_contra hlt
            have h1c : st.held.count handle = 1 := by omega
            rw [h1c] at hr
            exact k2 ⟨h5, hr⟩
          apply List.count_pos_iff.mp
          omega
        · exact (List.mem_erase_of_ne hpe).mpr (hc.in_use_held p hp0.1)
      · unfold CacheRun.holds
        exact decide_eq_true hmem
  | Erase key hash =>
    simp only [CacheRun.step] at h
    cases hE : st.cache.Erase key hash with
    | none =>
      rw [hE] at h
      cases h
    | some c2 =>
      rw [hE] at h
      simp only [Option.map_some', Option.some.injEq] at h
      subst h
      obtain ⟨s2, cap2, al2, hin, hrel, _⟩ := hs.Erase_keeps key hash hE
      refine ⟨s2, ⟨?_, ?_, ?_⟩, cap2, rfl⟩
      · intro p hp
        show p < c2.allocated
        rw [al2]
        exact hc.held_lt p hp
      · intro p hd hp
        obtain ⟨hd0, k1, k2⟩ := hrel p hd hp
        have k3 := hc.refs_mod p hd0 k1
        show hd.refs = uint32_t (_ + st.held.count p)
        rcases k2 with k2 | ⟨k2, k4, k5⟩
        · rw [k2]
          exact k3
        · rw [k5]
          rw [k2] at k3
          simp only [if_true] at k3
          show hd0.refs - 1 = uint32_t ((if false = true then 1 else 0) + _)
          simp only [Bool.false_eq_true, if_false]
          exact uint32_t_drop _ _ k3 k4
      · intro p hp
        exact hc.in_use_held p (hin p hp)
  | Prune =>
    simp only [CacheRun.step] at h
    obtain ⟨c2, k1, s2, _, hin, cap2, al2, hnone, hframe⟩ := hs.Prune_keeps
    rw [k1] at h
    simp only [Option.map_some', Option.some.injEq] at h
    subst h
    refine ⟨s2, ⟨?_, ?_, ?_⟩, cap2, rfl⟩
    · intro p hp
      show p < c2.allocated
      rw [al2]
      exact hc.held_lt p hp
    · intro p hd hp
      have hp : c2.heap p = some hd := hp
      have hpl : p ∉ st.cache.lru_ := fun hm => by
        rw [hnone p hm] at hp
        cases hp
      rw [hframe p hpl] at hp
      exact hc.refs_mod p hd hp
    · intro p hp
      have hp : p ∈ c2.in_use_ := hp
      rw [hin] at hp
      exact hc.in_use_held p hp

/-- A sequence of operations that returns keeps the invariants, whatever the clients do,
and every `Release` in it was given a handle that the clients held. -/
theorem CacheRun.run_Sound (ops : List CacheOp) (st st2 : CacheRun) (hs : st.cache.Sound)
    (hc : st.Counted) (h : st.run ops = some st2) :
    st2.cache.Sound ∧ st2.Counted ∧ st2.cache.capacity_ = st.cache.capacity_ ∧
      st.disciplined ops = true := by
  induction ops generalizing st with
  | nil =>
    unfold CacheRun.run at h
    cases h
    exact ⟨hs, hc, rfl, rfl⟩
  | cons op rest ih =>
    unfold CacheRun.run at h
    cases h1 : st.step op with
    | none =>
      rw [h1] at h
      cases h
    | some st1 =>
      rw [h1] at h
      obtain ⟨a1, a2, a3, a4⟩ := CacheRun.step_Sound op hs hc h1
      obtain ⟨b1, b2, b3, b4⟩ := ih st1 a1 a2 h
      refine ⟨b1, b2, by rw [b3, a3], ?_⟩
      unfold CacheRun.disciplined
      rw [h1, a4]
      exact b4

/-- Every state that a fresh cache reaches satisfies the invariants. -/
theorem CacheRun.fresh_run_Sound (capacity : Nat) (ops : List CacheOp) (st : CacheRun)
    (h : (CacheRun.fresh capacity).run ops = some st) :
    st.cache.Sound ∧ st.Counted ∧ st.cache.capacity_ = capacity ∧
      (CacheRun.fresh capacity).disciplined ops = true :=
  CacheRun.run_Sound ops (CacheRun.fresh capacity) st (LRUCache.new_Sound capacity)
    (CacheRun.fresh_Counted capacity) h

theorem CacheRun.fits_iff (st : CacheRun) :
    st.fits = true ↔ ∀ p, st.held.count p < 4294967295 := by
  unfold CacheRun.fits
  rw [List.all_eq_true]
  constructor
  · intro h p
    by_cases hp : p ∈ st.held
    · exact of_decide_eq_true (h p hp)
    · rw [List.count_eq_zero_of_not_mem hp]
      decide
  · intro h p _
    exact decide_eq_true (h p)

/-- What `Release` does to the `lru_` list: nothing, or the handle becomes its newest
entry. -/
theorem LRUCache.Sound.Release_lru {c c3 : LRUCache} {handle : Nat} (hs : c.Sound)
    (h : c.Release handle = some c3) :
    c3.lru_ = c.lru_ ∨ c3.lru_ = c.lru_ ++ [handle] := by
  unfold LRUCache.Release at h
  obtain ⟨_, _, _, _, _, hd, _, _, _, g1, g2⟩ := hs.Unref_keeps h
  by_cases h1 : hd.refs = 1
  · exact Or.inl (g1 h1).2.1
  · by_cases h2 : hd.in_cache = true ∧ hd.refs = 2
    · exact Or.inr ((g2 h1).2.2.1 h2).2.1
    · exact Or.inl ((g2 h1).2.2.2 h2).1

/-- The entry that `Insert` has just added is the one that `Lookup` finds. -/
theorem LRUCache.Sound.Lookup_inserted {c2 : LRUCache} {e : Nat} {hn : LRUHandle}
    (key : Bytes) (hash : Nat) (hs : c2.Sound) (hh : c2.heap e = some hn)
    (hk : hn.key = key) (hha : hn.hash = hash) (hm : e ∈ c2.table_.entries) :
    ∃ c3, c2.Lookup key hash = some (c3, some e) := by
  have hread : c2.read e = some (hash, key) := by
    unfold LRUCache.read
    rw [hh, ← hk, ← hha]
    rfl
  rcases hs.Lookup_keeps key hash with ⟨_, hno⟩ | ⟨c3, o, hd, h1, h2, h3, _, h5, h6, _⟩
  · exact absurd hread (hno e hm)
  · have hro : c2.read o = some (hash, key) := by
      unfold LRUCache.read
      rw [h3, ← h5, ← h6]
      rfl
    have : o = e := hs.table.wf.inj o h2 e hm (by rw [hro, hread])
    subst this
    exact ⟨c3, h1⟩

/-! ## Calls that return -/

/-- The method `Unref` returns on a live handle whose count of references is not 0, unless
it is the last reference to a handle that is still in the cache. -/
theorem LRUCache.Linked.Unref_returns {c : LRUCache} {e : Nat} {hd : LRUHandle}
    (hl : c.Linked) (hh : c.heap e = some hd) (hpos : 0 < hd.refs)
    (hno : ¬ (hd.refs = 1 ∧ hd.in_cache = true)) : ∃ c2, c.Unref e = some c2 := by
  unfold LRUCache.Unref
  simp only [hh, hpos, not_true_eq_false, if_false]
  by_cases h0 : hd.refs - 1 = 0
  · rw [if_pos h0]
    have hic : hd.in_cache = false := by
      cases hb : hd.in_cache
      · rfl
      · exact absurd ⟨by omega, hb⟩ hno
    simp only [hic, not_true_eq_false, if_false]
    exact ⟨_, rfl⟩
  · rw [if_neg h0]
    by_cases hc : hd.in_cache = true ∧ hd.refs - 1 = 1
    · rw [if_pos hc]
      rcases hl.listed e hd hh hc.1 with ⟨h1, _⟩ | ⟨h1, h2⟩
      · simp only [LRUCache.LRU_Remove, h1, if_true, Option.map_some']
        exact ⟨_, rfl⟩
      · simp only [LRUCache.LRU_Remove, h1, h2, if_true, if_false, Option.map_some']
        exact ⟨_, rfl⟩
    · rw [if_neg hc]
      exact ⟨_, rfl⟩

/-- The method `Erase` returns when the entry it erases, if any, has a count of references
other than 0. -/
theorem LRUCache.Sound.Erase_returns {c : LRUCache} (key : Bytes) (hash : Nat) (hs : c.Sound)
    (hrefs : ∀ o hd, c.heap o = some hd → hd.in_cache = true → hd.key = key →
      hd.hash = hash → 0 < hd.refs) :
    ∃ c2, c.Erase key hash = some c2 := by
  unfold LRUCache.Erase
  rcases HandleTable.Remove_spec c.read c.table_ key hash hs.table.wf with
    ⟨h1, _⟩ | ⟨t2, o, h1, h2, h3, _⟩
  · simp only [h1, LRUCache.FinishErase, Option.map_some']
    exact ⟨_, rfl⟩
  · obtain ⟨h, hh, hic⟩ := (hs.table.mem_iff o).mp (h3.mem_iff.mpr (List.mem_cons_self _ _))
    unfold LRUCache.read at h2
    rw [hh] at h2
    have hr := Prod.mk.inj (Option.some.inj h2)
    have hl2 : LRUCache.Linked { c with table_ := t2 } := hs.linked.of_eq rfl rfl rfl rfl
    obtain ⟨c3, e1⟩ := @LRUCache.Linked.FinishErase_returns { c with table_ := t2 } o h hl2
      hh hic (hrefs o h hh hic hr.2 hr.1)
    simp only [h1, e1, Option.map_some']
    exact ⟨c3, rfl⟩

/-- One operation returns when the clients hold the handle it releases, no count of
references has wrapped and the table takes the entry it adds; and the clients hold no
freed handle afterwards. -/
theorem CacheRun.step_returns {st : CacheRun} (op : CacheOp) (hs : st.cache.Sound)
    (hc : st.Counted) (hlive : ∀ p ∈ st.held, st.cache.heap p ≠ none)
    (hfit : st.fits = true) (hholds : st.holds op = true) (hroom : st.roomFor op = true) :
    ∃ st2, st.step op = some st2 ∧ ∀ p ∈ st2.held, st2.cache.heap p ≠ none := by
  have hcount := (CacheRun.fits_iff st).mp hfit
  have hcached : ∀ o hd, st.cache.heap o = some hd → hd.in_cache = true →
      hd.refs = 1 + st.held.count o := by
    intro o hd hh hic
    have h1 := hc.refs_mod o hd hh
    rw [hic] at h1
    simp only [if_true] at h1
    rw [h1]
    exact Nat.mod_eq_of_lt (by have := hcount o; omega)
  have hfreed : ∀ p hd0, st.cache.heap p = some hd0 → hd0.in_cache = true → hd0.refs = 1 →
      p ∉ st.held := by
    intro p hd0 hh hic h1 hm
    have h2 := hcached p hd0 hh hic
    have h3 : 0 < st.held.count p := List.count_pos_iff.mpr hm
    omega
  cases op with
  | Insert key hash value charge deleter =>
    have hroom2 : st.cache.capacity_ > 0 → st.cache.hasRoom key hash = true := by
      intro hcap
      simp only [CacheRun.roomFor, Bool.or_eq_true, decide_eq_true_eq] at hroom
      rcases hroom with h0 | h0
      · omega
      · exact h0
    obtain ⟨c2, hI⟩ := hs.Insert_returns key hash value charge deleter hroom2
      (fun _ o hd hh hic _ _ => by have := hcached o hd hh hic; omega)
    obtain ⟨_, _, _, _, _, _, ⟨hn, hh, _⟩, _, _, _, hfr⟩ :=
      hs.Insert_keeps key hash value charge deleter hI
    refine ⟨{ cache := c2, held := st.held ++ [st.cache.allocated] }, ?_, ?_⟩
    · simp only [CacheRun.step, hI, Option.map_some']
    · intro p hp
      have hp : p ∈ st.held ++ [st.cache.allocated] := hp
      show c2.heap p ≠ none
      rw [List.mem_append, List.mem_singleton] at hp
      rcases hp with hp | hp
      · intro hnone
        cases h0 : st.cache.heap p with
        | none => exact hlive p hp h0
        | some hd0 =>
          obtain ⟨k1, k2⟩ := hfr p hd0 h0 hnone
          exact hfreed p hd0 h0 k1 k2 hp
      · rw [hp, hh]
        exact fun h => by cases h
  | Lookup key hash =>
    rcases hs.Lookup_keeps key hash with ⟨h1, _⟩ | ⟨c2, e, hd, h1, _, hh, _, _, _, _, _,
      _, _, _, frame, he, _⟩
    · refine ⟨st, ?_, hlive⟩
      simp only [CacheRun.step, h1, Option.map_some']
    · refine ⟨{ cache := c2, held := st.held ++ [e] }, ?_, ?_⟩
      · simp only [CacheRun.step, h1, Option.map_some']
      · intro p hp
        have hp : p ∈ st.held ++ [e] := hp
        show c2.heap p ≠ none
        by_cases hpe : p = e
        · rw [hpe, he]
          exact fun h => by cases h
        · rw [frame p hpe]
          rw [List.mem_append, List.mem_singleton] at hp
          exact hlive p (hp.resolve_right hpe)
  | Release handle =>
    have hmem : handle ∈ st.held := by
      simpa [CacheRun.holds] using hholds
    have hpos : 0 < st.held.count handle := List.count_pos_iff.mpr hmem
    cases hh : st.cache.heap handle with
    | none => exact absurd hh (hlive handle hmem)
    | some hd =>
      have hr : hd.refs = (if hd.in_cache = true then 1 else 0) + st.held.count handle := by
        rw [hc.refs_mod handle hd hh]
        refine Nat.mod_eq_of_lt ?_
        have := hcount handle
        split_ifs <;> omega
      obtain ⟨c2, hU⟩ := hs.linked.Unref_returns hh (by omega) (by
        rintro ⟨h1, h2⟩
        rw [h2] at hr
        simp only [if_true] at hr
        omega)
      obtain ⟨_, _, _, _, frame, hd2, hh2, _, _, _, g2⟩ := hs.Unref_keeps hU
      rw [hh] at hh2
      cases hh2
      refine ⟨{ cache := c2, held := st.held.erase handle }, ?_, ?_⟩
      · simp only [CacheRun.step, LRUCache.Release, hU, Option.map_some']
      · intro p hp
        have hp : p ∈ st.held.erase handle := hp
        show c2.heap p ≠ none
        by_cases hpe : p = handle
        · have h2 : 0 < (st.held.erase handle).count handle := by
            rw [hpe] at hp
            exact List.count_pos_iff.mpr hp
          rw [List.count_erase_self] at h2
          have h1 : hd.refs ≠ 1 := by
            split_ifs at hr <;> omega
          rw [hpe, (g2 h1).1]
          exact fun h => by cases h
        · rw [frame p hpe]
          exact hlive p (List.mem_of_mem_erase hp)
  | Erase key hash =>
    obtain ⟨c2, hE⟩ := hs.Erase_returns key hash
      (fun o hd hh hic _ _ => by have := hcached o hd hh hic; omega)
    obtain ⟨_, _, _, _, _, hfr⟩ := hs.Erase_keeps key hash hE
    refine ⟨{ cache := c2, held := st.held }, ?_, ?_⟩
    · simp only [CacheRun.step, hE, Option.map_some']
    · intro p hp hnone
      have hnone : c2.heap p = none := hnone
      cases h0 : st.cache.heap p with
      | none => exact hlive p hp h0
      | some hd0 =>
        obtain ⟨k1, k2⟩ := hfr p hd0 h0 hnone
        exact hfreed p hd0 h0 k1 k2 hp
  | Prune =>
    obtain ⟨c2, k1, _, _, _, _, _, _, hframe⟩ := hs.Prune_keeps
    refine ⟨{ cache := c2, held := st.held }, ?_, ?_⟩
    · simp only [CacheRun.step, k1, Option.map_some']
    · intro p hp
      show c2.heap p ≠ none
      have hpl : p ∉ st.cache.lru_ := fun hm => by
        obtain ⟨h3, h4, h5, h6⟩ := hs.linked.lru_mem p hm
        exact hfreed p h3 h4 h5 h6 hp
      rw [hframe p hpl]
      exact hlive p hp

/-- A sequence of operations returns when the clients release only handles they hold, no
count of references wraps and the table takes every entry added. -/
theorem CacheRun.run_returns (ops : List CacheOp) (st : CacheRun) (hs : st.cache.Sound)
    (hc : st.Counted) (hlive : ∀ p ∈ st.held, st.cache.heap p ≠ none)
    (hdisc : st.disciplined ops = true) (hfit : st.refsFit ops = true)
    (hroom : st.roomy ops = true) :
    ∃ st2, st.run ops = some st2 := by
  induction ops generalizing st with
  | nil => exact ⟨st, rfl⟩
  | cons op rest ih =>
    unfold CacheRun.disciplined at hdisc
    unfold CacheRun.refsFit at hfit
    unfold CacheRun.roomy at hroom
    rw [Bool.and_eq_true] at hdisc hfit hroom
    obtain ⟨st1, h1, h2⟩ := CacheRun.step_returns op hs hc hlive hfit.1 hdisc.1 hroom.1
    obtain ⟨a1, a2, _⟩ := CacheRun.step_Sound op hs hc h1
    have hd := hdisc.2
    have hf := hfit.2
    have hr := hroom.2
    simp only [h1] at hd hf hr
    obtain ⟨st2, k1⟩ := ih st1 a1 a2 h2 hd hf hr
    refine ⟨st2, ?_⟩
    unfold CacheRun.run
    simp only [h1]
    exact k1

/-! ## The two lists of the cache -/

/-- Claim C23 (as amended): on a fresh `LRUCache` of any capacity, a sequence of operations
`Insert`, `Lookup`, `Release`, `Erase` and `Prune` returns, with no failed assertion, when
the clients release only handles they hold, hold fewer than `2^32 - 1` references to any
one handle at any time, and the table takes every entry added; and in a sequence that
returns the clients have released only handles they held. After every sequence of
operations that returns, if the clients hold fewer than `2^32 - 1` references to any one
handle, every entry on the `lru_` list is live with `refs == 1` and `in_cache == true`,
every entry on the `in_use_` list is live with `refs >= 2` and `in_cache == true`, and
every live entry with `in_cache == true` is on exactly one of the two lists. -/
theorem C23_lists_partition_cached_entries (capacity : Nat) (ops : List CacheOp) :
    ((CacheRun.fresh capacity).disciplined ops = true →
      (CacheRun.fresh capacity).refsFit ops = true →
      (CacheRun.fresh capacity).roomy ops = true →
      ∃ st, (CacheRun.fresh capacity).run ops = some st) ∧
    (∀ st, (CacheRun.fresh capacity).run ops = some st →
      (CacheRun.fresh capacity).disciplined ops = true) ∧
    ∀ st, (CacheRun.fresh capacity).run ops = some st → st.fits = true →
      (∀ p ∈ st.cache.lru_,
        ∃ h, st.cache.heap p = some h ∧ h.refs = 1 ∧ h.in_cache = true) ∧
      (∀ p ∈ st.cache.in_use_,
        ∃ h, st.cache.heap p = some h ∧ 2 ≤ h.refs ∧ h.in_cache = true) ∧
      ∀ p h, st.cache.heap p = some h → h.in_cache = true →
        (p ∈ st.cache.lru_ ∧ p ∉ st.cache.in_use_) ∨
          (p ∉ st.cache.lru_ ∧ p ∈ st.cache.in_use_) := by
  refine ⟨fun hdisc hfit hroom => CacheRun.run_returns ops _ (LRUCache.new_Sound capacity)
    (CacheRun.fresh_Counted capacity) (fun p hp => absurd hp (List.not_mem_nil p)) hdisc hfit
    hroom, fun st hrun => (CacheRun.fresh_run_Sound capacity ops st hrun).2.2.2, ?_⟩
  intro st hrun hfit
  obtain ⟨hs, hc, _⟩ := CacheRun.fresh_run_Sound capacity ops st hrun
  have hcount := (CacheRun.fits_iff st).mp hfit
  refine ⟨?_, ?_, hs.linked.listed⟩
  · intro p hp
    obtain ⟨h, h1, h2, h3⟩ := hs.linked.lru_mem p hp
    exact ⟨h, h1, h3, h2⟩
  · intro p hp
    obtain ⟨h, h1, h2⟩ := hs.linked.in_use_mem p hp
    refine ⟨h, h1, ?_, h2⟩
    have h3 := hc.refs_mod p h h1
    rw [h2] at h3
    simp only [if_true] at h3
    have h4 : 0 < st.held.count p := List.count_pos_iff.mpr (hc.in_use_held p hp)
    have h5 := hcount p
    rw [h3]
    unfold uint32_t
    omega

theorem C23_lists_partition_cached_entries_witness :
    (∃ st, (CacheRun.fresh 1).run
        [CacheOp.Insert [107] 0 7 1 0, CacheOp.Lookup [107] 0, CacheOp.Release 0,
          CacheOp.Insert [108] 1 8 1 0, CacheOp.Release 0, CacheOp.Release 1,
          CacheOp.Erase [107] 0, CacheOp.Prune] = some st) ∧
    ∃ st, (CacheRun.fresh 1).run
        [CacheOp.Insert [107] 0 7 1 0, CacheOp.Lookup [107] 0, CacheOp.Release 0,
          CacheOp.Insert [108] 1 8 1 0, CacheOp.Release 0, CacheOp.Release 1,
          CacheOp.Erase [107] 0, CacheOp.Prune] = some st ∧
      (∀ p ∈ st.cache.lru_,
        ∃ h, st.cache.heap p = some h ∧ h.refs = 1 ∧ h.in_cache = true) ∧
      (∀ p ∈ st.cache.in_use_,
        ∃ h, st.cache.heap p = some h ∧ 2 ≤ h.refs ∧ h.in_cache = true) ∧
      ∀ p h, st.cache.heap p = some h → h.in_cache = true →
        (p ∈ st.cache.lru_ ∧ p ∉ st.cache.in_use_) ∨
          (p ∉ st.cache.lru_ ∧ p ∈ st.cache.in_use_) :=
  ⟨(C23_lists_partition_cached_entries 1
      [CacheOp.Insert [107] 0 7 1 0, CacheOp.Lookup [107] 0, CacheOp.Release 0,
        CacheOp.Insert [108] 1 8 1 0, CacheOp.Release 0, CacheOp.Release 1,
        CacheOp.Erase [107] 0, CacheOp.Prune]).1 rfl rfl rfl,
    _, rfl, (C23_lists_partition_cached_entries 1
      [CacheOp.Insert [107] 0 7 1 0, CacheOp.Lookup [107] 0, CacheOp.Release 0,
        CacheOp.Insert [108] 1 8 1 0, CacheOp.Release 0, CacheOp.Release 1,
        CacheOp.Erase [107] 0, CacheOp.Prune]).2.2 _ rfl rfl⟩

/-- C23 as stated fails when a handle is referenced `2^32` times: after
`Insert("k", 0, 0, 1, 0)` and `2^32 - 2` calls of `Lookup("k", 0)`, none of them released,
the clients hold `2^32 - 1` references to the handle, and its count `refs` has wrapped to
0 while the handle is on the `in_use_` list. -/
theorem C23_counterexample :
    (CacheRun.fresh 1).disciplined (CacheOp.Insert [107] 0 0 1 0 ::
        List.replicate 4294967294 (CacheOp.Lookup [107] 0)) = true ∧
    ∃ st, (CacheRun.fresh 1).run (CacheOp.Insert [107] 0 0 1 0 ::
        List.replicate 4294967294 (CacheOp.Lookup [107] 0)) = some st ∧
      st.held.count 0 = 4294967295 ∧
      ¬ ∀ p ∈ st.cache.in_use_,
        ∃ h, st.cache.heap p = some h ∧ 2 ≤ h.refs ∧ h.in_cache = true := by
  refine ⟨CacheRun.disciplined_of_holds _ ?_ _, CacheRun.afterLookups 4294967294,
    CacheRun.afterLookups_all, ?_, ?_⟩
  · intro op hop st
    rcases List.mem_cons.mp hop with h | h
    · rw [h]; rfl
    · rw [List.eq_of_mem_replicate h]; rfl
  · show (List.replicate (4294967294 + 1) 0).count 0 = 4294967295
    rw [List.count_replicate_self]
  · intro hall
    obtain ⟨h, h1, h2, _⟩ := hall 0 (List.mem_cons_self _ _)
    have h3 : (CacheRun.afterLookups 4294967294).cache.heap 0 = some h := h1
    unfold CacheRun.afterLookups at h3
    simp only [Function.update_same, Option.some.injEq] at h3
    rw [← h3] at h2
    have h4 : 2 ≤ uint32_t (2 + 4294967294) := h2
    exact absurd h4 (by decide)

/-! ## `Lookup` after `Insert` -/

theorem LRUCache.Insert.evict_of_nil (fuel : Nat) (c : LRUCache) (h : c.lru_ = []) :
    LRUCache.Insert.evict (fuel + 1) c = some c := by
  unfold LRUCache.Insert.evict
  rw [if_neg (fun hc => hc.2 h)]

theorem CacheRun.run_concat (a b : List CacheOp) (st : CacheRun) :
    st.run (a ++ b) = (st.run a).bind fun st1 => st1.run b := by
  induction a generalizing st with
  | nil => rfl
  | cons op rest ih =>
    have h1 : ∀ l, st.run (op :: l) = (st.step op).bind fun st1 => st1.run l := by
      intro l
      cases h : st.step op <;> simp [CacheRun.run, h]
    rw [List.cons_append, h1, h1]
    cases h : st.step op with
    | none => rfl
    | some st1 =>
      simp only [Option.some_bind]
      exact ih st1

/-- The method `Insert` of a key that is not cached, into a cache of capacity above 0
whose `lru_` list is empty and whose table chains fewer than `2^31` handles: the call
returns, nothing is evicted, and the table chains one handle more. -/
theorem LRUCache.Sound.Insert_fresh_key {c : LRUCache} (key : Bytes)
    (hash value charge deleter : Nat) (hs : c.Sound) (hcap : c.capacity_ > 0)
    (hl : c.lru_ = []) (hlt : c.table_.elems_ < 2147483648)
    (hno : ∀ p ∈ c.table_.entries, c.read p ≠ some (hash, key)) :
    ∃ c2, c.Insert key hash value charge deleter = some (c2, c.allocated) ∧
      c2.lru_ = [] ∧ c2.table_.elems_ = c.table_.elems_ + 1 ∧
      c2.allocated = c.allocated + 1 ∧ c2.read c.allocated = some (hash, key) ∧
      (∀ p, p ≠ c.allocated → c2.read p = c.read p) ∧
      ∀ p ∈ c2.table_.entries, p = c.allocated ∨ p ∈ c.table_.entries := by
  obtain ⟨a1, a2, a3, a4, a5, a6, a7⟩ := hs.entered_facts key hash value charge deleter
  obtain ⟨c5, hlink⟩ := LRUCache.Insert.link_returns a1 (Function.update_same _ _ _) a3 a4 a5
    (Or.inl hlt) (by
      intro o ho hr
      exact absurd (by rw [← a7 o (fun he => a4 (he ▸ ho))]; exact hr) (hno o ho))
  obtain ⟨s5, _, al5, _, _, _, dcase⟩ := LRUCache.Insert.link_sound a1 a2
    (Function.update_same _ _ _) rfl a3 a4 a5 hlink
  rcases dcase with ⟨_, k2, _, k4, _, k6⟩ | ⟨o, t, hd, hom, hread, _⟩
  · have hl5 : c5.lru_ = [] := by
      rw [k2]
      exact hl
    have hread5 : ∀ p, c5.read p =
        (LRUCache.Insert.entered c key hash value charge deleter).read p := by
      intro p
      unfold LRUCache.read
      rw [k4]
    refine ⟨c5, ?_, hl5, k6, by rw [al5]; rfl, ?_, ?_, ?_⟩
    · rw [LRUCache.Insert_eq, if_pos hcap, hlink, Option.some_bind,
        LRUCache.Insert.evict_of_nil _ c5 hl5]
      rfl
    · rw [hread5]
      unfold LRUCache.read
      rw [show (LRUCache.Insert.entered c key hash value charge deleter).heap c.allocated = _
        from Function.update_same _ _ _]
      rfl
    · intro p hp
      rw [hread5, a7 p hp]
    · intro p hp
      by_cases hpe : p = c.allocated
      · exact Or.inl hpe
      · right
        obtain ⟨h, hh, hic⟩ := (s5.table.mem_iff p).mp hp
        rw [k4] at hh
        exact (a5 p hpe).mpr ⟨h, hh, hic⟩
  · exfalso
    apply hno o hom
    rw [← a7 o (fun he => a4 (he ▸ hom))]
    exact hread

/-- A client that inserts `n` entries with distinct hashes and releases no handle fills
the table with `n` handles, as long as `n` is at most `2^31`. -/
theorem CacheRun.fill_run (n : Nat) (hn : n ≤ 2147483648) :
    ∃ st, (CacheRun.fresh 1).run (CacheRun.fill n) = some st ∧ st.cache.lru_ = [] ∧
      st.cache.table_.elems_ = n ∧ st.cache.allocated = n ∧
      ∀ p ∈ st.cache.table_.entries, p < n ∧ st.cache.read p = some (p, []) := by
  induction n with
  | zero =>
    refine ⟨CacheRun.fresh 1, rfl, rfl, ?_, rfl, ?_⟩
    · show HandleTable.new.elems_ = 0
      rw [HandleTable.new_eq]
    · intro p hp
      have hp : p ∈ HandleTable.new.entries := hp
      rw [HandleTable.new_eq] at hp
      simp [HandleTable.entries] at hp
  | succ n ih =>
    obtain ⟨st, h1, h2, h3, h4, h5⟩ := ih (by omega)
    obtain ⟨hs, _, hcap, _⟩ := CacheRun.fresh_run_Sound 1 _ st h1
    obtain ⟨c2, k1, k2, k3, k4, k5, k6, k7⟩ := hs.Insert_fresh_key [] n 0 0 0
      (by rw [hcap]; exact Nat.one_pos) h2 (by omega) (by
        intro p hp hr
        obtain ⟨j1, j2⟩ := h5 p hp
        rw [j2] at hr
        have := Prod.mk.inj (Option.some.inj hr)
        omega)
    refine ⟨{ cache := c2, held := st.held ++ [st.cache.allocated] }, ?_, k2, ?_, ?_, ?_⟩
    · unfold CacheRun.fill
      rw [List.range_succ, List.map_append, CacheRun.run_concat]
      have h1 : (CacheRun.fresh 1).run
          ((List.range n).map fun i => CacheOp.Insert [] i 0 0 0) = some st := h1
      rw [h1, Option.some_bind]
      simp only [List.map_cons, List.map_nil, CacheRun.run, CacheRun.step, k1,
        Option.map_some']
    · show c2.table_.elems_ = n + 1
      rw [k3, h3]
    · show c2.allocated = n + 1
      rw [k4, h4]
    · intro p hp
      have hp : p ∈ c2.table_.entries := hp
      show p < n + 1 ∧ c2.read p = some (p, [])
      rcases k7 p hp with h6 | h6
      · rw [h6, k5, h4]
        exact ⟨by omega, rfl⟩
      · obtain ⟨j1, j2⟩ := h5 p h6
        rw [k6 p (by omega), j2]
        exact ⟨by omega, rfl⟩

/-- Claim C32 (as amended): on an `LRUCache` of capacity greater than 0 that a sequence of
calls has reached from the constructor, whatever the clients did,
`Insert(key, hash, value, charge)` returns exactly when the table chains fewer than `2^31`
handles or an entry with the key and hash is cached, and the count of references of such
an entry is not 0. When it returns a handle `e`, whatever the charge and whether or not the
key was cached, the `Lookup(key, hash)` that follows returns `e`, whose entry holds
`value`; an entry that was cached under the same key and hash has `in_cache == false`
afterwards, if it is still live, and `HandleTable::Insert` returned it and left `elems_`
unchanged. -/
theorem C32_lookup_after_insert (capacity : Nat) (ops : List CacheOp) (st : CacheRun)
    (key : Bytes) (hash value charge deleter : Nat) (hcap : 0 < capacity)
    (hrun : (CacheRun.fresh capacity).run ops = some st) :
    ((st.cache.hasRoom key hash = true ∧
        ∀ o h, st.cache.heap o = some h → h.in_cache = true → h.key = key → h.hash = hash →
          0 < h.refs) ↔
      ∃ c2 e, st.cache.Insert key hash value charge deleter = some (c2, e)) ∧
    ∀ c2 e, st.cache.Insert key hash value charge deleter = some (c2, e) →
      (∃ c3, c2.Lookup key hash = some (c3, some e)) ∧
      (∃ h, c2.heap e = some h ∧ h.value = value ∧ h.key = key ∧ h.hash = hash ∧
        h.in_cache = true) ∧
      ∀ o h, st.cache.heap o = some h → h.in_cache = true → h.key = key → h.hash = hash →
        (∀ h2, c2.heap o = some h2 → h2.in_cache = false) ∧
        ∃ t, st.cache.table_.Insert
            (LRUCache.Insert.entered st.cache key hash value charge deleter).read e =
              some (t, some o) ∧ t.elems_ = st.cache.table_.elems_ := by
  obtain ⟨hs, _, hcapst, _⟩ := CacheRun.fresh_run_Sound capacity ops st hrun
  have hcap2 : st.cache.capacity_ > 0 := by rw [hcapst]; exact hcap
  refine ⟨⟨?_, ?_⟩, ?_⟩
  · rintro ⟨h1, h2⟩
    obtain ⟨c2, h3⟩ := hs.Insert_returns key hash value charge deleter (fun _ => h1)
      (fun _ => h2)
    exact ⟨c2, _, h3⟩
  · rintro ⟨c2, e, hins⟩
    obtain ⟨_, _, _, _, _, _, _, hold, _⟩ := hs.Insert_keeps key hash value charge deleter hins
    obtain ⟨_, hroom, hrefs⟩ := hold hcap2
    exact ⟨hroom, fun o h hh hic hk hha => (hrefs o h hh hic hk hha).1⟩
  · intro c2 e hins
    obtain ⟨he, s2, _, _, _, _, ⟨hn, hh, hv, hk, hha, _, _, hn1, _⟩, hold, _⟩ :=
      hs.Insert_keeps key hash value charge deleter hins
    obtain ⟨hm, _, hrefs⟩ := hold hcap2
    subst he
    refine ⟨s2.Lookup_inserted key hash hh hk hha hm, ⟨hn, hh, hv, hk, hha, (hn1 hcap2).1⟩,
      fun o h hho hic hko hhao => (hrefs o h hho hic hko hhao).2⟩

theorem C32_lookup_after_insert_witness :
    ∃ st c2 e, (CacheRun.fresh 1).run
        [CacheOp.Insert [107] 0 7 1 0, CacheOp.Release 0] = some st ∧
      st.cache.Insert [107] 0 8 5 0 = some (c2, e) ∧
      (∃ c3, c2.Lookup [107] 0 = some (c3, some e)) ∧
      (∃ h, c2.heap e = some h ∧ h.value = 8 ∧ h.key = [107] ∧ h.hash = 0 ∧
        h.in_cache = true) ∧
      ∀ o h, st.cache.heap o = some h → h.in_cache = true → h.key = [107] → h.hash = 0 →
        (∀ h2, c2.heap o = some h2 → h2.in_cache = false) ∧
        ∃ t, st.cache.table_.Insert
            (LRUCache.Insert.entered st.cache [107] 0 8 5 0).read e =
              some (t, some o) ∧ t.elems_ = st.cache.table_.elems_ :=
  ⟨_, _, _, rfl, rfl,
    (C32_lookup_after_insert 1 [CacheOp.Insert [107] 0 7 1 0, CacheOp.Release 0] _ [107] 0 8 5
      0 (by decide) rfl).2 _ _ rfl⟩

/-- C32 as stated fails in two ways. On a cache whose entry is referenced `2^32` times:
after `Insert("k", 0, 0, 1, 0)` and `2^32 - 2` calls of `Lookup("k", 0)`, none of them
released, the count `refs` of the entry is 0, and `Insert("k", 0, 0, 1, 0)` fails the
assertion `e->refs > 0` of `Unref` when it erases that entry, so that no `Lookup` follows
it. On a cache whose table chains `2^31` handles: after `2^31` calls of `Insert` with
distinct hashes, none of the handles released, the `Insert` of one more key calls
`HandleTable::Resize`, whose loop does not stop, so that `Insert` does not return. -/
theorem C32_counterexample :
    (∃ st, (CacheRun.fresh 1).run (CacheOp.Insert [107] 0 0 1 0 ::
        List.replicate 4294967294 (CacheOp.Lookup [107] 0)) = some st ∧
      0 < st.cache.capacity_ ∧
      (st.cache.heap 0).map (fun h => (h.key, h.hash, h.in_cache, h.refs)) =
        some ([107], 0, true, 0) ∧
      st.cache.Insert [107] 0 0 1 0 = none) ∧
    ∃ st, (CacheRun.fresh 1).run (CacheRun.fill 2147483648) = some st ∧
      0 < st.cache.capacity_ ∧ st.cache.table_.elems_ = 2147483648 ∧
      st.cache.Insert [] 2147483648 0 0 0 = none := by
  refine ⟨⟨CacheRun.afterLookups 4294967294, CacheRun.afterLookups_all, by decide, rfl, rfl⟩,
    ?_⟩
  obtain ⟨st, h1, _, h3, _, h5⟩ := CacheRun.fill_run 2147483648 (le_refl _)
  obtain ⟨hs, _, hcap, _⟩ := CacheRun.fresh_run_Sound 1 _ st h1
  have hcap2 : st.cache.capacity_ > 0 := by rw [hcap]; exact Nat.one_pos
  refine ⟨st, h1, hcap2, h3, ?_⟩
  cases hI : st.cache.Insert [] 2147483648 0 0 0 with
  | none => rfl
  | some r =>
    exfalso
    obtain ⟨c2, e⟩ := r
    obtain ⟨_, _, _, _, _, _, _, hold, _⟩ := hs.Insert_keeps [] 2147483648 0 0 0 hI
    obtain ⟨_, hroom, _⟩ := hold hcap2
    rcases (LRUCache.hasRoom_iff _ _ _).mp hroom with h6 | ⟨o, h6, h7⟩
    · omega
    · obtain ⟨j1, j2⟩ := h5 o h6
      rw [j2] at h7
      have := Prod.mk.inj (Option.some.inj h7)
      omega

/-! ## The effect of `Insert` on the usage, the lists and the deleters -/

/-- Claim C33 (as amended): on an `LRUCache` that a sequence of calls has reached from the
constructor, whatever the clients did, after `Insert` returns either
`usage_ <= capacity_` or the `lru_` list is empty, and then every entry in the cache is on
the `in_use_` list and a client holds a handle to it; `usage_` equals the sum of the
charges of the entries with `in_cache == true` in 64 bits, hence the sum itself when that
is less than `2^64`; the `lru_` list has lost its oldest entries, the entry of the key
inserted apart, these entries are freed, and their deleters were called oldest first; and
a `Release` that returns leaves the `lru_` list unchanged or makes the handle its newest
entry, so that the list is in the order of the releases. -/
theorem C33_usage_and_eviction (capacity : Nat) (ops : List CacheOp) (st : CacheRun)
    (key : Bytes) (hash value charge deleter : Nat) (c2 : LRUCache) (e : Nat)
    (hrun : (CacheRun.fresh capacity).run ops = some st)
    (hins : st.cache.Insert key hash value charge deleter = some (c2, e)) :
    (c2.usage_ ≤ c2.capacity_ ∨ c2.lru_ = []) ∧
    (c2.lru_ = [] → ∀ p h, c2.heap p = some h → h.in_cache = true →
      p ∈ c2.in_use_ ∧ p ∈ st.held ++ [e]) ∧
    c2.usage_ = uint64_t c2.cachedCharge ∧
    (c2.cachedCharge < 18446744073709551616 → c2.usage_ = c2.cachedCharge) ∧
    (∃ evicted pre,
      (0 < capacity →
        (st.cache.lru_.filter fun p => decide (st.cache.read p ≠ some (hash, key))) =
          evicted ++ c2.lru_) ∧
      (capacity = 0 → st.cache.lru_ = evicted ++ c2.lru_) ∧
      (∀ p ∈ evicted, c2.heap p = none) ∧
      c2.deleted = st.cache.deleted ++ pre ++ evicted.filterMap
        (fun p => (st.cache.heap p).map fun h => (h.deleter, h.key, h.value))) ∧
    ∀ handle c3, st.cache.Release handle = some c3 →
      c3.lru_ = st.cache.lru_ ∨ c3.lru_ = st.cache.lru_ ++ [handle] := by
  obtain ⟨hs, hc, hcap, _⟩ := CacheRun.fresh_run_Sound capacity ops st hrun
  obtain ⟨_, s2, _, _, hstop, ⟨evicted, pre, f1, f2, hnone, hdel⟩, _⟩ :=
    hs.Insert_keeps key hash value charge deleter hins
  have hstep : st.step (CacheOp.Insert key hash value charge deleter) =
      some { cache := c2, held := st.held ++ [e] } := by
    simp only [CacheRun.step, hins, Option.map_some']
  obtain ⟨_, hc2, _⟩ := CacheRun.step_Sound _ hs hc hstep
  refine ⟨hstop, ?_, s2.usage, ?_, ⟨evicted, pre, ?_, ?_, hnone, hdel⟩, ?_⟩
  · intro hl p h hh hic
    have hin : p ∈ c2.in_use_ := by
      rcases s2.linked.listed p h hh hic with ⟨hm, _⟩ | ⟨_, hm⟩
      · rw [hl] at hm
        exact absurd hm (List.not_mem_nil p)
      · exact hm
    exact ⟨hin, hc2.in_use_held p hin⟩
  · intro hlt
    rw [s2.usage]
    exact Nat.mod_eq_of_lt hlt
  · intro h0
    exact f1 (by rw [hcap]; exact h0)
  · intro h0
    exact f2 (by rw [hcap]; exact h0)
  · intro handle c3 hr
    exact hs.Release_lru hr

theorem C33_usage_and_eviction_witness :
    ∃ st c2 e, (CacheRun.fresh 1).run
        [CacheOp.Insert [107] 0 7 1 0, CacheOp.Release 0] = some st ∧
      st.cache.Insert [108] 1 8 1 0 = some (c2, e) ∧
      (c2.usage_ ≤ c2.capacity_ ∨ c2.lru_ = []) ∧
      (c2.lru_ = [] → ∀ p h, c2.heap p = some h → h.in_cache = true →
        p ∈ c2.in_use_ ∧ p ∈ st.held ++ [e]) ∧
      c2.usage_ = uint64_t c2.cachedCharge ∧
      (c2.cachedCharge < 18446744073709551616 → c2.usage_ = c2.cachedCharge) ∧
      (∃ evicted pre,
        (0 < 1 →
          (st.cache.lru_.filter fun p => decide (st.cache.read p ≠ some (1, [108]))) =
            evicted ++ c2.lru_) ∧
        (1 = 0 → st.cache.lru_ = evicted ++ c2.lru_) ∧
        (∀ p ∈ evicted, c2.heap p = none) ∧
        c2.deleted = st.cache.deleted ++ pre ++ evicted.filterMap
          (fun p => (st.cache.heap p).map fun h => (h.deleter, h.key, h.value))) ∧
      ∀ handle c3, st.cache.Release handle = some c3 →
        c3.lru_ = st.cache.lru_ ∨ c3.lru_ = st.cache.lru_ ++ [handle] :=
  ⟨_, _, _, rfl, rfl,
    C33_usage_and_eviction 1 [CacheOp.Insert [107] 0 7 1 0, CacheOp.Release 0] _ [108] 1 8 1 0
      _ _ rfl rfl⟩

/-- C33 as stated fails when the charges add up to `2^64`: after `Insert("k", 0, 0, 2^63, 0)`
and `Insert("l", 1, 0, 2^63, 0)` both entries are cached, the sum of their charges is `2^64`,
and `usage_` is 0. -/
theorem C33_counterexample :
    (CacheRun.fresh 1).disciplined [CacheOp.Insert [107] 0 0 9223372036854775808 0] = true ∧
    ∃ st c2 e,
      (CacheRun.fresh 1).run [CacheOp.Insert [107] 0 0 9223372036854775808 0] = some st ∧
      st.cache.Insert [108] 1 0 9223372036854775808 0 = some (c2, e) ∧
      c2.usage_ = 0 ∧ c2.cachedCharge = 18446744073709551616 :=
  ⟨by decide, _, _, _, rfl, rfl, rfl, rfl⟩

end leveldb
